import Mathlib

/-!
# ejson: a shallow embedding of the parser, printer, comparator and matcher

The C sources (`parse.c`, `iter.c`, `cmp.c`, `print.c`, `match.c`, `ejson.h`) are
translated function by function.  Conventions of the embedding:

* a byte (`char`) is a `Nat`; a source text `(src, len)` is the list of its `len` bytes;
* `size_t` is 64 bits wide (LP64), so `sizeof(ejson_value) = 56` and
  `alignof(ejson_value) = 8`;
* an `ejson_string` view `(base, size)` is the list of the `size` bytes it designates;
* a node pointer is the node itself, `NULL` is `none`; the intrusive `next` chain of the
  children of a composite is a `List`, so `ejson_hasnext` is "is not the last of the list";
* recursion that C leaves to the call stack is given an explicit budget; running out of
  the budget is a separate outcome (`starved`), never confused with a result of the code.
-/

namespace Ejson

/-! ## Bytes and text -/

/-- The bytes of an ASCII literal. -/
def bytes (s : String) : List Nat := s.toList.map Char.toNat

/-- Width of `size_t`. -/
def SIZE_WIDTH : Nat := 2 ^ 64

/-- Largest `int64_t`. -/
def INT64_MAX : Nat := 9223372036854775807

/-- Code of `is_space` in parse.c and match.c. -/
def is_space (c : Nat) : Bool := c == 32 || c == 9 || c == 13 || c == 10

/-- Code of `is_digit`. -/
def is_digit (c : Nat) : Bool := decide (48 ≤ c) && decide (c ≤ 57)

/-- Code of `is_alpha`. -/
def is_alpha (c : Nat) : Bool :=
  (decide (97 ≤ c) && decide (c ≤ 122)) || (decide (65 ≤ c) && decide (c ≤ 90))

/-- Code of `is_printable`; a byte above 127 is negative as a signed `char` and at least
127 as an unsigned one, so it is not printable either way. -/
def is_printable (c : Nat) : Bool := decide (32 ≤ c) && decide (c < 127)

/-- The libc `strncmp`: compares at most `n` bytes and stops at the first zero byte.  A list
that ends is read as its terminating zero byte. -/
def strncmp : List Nat → List Nat → Nat → Int
  | _, _, 0 => 0
  | a, b, n + 1 =>
    let x := a.headD 0
    let y := b.headD 0
    if x ≠ y then (x : Int) - (y : Int)
    else if x = 0 then 0
    else strncmp a.tail b.tail n

/-- Lower-case hexadecimal digits of a number, most significant first (`%x`). -/
def hex_digits : Nat → Nat → List Nat
  | 0, _ => []
  | f + 1, n =>
    let d := n % 16
    let ch := if d < 10 then 48 + d else 87 + d
    if n < 16 then [ch] else hex_digits f (n / 16) ++ [ch]

/-- Text of `%x` applied to a `char` argument: the byte is promoted to a (signed, 8-bit
`char`) `int` and printed as a 32-bit unsigned number. -/
def fmt_x (c : Nat) : List Nat :=
  let v := if c < 128 then c else c + (2 ^ 32 - 256)
  hex_digits 9 v

/-- Decimal digits of a natural number, most significant first. -/
def dec_digits : Nat → Nat → List Nat
  | 0, _ => []
  | f + 1, n => if n < 10 then [48 + n] else dec_digits f (n / 10) ++ [48 + n % 10]

/-- Text of `%lld` applied to an `int64_t`. -/
def fmt_lld (i : Int) : List Nat :=
  if i < 0 then 45 :: dec_digits 20 i.natAbs else dec_digits 20 i.natAbs

/-! ## Binary64 arithmetic

Only what `parse_flt`, `init_val_for_int`, `init_val_for_flt`, `ejson_valcmp` and the
`%lf` conversion of `print_any` need: correctly rounded (round to nearest, ties to even)
multiplication, addition and division, the two conversions between `int64_t` and `double`,
comparison, and fixed-point formatting. -/

/-- A binary64 datum: `fin neg m e` stands for `(-1)^neg * m * 2^e`. -/
inductive Double where
  | fin (neg : Bool) (m : Nat) (e : Int)
  | inf (neg : Bool)
  | nan
  deriving DecidableEq, Repr

namespace Double

/-- Position of the highest set bit (`0` for `0` and `1`). -/
def ilog2 : Nat → Nat → Nat
  | 0, _ => 0
  | f + 1, n => if n < 2 then 0 else ilog2 f (n / 2) + 1

/-- Round the non-negative rational `p / q` (`q > 0`) to the nearest binary64, ties to even. -/
def round (neg : Bool) (p q : Nat) : Double :=
  if p = 0 then .fin false 0 0 else
  let e0 : Int := (ilog2 p p : Int) - (ilog2 q q : Int)
  -- `E` is the integer with `2^E ≤ p/q < 2^(E+1)`
  let E : Int := if q * 2 ^ e0.toNat ≤ p * 2 ^ (-e0).toNat then e0 else e0 - 1
  let qe : Int := max (E - 52) (-1074)
  let num := p * 2 ^ (-qe).toNat
  let den := q * 2 ^ qe.toNat
  let n := num / den
  let r := num % den
  let n1 := if den < 2 * r ∨ (2 * r = den ∧ n % 2 = 1) then n + 1 else n
  let m := if n1 = 2 ^ 53 then 2 ^ 52 else n1
  let e := if n1 = 2 ^ 53 then qe + 1 else qe
  if 971 < e then .inf neg else .fin neg m e

/-- Conversion `(double) i` of an `int64_t`. -/
def ofInt (i : Int) : Double := round (decide (i < 0)) i.natAbs 1

/-- Numerator over the common denominator `2^k` of two finite data. -/
def scaled (m : Nat) (e k : Int) : Nat := m * 2 ^ (e + k).toNat

/-- Product, rounded. -/
def mul : Double → Double → Double
  | .nan, _ => .nan
  | _, .nan => .nan
  | .inf s, .inf t => .inf (xor s t)
  | .inf s, .fin t m _ => if m = 0 then .nan else .inf (xor s t)
  | .fin s m _, .inf t => if m = 0 then .nan else .inf (xor s t)
  | .fin s m e, .fin t n f =>
    let k : Int := max 0 (-(e + f))
    round (xor s t) (scaled (m * n) (e + f) k) (2 ^ k.toNat)

/-- Sum, rounded. -/
def add : Double → Double → Double
  | .nan, _ => .nan
  | _, .nan => .nan
  | .inf s, .inf t => if s = t then .inf s else .nan
  | .inf s, .fin _ _ _ => .inf s
  | .fin _ _ _, .inf t => .inf t
  | .fin s m e, .fin t n f =>
    let k : Int := max 0 (max (-e) (-f))
    let a : Int := if s then -(scaled m e k : Int) else (scaled m e k : Int)
    let b : Int := if t then -(scaled n f k : Int) else (scaled n f k : Int)
    round (decide (a + b < 0)) (a + b).natAbs (2 ^ k.toNat)

/-- Quotient by a positive integer constant, rounded. -/
def divNat : Double → Nat → Double
  | .nan, _ => .nan
  | .inf s, _ => .inf s
  | .fin s m e, d =>
    let k : Int := max 0 (-e)
    round s (scaled m e k) (d * 2 ^ k.toNat)

/-- The C comparison `==`. -/
def eq : Double → Double → Bool
  | .fin s m e, .fin t n f =>
    let k : Int := max 0 (max (-e) (-f))
    (m == 0 && n == 0) || (s == t && scaled m e k == scaled n f k)
  | .inf s, .inf t => s == t
  | _, _ => false

/-- Conversion `(int64_t) x`, truncating; a value outside the range of `int64_t` (undefined
in C) gives `INT64_MIN`, as the x86-64 conversion instruction does. -/
def toInt64 : Double → Int
  | .fin s m e =>
    let k : Int := max 0 (-e)
    let t := scaled m e k / 2 ^ k.toNat
    if s then (if t ≤ 2 ^ 63 then -(t : Int) else -(2 ^ 63 : Int))
    else (if t < 2 ^ 63 then (t : Int) else -(2 ^ 63 : Int))
  | _ => -(2 ^ 63 : Int)

/-- Text of `%lf`: fixed notation with six decimals, the exact value rounded to nearest,
ties to even. -/
def fmt_lf : Double → List Nat
  | .nan => bytes "nan"
  | .inf s => (if s then [45] else []) ++ bytes "inf"
  | .fin s m e =>
    let k : Int := max 0 (-e)
    let num := scaled m e k * 1000000
    let den := 2 ^ k.toNat
    let n := num / den
    let r := num % den
    let n1 := if den < 2 * r ∨ (2 * r = den ∧ n % 2 = 1) then n + 1 else n
    let ip := dec_digits 400 (n1 / 1000000)
    let fp := (dec_digits 7 (1000000 + n1 % 1000000)).drop 1
    (if s then [45] else []) ++ ip ++ [46] ++ fp

end Double

/-! ## ejson.h: the document model -/

/-- The `ejson_type` enumeration. -/
inductive ejson_type where
  | EJSON_NULL
  | EJSON_ARRAY
  | EJSON_OBJECT
  | EJSON_NUMBER
  | EJSON_STRING
  | EJSON_BOOLEAN
  deriving DecidableEq, Repr

/-- A node `struct ejson_value`.  The union is split by type tag; `head` is the chain of
children reached from `when_array.head` through `next`, `size` is `when_array.size`. -/
inductive ejson_value where
  | null (key : List Nat)
  | array (key : List Nat) (head : List ejson_value) (size : Nat)
  | object (key : List Nat) (head : List ejson_value) (size : Nat)
  | number (key : List Nat) (as_int : Int) (as_flt : Double)
  | string (key : List Nat) (when_string : List Nat)
  | boolean (key : List Nat) (when_boolean : Bool)
  deriving Repr

namespace ejson_value

/-- Field `type`. -/
def type : ejson_value → ejson_type
  | null _ => .EJSON_NULL
  | array _ _ _ => .EJSON_ARRAY
  | object _ _ _ => .EJSON_OBJECT
  | number _ _ _ => .EJSON_NUMBER
  | string _ _ => .EJSON_STRING
  | boolean _ _ => .EJSON_BOOLEAN

/-- Field `key`. -/
def key : ejson_value → List Nat
  | null k => k
  | array k _ _ => k
  | object k _ _ => k
  | number k _ _ => k
  | string k _ => k
  | boolean k _ => k

/-- The assignment `val->key = key`. -/
def set_key (k : List Nat) : ejson_value → ejson_value
  | null _ => null k
  | array _ h s => array k h s
  | object _ h s => object k h s
  | number _ i f => number k i f
  | string _ s => string k s
  | boolean _ b => boolean k b

/-- The chain starting at `when_array.head` (empty for a node that is not composite). -/
def children : ejson_value → List ejson_value
  | array _ h _ => h
  | object _ h _ => h
  | _ => []

end ejson_value

/-- The `ejson_arena` bookkeeping: capacity and used offset. -/
structure ejson_arena where
  size : Nat
  used : Nat
  deriving DecidableEq, Repr

/-- The `ejson_config` options. -/
structure ejson_config where
  allow_single_quoted_strings : Bool
  deriving DecidableEq, Repr

/-- The macro `EJSON_DEFAULT_CONFIGS`. -/
def EJSON_DEFAULT_CONFIGS : ejson_config := ⟨false⟩

/-- Value of `sizeof(ejson_value)`: two pointers, a 16-byte key, a 4-byte tag padded to 8,
a 16-byte union. -/
def sizeof_ejson_value : Nat := 56

/-- Value of `alignof(ejson_value)`. -/
def alignof_ejson_value : Nat := 8

/-! ## parse.c -/

/-- The parser's `context_t`.  `error` is `none` for a `NULL` error pointer, otherwise the
text currently held by `error->msg`. -/
structure context_t where
  error : Option (List Nat)
  arena : ejson_arena
  src : List Nat
  cur : Nat
  len : Nat
  config : ejson_config
  deriving Repr

/-- The byte `ctx->src[ctx->cur]`. -/
def context_t.peek (ctx : context_t) : Nat := ctx.src.getD ctx.cur 0

/-- The statement `ctx->cur++`. -/
def context_t.advance (ctx : context_t) : context_t := { ctx with cur := ctx.cur + 1 }

/-- Code of `report`: nothing without an error object, otherwise `vsnprintf` into the
512-byte `msg`, which keeps at most 511 bytes of the text. -/
def report (error : Option (List Nat)) (text : List Nat) : Option (List Nat) :=
  match error with
  | none => none
  | some _ => some (text.take 511)

/-- A call `report(ctx->error, ...)` with the formatted text. -/
def context_t.report (ctx : context_t) (text : List Nat) : context_t :=
  { ctx with error := Ejson.report ctx.error text }

/-- The loop `while (cur < len && p(src[cur])) cur++`, shared by `consume_spaces`,
`parse_str`, `parse_num` and the token loops.  The budget `len - cur` is never short: when it
is spent, `cur` has reached `len` and the loop test fails. -/
def scan_while (p : Nat → Bool) (src : List Nat) (len : Nat) : Nat → Nat → Nat
  | 0, cur => cur
  | n + 1, cur =>
    if cur < len ∧ p (src.getD cur 0) = true then scan_while p src len n (cur + 1) else cur

/-- Code of `follows_space`. -/
def follows_space (ctx : context_t) : Bool := decide (ctx.cur < ctx.len) && is_space ctx.peek

/-- Code of `consume_spaces`. -/
def consume_spaces (ctx : context_t) : context_t :=
  { ctx with cur := scan_while is_space ctx.src ctx.len (ctx.len - ctx.cur) ctx.cur }

/-- Code of `parse_str`: `none` is `false`, `some s` is `true` with `*str = s`. -/
def parse_str (ctx : context_t) : Option (List Nat) × context_t :=
  let first := ctx.peek
  let ctx := ctx.advance
  let off := ctx.cur
  let ctx := { ctx with
    cur := scan_while (fun c => c != first) ctx.src ctx.len (ctx.len - ctx.cur) ctx.cur }
  let len := ctx.cur - off
  if ctx.cur = ctx.len then
    (none, ctx.report (bytes "No closing " ++
      (if first = 34 then [39, 34, 39] else [39, 92, 39, 39]) ++ bytes " after string"))
  else
    (some ((ctx.src.drop off).take len), ctx.advance)

/-- Code of `alloc`: the offset of the block, or `none` for `NULL`; the padding is added to
`used` before the capacity test. -/
def alloc (arena : ejson_arena) (size align : Nat) : Option Nat × ejson_arena :=
  let pad := ((SIZE_WIDTH - arena.used % SIZE_WIDTH) % SIZE_WIDTH) &&&
    ((align + SIZE_WIDTH - 1) % SIZE_WIDTH)
  let used := (arena.used + pad) % SIZE_WIDTH
  if arena.size < (used + size) % SIZE_WIDTH then
    (none, { arena with used := used })
  else
    (some used, { arena with used := (used + size) % SIZE_WIDTH })

/-- Code of `alloc_or_report`. -/
def alloc_or_report (ctx : context_t) (size align : Nat) : Option Nat × context_t :=
  match alloc ctx.arena size align with
  | (none, arena) => (none, { ctx with arena := arena }.report (bytes "Out of arena"))
  | (some p, arena) => (some p, { ctx with arena := arena })

/-- The macro `EMPTY_STRING`. -/
def EMPTY_STRING : List Nat := []

/-- The common shape of the `make_val_for_*` functions: allocate one node, then initialise
it with `init` (the matching `init_val_for_*`). -/
def make_val (ctx : context_t) (init : ejson_value) : Option ejson_value × context_t :=
  match alloc_or_report ctx sizeof_ejson_value alignof_ejson_value with
  | (none, ctx) => (none, ctx)
  | (some _, ctx) => (some init, ctx)

/-- Code of `make_val_for_str` with `init_val_for_str`. -/
def make_val_for_str (ctx : context_t) (str : List Nat) :=
  make_val ctx (.string EMPTY_STRING str)

/-- Code of `make_val_for_obj` with `init_val_for_obj`. -/
def make_val_for_obj (ctx : context_t) (head : List ejson_value) (size : Nat) :=
  make_val ctx (.object EMPTY_STRING head size)

/-- Code of `make_val_for_arr` with `init_val_for_arr`. -/
def make_val_for_arr (ctx : context_t) (head : List ejson_value) (size : Nat) :=
  make_val ctx (.array EMPTY_STRING head size)

/-- Code of `make_val_for_int` with `init_val_for_int`. -/
def make_val_for_int (ctx : context_t) (raw : Int) :=
  make_val ctx (.number EMPTY_STRING raw (Double.ofInt raw))

/-- Code of `make_val_for_flt` with `init_val_for_flt`. -/
def make_val_for_flt (ctx : context_t) (raw : Double) :=
  make_val ctx (.number EMPTY_STRING raw.toInt64 raw)

/-- Code of `make_val_for_null` with `init_val_for_null`. -/
def make_val_for_null (ctx : context_t) := make_val ctx (.null EMPTY_STRING)

/-- Code of `make_val_for_true` with `init_val_for_true`. -/
def make_val_for_true (ctx : context_t) := make_val ctx (.boolean EMPTY_STRING true)

/-- Code of `make_val_for_false` with `init_val_for_false`. -/
def make_val_for_false (ctx : context_t) := make_val ctx (.boolean EMPTY_STRING false)

/-- Code of `make_val_for_empty_obj`. -/
def make_val_for_empty_obj (ctx : context_t) := make_val_for_obj ctx [] 0

/-- Code of `make_val_for_empty_arr`. -/
def make_val_for_empty_arr (ctx : context_t) := make_val_for_arr ctx [] 0

/-- Code of `parse_str_2`. -/
def parse_str_2 (ctx : context_t) : Option ejson_value × context_t :=
  match parse_str ctx with
  | (none, ctx) => (none, ctx)
  | (some str, ctx) => make_val_for_str ctx str

/-- Code of `follows_digit`. -/
def follows_digit (ctx : context_t) : Bool := decide (ctx.cur < ctx.len) && is_digit ctx.peek

/-- The `do ... while (follows_digit(ctx))` loop of `parse_int` on `(cur, value)`; `none` is
the overflow exit. -/
def parse_int_loop (src : List Nat) (len : Nat) : Nat → Nat → Nat → Option (Nat × Nat)
  | 0, cur, value => some (cur, value)
  | n + 1, cur, value =>
    let c := src.getD cur 0
    let d := c &&& 0x0F
    if (INT64_MAX - d) / 10 < value then none
    else
      let value := value * 10 + d
      let cur := cur + 1
      if cur < len ∧ is_digit (src.getD cur 0) = true then parse_int_loop src len n cur value
      else some (cur, value)

/-- Code of `parse_int`. -/
def parse_int (ctx : context_t) : Option ejson_value × context_t :=
  match parse_int_loop ctx.src ctx.len (ctx.len - ctx.cur) ctx.cur 0 with
  | none => (none, ctx.report (bytes "Overflow"))
  | some (cur, value) => make_val_for_int { ctx with cur := cur } value

/-- The first `do ... while` loop of `parse_flt` (integer digits). -/
def parse_flt_int_loop (src : List Nat) (len : Nat) : Nat → Nat → Double → Nat × Double
  | 0, cur, value => (cur, value)
  | n + 1, cur, value =>
    let c := src.getD cur 0
    let d := c &&& 0x0F
    let value := Double.add (Double.mul value (Double.ofInt 10)) (Double.ofInt d)
    let cur := cur + 1
    if cur < len ∧ is_digit (src.getD cur 0) = true then parse_flt_int_loop src len n cur value
    else (cur, value)

/-- The second `do ... while` loop of `parse_flt` (decimals) on `(cur, q, value)`. -/
def parse_flt_frac_loop (src : List Nat) (len : Nat) :
    Nat → Nat → Double → Double → Nat × Double
  | 0, cur, _, value => (cur, value)
  | n + 1, cur, q, value =>
    let q := Double.divNat q 10
    let c := src.getD cur 0
    let d := c &&& 0x0F
    let value := Double.add value (Double.mul q (Double.ofInt d))
    let cur := cur + 1
    if cur < len ∧ is_digit (src.getD cur 0) = true then
      parse_flt_frac_loop src len n cur q value
    else (cur, value)

/-- Code of `parse_flt`. -/
def parse_flt (ctx : context_t) : Option ejson_value × context_t :=
  match parse_flt_int_loop ctx.src ctx.len (ctx.len - ctx.cur) ctx.cur (Double.ofInt 0) with
  | (cur, value) =>
    let ctx := { ctx with cur := cur + 1 }
    if follows_digit ctx then
      match parse_flt_frac_loop ctx.src ctx.len (ctx.len - ctx.cur) ctx.cur (Double.ofInt 1)
          value with
      | (cur, value) => make_val_for_flt { ctx with cur := cur } value
    else make_val_for_flt ctx value

/-- Code of `parse_num`. -/
def parse_num (ctx : context_t) : Option ejson_value × context_t :=
  let cur := scan_while is_digit ctx.src ctx.len (ctx.len - ctx.cur) ctx.cur
  if cur < ctx.len ∧ ctx.src.getD cur 0 = 46 then parse_flt ctx else parse_int ctx

/-- Code of `follows_alpha`. -/
def follows_alpha (ctx : context_t) : Bool := decide (ctx.cur < ctx.len) && is_alpha ctx.peek

/-- Code of `parse_oth`. -/
def parse_oth (ctx : context_t) : Option ejson_value × context_t :=
  let c := ctx.peek
  if is_alpha c = false then
    if is_printable c then
      (none, ctx.report (bytes "Unexpected character '" ++ [c] ++ bytes "'"))
    else
      (none, ctx.report (bytes "Invalid byte " ++ fmt_x c))
  else
    let off := ctx.cur
    let ctx := ctx.advance
    let ctx := { ctx with
      cur := scan_while is_alpha ctx.src ctx.len (ctx.len - ctx.cur) ctx.cur }
    let len := ctx.cur - off
    let tok := ctx.src.drop off
    if len = 4 ∧ strncmp (bytes "null") tok 4 = 0 then make_val_for_null ctx
    else if len = 4 ∧ strncmp (bytes "true") tok 4 = 0 then make_val_for_true ctx
    else if len = 5 ∧ strncmp (bytes "false") tok 5 = 0 then make_val_for_false ctx
    else
      (none, ctx.report (bytes "Invalid token '" ++
        (tok.take len).takeWhile (fun b => b != 0) ++ bytes "'"))

/-- Outcome of a parsing function that returns a node pointer. -/
inductive parse_res where
  /-- A node was returned; `ctx` is the context after the call. -/
  | val (v : ejson_value) (ctx : context_t)
  /-- `NULL` was returned. -/
  | null (ctx : context_t)
  /-- The recursion budget of the embedding was exhausted. -/
  | starved
  deriving Repr

/-- Outcome of a function that cannot starve. -/
def parse_res.of : Option ejson_value × context_t → parse_res
  | (none, ctx) => .null ctx
  | (some v, ctx) => .val v ctx

/-- The `do ... while (1)` loop of `parse_obj`; `parse_any` is the recursive call, `head` the
chain built so far and `size` its counter. -/
def parse_obj_loop (parse_any : context_t → parse_res) :
    Nat → context_t → List ejson_value → Nat → parse_res
  | 0, _, _, _ => .starved
  | n + 1, ctx, head, size =>
    let c := ctx.peek
    if c ≠ 34 then
      if is_printable c then
        .null (ctx.report (bytes "Missing key (character '" ++ [c] ++ bytes "' instead)"))
      else
        .null (ctx.report (bytes "Invalid byte " ++ fmt_x c ++ bytes " in object"))
    else
      match parse_str ctx with
      | (none, ctx) => .null ctx
      | (some key, ctx) =>
        let ctx := consume_spaces ctx
        if ctx.cur = ctx.len then
          .null (ctx.report (bytes "Source end in object (after key)"))
        else
          let c := ctx.peek
          if c ≠ 58 then
            if is_printable c then
              .null (ctx.report
                (bytes "Missing ':' after key (character '" ++ [c] ++ bytes "' instead)"))
            else
              .null (ctx.report
                (bytes "Invalid byte " ++ fmt_x c ++ bytes " in object (after key)"))
          else
            let ctx := ctx.advance
            match parse_any ctx with
            | .starved => .starved
            | .null ctx => .null ctx
            | .val val ctx =>
              let head := head ++ [val.set_key key]
              let size := size + 1
              let ctx := consume_spaces ctx
              if ctx.cur = ctx.len then
                .null (ctx.report (bytes "Source end in object (after value)"))
              else
                let c := ctx.peek
                if c = 125 then
                  parse_res.of (make_val_for_obj ctx.advance head size)
                else if c ≠ 44 then
                  if is_printable c then
                    .null (ctx.report (bytes "Missing ',' or '\x7d' after value (character '"
                      ++ [c] ++ bytes "' instead)"))
                  else
                    .null (ctx.report
                      (bytes "Invalid byte " ++ fmt_x c ++ bytes " in object (after value)"))
                else
                  let ctx := ctx.advance
                  let ctx := consume_spaces ctx
                  if ctx.cur = ctx.len then
                    .null (ctx.report (bytes "Source end in object (after ',')"))
                  else parse_obj_loop parse_any n ctx head size

/-- Code of `parse_obj`; `fuel` bounds the iterations of its loop. -/
def parse_obj (parse_any : context_t → parse_res) (fuel : Nat) (ctx : context_t) :
    parse_res :=
  let ctx := ctx.advance
  let ctx := consume_spaces ctx
  if ctx.cur = ctx.len then .null (ctx.report (bytes "Source end in object"))
  else if ctx.peek = 125 then parse_res.of (make_val_for_empty_obj ctx.advance)
  else parse_obj_loop parse_any fuel ctx [] 0

/-- The `for (;;)` loop of `parse_arr`. -/
def parse_arr_loop (parse_any : context_t → parse_res) :
    Nat → context_t → List ejson_value → Nat → parse_res
  | 0, _, _, _ => .starved
  | n + 1, ctx, head, size =>
    match parse_any ctx with
    | .starved => .starved
    | .null ctx => .null ctx
    | .val val ctx =>
      let head := head ++ [val]
      let size := size + 1
      let ctx := consume_spaces ctx
      if ctx.cur = ctx.len then
        .null (ctx.report (bytes "Source end in array (after value)"))
      else
        let c := ctx.peek
        if c = 93 then
          parse_res.of (make_val_for_arr ctx.advance head size)
        else if c ≠ 44 then
          if is_printable c then
            .null (ctx.report (bytes "Missing ',' or ']' after value (character '"
              ++ [c] ++ bytes "' instead)"))
          else
            .null (ctx.report
              (bytes "Invalid byte " ++ fmt_x c ++ bytes " in array (after value)"))
        else
          let ctx := ctx.advance
          let ctx := consume_spaces ctx
          if ctx.cur = ctx.len then
            .null (ctx.report (bytes "Source end in array (after ',')"))
          else parse_arr_loop parse_any n ctx head size

/-- Code of `parse_arr`; `fuel` bounds the iterations of its loop. -/
def parse_arr (parse_any : context_t → parse_res) (fuel : Nat) (ctx : context_t) :
    parse_res :=
  let ctx := ctx.advance
  let ctx := consume_spaces ctx
  if ctx.cur = ctx.len then .null (ctx.report (bytes "Source end in array"))
  else if ctx.peek = 93 then parse_res.of (make_val_for_empty_arr ctx.advance)
  else parse_arr_loop parse_any fuel ctx [] 0

/-- Code of `parse_any`; the first argument bounds the nesting depth and the loop
iterations of the composites. -/
def parse_any : Nat → context_t → parse_res
  | 0, _ => .starved
  | fuel + 1, ctx =>
    let ctx := consume_spaces ctx
    if ctx.cur = ctx.len then .null (ctx.report (bytes "Missing value"))
    else
      let c := ctx.peek
      if c = 34 ∨ (c = 39 ∧ ctx.config.allow_single_quoted_strings = true) then
        parse_res.of (parse_str_2 ctx)
      else if c = 123 then parse_obj (parse_any fuel) fuel ctx
      else if c = 91 then parse_arr (parse_any fuel) fuel ctx
      else if is_digit c then parse_res.of (parse_num ctx)
      else parse_res.of (parse_oth ctx)

/-- What a call of `ejson_parse2` leaves behind: the returned pointer, `*end` (written only
on success), the error text and the arena. -/
structure parse_out where
  root : Option ejson_value
  end_ : Option Nat
  error : Option (List Nat)
  arena : ejson_arena
  deriving Repr

/-- Code of `ejson_parse2` on the `len = src.length` bytes of `src`.  The budget
`len + 1` is enough for every source (`parse_any_not_starved`), so `none` never occurs. -/
def ejson_parse2 (src : List Nat) (error : Option (List Nat)) (arena : ejson_arena)
    (config : ejson_config) : Option parse_out :=
  let save := arena.used
  let ctx : context_t :=
    { error := error, arena := arena, src := src, len := src.length, cur := 0,
      config := config }
  match parse_any (src.length + 1) ctx with
  | .starved => none
  | .null ctx =>
    some { root := none, end_ := none, error := ctx.error,
           arena := { ctx.arena with used := save } }
  | .val root ctx =>
    some { root := some root, end_ := some ctx.cur, error := ctx.error, arena := ctx.arena }

/-- Code of `ejson_parse`. -/
def ejson_parse (src : List Nat) (error : Option (List Nat)) (arena : ejson_arena) :
    Option parse_out :=
  ejson_parse2 src error arena EJSON_DEFAULT_CONFIGS

/-! ## Predicates used by the statements -/

/-- The context `b` is a later state of `a`: same text, same options, cursor not moved
back and still inside the text. -/
structure Step (a b : context_t) : Prop where
  src : b.src = a.src
  len : b.len = a.len
  config : b.config = a.config
  cur_ge : a.cur ≤ b.cur
  cur_le : b.cur ≤ b.len

/-- The outcome `r` of a call started in `ctx` is an outcome of the code (the budget was
enough), the context it leaves is a later state of `ctx`, and a returned node consumed at
least one byte. -/
def parse_res.good (ctx : context_t) : parse_res → Prop
  | .starved => False
  | .null c => Step ctx c
  | .val _ c => Step ctx c ∧ ctx.cur < c.cur

/-! ## iter.c -/

/-- The cursor `ejson_iter`.  A pointer into a chain of children is the part of the chain it
points at: `val = []` is `NULL`, `val = v :: rest` points at `v`, whose `next` is `rest`. -/
structure ejson_iter where
  set : ejson_value
  val : List ejson_value
  idx : Nat
  key : List Nat

/-- Code of `ejson_iterover`. -/
def ejson_iterover (set : ejson_value) : ejson_iter :=
  { set := set, val := [], idx := 0, key := [] }

/-- Code of `ejson_next`: the returned flag and the cursor after the call; `none` is the
failure of the assertion that `set` is an Array or an Object. -/
def ejson_next (iter : ejson_iter) : Option (Bool × ejson_iter) :=
  if iter.set.type ≠ .EJSON_ARRAY ∧ iter.set.type ≠ .EJSON_OBJECT then none
  else
    let iter : ejson_iter :=
      if iter.val.isEmpty then { iter with val := iter.set.children, idx := 0 }
      else { iter with val := iter.val.tail, idx := (iter.idx + 1) % SIZE_WIDTH }
    match iter.val with
    | [] => some (false, iter)
    | v :: _ => some (true, { iter with key := v.key })

/-- Code of `ejson_hasnext` on a pointer into a chain. -/
def ejson_hasnext (val : List ejson_value) : Bool := !val.tail.isEmpty

/-- Code of `ejson_seekbykey2`.  The `for` loop over the cursor visits the chain of children
in order and stops at the first child that passes the test. -/
def ejson_seekbykey2 (value : ejson_value) (key : List Nat) (size : Nat) :
    Option ejson_value :=
  if value.type ≠ .EJSON_OBJECT then none
  else value.children.find? fun c => decide (c.key.length = size ∧ strncmp c.key key size = 0)

/-- The libc `strlen` of the array `s`. -/
def strlen (s : List Nat) : Nat := (s.takeWhile fun b => b != 0).length

/-- Code of `ejson_seekbykey`. -/
def ejson_seekbykey (value : ejson_value) (key : List Nat) : Option ejson_value :=
  ejson_seekbykey2 value key (strlen key)

/-! ## cmp.c -/

mutual
/-- Code of `ejson_valcmp`; `none` is the failure of `assert(cur2)`. -/
def ejson_valcmp : ejson_value → ejson_value → Option Bool
  | .null _, .null _ => some true
  | .array _ h1 s1, .array _ h2 s2 => if s1 ≠ s2 then some false else valcmp_chain h1 h2
  | .object _ h1 s1, .object _ h2 s2 => if s1 ≠ s2 then some false else valcmp_chain h1 h2
  | .number _ i1 f1, .number _ i2 f2 => some (decide (i1 = i2) && Double.eq f1 f2)
  | .string _ s1, .string _ s2 =>
    some (decide (s1.length = s2.length) && decide (strncmp s1 s2 s1.length = 0))
  | .boolean _ b1, .boolean _ b2 => some (b1 == b2)
  | _, _ => some false
/-- The `while (cur1)` loop of `ejson_valcmp` on the two chains. -/
def valcmp_chain : List ejson_value → List ejson_value → Option Bool
  | [], _ => some true
  | _ :: _, [] => none
  | c1 :: r1, c2 :: r2 =>
    match ejson_valcmp c1 c2 with
    | none => none
    | some false => some false
    | some true => valcmp_chain r1 r2
end

/-! ## print.c -/

/-- The `print_context_t`; `dst` is the content of the destination object. -/
structure print_context_t where
  dst : List Nat
  num : Nat
  max : Nat
  deriving Repr

/-- The bytes `data` stored from index `at_` on. -/
def store (dst : List Nat) (at_ : Nat) (data : List Nat) : List Nat :=
  dst.take at_ ++ data ++ dst.drop (at_ + data.length)

/-- Code of `append`.  `str` is the content of the object read by `memcpy`; `none` is a copy
that reads past the end of `str` or writes past the end of `dst`. -/
def append (ctx : print_context_t) (str : List Nat) (len : Nat) : Option print_context_t :=
  if ctx.num < ctx.max then
    let cpy := min len (ctx.max - ctx.num)
    if str.length < cpy ∨ ctx.dst.length < ctx.num + cpy then none
    else some { ctx with dst := store ctx.dst ctx.num (str.take cpy),
                         num := (ctx.num + len) % SIZE_WIDTH }
  else some { ctx with num := (ctx.num + len) % SIZE_WIDTH }

/-- Code of `print_str`. -/
def print_str (ctx : print_context_t) (str : List Nat) : Option print_context_t := do
  let ctx ← append ctx [34] 1
  let ctx ← append ctx str str.length
  append ctx [34] 1

/-- The call `snprintf(buff, sizeof(buff), ...)` producing `text`: the content of the
128-byte `buff` up to its terminator, and the returned length. -/
def snprintf_buff (text : List Nat) : List Nat × Nat := (text.take 127 ++ [0], text.length)

mutual
/-- Code of `print_any`. -/
def print_any (ctx : print_context_t) : ejson_value → Option print_context_t
  | .null _ => append ctx (bytes "null") 4
  | .array _ head _ => do
    let ctx ← append ctx [91] 1
    let ctx ← print_arr_loop ctx head
    append ctx [93] 1
  | .object _ head _ => do
    let ctx ← append ctx [123] 1
    let ctx ← print_obj_loop ctx head
    append ctx [125] 1
  | .number _ itg flt =>
    let (buff, n) :=
      if Double.eq flt (Double.ofInt itg) then snprintf_buff (fmt_lld itg)
      else snprintf_buff (Double.fmt_lf flt)
    append ctx buff n
  | .string _ s => do
    let ctx ← append ctx [34] 1
    let ctx ← append ctx s s.length
    append ctx [34] 1
  | .boolean _ b => if b then append ctx (bytes "true") 4 else append ctx (bytes "false") 5
/-- The `for` loop of the `EJSON_ARRAY` case on the chain of children. -/
def print_arr_loop (ctx : print_context_t) : List ejson_value → Option print_context_t
  | [] => some ctx
  | v :: rest => do
    let ctx ← print_any ctx v
    let ctx ← if ejson_hasnext (v :: rest) then append ctx [44, 32] 2 else some ctx
    print_arr_loop ctx rest
/-- The `for` loop of the `EJSON_OBJECT` case on the chain of children. -/
def print_obj_loop (ctx : print_context_t) : List ejson_value → Option print_context_t
  | [] => some ctx
  | v :: rest => do
    let ctx ← print_str ctx v.key
    let ctx ← append ctx [58, 32] 2
    let ctx ← print_any ctx v
    let ctx ← if ejson_hasnext (v :: rest) then append ctx [44, 32] 2 else some ctx
    print_obj_loop ctx rest
end

/-- Code of `ejson_print`: the returned length and the content of `dst` after the call;
`none` when a byte is read or written outside its object. -/
def ejson_print (val : ejson_value) (dst : List Nat) (max : Nat) : Option (Nat × List Nat) :=
  match print_any { dst := dst, max := max, num := 0 } val with
  | none => none
  | some ctx =>
    let num := ctx.num
    let at_ := if num < max then num else (max + SIZE_WIDTH - 1) % SIZE_WIDTH
    if at_ < ctx.dst.length then some (num, store ctx.dst at_ [0]) else none

/-! ## match.c -/

/-- The `ejson_matchresult` enumeration. -/
inductive ejson_matchresult where
  | EJSON_MATCH
  | EJSON_NOMATCH
  | EJSON_BADFORMAT
  deriving DecidableEq, Repr

namespace Match

/-- The matcher's `context_t`; `out` holds the `nout` pointers stored so far. -/
structure context_t where
  fmt : List Nat
  cur : Nat
  len : Nat
  out : List ejson_value

/-- The byte `ctx->fmt[ctx->cur]`. -/
def context_t.peek (ctx : context_t) : Nat := ctx.fmt.getD ctx.cur 0

/-- The statement `ctx->cur++`. -/
def context_t.advance (ctx : context_t) : context_t := { ctx with cur := ctx.cur + 1 }

/-- Code of `consume_spaces` of match.c. -/
def consume_spaces (ctx : context_t) : context_t :=
  { ctx with cur := scan_while is_space ctx.fmt ctx.len (ctx.len - ctx.cur) ctx.cur }

/-- Outcome of a matching function. -/
inductive match_res where
  /-- The function returned `r`. -/
  | ret (r : ejson_matchresult) (ctx : context_t)
  /-- No return: a `NULL` pointer was dereferenced or an assertion failed. -/
  | crash
  /-- The recursion budget of the embedding was exhausted. -/
  | starved

/-- Code of `parse_next_value_in_fmt` with a pool of `max` bytes: the returned pointer and
the context.  (`none` only if `ejson_parse2` starved, which it does not.) -/
def parse_next_value_in_fmt (ctx : context_t) (max : Nat) :
    Option (Option ejson_value × context_t) :=
  let arena : ejson_arena := { size := max, used := 0 }
  let config : ejson_config := { EJSON_DEFAULT_CONFIGS with allow_single_quoted_strings := true }
  let substr := (ctx.fmt.drop ctx.cur).take (ctx.len - ctx.cur)
  match ejson_parse2 substr none arena config with
  | none => none
  | some res =>
    match res.root, res.end_ with
    | some key, some num => some (some key, { ctx with cur := ctx.cur + num })
    | _, _ => some (none, ctx)

/-- Code of `unpack`. -/
def unpack (ctx : context_t) (val : ejson_value) : ejson_matchresult × context_t :=
  let ctx := ctx.advance
  if ctx.cur = ctx.len then (.EJSON_BADFORMAT, ctx)
  else
    let expected : Option ejson_type :=
      if ctx.peek = 97 then some .EJSON_ARRAY
      else if ctx.peek = 111 then some .EJSON_OBJECT
      else if ctx.peek = 115 then some .EJSON_STRING
      else if ctx.peek = 110 then some .EJSON_NUMBER
      else if ctx.peek = 98 then some .EJSON_BOOLEAN
      else none
    match expected with
    | none => (.EJSON_BADFORMAT, ctx)
    | some expected =>
      let ctx := ctx.advance
      if val.type ≠ expected then (.EJSON_NOMATCH, ctx)
      else (.EJSON_MATCH, { ctx with out := ctx.out ++ [val] })

/-- Code of `match`.  The test `val == NULL` looks at `val`, which is not `NULL`; a `NULL`
`val2` reaches `ejson_valcmp`, which reads `v2->type`. -/
def match_ (ctx : context_t) (val : ejson_value) : match_res :=
  match parse_next_value_in_fmt ctx 1024 with
  | none => .starved
  | some (val2, ctx) =>
    match val2 with
    | none => .crash
    | some val2 =>
      match ejson_valcmp val val2 with
      | none => .crash
      | some true => .ret .EJSON_MATCH ctx
      | some false => .ret .EJSON_NOMATCH ctx

/-- The `for` loop of `match_and_unpack_arr` on the chain of children still to visit;
`match_and_unpack` is the recursive call. -/
def match_and_unpack_arr_loop (match_and_unpack : context_t → ejson_value → match_res) :
    List ejson_value → context_t → match_res
  | [], ctx => .ret .EJSON_MATCH ctx
  | child :: rest, ctx =>
    let ctx := consume_spaces ctx
    if ctx.cur = ctx.len then .ret .EJSON_BADFORMAT ctx
    else
      match match_and_unpack ctx child with
      | .ret .EJSON_MATCH ctx =>
        let ctx := consume_spaces ctx
        if ctx.cur = ctx.len then .ret .EJSON_BADFORMAT ctx
        else if ejson_hasnext (child :: rest) then
          if ctx.peek = 93 then .ret .EJSON_MATCH ctx.advance
          else if ctx.peek ≠ 44 then .ret .EJSON_BADFORMAT ctx
          else match_and_unpack_arr_loop match_and_unpack rest ctx.advance
        else
          if ctx.peek = 44 then .ret .EJSON_NOMATCH ctx
          else if ctx.peek ≠ 93 then .ret .EJSON_BADFORMAT ctx
          else match_and_unpack_arr_loop match_and_unpack rest ctx.advance
      | res => res

/-- Code of `match_and_unpack_arr`. -/
def match_and_unpack_arr (match_and_unpack : context_t → ejson_value → match_res)
    (ctx : context_t) (val : ejson_value) : match_res :=
  if ctx.cur = ctx.len ∨ ctx.peek ≠ 91 then .ret .EJSON_NOMATCH ctx
  else match_and_unpack_arr_loop match_and_unpack val.children ctx.advance

/-- The `while (1)` loop of `match_and_unpack_obj`. -/
def match_and_unpack_obj_loop (match_and_unpack : context_t → ejson_value → match_res)
    (val : ejson_value) : Nat → context_t → match_res
  | 0, _ => .starved
  | n + 1, ctx =>
    let ctx := consume_spaces ctx
    if ctx.cur = ctx.len then .ret .EJSON_BADFORMAT ctx
    else
      match parse_next_value_in_fmt ctx 1024 with
      | none => .starved
      | some (none, ctx) => .ret .EJSON_BADFORMAT ctx
      | some (some (.string _ key), ctx) =>
        match ejson_seekbykey2 val key key.length with
        | none => .ret .EJSON_NOMATCH ctx
        | some child =>
          let ctx := consume_spaces ctx
          if ctx.cur = ctx.len ∨ ctx.peek ≠ 58 then .ret .EJSON_BADFORMAT ctx
          else
            match match_and_unpack ctx.advance child with
            | .ret .EJSON_MATCH ctx =>
              let ctx := consume_spaces ctx
              if ctx.cur = ctx.len then .ret .EJSON_BADFORMAT ctx
              else if ctx.peek = 125 then .ret .EJSON_MATCH ctx.advance
              else if ctx.peek ≠ 44 then .ret .EJSON_BADFORMAT ctx
              else match_and_unpack_obj_loop match_and_unpack val n ctx.advance
            | res => res
      | some (some _, ctx) => .ret .EJSON_BADFORMAT ctx

/-- Code of `match_and_unpack_obj`; `fuel` bounds the iterations of its loop. -/
def match_and_unpack_obj (match_and_unpack : context_t → ejson_value → match_res)
    (fuel : Nat) (ctx : context_t) (val : ejson_value) : match_res :=
  if ctx.cur = ctx.len ∨ ctx.peek ≠ 123 then .ret .EJSON_NOMATCH ctx
  else match_and_unpack_obj_loop match_and_unpack val fuel ctx.advance

/-- Code of `match_and_unpack`; the first argument bounds the nesting depth and the
iterations of the object loop. -/
def match_and_unpack : Nat → context_t → ejson_value → match_res
  | 0, _, _ => .starved
  | fuel + 1, ctx, val =>
    let ctx := consume_spaces ctx
    if ctx.cur = ctx.len then .ret .EJSON_BADFORMAT ctx
    else if ctx.peek = 63 then .ret .EJSON_MATCH ctx.advance
    else if ctx.peek = 36 then
      match unpack ctx val with
      | (r, ctx) => .ret r ctx
    else if val.type = .EJSON_ARRAY then match_and_unpack_arr (match_and_unpack fuel) ctx val
    else if val.type = .EJSON_OBJECT then
      match_and_unpack_obj (match_and_unpack fuel) fuel ctx val
    else match_ ctx val

end Match

/-- Code of `ejson_match_and_unpack` on the C string held by the array `fmt`.  The returned
context carries the captures stored in `out`. -/
def ejson_match_and_unpack (val : ejson_value) (fmt : List Nat) : Match.match_res :=
  let ctx : Match.context_t := { fmt := fmt, len := strlen fmt, cur := 0, out := [] }
  Match.match_and_unpack (strlen fmt + 1) ctx val

/-- The decimal value of a run of digit bytes (leading zeros allowed). -/
def dec_value (ds : List Nat) : Nat := ds.foldl (fun acc c => acc * 10 + (c - 48)) 0

/-- The padding `-used & (align - 1)` for the alignment 8 of a node, written arithmetically:
the distance from `used` to the next multiple of 8. -/
def node_pad (used : Nat) : Nat := (8 - used % 8) % 8

/-- The result returned by a matching call, if it returned. -/
def Match.match_res.result : Match.match_res → Option ejson_matchresult
  | .ret r _ => some r
  | _ => none

/-- The captures stored in `out` when a matching call returned. -/
def Match.match_res.captures : Match.match_res → List ejson_value
  | .ret _ ctx => ctx.out
  | _ => []

/-- The type named by the letter of a capture directive: `a`, `o`, `s`, `n`, `b`. -/
def type_letter (x : Nat) : Option ejson_type :=
  if x = 97 then some .EJSON_ARRAY
  else if x = 111 then some .EJSON_OBJECT
  else if x = 115 then some .EJSON_STRING
  else if x = 110 then some .EJSON_NUMBER
  else if x = 98 then some .EJSON_BOOLEAN
  else none

/-- The source text of the match scenarios. -/
def scenario_src : List Nat :=
  bytes "[97.24, true, \x7b\"name\": false, \"pass\": \"HelloKitty\"\x7d]"

/-- The tree that `ejson_parse` builds from `scenario_src`. -/
def scenario_tree : ejson_value :=
  .array [] [
    .number [] 97 (.fin false 6842656683836048 (-46)),
    .boolean [] true,
    .object [] [
      .boolean (bytes "name") false,
      .string (bytes "pass") (bytes "HelloKitty")] 2] 3

/-- A value that is not composite: neither an Array nor an Object. -/
def ejson_value.is_scalar (v : ejson_value) : Bool :=
  v.type != .EJSON_ARRAY && v.type != .EJSON_OBJECT

/-- The configuration `parse_next_value_in_fmt` parses with. -/
def fmt_config : ejson_config := { allow_single_quoted_strings := true }

/-- The text of a pattern after its leading white space. -/
def skip_spaces (p : List Nat) : List Nat := p.drop (p.takeWhile is_space).length

/-- The pattern `[1,2,...,18]`: a well-formed literal of 19 nodes, one more than the 18
nodes of 56 bytes that fit the 1024-byte pool of `match`. -/
def big_literal : List Nat := bytes "[1,2,3,4,5,6,7,8,9,10,11,12,13,14,15,16,17,18]"

/-- The call did not return: it dereferenced `NULL` or failed an assertion. -/
def Match.match_res.crashed : Match.match_res → Bool
  | .crash => true
  | _ => false

/-- The value `w` is `v` itself or lies below `v` in the tree. -/
inductive Sub : ejson_value → ejson_value → Prop where
  | refl (v : ejson_value) : Sub v v
  | child {w c v : ejson_value} : c ∈ v.children → Sub w c → Sub w v

/-- The part of the source that the parser has not consumed. -/
def context_t.rem (ctx : context_t) : List Nat := ctx.src.drop ctx.cur

/-- The part of the pattern that the matcher has not consumed. -/
def Match.context_t.rem (ctx : Match.context_t) : List Nat := ctx.fmt.drop ctx.cur

/-- The text of the members `q k q: ?` of an object pattern, separated by `, `, with the
closing brace; each key `k` comes with its quote byte `q`. -/
def obj_items : List (Nat × List Nat) → List Nat
  | [] => [125]
  | [(q, k)] => q :: (k ++ q :: [58, 32, 63, 125])
  | (q, k) :: qk :: rest => q :: (k ++ q :: ([58, 32, 63, 44, 32] ++ obj_items (qk :: rest)))

/-- The object pattern `{k1: ?, ..., km: ?}`. -/
def obj_pattern (keys : List (Nat × List Nat)) : List Nat := 123 :: obj_items keys

/-- Every key of the pattern is the key of some child in the chain `cs`. -/
def keys_present (cs : List ejson_value) (keys : List (Nat × List Nat)) : Bool :=
  keys.all fun qk => cs.any fun c => decide (c.key = qk.2)

/-- The matcher stands before the pattern text `r`, which runs to the end of the pattern,
and has stored the captures `o`. -/
structure Match.At (ctx : Match.context_t) (r : List Nat) (o : List ejson_value) : Prop where
  len : ctx.len = ctx.fmt.length
  rem : ctx.rem = r
  out : ctx.out = o

/-- The text of the elements of an array pattern, separated by `, `, with the closing
bracket. -/
def arr_items : List (List Nat) → List Nat
  | [] => [93]
  | [e] => e ++ [93]
  | e :: e' :: rest => e ++ ([44, 32] ++ arr_items (e' :: rest))

/-- The array pattern `[p1, ..., pm]`. -/
def arr_pattern (es : List (List Nat)) : List Nat := 91 :: arr_items es

/-- The element pattern `e` matches the value `c` (with the recursion budget `fuel`):
`e` starts with a byte that is not white space and, wherever it stands in a pattern before
a `,` or a `]`, `match_and_unpack` returns Match for `c` and stops right after `e`. -/
def ElemMatches (fuel : Nat) (e : List Nat) (c : ejson_value) : Prop :=
  (∃ a t, e = a :: t ∧ is_space a = false) ∧
  ∀ (ctx : Match.context_t) (d : Nat) (tl : List Nat) (o : List ejson_value),
    (d = 44 ∨ d = 93) → Match.At ctx (e ++ d :: tl) o →
    ∃ ctx' o', Match.match_and_unpack fuel ctx c = .ret .EJSON_MATCH ctx' ∧
      Match.At ctx' (d :: tl) o'

mutual
/-- The complete serialization of a value: the text `print_any` emits when nothing is cut. -/
def serialize : ejson_value → List Nat
  | .null _ => bytes "null"
  | .array _ head _ => [91] ++ serialize_arr head ++ [93]
  | .object _ head _ => [123] ++ serialize_obj head ++ [125]
  | .number _ itg flt =>
    if Double.eq flt (Double.ofInt itg) then fmt_lld itg else Double.fmt_lf flt
  | .string _ s => [34] ++ s ++ [34]
  | .boolean _ b => if b then bytes "true" else bytes "false"
/-- The serialization of the children of an Array. -/
def serialize_arr : List ejson_value → List Nat
  | [] => []
  | v :: rest =>
    serialize v ++ (if ejson_hasnext (v :: rest) then [44, 32] else []) ++ serialize_arr rest
/-- The serialization of the children of an Object. -/
def serialize_obj : List ejson_value → List Nat
  | [] => []
  | v :: rest =>
    [34] ++ v.key ++ [34] ++ [58, 32] ++ serialize v ++
      (if ejson_hasnext (v :: rest) then [44, 32] else []) ++ serialize_obj rest
end

mutual
/-- The predicate `p` holds at every node of the tree. -/
def all_nodes (p : ejson_value → Bool) : ejson_value → Bool
  | .null k => p (.null k)
  | .array k head s => p (.array k head s) && all_nodes_chain p head
  | .object k head s => p (.object k head s) && all_nodes_chain p head
  | .number k i f => p (.number k i f)
  | .string k s => p (.string k s)
  | .boolean k b => p (.boolean k b)
/-- The predicate `p` holds at every node of the trees of a chain. -/
def all_nodes_chain (p : ejson_value → Bool) : List ejson_value → Bool
  | [] => true
  | v :: rest => all_nodes p v && all_nodes_chain p rest
end

mutual
/-- The number of nodes of a tree. -/
def node_count : ejson_value → Nat
  | .array _ head _ => 1 + node_count_chain head
  | .object _ head _ => 1 + node_count_chain head
  | _ => 1
/-- The number of nodes of the trees of a chain. -/
def node_count_chain : List ejson_value → Nat
  | [] => 0
  | v :: rest => node_count v + node_count_chain rest
end

/-- The shape the parser (with the default configuration) gives a node: the cached count of
a composite is the length of its chain, the children of an Array have no key, the keys of
the children of an Object and the content of a String have no double quote. -/
def node_shape : ejson_value → Bool
  | .array _ head size => decide (size = head.length) && head.all fun c => decide (c.key = [])
  | .object _ head size =>
    decide (size = head.length) && head.all fun c => decide (34 ∉ c.key)
  | .string _ s => decide (34 ∉ s)
  | _ => true

/-- A Number node as `init_val_for_int` fills it from the value of a digit run: the integer
field is that value, at most `INT64_MAX`, and the float field is its conversion. -/
def node_int : ejson_value → Bool
  | .number _ i f => decide (0 ≤ i ∧ i ≤ (INT64_MAX : Int) ∧ f = Double.ofInt i)
  | _ => true

/-- Every Number of the tree is the node of an integer literal. -/
def int_numbers (v : ejson_value) : Bool := all_nodes node_int v

/-- The room `n` nodes take in the arena: the padding of the first one and 56 bytes each. -/
def arena_room (arena : ejson_arena) (n : Nat) : Prop :=
  arena.used + node_pad arena.used + sizeof_ejson_value * n ≤ arena.size ∧
    arena.size < SIZE_WIDTH

/-- The context `b` has the text, the length and the options of `a`. -/
def Same (a b : context_t) : Prop := b.src = a.src ∧ b.len = a.len ∧ b.config = a.config

/-- A node returned by a call started in `ctx` has no key and the shape the parser gives
its nodes, and the call left the text and the options alone. -/
def parse_res.shaped (ctx : context_t) : parse_res → Prop
  | .val v c => v.key = [] ∧ all_nodes node_shape v = true ∧ Same ctx c
  | _ => True

/-- The arena after `k` more nodes were taken from it: the first one is padded to a
multiple of 8, the others follow without padding. -/
def ejson_arena.after (arena : ejson_arena) (k : Nat) : ejson_arena :=
  if k = 0 then arena
  else { arena with used := arena.used + node_pad arena.used + sizeof_ejson_value * k }

/-- The arena has room for `k` more nodes. -/
def ejson_arena.fits (arena : ejson_arena) (k : Nat) : Prop :=
  (arena.after k).used ≤ arena.size ∧ arena.size < SIZE_WIDTH

/-- The parser stands before the text `r`, which runs to the end of the source, and its
arena is `a`. -/
structure PAt (ctx : context_t) (r : List Nat) (a : ejson_arena) : Prop where
  len : ctx.len = ctx.src.length
  rem : ctx.rem = r
  arena : ctx.arena = a

/-- The printer context after `text` was appended in full. -/
def print_context_t.printed (ctx : print_context_t) (text : List Nat) : print_context_t :=
  { ctx with dst := store ctx.dst ctx.num text, num := ctx.num + text.length }

/-- The destination has room for `n` more bytes and the terminator. -/
def print_context_t.room (ctx : print_context_t) (n : Nat) : Prop :=
  ctx.num + n < ctx.max ∧ ctx.max ≤ ctx.dst.length ∧ ctx.max < SIZE_WIDTH

/-- A byte that may follow a value: `,`, `]`, the closing brace or white space. -/
def delim (post : List Nat) : Prop :=
  ∀ c, post.head? = some c → c = 44 ∨ c = 93 ∨ c = 125 ∨ is_space c = true

/-- Reading back the serialization of `v`: wherever the serialization stands in a source,
after white space `ws` and before a delimiter or the end, `parse_any` with enough budget
and enough arena returns `v` (without the key, which is its parent's business), stops
right after the text and has taken one node of the arena per node of `v`. -/
def Reparse (v : ejson_value) : Prop :=
  ∀ (fuel : Nat) (ctx : context_t) (ws post : List Nat) (a : ejson_arena),
    PAt ctx (ws ++ (serialize v ++ post)) a → (∀ b ∈ ws, is_space b = true) → delim post →
    (serialize v).length ≤ fuel → a.fits (node_count v) →
    ∃ ctx', parse_any fuel ctx = .val (v.set_key []) ctx' ∧
      PAt ctx' post (a.after (node_count v))

/-- A source without fractional literal: an Array with a Number, a Boolean, an Object of two
members and an empty Array. -/
def round_trip_src : List Nat :=
  bytes "[7, true, \x7b\"k\": \"v\", \"n\": null\x7d, []]"

/-- The tree that `ejson_parse` builds from `round_trip_src`. -/
def round_trip_tree : ejson_value :=
  .array [] [
    .number [] 7 (.fin false 7881299347898368 (-50)),
    .boolean [] true,
    .object [] [.string (bytes "k") (bytes "v"), .null (bytes "n")] 2,
    .array [] [] 0] 4

/-- No digit of the source is followed by a point, so no number literal has a fraction. -/
def no_fraction (src : List Nat) : Bool :=
  (List.range src.length).all fun i =>
    !(is_digit (src.getD i 0) && decide (src.getD (i + 1) 0 = 46))

/-- Every Number of a node returned by a call started in `ctx` is the node of an integer
literal, and the call left the text and the options alone. -/
def parse_res.integral (ctx : context_t) : parse_res → Prop
  | .val v c => int_numbers v = true ∧ Same ctx c
  | _ => True

/-- The cached count of a composite node is the length of its chain of children. -/
def node_sized : ejson_value → Bool
  | .array _ head size => decide (size = head.length)
  | .object _ head size => decide (size = head.length)
  | _ => true

/-- A well-formed value: every composite node of the tree caches the length of its chain. -/
def well_formed (v : ejson_value) : Bool := all_nodes node_sized v

mutual
/-- The tree with the key of every node emptied. -/
def strip_keys : ejson_value → ejson_value
  | .null _ => .null []
  | .array _ head s => .array [] (strip_keys_chain head) s
  | .object _ head s => .object [] (strip_keys_chain head) s
  | .number _ i f => .number [] i f
  | .string _ s => .string [] s
  | .boolean _ b => .boolean [] b
/-- The chain with the keys of all its trees emptied. -/
def strip_keys_chain : List ejson_value → List ejson_value
  | [] => []
  | v :: rest => strip_keys v :: strip_keys_chain rest
end

/-- The Object that `ejson_parse` builds from `{"a": 1, "b": 1}`. -/
def obj_a1_b1 : ejson_value :=
  .object [] [.number (bytes "a") 1 (Double.ofInt 1), .number (bytes "b") 1 (Double.ofInt 1)] 2

/-- The Object that `ejson_parse` builds from `{"b": 1, "a": 1}`. -/
def obj_b1_a1 : ejson_value :=
  .object [] [.number (bytes "b") 1 (Double.ofInt 1), .number (bytes "a") 1 (Double.ofInt 1)] 2

/-- The Object that `ejson_parse` builds from `{"a": 1, "b": 2}`. -/
def obj_a1_b2 : ejson_value :=
  .object [] [.number (bytes "a") 1 (Double.ofInt 1), .number (bytes "b") 2 (Double.ofInt 2)] 2

/-- The Object that `ejson_parse` builds from `{"b": 2, "a": 1}`. -/
def obj_b2_a1 : ejson_value :=
  .object [] [.number (bytes "b") 2 (Double.ofInt 2), .number (bytes "a") 1 (Double.ofInt 1)] 2

/-- The Object that `ejson_parse` builds from the source `{"a\0b": 1}`, whose key holds a
zero byte. -/
def obj_zero_key : ejson_value :=
  .object [] [.number [97, 0, 98] 1 (Double.ofInt 1)] 1

/-- The text `t` is read by the parser as the value `v`: wherever `t` stands in a source,
after white space `ws` and before a delimiter, white space or the end, `parse_any` with
enough budget and enough arena returns `v`, stops right after `t` and has taken one node of
the arena per node of `v`. -/
def Parses (t : List Nat) (v : ejson_value) : Prop :=
  ∀ (fuel : Nat) (ctx : context_t) (ws post : List Nat) (a : ejson_arena),
    PAt ctx (ws ++ (t ++ post)) a → (∀ b ∈ ws, is_space b = true) → delim post →
    t.length ≤ fuel → a.fits (node_count v) →
    ∃ ctx', parse_any fuel ctx = .val v ctx' ∧ PAt ctx' post (a.after (node_count v))

/-- A member `k: v` of an object literal: the key between its double quotes, the text of
the value with the value it stands for, and the white space before the key (`pre`),
between the key and the colon (`mid`), after the colon (`sep`) and after the value
(`post`). -/
structure member where
  pre : List Nat
  key : List Nat
  mid : List Nat
  sep : List Nat
  text : List Nat
  post : List Nat
  value : ejson_value

/-- The text of a member from the opening quote of its key on. -/
def member.body (m : member) : List Nat :=
  [34] ++ m.key ++ [34] ++ m.mid ++ [58] ++ m.sep ++ m.text ++ m.post

/-- The text of a member. -/
def member.src (m : member) : List Nat := m.pre ++ m.body

/-- The child a member stands for: its value under its key. -/
def member.child (m : member) : ejson_value := m.value.set_key m.key

/-- A well-formed member: the four gaps hold white space only, the key has no double quote
and the text of the value is read by the parser as the value. -/
def member.ok (m : member) : Prop :=
  (∀ b ∈ m.pre, is_space b = true) ∧ (∀ b ∈ m.mid, is_space b = true) ∧
  (∀ b ∈ m.sep, is_space b = true) ∧ (∀ b ∈ m.post, is_space b = true) ∧
  34 ∉ m.key ∧ Parses m.text m.value

/-- The text of the members after the first one, each after its comma. -/
def members_tail : List member → List Nat
  | [] => []
  | m :: rest => [44] ++ m.src ++ members_tail rest

/-- The object literal with the members `m :: rest`. -/
def obj_literal (m : member) (rest : List member) : List Nat :=
  [123] ++ m.src ++ members_tail rest ++ [125]

/-- The number of nodes of the values of the members. -/
def members_nodes : List member → Nat
  | [] => 0
  | m :: rest => node_count m.value + members_nodes rest

/-- The first member of the literal `{ "k" : 1 , "k":true}`. -/
def dup_first : member :=
  ⟨[32], bytes "k", [32], [32], bytes "1", [32], .number [] 1 (Double.ofInt 1)⟩

/-- The second member of the literal `{ "k" : 1 , "k":true}`, with the key of the first. -/
def dup_second : member :=
  ⟨[32], bytes "k", [], [], bytes "true", [], .boolean [] true⟩

/-- The call number `k + 1` of `ejson_next` on a cursor: `k` calls come before it, each on
the cursor the previous one left. -/
def ejson_next_call : Nat → ejson_iter → Option (Bool × ejson_iter)
  | 0, iter => ejson_next iter
  | k + 1, iter => (ejson_next iter).bind fun r => ejson_next_call k r.2

/-- The children of an Array node have no key. -/
def array_keys_empty : ejson_value → Bool
  | .array _ head _ => head.all fun c => decide (c.key = [])
  | _ => true

/-- The text `snprintf` produces for a Number node fits the 128-byte `buff` of `print_any`
together with its terminator. -/
def node_short : ejson_value → Bool
  | .number k i f => decide ((serialize (.number k i f)).length ≤ 127)
  | _ => true

/-- Every Number of the tree prints in at most 127 bytes. -/
def short_numbers (v : ejson_value) : Bool := all_nodes node_short v

/-- The printer context after the text `T` was appended to the destination `dst0` of
capacity `max`: the bytes of `T` that fit are stored, all of them are counted. -/
def written (dst0 : List Nat) (max : Nat) (T : List Nat) : print_context_t :=
  { dst := store dst0 0 (T.take max), num := T.length, max := max }

/-- A source with one number literal of 131 integer digits: `1`, 130 zeros and `.5`. -/
def long_number_src : List Nat := [49] ++ List.replicate 130 48 ++ [46, 53]

/-- The Number that `ejson_parse` builds from `long_number_src`. -/
def long_number : ejson_value :=
  .number [] (-9223372036854775808) (.fin false 8121413879410081 379)

/-- A node returned by a parsing function is well formed: every composite node of its tree
caches the length of its chain. -/
def parse_res.sized : parse_res → Prop
  | .val v _ => well_formed v = true
  | _ => True

/-- The context `ctx` seen after the bytes `w` were put in front of the source: the text is
longer by `w` and every position moves by its length. -/
def context_t.shift (w : List Nat) (ctx : context_t) : context_t :=
  { ctx with src := w ++ ctx.src, cur := ctx.cur + w.length, len := ctx.len + w.length }

/-- The outcome of a parsing function with the context it leaves moved by `w`. -/
def parse_res.shift (w : List Nat) : parse_res → parse_res
  | .val v c => .val v (c.shift w)
  | .null c => .null (c.shift w)
  | .starved => .starved

/-- What a call leaves behind, with the consumed count larger by `n`. -/
def parse_out.shift (n : Nat) (out : parse_out) : parse_out :=
  { out with end_ := out.end_.map fun e => e + n }

/-- The context `ctx` seen when only the first `e` bytes of the source are given. -/
def context_t.truncate (e : Nat) (ctx : context_t) : context_t :=
  { ctx with src := ctx.src.take e, len := e }

/-- The next token of the pattern text `fmt` (of `len` bytes) from the position `lo` on:
white space up to `p`, where a byte that is not white space stands. -/
def TokenAt (fmt : List Nat) (len lo p : Nat) : Prop :=
  lo ≤ p ∧ p < len ∧ (∀ i, lo ≤ i → i < p → is_space (fmt.getD i 0) = true) ∧
    is_space (fmt.getD p 0) = false

/-- The pattern text from `p` on starts with a literal that the parser, with single-quoted
strings enabled and a pool of 1024 bytes, decodes to `w`, reading `n` bytes. -/
def Decodes (fmt : List Nat) (len p : Nat) (w : ejson_value) (n : Nat) : Prop :=
  ∃ out, ejson_parse2 ((fmt.drop p).take (len - p)) none ⟨1024, 0⟩ fmt_config = some out ∧
    out.root = some w ∧ out.end_ = some n

/-- What a piece of pattern text is matched against: a value, the children of an Array that
are still to be visited, or the members of an Object. -/
inductive match_target where
  /-- A pattern against the value `v`. -/
  | value (v : ejson_value)
  /-- The elements of an array pattern against the chain `cs` of children. -/
  | elems (cs : List ejson_value)
  /-- The members of an object pattern against the Object `v`. -/
  | members (v : ejson_value)

/-- The pattern grammar of the matcher, from the specification: `Matched fmt len t lo hi ds`
says that the text of `fmt` between the positions `lo` and `hi` is a pattern that matches
the target `t`, and that `ds` lists, from left to right, the capture directives of that
text, each as the position of its `$` together with the sub-value it is matched against.

* `?` matches any value and holds no directive;
* `$x` matches the value whose type the letter `x` names, and is a directive matched
  against that value;
* a literal matches a value that is not composite when the decoded literal compares equal
  to it;
* `[` p1 `,` p2 ... `]` matches an Array, the successive elements against the successive
  children; the closing bracket may come while children remain, and against an Array
  without children only the opening bracket is read;
* `{` k1 `:` p1 `,` ... `}` matches an Object, each member pattern against the child that
  the lookup of its key finds. -/
inductive Matched (fmt : List Nat) (len : Nat) :
    match_target → Nat → Nat → List (Nat × ejson_value) → Prop where
  | wild {v : ejson_value} {lo p : Nat} :
      TokenAt fmt len lo p → fmt.getD p 0 = 63 → Matched fmt len (.value v) lo (p + 1) []
  | capture {v : ejson_value} {lo p : Nat} :
      TokenAt fmt len lo p → fmt.getD p 0 = 36 → p + 1 < len →
      type_letter (fmt.getD (p + 1) 0) = some v.type →
      Matched fmt len (.value v) lo (p + 2) [(p, v)]
  | literal {v w : ejson_value} {lo p n : Nat} :
      TokenAt fmt len lo p → fmt.getD p 0 ≠ 63 → fmt.getD p 0 ≠ 36 →
      v.type ≠ .EJSON_ARRAY → v.type ≠ .EJSON_OBJECT →
      Decodes fmt len p w n → ejson_valcmp v w = some true →
      Matched fmt len (.value v) lo (p + n) []
  | array {v : ejson_value} {lo p hi : Nat} {ds : List (Nat × ejson_value)} :
      TokenAt fmt len lo p → fmt.getD p 0 = 91 → v.type = .EJSON_ARRAY →
      Matched fmt len (.elems v.children) (p + 1) hi ds →
      Matched fmt len (.value v) lo hi ds
  | object {v : ejson_value} {lo p hi : Nat} {ds : List (Nat × ejson_value)} :
      TokenAt fmt len lo p → fmt.getD p 0 = 123 → v.type = .EJSON_OBJECT →
      Matched fmt len (.members v) (p + 1) hi ds →
      Matched fmt len (.value v) lo hi ds
  | elems_nil {q : Nat} : Matched fmt len (.elems []) q q []
  | elems_close {c : ejson_value} {rest : List ejson_value} {q q1 p : Nat}
      {ds : List (Nat × ejson_value)} :
      Matched fmt len (.value c) q q1 ds → TokenAt fmt len q1 p → fmt.getD p 0 = 93 →
      Matched fmt len (.elems (c :: rest)) q (p + 1) ds
  | elems_next {c : ejson_value} {rest : List ejson_value} {q q1 p hi : Nat}
      {ds ds' : List (Nat × ejson_value)} :
      Matched fmt len (.value c) q q1 ds → TokenAt fmt len q1 p → fmt.getD p 0 = 44 →
      rest ≠ [] → Matched fmt len (.elems rest) (p + 1) hi ds' →
      Matched fmt len (.elems (c :: rest)) q hi (ds ++ ds')
  | members_close {v child : ejson_value} {k0 key : List Nat} {q p n pc q1 p2 : Nat}
      {ds : List (Nat × ejson_value)} :
      TokenAt fmt len q p → Decodes fmt len p (.string k0 key) n →
      ejson_seekbykey2 v key key.length = some child →
      TokenAt fmt len (p + n) pc → fmt.getD pc 0 = 58 →
      Matched fmt len (.value child) (pc + 1) q1 ds →
      TokenAt fmt len q1 p2 → fmt.getD p2 0 = 125 →
      Matched fmt len (.members v) q (p2 + 1) ds
  | members_next {v child : ejson_value} {k0 key : List Nat} {q p n pc q1 p2 hi : Nat}
      {ds ds' : List (Nat × ejson_value)} :
      TokenAt fmt len q p → Decodes fmt len p (.string k0 key) n →
      ejson_seekbykey2 v key key.length = some child →
      TokenAt fmt len (p + n) pc → fmt.getD pc 0 = 58 →
      Matched fmt len (.value child) (pc + 1) q1 ds →
      TokenAt fmt len q1 p2 → fmt.getD p2 0 = 44 →
      Matched fmt len (.members v) (p2 + 1) hi ds' →
      Matched fmt len (.members v) q hi (ds ++ ds')

/-- The value `w` lies in the target: it is a sub-value of the value, of one of the
children, or of the Object. -/
def match_target.holds : match_target → ejson_value → Prop
  | .value v, w => Sub w v
  | .elems cs, w => ∃ c ∈ cs, Sub w c
  | .members v, w => Sub w v

/-- A matching call started in `ctx` went over a pattern for the target `t` that begins at
`lo`, and stopped in `c`: same pattern text, and the captures it added are the sub-values
that the directives of the text between `lo` and the cursor of `c` are matched against, in
their order. -/
def Match.Went (t : match_target) (lo : Nat) (ctx c : Match.context_t) : Prop :=
  c.fmt = ctx.fmt ∧ c.len = ctx.len ∧ c.cur ≤ c.len ∧
    ∃ ds, Matched ctx.fmt ctx.len t lo c.cur ds ∧ c.out = ctx.out ++ ds.map Prod.snd

/-! # Theorems -/

/-! ## Progress of the parser: the budget is never exhausted -/

theorem Step.refl (a : context_t) (h : a.cur ≤ a.len) : Step a a :=
  ⟨rfl, rfl, rfl, Nat.le_refl _, h⟩

theorem Step.trans {a b c : context_t} (h₁ : Step a b) (h₂ : Step b c) : Step a c :=
  ⟨h₂.src.trans h₁.src, h₂.len.trans h₁.len, h₂.config.trans h₁.config,
    Nat.le_trans h₁.cur_ge h₂.cur_ge, h₂.cur_le⟩

theorem scan_while_ge (p : Nat → Bool) (src : List Nat) (len : Nat) :
    ∀ n cur, cur ≤ scan_while p src len n cur := by
  intro n
  induction n with
  | zero => intro cur; simp [scan_while]
  | succ n ih =>
    intro cur
    unfold scan_while
    split
    · exact Nat.le_trans (Nat.le_succ cur) (ih (cur + 1))
    · exact Nat.le_refl _

theorem scan_while_le (p : Nat → Bool) (src : List Nat) (len : Nat) :
    ∀ n cur, cur ≤ len → scan_while p src len n cur ≤ len := by
  intro n
  induction n with
  | zero => intro cur h; simpa [scan_while] using h
  | succ n ih =>
    intro cur h
    unfold scan_while
    split
    · next hc => exact ih (cur + 1) hc.1
    · exact h

theorem Step.report {a b : context_t} (h : Step a b) (text : List Nat) :
    Step a (b.report text) :=
  ⟨h.src, h.len, h.config, h.cur_ge, h.cur_le⟩

theorem Step.advance {a b : context_t} (h : Step a b) (hlt : b.cur ≠ b.len) :
    Step a b.advance :=
  ⟨h.src, h.len, h.config, Nat.le_succ_of_le h.cur_ge,
    Nat.lt_of_le_of_ne h.cur_le hlt⟩

theorem Step.cur_lt_advance {a b : context_t} (h : Step a b) : a.cur < b.advance.cur :=
  Nat.lt_succ_of_le h.cur_ge

theorem Step.consume_spaces {a b : context_t} (h : Step a b) : Step a (consume_spaces b) :=
  ⟨h.src, h.len, h.config,
    Nat.le_trans h.cur_ge (scan_while_ge _ _ _ _ _), scan_while_le _ _ _ _ _ h.cur_le⟩

theorem Step.set_cur {a b : context_t} (h : Step a b) (cur : Nat) (h₁ : b.cur ≤ cur)
    (h₂ : cur ≤ b.len) : Step a { b with cur := cur } :=
  ⟨h.src, h.len, h.config, Nat.le_trans h.cur_ge h₁, h₂⟩

/-- The context left by `make_val` differs from the one it was given in the arena and the
error text only. -/
theorem make_val_snd (ctx : context_t) (init : ejson_value) :
    ∃ arena error, (make_val ctx init).2 = { ctx with arena := arena, error := error } := by
  unfold make_val alloc_or_report
  cases alloc ctx.arena sizeof_ejson_value alignof_ejson_value with
  | mk p arena =>
    cases p with
    | none => exact ⟨arena, _, rfl⟩
    | some p => exact ⟨arena, ctx.error, rfl⟩

theorem Step.make_val {a b : context_t} (h : Step a b) (init : ejson_value) :
    Step a (make_val b init).2 := by
  obtain ⟨arena, error, he⟩ := make_val_snd b init
  rw [he]
  exact ⟨h.src, h.len, h.config, h.cur_ge, h.cur_le⟩

theorem good_of_make_val {a b : context_t} (h : Step a b) (hlt : a.cur < b.cur)
    (init : ejson_value) : (parse_res.of (make_val b init)).good a := by
  have hs := h.make_val init
  have hc : (make_val b init).2.cur = b.cur := by
    obtain ⟨arena, error, he⟩ := make_val_snd b init
    rw [he]
  revert hs hc
  cases make_val b init with
  | mk r c =>
    intro hs hc
    cases r with
    | none => exact hs
    | some v => exact ⟨hs, by simp only at hc; omega⟩

theorem parse_str_step (ctx : context_t) (h : ctx.cur < ctx.len) :
    Step ctx (parse_str ctx).2 ∧ ((parse_str ctx).1.isSome → ctx.cur < (parse_str ctx).2.cur) := by
  have h0 : Step ctx ctx := Step.refl ctx (Nat.le_of_lt h)
  have h1 : Step ctx ctx.advance := h0.advance (Nat.ne_of_lt h)
  have hle := scan_while_le (fun c => c != ctx.peek) ctx.advance.src ctx.advance.len
    (ctx.advance.len - ctx.advance.cur) ctx.advance.cur h1.cur_le
  have hge := scan_while_ge (fun c => c != ctx.peek) ctx.advance.src ctx.advance.len
    (ctx.advance.len - ctx.advance.cur) ctx.advance.cur
  unfold parse_str
  simp only []
  split
  · refine ⟨?_, by simp⟩
    exact (h1.set_cur _ hge hle).report _
  · next hne =>
    have h2 := (h1.set_cur _ hge hle).advance hne
    exact ⟨h2, fun _ => Nat.lt_of_lt_of_le (Nat.lt_succ_self _)
      (Nat.le_trans hge (Nat.le_succ _))⟩

theorem parse_str_2_good (ctx : context_t) (h : ctx.cur < ctx.len) :
    (parse_res.of (parse_str_2 ctx)).good ctx := by
  have hs := parse_str_step ctx h
  unfold parse_str_2
  revert hs
  cases parse_str ctx with
  | mk r c =>
    cases r with
    | none => intro hs; exact hs.1
    | some str => intro hs; exact good_of_make_val hs.1 (hs.2 rfl) _

theorem parse_int_loop_bounds (src : List Nat) (len : Nat) :
    ∀ n cur value cur1 value1, cur < len →
      parse_int_loop src len n cur value = some (cur1, value1) → 0 < n →
      cur < cur1 ∧ cur1 ≤ len := by
  intro n
  induction n with
  | zero => intro cur value cur1 value1 _ _ hn; omega
  | succ n ih =>
    intro cur value cur1 value1 hlt heq _
    unfold parse_int_loop at heq
    simp only [] at heq
    split at heq
    · cases heq
    · split at heq
      · next hc =>
        cases n with
        | zero =>
          simp only [parse_int_loop, Option.some.injEq, Prod.mk.injEq] at heq
          omega
        | succ m =>
          have := ih (cur + 1) _ cur1 value1 hc.1 heq (Nat.succ_pos m)
          omega
      · simp only [Option.some.injEq, Prod.mk.injEq] at heq
        omega

theorem parse_int_good (ctx : context_t) (h : ctx.cur < ctx.len) :
    (parse_res.of (parse_int ctx)).good ctx := by
  have h0 : Step ctx ctx := Step.refl ctx (Nat.le_of_lt h)
  unfold parse_int
  split
  · exact h0.report _
  · next cur value heq =>
    have hb := parse_int_loop_bounds ctx.src ctx.len _ ctx.cur 0 cur value h heq (by omega)
    exact good_of_make_val (h0.set_cur cur (Nat.le_of_lt hb.1) hb.2) hb.1 _

theorem parse_flt_int_loop_bounds (src : List Nat) (len : Nat) :
    ∀ n cur value, cur < len → 0 < n →
      cur < (parse_flt_int_loop src len n cur value).1 ∧
      (parse_flt_int_loop src len n cur value).1 ≤ len := by
  intro n
  induction n with
  | zero => intro cur value _ hn; omega
  | succ n ih =>
    intro cur value hlt _
    unfold parse_flt_int_loop
    simp only []
    split
    · next hc =>
      cases n with
      | zero => simp only [parse_flt_int_loop]; omega
      | succ m =>
        have := ih (cur + 1) (Double.add (Double.mul value (Double.ofInt 10))
          (Double.ofInt ((src.getD cur 0 &&& 0x0F : Nat) : Int))) hc.1 (Nat.succ_pos m)
        omega
    · simp only []; omega

theorem parse_flt_frac_loop_bounds (src : List Nat) (len : Nat) :
    ∀ n cur q value, cur < len → 0 < n →
      cur < (parse_flt_frac_loop src len n cur q value).1 ∧
      (parse_flt_frac_loop src len n cur q value).1 ≤ len := by
  intro n
  induction n with
  | zero => intro cur q value _ hn; omega
  | succ n ih =>
    intro cur q value hlt _
    unfold parse_flt_frac_loop
    simp only []
    split
    · next hc =>
      cases n with
      | zero => simp only [parse_flt_frac_loop]; omega
      | succ m =>
        have := ih (cur + 1) (Double.divNat q 10) (Double.add value
          (Double.mul (Double.divNat q 10) (Double.ofInt ((src.getD cur 0 &&& 0x0F : Nat) : Int))))
          hc.1 (Nat.succ_pos m)
        omega
    · simp only []; omega

theorem parse_flt_int_loop_cur (src : List Nat) (len : Nat) :
    ∀ n cur value,
      (parse_flt_int_loop src len (n + 1) cur value).1 = scan_while is_digit src len n (cur + 1) := by
  intro n
  induction n with
  | zero =>
    intro cur value
    simp only [parse_flt_int_loop, scan_while]
    split <;> rfl
  | succ n ih =>
    intro cur value
    rw [parse_flt_int_loop, scan_while]
    split
    · exact ih _ _
    · rfl

theorem parse_int_loop_cur (src : List Nat) (len : Nat) :
    ∀ n cur value cur1 value1,
      parse_int_loop src len (n + 1) cur value = some (cur1, value1) →
      cur1 = scan_while is_digit src len n (cur + 1) := by
  intro n
  induction n with
  | zero =>
    intro cur value cur1 value1 h
    simp only [parse_int_loop, scan_while] at h ⊢
    split at h
    · cases h
    · split at h <;> simp only [Option.some.injEq, Prod.mk.injEq] at h <;> exact h.1.symm
  | succ n ih =>
    intro cur value cur1 value1 h
    rw [parse_int_loop] at h
    rw [scan_while]
    simp only [] at h
    split at h
    · cases h
    · split at h
      · next hc => rw [if_pos hc]; exact ih _ _ _ _ h
      · next hc =>
        rw [if_neg hc]
        simp only [Option.some.injEq, Prod.mk.injEq] at h
        exact h.1.symm

theorem scan_while_succ (p : Nat → Bool) (src : List Nat) (len n cur : Nat) (h : cur < len)
    (hp : p (src.getD cur 0) = true) :
    scan_while p src len (n + 1) cur = scan_while p src len n (cur + 1) := by
  rw [scan_while, if_pos ⟨h, hp⟩]

theorem parse_flt_good (ctx : context_t) (h : ctx.cur < ctx.len)
    (hd : is_digit ctx.peek = true)
    (hdot : scan_while is_digit ctx.src ctx.len (ctx.len - ctx.cur) ctx.cur < ctx.len) :
    (parse_res.of (parse_flt ctx)).good ctx := by
  have h0 : Step ctx ctx := Step.refl ctx (Nat.le_of_lt h)
  obtain ⟨n, hn⟩ : ∃ n, ctx.len - ctx.cur = n + 1 := ⟨ctx.len - ctx.cur - 1, by omega⟩
  have hcur := parse_flt_int_loop_cur ctx.src ctx.len n ctx.cur (Double.ofInt 0)
  have hb := parse_flt_int_loop_bounds ctx.src ctx.len (n + 1) ctx.cur (Double.ofInt 0) h
    (Nat.succ_pos n)
  rw [hn, scan_while_succ _ _ _ _ _ h hd, ← hcur] at hdot
  unfold parse_flt
  rw [hn]
  revert hb hdot
  cases parse_flt_int_loop ctx.src ctx.len (n + 1) ctx.cur (Double.ofInt 0) with
  | mk cur value =>
    intro hb hdot
    simp only [] at hb hdot ⊢
    have h1 : Step ctx { ctx with cur := cur + 1 } := h0.set_cur _ (by omega) (by omega)
    split
    · next hf =>
      simp only [follows_digit, Bool.and_eq_true, decide_eq_true_eq] at hf
      have hb2 := parse_flt_frac_loop_bounds ctx.src ctx.len (ctx.len - (cur + 1)) (cur + 1)
        (Double.ofInt 1) value hf.1 (by have := hf.1; omega)
      revert hb2
      cases parse_flt_frac_loop ctx.src ctx.len (ctx.len - (cur + 1)) (cur + 1)
        (Double.ofInt 1) value with
      | mk cur2 value2 =>
        intro hb2
        exact good_of_make_val (h0.set_cur _ (by omega) hb2.2) (by show ctx.cur < cur2; omega) _
    · exact good_of_make_val h1 (by show ctx.cur < cur + 1; omega) _

theorem parse_num_good (ctx : context_t) (h : ctx.cur < ctx.len)
    (hd : is_digit ctx.peek = true) : (parse_res.of (parse_num ctx)).good ctx := by
  unfold parse_num
  simp only []
  split
  · next hc => exact parse_flt_good ctx h hd hc.1
  · exact parse_int_good ctx h

theorem parse_oth_good (ctx : context_t) (h : ctx.cur < ctx.len) :
    (parse_res.of (parse_oth ctx)).good ctx := by
  have h0 : Step ctx ctx := Step.refl ctx (Nat.le_of_lt h)
  have h1 : Step ctx ctx.advance := h0.advance (Nat.ne_of_lt h)
  have hle := scan_while_le is_alpha ctx.advance.src ctx.advance.len
    (ctx.advance.len - ctx.advance.cur) ctx.advance.cur h1.cur_le
  have hge := scan_while_ge is_alpha ctx.advance.src ctx.advance.len
    (ctx.advance.len - ctx.advance.cur) ctx.advance.cur
  have h2 := h1.set_cur _ hge hle
  have hlt : ctx.cur < scan_while is_alpha ctx.advance.src ctx.advance.len
      (ctx.advance.len - ctx.advance.cur) ctx.advance.cur :=
    Nat.lt_of_lt_of_le (Nat.lt_succ_self _) hge
  unfold parse_oth
  simp only []
  split
  · split
    · exact h0.report _
    · exact h0.report _
  · split
    · exact good_of_make_val h2 hlt _
    · split
      · exact good_of_make_val h2 hlt _
      · split
        · exact good_of_make_val h2 hlt _
        · exact h2.report _

theorem parse_res.good_of_step {a b : context_t} (h : Step a b)
    {r : parse_res} (hr : r.good b) : r.good a := by
  cases r with
  | starved => exact hr
  | null c => exact h.trans hr
  | val v c => exact ⟨h.trans hr.1, Nat.lt_of_le_of_lt h.cur_ge hr.2⟩

theorem good_null_or_val {a : context_t} {r : parse_res} (hr : r.good a) :
    (∃ c, r = .null c ∧ Step a c) ∨ (∃ v c, r = .val v c ∧ Step a c ∧ a.cur < c.cur) := by
  cases r with
  | starved => exact hr.elim
  | null c => exact Or.inl ⟨c, rfl, hr⟩
  | val v c => exact Or.inr ⟨v, c, rfl, hr.1, hr.2⟩

theorem parse_arr_loop_good (rec : context_t → parse_res) (F : Nat)
    (hrec : ∀ ctx, ctx.cur ≤ ctx.len → ctx.len - ctx.cur < F → (rec ctx).good ctx) :
    ∀ n ctx0 ctx head size, Step ctx0 ctx → ctx0.cur < ctx.cur → ctx.len - ctx.cur < n →
      ctx.len - ctx.cur < F → (parse_arr_loop rec n ctx head size).good ctx0 := by
  intro n
  induction n with
  | zero => intro ctx0 ctx head size _ _ hn _; omega
  | succ n ih =>
    intro ctx0 ctx head size hs hlt hn hF
    unfold parse_arr_loop
    rcases good_null_or_val (hrec ctx hs.cur_le hF) with ⟨c, hr, hc⟩ | ⟨v, c, hr, hc, hcl⟩
    · rw [hr]; exact hs.trans hc
    · rw [hr]
      simp only []
      have h1 : Step ctx0 (consume_spaces c) := (hs.trans hc).consume_spaces
      have hlt1 : ctx0.cur < c.cur := Nat.lt_trans hlt hcl
      have hlt2 : ctx.cur < (consume_spaces c).cur :=
        Nat.lt_of_lt_of_le hcl (Step.refl c hc.cur_le).consume_spaces.cur_ge
      have hlen : (consume_spaces c).len = ctx.len := hc.consume_spaces.len
      split
      · exact h1.report _
      · next hne =>
        have h2 := h1.advance hne
        split
        · exact good_of_make_val h2 h1.cur_lt_advance _
        · split
          · split
            · exact h1.report _
            · exact h1.report _
          · have h3 := h2.consume_spaces
            split
            · exact h3.report _
            · have hge : (consume_spaces c).cur + 1 ≤ (consume_spaces (consume_spaces c).advance).cur :=
                (Step.refl _ h2.cur_le).consume_spaces.cur_ge
              have hlen3 : (consume_spaces (consume_spaces c).advance).len = ctx.len := by
                rw [(Step.refl _ h2.cur_le).consume_spaces.len]; exact hlen
              have hle3 := h3.cur_le
              exact ih ctx0 _ _ _ h3 (by omega) (by omega) (by omega)

theorem parse_arr_good (rec : context_t → parse_res) (F : Nat)
    (hrec : ∀ ctx, ctx.cur ≤ ctx.len → ctx.len - ctx.cur < F → (rec ctx).good ctx)
    (n : Nat) (ctx : context_t) (h : ctx.cur < ctx.len) (hn : ctx.len - ctx.cur ≤ n)
    (hF : ctx.len - ctx.cur ≤ F) : (parse_arr rec n ctx).good ctx := by
  have h0 : Step ctx ctx := Step.refl ctx (Nat.le_of_lt h)
  have h1 : Step ctx ctx.advance := h0.advance (Nat.ne_of_lt h)
  have h2 := h1.consume_spaces
  have hlt : ctx.cur < (consume_spaces ctx.advance).cur :=
    Nat.lt_of_lt_of_le (Nat.lt_succ_self _) (Step.refl _ h1.cur_le).consume_spaces.cur_ge
  have hlen : (consume_spaces ctx.advance).len = ctx.len := h2.len
  unfold parse_arr
  simp only []
  split
  · exact h2.report _
  · next hne =>
    split
    · exact good_of_make_val (h2.advance hne) (Nat.lt_succ_of_lt hlt) _
    · exact parse_arr_loop_good rec F hrec n ctx _ [] 0 h2 hlt (by omega) (by omega)

theorem parse_obj_loop_good (rec : context_t → parse_res) (F : Nat)
    (hrec : ∀ ctx, ctx.cur ≤ ctx.len → ctx.len - ctx.cur < F → (rec ctx).good ctx) :
    ∀ n ctx0 ctx head size, Step ctx0 ctx → ctx.cur ≠ ctx.len → ctx0.cur < ctx.cur →
      ctx.len - ctx.cur < n → ctx.len - ctx.cur < F →
      (parse_obj_loop rec n ctx head size).good ctx0 := by
  intro n
  induction n with
  | zero => intro ctx0 ctx head size _ _ _ hn _; omega
  | succ n ih =>
    intro ctx0 ctx head size hs hne0 hlt hn hF
    have hlt0 : ctx.cur < ctx.len := Nat.lt_of_le_of_ne hs.cur_le hne0
    unfold parse_obj_loop
    simp only []
    split
    · split
      · exact hs.report _
      · exact hs.report _
    · have hstr := parse_str_step ctx hlt0
      revert hstr
      cases parse_str ctx with
      | mk r c1 =>
        cases r with
        | none => intro hstr; exact hs.trans hstr.1
        | some key =>
          intro hstr
          simp only [] at hstr ⊢
          have hc1 : ctx.cur < c1.cur := hstr.2 rfl
          have h2 : Step ctx (consume_spaces c1) := hstr.1.consume_spaces
          split
          · exact (hs.trans h2).report _
          · next hne2 =>
            split
            · split
              · exact (hs.trans h2).report _
              · exact (hs.trans h2).report _
            · have h3 : Step ctx (consume_spaces c1).advance := h2.advance hne2
              have hlen3 : (consume_spaces c1).advance.len = ctx.len := h3.len
              have hcur3 : ctx.cur < (consume_spaces c1).advance.cur := h2.cur_lt_advance
              rcases good_null_or_val (hrec _ h3.cur_le (by omega)) with
                ⟨c, hr, hc⟩ | ⟨v, c, hr, hc, hcl⟩
              · rw [hr]; exact hs.trans (h3.trans hc)
              · rw [hr]
                simp only []
                have h4 : Step ctx (consume_spaces c) := (h3.trans hc).consume_spaces
                have h5 := hs.trans h4
                have hlt4 : ctx.cur < (consume_spaces c).cur :=
                  Nat.lt_of_lt_of_le (Nat.lt_trans hcur3 hcl)
                    (Step.refl c hc.cur_le).consume_spaces.cur_ge
                split
                · exact h5.report _
                · next hne4 =>
                  have h6 := h4.advance hne4
                  split
                  · exact good_of_make_val (hs.trans h6) (hs.trans h4).cur_lt_advance _
                  · split
                    · split
                      · exact h5.report _
                      · exact h5.report _
                    · have h7 := h6.consume_spaces
                      split
                      · exact (hs.trans h7).report _
                      · next hne7 =>
                        have hge : (consume_spaces c).cur + 1 ≤
                            (consume_spaces (consume_spaces c).advance).cur :=
                          (Step.refl _ h6.cur_le).consume_spaces.cur_ge
                        have hlen7 := h7.len
                        have hle7 := h7.cur_le
                        exact ih ctx0 _ _ _ (hs.trans h7) hne7 (by omega) (by omega) (by omega)

theorem parse_obj_good (rec : context_t → parse_res) (F : Nat)
    (hrec : ∀ ctx, ctx.cur ≤ ctx.len → ctx.len - ctx.cur < F → (rec ctx).good ctx)
    (n : Nat) (ctx : context_t) (h : ctx.cur < ctx.len) (hn : ctx.len - ctx.cur ≤ n)
    (hF : ctx.len - ctx.cur ≤ F) : (parse_obj rec n ctx).good ctx := by
  have h0 : Step ctx ctx := Step.refl ctx (Nat.le_of_lt h)
  have h1 : Step ctx ctx.advance := h0.advance (Nat.ne_of_lt h)
  have h2 := h1.consume_spaces
  have hlt : ctx.cur < (consume_spaces ctx.advance).cur :=
    Nat.lt_of_lt_of_le (Nat.lt_succ_self _) (Step.refl _ h1.cur_le).consume_spaces.cur_ge
  have hlen : (consume_spaces ctx.advance).len = ctx.len := h2.len
  unfold parse_obj
  simp only []
  split
  · exact h2.report _
  · next hne =>
    split
    · exact good_of_make_val (h2.advance hne) (Nat.lt_succ_of_lt hlt) _
    · exact parse_obj_loop_good rec F hrec n ctx _ [] 0 h2 hne hlt (by omega) (by omega)

/-- With a budget above the number of bytes left, `parse_any` returns (a node or `NULL`),
leaves a later context, and a returned node has consumed at least one byte. -/
theorem parse_any_good : ∀ fuel ctx, ctx.cur ≤ ctx.len → ctx.len - ctx.cur < fuel →
    (parse_any fuel ctx).good ctx := by
  intro fuel
  induction fuel with
  | zero => intro ctx _ h; omega
  | succ fuel ih =>
    intro ctx hle hfuel
    have h0 : Step ctx ctx := Step.refl ctx hle
    have h1 : Step ctx (consume_spaces ctx) := h0.consume_spaces
    have hlen := h1.len
    have hge := h1.cur_ge
    unfold parse_any
    simp only []
    split
    · exact h1.report _
    · next hne =>
      have hlt : (consume_spaces ctx).cur < (consume_spaces ctx).len :=
        Nat.lt_of_le_of_ne h1.cur_le hne
      split
      · exact parse_res.good_of_step h1 (parse_str_2_good _ hlt)
      · split
        · exact parse_res.good_of_step h1
            (parse_obj_good _ fuel ih fuel _ hlt (by omega) (by omega))
        · split
          · exact parse_res.good_of_step h1
              (parse_arr_good _ fuel ih fuel _ hlt (by omega) (by omega))
          · split
            · next hd =>
              exact parse_res.good_of_step h1 (parse_num_good _ hlt hd)
            · exact parse_res.good_of_step h1 (parse_oth_good _ hlt)

/-- The call `ejson_parse2` returns for every source: its budget is enough. -/
theorem ejson_parse2_returns (src : List Nat) (error : Option (List Nat))
    (arena : ejson_arena) (config : ejson_config) :
    ∃ out, ejson_parse2 src error arena config = some out := by
  have h := parse_any_good (src.length + 1)
    { error := error, arena := arena, src := src, len := src.length, cur := 0,
      config := config } (Nat.zero_le _) (by simp only []; omega)
  unfold ejson_parse2
  simp only []
  revert h
  cases parse_any (src.length + 1)
    { error := error, arena := arena, src := src, len := src.length, cur := 0,
      config := config } with
  | starved => intro h; exact h.elim
  | null c => intro _; exact ⟨_, rfl⟩
  | val v c => intro _; exact ⟨_, rfl⟩

/-! ## C1: a failed parse leaves the arena offset where it was -/

/-- C1: for every source text, error object, arena and configuration, `ejson_parse2` returns,
and when it returns no value the arena's `used` offset is the one the arena had before the
call, whatever made the parse fail; `ejson_parse` is the same call with the default
configuration. -/
theorem ejson_parse2_rollback (src : List Nat) (error : Option (List Nat))
    (arena : ejson_arena) (config : ejson_config) :
    (∃ out, ejson_parse2 src error arena config = some out ∧
      (out.root = none → out.arena.used = arena.used)) ∧
    (∃ out, ejson_parse src error arena = some out ∧
      (out.root = none → out.arena.used = arena.used)) := by
  have key : ∀ config, ∃ out, ejson_parse2 src error arena config = some out ∧
      (out.root = none → out.arena.used = arena.used) := by
    intro config
    have h := parse_any_good (src.length + 1)
      { error := error, arena := arena, src := src, len := src.length, cur := 0,
        config := config } (Nat.zero_le _) (by simp only []; omega)
    unfold ejson_parse2
    simp only []
    revert h
    cases parse_any (src.length + 1)
      { error := error, arena := arena, src := src, len := src.length, cur := 0,
        config := config } with
    | starved => intro h; exact h.elim
    | null c => intro _; exact ⟨_, rfl, fun _ => rfl⟩
    | val v c => intro _; exact ⟨_, rfl, fun h => by simp at h⟩
  exact ⟨key config, key EJSON_DEFAULT_CONFIGS⟩

/-! ## The scanning loops in terms of the text that is left -/

theorem getD_eq_headD_drop (src : List Nat) (cur : Nat) :
    src.getD cur 0 = (src.drop cur).headD 0 := by
  induction src generalizing cur with
  | nil => simp
  | cons a l ih =>
    cases cur with
    | zero => simp
    | succ n => simp

theorem drop_eq_cons_of_lt (src : List Nat) (cur : Nat) (h : cur < src.length) :
    src.drop cur = src.getD cur 0 :: src.drop (cur + 1) := by
  induction src generalizing cur with
  | nil => simp at h
  | cons a l ih =>
    cases cur with
    | zero => simp
    | succ n =>
      have := ih n (by simpa using h)
      simpa using this

/-- The loop `while (cur < len && p(src[cur])) cur++` stops after the longest run of bytes
satisfying `p` in the text that is left. -/
theorem scan_while_eq (p : Nat → Bool) (src : List Nat) :
    ∀ n cur, src.length - cur ≤ n →
      scan_while p src src.length n cur = cur + ((src.drop cur).takeWhile p).length := by
  intro n
  induction n with
  | zero =>
    intro cur h
    have : src.drop cur = [] := List.drop_eq_nil_of_le (by omega)
    simp [scan_while, this]
  | succ n ih =>
    intro cur h
    unfold scan_while
    split
    · next hc =>
      rw [ih (cur + 1) (by omega), drop_eq_cons_of_lt src cur hc.1, List.takeWhile_cons,
        if_pos hc.2]
      simp only [List.length_cons]
      omega
    · next hc =>
      by_cases hlt : cur < src.length
      · have hp : ¬ p (src.getD cur 0) = true := fun hp => hc ⟨hlt, hp⟩
        rw [drop_eq_cons_of_lt src cur hlt, List.takeWhile_cons, if_neg hp]
        rfl
      · have : src.drop cur = [] := List.drop_eq_nil_of_le (by omega)
        simp [this]

theorem takeWhile_append_of_all (p : Nat → Bool) (ds rest : List Nat)
    (hd : ∀ c ∈ ds, p c = true) (hrest : ∀ c, rest.head? = some c → p c = false) :
    (ds ++ rest).takeWhile p = ds := by
  induction ds with
  | nil =>
    cases rest with
    | nil => rfl
    | cons c r =>
      have := hrest c rfl
      simp [List.takeWhile_cons, this]
  | cons a l ih =>
    have ha := hd a (List.mem_cons_self a l)
    simp only [List.cons_append, List.takeWhile_cons, ha, if_true]
    rw [ih (fun c hc => hd c (List.mem_cons_of_mem a hc))]

/-! ## `parse_int`: the value of a digit run and the overflow test -/

theorem digit_and_15 (c : Nat) (h : is_digit c = true) : c &&& 0x0F = c - 48 := by
  simp only [is_digit, Bool.and_eq_true, decide_eq_true_eq] at h
  obtain ⟨h1, h2⟩ := h
  interval_cases c <;> rfl

theorem dec_value_foldl (ds : List Nat) (v : Nat) :
    ds.foldl (fun acc c => acc * 10 + (c - 48)) v = v * 10 ^ ds.length + dec_value ds := by
  induction ds generalizing v with
  | nil => simp [dec_value]
  | cons a l ih =>
    unfold dec_value
    simp only [List.foldl_cons, List.length_cons]
    rw [ih, ih (0 * 10 + (a - 48))]
    ring

theorem dec_value_cons (a : Nat) (l : List Nat) :
    dec_value (a :: l) = (a - 48) * 10 ^ l.length + dec_value l := by
  have h : dec_value (a :: l) = List.foldl (fun acc c => acc * 10 + (c - 48)) (a - 48) l := by
    simp [dec_value]
  rw [h]
  exact dec_value_foldl l (a - 48)

/-- The `do ... while` loop of `parse_int` on a run of digits `ds` followed by `rest`:
the overflow exit is taken exactly when the accumulated decimal value exceeds `INT64_MAX`;
otherwise the loop stops after the run with its decimal value. -/
theorem parse_int_loop_run (pre rest : List Nat) :
    ∀ (ds : List Nat) (n value : Nat), ds ≠ [] → (∀ c ∈ ds, is_digit c = true) →
      (∀ c, rest.head? = some c → is_digit c = false) → ds.length ≤ n →
      parse_int_loop (pre ++ ds ++ rest) (pre ++ ds ++ rest).length n pre.length value =
        if value * 10 ^ ds.length + dec_value ds ≤ INT64_MAX then
          some (pre.length + ds.length, value * 10 ^ ds.length + dec_value ds)
        else none := by
  intro ds
  induction ds generalizing pre with
  | nil => intro n value h; exact (h rfl).elim
  | cons a l ih =>
    intro n value _ hd hrest hn
    have ha := hd a (List.mem_cons_self a l)
    have ha' := ha
    simp only [is_digit, Bool.and_eq_true, decide_eq_true_eq] at ha'
    obtain ⟨m, rfl⟩ : ∃ m, n = m + 1 := ⟨n - 1, by simp only [List.length_cons] at hn; omega⟩
    have hget : (pre ++ a :: l ++ rest).getD pre.length 0 = a := by
      rw [getD_eq_headD_drop]
      simp
    unfold parse_int_loop
    simp only [hget, digit_and_15 a ha]
    have hpow : (10 : Nat) ^ (a :: l).length = 10 * 10 ^ l.length := by
      simp only [List.length_cons, Nat.pow_succ]; ring
    have hpos : 0 < 10 ^ l.length := Nat.pow_pos (by omega)
    rw [dec_value_cons, hpow]
    by_cases hov : (INT64_MAX - (a - 48)) / 10 < value
    · rw [if_pos hov]
      have h1 : INT64_MAX < value * 10 + (a - 48) := by
        have := Nat.lt_of_div_lt_div (a := INT64_MAX - (a - 48)) (b := value * 10)
          (c := 10) (by simpa using hov)
        unfold INT64_MAX at this ⊢
        omega
      have h2 : value * 10 + (a - 48) ≤ (value * 10 + (a - 48)) * 10 ^ l.length :=
        Nat.le_mul_of_pos_right _ hpos
      have h3 : (value * 10 + (a - 48)) * 10 ^ l.length =
          value * (10 * 10 ^ l.length) + (a - 48) * 10 ^ l.length := by ring
      rw [if_neg (by omega)]
    · rw [if_neg hov]
      have h1 : value * 10 + (a - 48) ≤ INT64_MAX := by
        have := Nat.le_div_iff_mul_le (k := 10) (x := value) (y := INT64_MAX - (a - 48))
          (by omega)
        have h := this.mp (Nat.le_of_not_lt hov)
        unfold INT64_MAX at h ⊢
        omega
      have h3 : (value * 10 + (a - 48)) * 10 ^ l.length =
          value * (10 * 10 ^ l.length) + (a - 48) * 10 ^ l.length := by ring
      cases l with
      | nil =>
        have hnd : ¬ (pre.length + 1 < (pre ++ [a] ++ rest).length ∧
            is_digit ((pre ++ [a] ++ rest).getD (pre.length + 1) 0) = true) := by
          rintro ⟨hlt, hdg⟩
          rw [getD_eq_headD_drop] at hdg
          have hdrop : (pre ++ [a] ++ rest).drop (pre.length + 1) = rest := by
            have : pre.length + 1 = (pre ++ [a]).length := by simp
            rw [this, List.drop_left]
          rw [hdrop] at hdg
          cases rest with
          | nil => simp at hlt
          | cons c r =>
            have := hrest c rfl
            simp only [List.headD_cons] at hdg
            rw [this] at hdg
            cases hdg
        rw [if_neg hnd]
        simp only [List.length_nil, Nat.pow_zero, Nat.mul_one, dec_value, List.foldl_nil,
          Nat.add_zero, List.length_cons, Nat.zero_add] at h3 ⊢
        rw [if_pos h1]
      | cons b l' =>
        have hb := hd b (List.mem_cons_of_mem a (List.mem_cons_self b l'))
        have hyes : pre.length + 1 < (pre ++ a :: b :: l' ++ rest).length ∧
            is_digit ((pre ++ a :: b :: l' ++ rest).getD (pre.length + 1) 0) = true := by
          constructor
          · simp only [List.length_append, List.length_cons]; omega
          · rw [getD_eq_headD_drop]
            have hdrop : (pre ++ a :: b :: l' ++ rest).drop (pre.length + 1)
                = b :: l' ++ rest := by
              have h1 : pre ++ a :: b :: l' ++ rest = (pre ++ [a]) ++ (b :: l' ++ rest) := by
                simp
              have h2 : pre.length + 1 = (pre ++ [a]).length := by simp
              rw [h1, h2, List.drop_left]
            rw [hdrop]
            simpa using hb
        rw [if_pos hyes]
        have hlist : pre ++ a :: b :: l' ++ rest = (pre ++ [a]) ++ (b :: l') ++ rest := by simp
        have hlen : pre.length + 1 = (pre ++ [a]).length := by simp
        rw [hlist, hlen, ih (pre ++ [a]) m (value * 10 + (a - 48)) (by simp)
          (fun c hc => hd c (List.mem_cons_of_mem a hc)) hrest
          (by simp only [List.length_cons] at hn ⊢; omega)]
        have h4 : (pre ++ [a]).length + (b :: l').length = pre.length + (a :: b :: l').length := by
          simp only [List.length_append, List.length_cons, List.length_nil]; omega
        rw [h3, h4, Nat.add_assoc]

theorem consume_spaces_eq (ctx : context_t) (h : ctx.len = ctx.src.length) :
    consume_spaces ctx =
      { ctx with cur := ctx.cur + ((ctx.src.drop ctx.cur).takeWhile is_space).length } := by
  unfold consume_spaces
  rw [h, scan_while_eq is_space ctx.src _ ctx.cur (Nat.le_refl _)]

/-- At a byte that is not white space `consume_spaces` does nothing. -/
theorem consume_spaces_of_head (ctx : context_t) (h : ctx.len = ctx.src.length)
    (c : Nat) (tl : List Nat) (hd : ctx.src.drop ctx.cur = c :: tl) (hc : is_space c = false) :
    consume_spaces ctx = ctx := by
  rw [consume_spaces_eq ctx h, hd, List.takeWhile_cons, hc]
  rfl

theorem peek_of_drop (ctx : context_t) (c : Nat) (tl : List Nat)
    (hd : ctx.src.drop ctx.cur = c :: tl) : ctx.peek = c := by
  unfold context_t.peek
  rw [getD_eq_headD_drop, hd]
  rfl

theorem cur_lt_of_drop (src : List Nat) (cur c : Nat) (tl : List Nat)
    (hd : src.drop cur = c :: tl) : cur < src.length := by
  by_contra hge
  rw [List.drop_eq_nil_of_le (by omega)] at hd
  cases hd

/-- The allocation of a node in an arena that has room for it. -/
theorem alloc_node (arena : ejson_arena)
    (hroom : arena.used + node_pad arena.used + sizeof_ejson_value ≤ arena.size)
    (hsize : arena.size < SIZE_WIDTH) :
    alloc arena sizeof_ejson_value alignof_ejson_value =
      (some (arena.used + node_pad arena.used),
        { arena with used := arena.used + node_pad arena.used + sizeof_ejson_value }) := by
  unfold alloc
  have h7 : (alignof_ejson_value + SIZE_WIDTH - 1) % SIZE_WIDTH = 2 ^ 3 - 1 := by decide
  have hpad : ((SIZE_WIDTH - arena.used % SIZE_WIDTH) % SIZE_WIDTH) &&&
      ((alignof_ejson_value + SIZE_WIDTH - 1) % SIZE_WIDTH) = node_pad arena.used := by
    rw [h7, Nat.and_pow_two_sub_one_eq_mod]
    unfold node_pad SIZE_WIDTH sizeof_ejson_value at *
    omega
  simp only [hpad]
  unfold node_pad SIZE_WIDTH sizeof_ejson_value at *
  have h1 : (arena.used + (8 - arena.used % 8) % 8) % 2 ^ 64 =
      arena.used + (8 - arena.used % 8) % 8 := Nat.mod_eq_of_lt (by omega)
  have h2 : (arena.used + (8 - arena.used % 8) % 8 + 56) % 2 ^ 64 =
      arena.used + (8 - arena.used % 8) % 8 + 56 := Nat.mod_eq_of_lt (by omega)
  rw [h1, h2, if_neg (by omega)]

theorem make_val_of_room (ctx : context_t) (init : ejson_value)
    (hroom : ctx.arena.used + node_pad ctx.arena.used + sizeof_ejson_value ≤ ctx.arena.size)
    (hsize : ctx.arena.size < SIZE_WIDTH) :
    make_val ctx init = (some init, { ctx with arena :=
      { ctx.arena with used := ctx.arena.used + node_pad ctx.arena.used + sizeof_ejson_value } }) := by
  unfold make_val alloc_or_report
  rw [alloc_node ctx.arena hroom hsize]

/-- What `parse_num` does at a run of digits `ds` that is followed neither by a digit nor
by a dot. -/
theorem parse_num_run (ctx : context_t) (pre ds rest : List Nat)
    (hsrc : ctx.src = pre ++ ds ++ rest) (hlen : ctx.len = ctx.src.length)
    (hcur : ctx.cur = pre.length) (hne : ds ≠ []) (hd : ∀ c ∈ ds, is_digit c = true)
    (hrest : ∀ c, rest.head? = some c → is_digit c = false ∧ c ≠ 46) :
    parse_num ctx =
      if dec_value ds ≤ INT64_MAX then
        make_val_for_int { ctx with cur := pre.length + ds.length } (dec_value ds)
      else (none, ctx.report (bytes "Overflow")) := by
  have hdrop : ctx.src.drop ctx.cur = ds ++ rest := by
    rw [hsrc, hcur, List.append_assoc, List.drop_left]
  have hscan : scan_while is_digit ctx.src ctx.len (ctx.len - ctx.cur) ctx.cur =
      pre.length + ds.length := by
    rw [hlen, scan_while_eq is_digit ctx.src _ ctx.cur (Nat.le_refl _), hdrop,
      takeWhile_append_of_all is_digit ds rest hd (fun c hc => (hrest c hc).1), hcur]
  have hnodot : ¬ (pre.length + ds.length < ctx.len ∧
      ctx.src.getD (pre.length + ds.length) 0 = 46) := by
    rintro ⟨hlt, h46⟩
    rw [getD_eq_headD_drop, hsrc] at h46
    have : pre.length + ds.length = (pre ++ ds).length := by simp
    rw [this, List.drop_left] at h46
    cases rest with
    | nil => rw [hlen, hsrc] at hlt; simp at hlt
    | cons c r => exact (hrest c rfl).2 h46
  unfold parse_num
  simp only [hscan]
  rw [if_neg hnodot]
  unfold parse_int
  have hloop : parse_int_loop ctx.src ctx.len (ctx.len - ctx.cur) ctx.cur 0 =
      if dec_value ds ≤ INT64_MAX then some (pre.length + ds.length, dec_value ds)
      else none := by
    have h := parse_int_loop_run pre rest ds (ctx.len - ctx.cur) 0 hne hd
      (fun c hc => (hrest c hc).1)
      (by rw [hlen, hsrc, hcur]; simp only [List.length_append]; omega)
    simp only [Nat.zero_mul, Nat.zero_add] at h
    rw [hlen, hcur, hsrc]
    rw [hlen, hcur, hsrc] at h
    exact h
  rw [hloop]
  by_cases hle : dec_value ds ≤ INT64_MAX
  · rw [if_pos hle, if_pos hle]
  · rw [if_neg hle, if_neg hle]

/-- The dispatch of `parse_any` at a byte `c` that is not white space. -/
theorem parse_any_at (fuel : Nat) (ctx : context_t) (c : Nat) (tl : List Nat)
    (hlen : ctx.len = ctx.src.length) (hd : ctx.src.drop ctx.cur = c :: tl)
    (hc : is_space c = false) :
    parse_any (fuel + 1) ctx =
      if c = 34 ∨ (c = 39 ∧ ctx.config.allow_single_quoted_strings = true) then
        parse_res.of (parse_str_2 ctx)
      else if c = 123 then parse_obj (parse_any fuel) fuel ctx
      else if c = 91 then parse_arr (parse_any fuel) fuel ctx
      else if is_digit c then parse_res.of (parse_num ctx)
      else parse_res.of (parse_oth ctx) := by
  have hlt : ctx.cur < ctx.len := hlen ▸ cur_lt_of_drop ctx.src ctx.cur c tl hd
  rw [parse_any]
  simp only [consume_spaces_of_head ctx hlen c tl hd hc, peek_of_drop ctx c tl hd]
  rw [if_neg (Nat.ne_of_lt hlt)]

theorem digit_not_space (c : Nat) (h : is_digit c = true) : is_space c = false := by
  simp only [is_digit, Bool.and_eq_true, decide_eq_true_eq] at h
  obtain ⟨h1, h2⟩ := h
  interval_cases c <;> rfl

/-- What `ejson_parse2` does on a source that begins with a run of digits `ds` followed
neither by a digit nor by a dot. -/
theorem ejson_parse2_digits (ds rest : List Nat) (error : Option (List Nat))
    (arena : ejson_arena) (config : ejson_config) (hne : ds ≠ [])
    (hd : ∀ c ∈ ds, is_digit c = true)
    (hrest : ∀ c, rest.head? = some c → is_digit c = false ∧ c ≠ 46) :
    ejson_parse2 (ds ++ rest) error arena config =
      if dec_value ds ≤ INT64_MAX then
        match make_val_for_int
          { error := error, arena := arena, src := ds ++ rest, len := (ds ++ rest).length,
            cur := ds.length, config := config } (dec_value ds) with
        | (none, ctx) =>
          some { root := none, end_ := none, error := ctx.error,
                 arena := { ctx.arena with used := arena.used } }
        | (some root, ctx) =>
          some { root := some root, end_ := some ctx.cur, error := ctx.error,
                 arena := ctx.arena }
      else
        some { root := none, end_ := none, error := report error (bytes "Overflow"),
               arena := arena } := by
  obtain ⟨a, l, rfl⟩ : ∃ a l, ds = a :: l := by
    cases ds with
    | nil => exact (hne rfl).elim
    | cons a l => exact ⟨a, l, rfl⟩
  have ha := hd a (List.mem_cons_self a l)
  have ha' := ha
  simp only [is_digit, Bool.and_eq_true, decide_eq_true_eq] at ha'
  unfold ejson_parse2
  simp only []
  rw [parse_any_at (a :: l ++ rest).length
    { error := error, arena := arena, src := a :: l ++ rest, len := (a :: l ++ rest).length,
      cur := 0, config := config } a (l ++ rest) rfl rfl (digit_not_space a ha)]
  rw [if_neg (by omega), if_neg (by omega), if_neg (by omega), if_pos ha]
  rw [parse_num_run _ [] (a :: l) rest rfl rfl rfl hne hd hrest]
  by_cases hle : dec_value (a :: l) ≤ INT64_MAX
  · rw [if_pos hle, if_pos hle]
    simp only [List.length_nil, Nat.zero_add]
    cases make_val_for_int
      { error := error, arena := arena, src := a :: l ++ rest, cur := (a :: l).length,
        len := (a :: l ++ rest).length, config := config } (dec_value (a :: l)) with
    | mk r c => cases r <;> rfl
  · rw [if_neg hle, if_neg hle]
    rfl

/-! ## C3: an integer literal above `INT64_MAX` -/

/-- C3: for every source made of a non-empty run of decimal digits `ds` whose decimal value
exceeds 2^63-1 (followed by nothing, or by text `rest` that starts with neither a digit nor
a dot), every error object, arena and configuration, `ejson_parse2` returns no value, the
error object (when there is one) holds the text "Overflow", and the arena is unchanged. -/
theorem parse_int_overflow (ds rest : List Nat) (error : Option (List Nat))
    (arena : ejson_arena) (config : ejson_config) (hne : ds ≠ [])
    (hd : ∀ c ∈ ds, is_digit c = true)
    (hrest : ∀ c, rest.head? = some c → is_digit c = false ∧ c ≠ 46)
    (hbig : 2 ^ 63 - 1 < dec_value ds) :
    ejson_parse2 (ds ++ rest) error arena config =
      some { root := none, end_ := none,
             error := error.map (fun _ => bytes "Overflow"), arena := arena } := by
  rw [ejson_parse2_digits ds rest error arena config hne hd hrest,
    if_neg (by unfold INT64_MAX; omega)]
  cases error <;> rfl

/-- C3 at the literal 9223372036854775808 (2^63), alone in the source, with an error object
and a partly used arena. -/
theorem parse_int_overflow_witness :
    ejson_parse2 (bytes "9223372036854775808" ++ []) (some []) ⟨4096, 120⟩
        EJSON_DEFAULT_CONFIGS =
      some { root := none, end_ := none,
             error := (some ([] : List Nat)).map (fun _ => bytes "Overflow"),
             arena := ⟨4096, 120⟩ } :=
  parse_int_overflow (bytes "9223372036854775808") [] (some []) ⟨4096, 120⟩
    EJSON_DEFAULT_CONFIGS (by decide) (by decide) (by simp) (by decide)

/-! ## C4: an integer literal within range -/

/-- C4: for every source that begins with a non-empty run `ds` of decimal digits (leading
zeros allowed) whose decimal value is at most 2^63-1, followed by nothing or by text `rest`
that starts with neither a digit nor a dot, and every arena with room for one node (56
bytes after the padding to a multiple of 8), `ejson_parse2` returns a Number whose integer
field is that decimal value, reports `ds.length` bytes consumed, and has taken the node
from the arena. -/
theorem parse_int_value (ds rest : List Nat) (error : Option (List Nat))
    (arena : ejson_arena) (config : ejson_config) (hne : ds ≠ [])
    (hd : ∀ c ∈ ds, is_digit c = true)
    (hrest : ∀ c, rest.head? = some c → is_digit c = false ∧ c ≠ 46)
    (hval : dec_value ds ≤ 2 ^ 63 - 1)
    (hroom : arena.used + node_pad arena.used + sizeof_ejson_value ≤ arena.size)
    (hsize : arena.size < SIZE_WIDTH) :
    ejson_parse2 (ds ++ rest) error arena config =
      some { root := some (.number [] (dec_value ds) (Double.ofInt (dec_value ds))),
             end_ := some ds.length, error := error,
             arena := { arena with
               used := arena.used + node_pad arena.used + sizeof_ejson_value } } := by
  rw [ejson_parse2_digits ds rest error arena config hne hd hrest,
    if_pos (by unfold INT64_MAX; omega)]
  unfold make_val_for_int
  rw [make_val_of_room _ _ hroom hsize]
  rfl

/-- C4 at the literal 9223372036854775807 (2^63-1): it is accepted with that value, all 19
bytes consumed. -/
theorem parse_int_value_witness :
    ejson_parse2 (bytes "9223372036854775807" ++ []) none ⟨64, 0⟩ EJSON_DEFAULT_CONFIGS =
      some { root := some (.number [] (dec_value (bytes "9223372036854775807"))
               (Double.ofInt (dec_value (bytes "9223372036854775807")))),
             end_ := some (bytes "9223372036854775807").length, error := none,
             arena := { (⟨64, 0⟩ : ejson_arena) with
               used := 0 + node_pad 0 + sizeof_ejson_value } } ∧
      dec_value (bytes "9223372036854775807") = 9223372036854775807 :=
  ⟨parse_int_value (bytes "9223372036854775807") [] none ⟨64, 0⟩ EJSON_DEFAULT_CONFIGS
    (by decide) (by decide) (by simp) (by decide) (by decide) (by decide), by decide⟩

/-! ## C8: the capture directive -/

theorem unpack_eq (ctx : Match.context_t) (val : ejson_value) (h : ctx.cur + 1 ≠ ctx.len) :
    Match.unpack ctx val =
      match type_letter (ctx.fmt.getD (ctx.cur + 1) 0) with
      | none => (.EJSON_BADFORMAT, ctx.advance)
      | some t =>
        if val.type = t then
          (.EJSON_MATCH, { ctx.advance.advance with out := ctx.out ++ [val] })
        else (.EJSON_NOMATCH, ctx.advance.advance) := by
  unfold Match.unpack type_letter
  simp only [Match.context_t.advance, Match.context_t.peek, if_neg h]
  split_ifs <;> simp_all

theorem match_and_unpack_dollar (v : ejson_value) (x : Nat) (hx : x ≠ 0) :
    ejson_match_and_unpack v [36, x] =
      match Match.unpack { fmt := [36, x], len := 2, cur := 0, out := [] } v with
      | (r, ctx) => .ret r ctx := by
  have hlen : strlen [36, x] = 2 := by
    simp [strlen, List.takeWhile_cons, hx]
  unfold ejson_match_and_unpack
  rw [hlen]
  rfl

theorem match_and_unpack_dollar_zero (v : ejson_value) :
    ejson_match_and_unpack v [36, 0] =
      .ret .EJSON_BADFORMAT { fmt := [36, 0], len := 1, cur := 1, out := [] } := by
  rfl

/-- C8: for every value `v` and every pattern made of `$` and one more byte `x`: the result
is BadFormat when `x` is none of `a`, `o`, `s`, `n`, `b`, whatever the type of `v`; otherwise
it is Match with exactly `v` stored as a capture when the type of `v` is the one `x` names,
and NoMatch with nothing stored when it is not.  Inside the scenario tree the pattern
`[$n, true, {'name': $n}]` gives NoMatch and `[$z, true, {'name': $b}]` gives BadFormat. -/
theorem unpack_directive (v : ejson_value) (x : Nat) :
    (ejson_match_and_unpack v [36, x]).result =
      (match type_letter x with
       | none => some .EJSON_BADFORMAT
       | some t => if v.type = t then some .EJSON_MATCH else some .EJSON_NOMATCH) ∧
    (ejson_match_and_unpack v [36, x]).captures =
      (match type_letter x with
       | none => []
       | some t => if v.type = t then [v] else []) ∧
    (ejson_match_and_unpack scenario_tree
      (bytes "[$n, true, \x7b'name': $n\x7d]")).result = some .EJSON_NOMATCH ∧
    (ejson_match_and_unpack scenario_tree
      (bytes "[$z, true, \x7b'name': $b\x7d]")).result = some .EJSON_BADFORMAT := by
  refine ⟨?_, ?_, by decide, by decide⟩
  · by_cases hx : x = 0
    · subst hx
      rw [match_and_unpack_dollar_zero]
      rfl
    · rw [match_and_unpack_dollar v x hx, unpack_eq _ _ (by show 0 + 1 ≠ 2; decide)]
      show (match (match type_letter x with
        | none => _
        | some t => _) with | (r, ctx) => Match.match_res.ret r ctx).result = _
      cases type_letter x with
      | none => rfl
      | some t =>
        simp only []
        split <;> rfl
  · by_cases hx : x = 0
    · subst hx
      rw [match_and_unpack_dollar_zero]
      rfl
    · rw [match_and_unpack_dollar v x hx, unpack_eq _ _ (by show 0 + 1 ≠ 2; decide)]
      show (match (match type_letter x with
        | none => _
        | some t => _) with | (r, ctx) => Match.match_res.ret r ctx).captures = _
      cases type_letter x with
      | none => rfl
      | some t =>
        simp only []
        split <;> rfl

/-- The scenario tree is what `ejson_parse` returns for the scenario source. -/
theorem scenario_tree_parsed :
    (ejson_parse scenario_src none ⟨65536, 0⟩).bind (fun o => o.root) = some scenario_tree := by
  set_option maxRecDepth 100000 in rfl

/-! ## C9: a literal in the pattern against a value that is not composite -/

theorem strlen_eq_length (p : List Nat) (h0 : ∀ b ∈ p, b ≠ 0) : strlen p = p.length := by
  unfold strlen
  have : p.takeWhile (fun b => b != 0) = p := by
    rw [List.takeWhile_eq_self_iff]
    intro b hb
    simpa using h0 b hb
  rw [this]

theorem match_consume_spaces_eq (ctx : Match.context_t) (h : ctx.len = ctx.fmt.length) :
    Match.consume_spaces ctx =
      { ctx with cur := ctx.cur + ((ctx.fmt.drop ctx.cur).takeWhile is_space).length } := by
  unfold Match.consume_spaces
  rw [h, scan_while_eq is_space ctx.fmt _ ctx.cur (Nat.le_refl _)]

theorem skip_spaces_head (p : List Nat) (c : Nat) (tl : List Nat)
    (h : skip_spaces p = c :: tl) : is_space c = false := by
  unfold skip_spaces at h
  induction p with
  | nil => simp at h
  | cons a l ih =>
    by_cases ha : is_space a = true
    · simp only [List.takeWhile_cons, ha, if_true, List.length_cons, List.drop_succ_cons] at h
      exact ih h
    · simp only [List.takeWhile_cons, ha, if_false, List.length_nil, List.drop_zero] at h
      cases h
      simpa using ha

theorem ejson_parse2_nil (error : Option (List Nat)) (arena : ejson_arena)
    (config : ejson_config) :
    (ejson_parse2 [] error arena config).bind (fun o => o.root) = none := by
  rfl

theorem parse_oth_not_alpha (ctx : context_t) (h : is_alpha ctx.peek = false) :
    parse_res.of (parse_oth ctx) = .null (parse_oth ctx).2 := by
  unfold parse_oth
  simp only [h, if_true]
  split <;> rfl

/-- A source whose first byte is `?` or `$` is not decoded by the parser. -/
theorem ejson_parse2_wild (c : Nat) (tl : List Nat) (hc : c = 63 ∨ c = 36)
    (error : Option (List Nat)) (arena : ejson_arena) (config : ejson_config) :
    (ejson_parse2 (c :: tl) error arena config).bind (fun o => o.root) = none := by
  have hsp : is_space c = false := by rcases hc with rfl | rfl <;> rfl
  have hdg : is_digit c = false := by rcases hc with rfl | rfl <;> rfl
  have hal : is_alpha c = false := by rcases hc with rfl | rfl <;> rfl
  unfold ejson_parse2
  simp only []
  rw [parse_any_at (c :: tl).length
    { error := error, arena := arena, src := c :: tl, len := (c :: tl).length,
      cur := 0, config := config } c tl rfl rfl hsp]
  rw [if_neg (by rcases hc with rfl | rfl <;> simp), if_neg (by rcases hc with rfl | rfl <;> simp),
    if_neg (by rcases hc with rfl | rfl <;> simp), hdg]
  simp only [Bool.false_eq_true, if_false]
  rw [parse_oth_not_alpha
    { error := error, arena := arena, src := c :: tl, len := (c :: tl).length,
      cur := 0, config := config } hal]
  rfl

theorem ejson_parse2_end (src : List Nat) (error : Option (List Nat)) (arena : ejson_arena)
    (config : ejson_config) (out : parse_out) (w : ejson_value)
    (h : ejson_parse2 src error arena config = some out) (hw : out.root = some w) :
    ∃ n, out.end_ = some n := by
  unfold ejson_parse2 at h
  simp only [] at h
  split at h
  · cases h
  · simp only [Option.some.injEq] at h
    subst h
    cases hw
  · simp only [Option.some.injEq] at h
    subst h
    exact ⟨_, rfl⟩

theorem ejson_valcmp_scalar (v w : ejson_value) (hv : v.is_scalar = true) :
    ∃ b, ejson_valcmp v w = some b := by
  cases v with
  | array _ _ _ => cases hv
  | object _ _ _ => cases hv
  | null _ => cases w <;> exact ⟨_, rfl⟩
  | number _ _ _ => cases w <;> exact ⟨_, rfl⟩
  | string _ _ => cases w <;> exact ⟨_, rfl⟩
  | boolean _ _ => cases w <;> exact ⟨_, rfl⟩

/-- C9: for every value `v` that is not composite and every pattern `p` (a C string, so
without a zero byte) whose text after the leading white space is decoded by the parser
(single-quoted strings enabled, scratch arena of 1024 bytes, no error object) to a value
`w`, `ejson_match_and_unpack` returns Match when `ejson_valcmp(v, w)` is true and NoMatch
otherwise, and stores no capture. -/
theorem match_literal (v w : ejson_value) (p : List Nat) (out : parse_out)
    (h0 : ∀ b ∈ p, b ≠ 0) (hv : v.is_scalar = true)
    (hparse : ejson_parse2 (skip_spaces p) none ⟨1024, 0⟩ fmt_config = some out)
    (hw : out.root = some w) :
    (ejson_match_and_unpack v p).result =
      some (if ejson_valcmp v w = some true then .EJSON_MATCH else .EJSON_NOMATCH) ∧
    (ejson_match_and_unpack v p).captures = [] := by
  obtain ⟨num, hnum⟩ := ejson_parse2_end _ _ _ _ out w hparse hw
  have hroot : (ejson_parse2 (skip_spaces p) none ⟨1024, 0⟩ fmt_config).bind
      (fun o => o.root) = some w := by rw [hparse]; exact hw
  -- the text after the white space starts with a byte that is none of space, `?`, `$`
  obtain ⟨c, tl, hctl⟩ : ∃ c tl, skip_spaces p = c :: tl := by
    cases hs : skip_spaces p with
    | nil => rw [hs, ejson_parse2_nil] at hroot; cases hroot
    | cons c tl => exact ⟨c, tl, rfl⟩
  have hc63 : c ≠ 63 := by
    rintro rfl
    rw [hctl, ejson_parse2_wild 63 tl (Or.inl rfl)] at hroot
    cases hroot
  have hc36 : c ≠ 36 := by
    rintro rfl
    rw [hctl, ejson_parse2_wild 36 tl (Or.inr rfl)] at hroot
    cases hroot
  have hlen := strlen_eq_length p h0
  have hdrop : p.drop (0 + (p.takeWhile is_space).length) = c :: tl := by
    rw [Nat.zero_add]; exact hctl
  have hlt : 0 + (p.takeWhile is_space).length < p.length :=
    cur_lt_of_drop p _ c tl hdrop
  have hpeek : p.getD (0 + (p.takeWhile is_space).length) 0 = c := by
    rw [getD_eq_headD_drop, hdrop]; rfl
  have hsub : (p.drop (0 + (p.takeWhile is_space).length)).take
      (p.length - (0 + (p.takeWhile is_space).length)) = skip_spaces p := by
    rw [List.take_of_length_le (by simp)]
    rw [Nat.zero_add]; rfl
  have harr : v.type ≠ .EJSON_ARRAY := by
    intro h; simp [ejson_value.is_scalar, h] at hv
  have hobj : v.type ≠ .EJSON_OBJECT := by
    intro h; simp [ejson_value.is_scalar, h] at hv
  obtain ⟨b, hb⟩ := ejson_valcmp_scalar v w hv
  have hrun : ejson_match_and_unpack v p =
      .ret (if ejson_valcmp v w = some true then .EJSON_MATCH else .EJSON_NOMATCH)
        { fmt := p, len := p.length, cur := 0 + (p.takeWhile is_space).length + num,
          out := [] } := by
    unfold ejson_match_and_unpack
    rw [hlen, Match.match_and_unpack]
    simp only [match_consume_spaces_eq { fmt := p, cur := 0, len := p.length, out := [] } rfl,
      List.drop_zero, Match.context_t.peek, hpeek]
    rw [if_neg (Nat.ne_of_lt hlt), if_neg hc63, if_neg hc36, if_neg harr, if_neg hobj]
    unfold Match.match_ Match.parse_next_value_in_fmt
    simp only [hsub]
    have hcfg : ({ EJSON_DEFAULT_CONFIGS with allow_single_quoted_strings := true } :
        ejson_config) = fmt_config := rfl
    rw [hcfg, hparse]
    simp only [hw, hnum, hb]
    cases b <;> simp
  rw [hrun]
  exact ⟨rfl, rfl⟩

/-- C9 at the Boolean `true` and the pattern ` true`: the literal decodes to the Boolean
`true`, the values compare equal, and the result is Match without captures. -/
theorem match_literal_witness :
    (ejson_match_and_unpack (.boolean [] true) (bytes " true")).result =
      some (if ejson_valcmp (.boolean [] true) (.boolean [] true) = some true
        then .EJSON_MATCH else .EJSON_NOMATCH) ∧
    (ejson_match_and_unpack (.boolean [] true) (bytes " true")).captures = [] :=
  match_literal (.boolean [] true) (.boolean [] true) (bytes " true")
    { root := some (.boolean [] true), end_ := some 4, error := none, arena := ⟨1024, 56⟩ }
    (by decide) (by decide) (by rfl) (by rfl)

/-! ## C10: a literal that the parser does not decode -/

/-- For a value that is not composite and a pattern whose text after the leading white space
starts with a byte other than `?` and `$` and is not decoded by the parser, the call does
not return: `match` passes the `NULL` it got from the parser to `ejson_valcmp`. -/
theorem match_undecoded (v : ejson_value) (p : List Nat) (c : Nat) (tl : List Nat)
    (h0 : ∀ b ∈ p, b ≠ 0) (hv : v.is_scalar = true) (hctl : skip_spaces p = c :: tl)
    (hc63 : c ≠ 63) (hc36 : c ≠ 36)
    (hparse : ((ejson_parse2 (skip_spaces p) none ⟨1024, 0⟩ fmt_config).bind
      (fun o => o.root)).isNone = true) :
    ejson_match_and_unpack v p = .crash := by
  have hlen := strlen_eq_length p h0
  have hdrop : p.drop (0 + (p.takeWhile is_space).length) = c :: tl := by
    rw [Nat.zero_add]; exact hctl
  have hlt : 0 + (p.takeWhile is_space).length < p.length :=
    cur_lt_of_drop p _ c tl hdrop
  have hpeek : p.getD (0 + (p.takeWhile is_space).length) 0 = c := by
    rw [getD_eq_headD_drop, hdrop]; rfl
  have hsub : (p.drop (0 + (p.takeWhile is_space).length)).take
      (p.length - (0 + (p.takeWhile is_space).length)) = skip_spaces p := by
    rw [List.take_of_length_le (by simp)]
    rw [Nat.zero_add]; rfl
  have harr : v.type ≠ .EJSON_ARRAY := by
    intro h; simp [ejson_value.is_scalar, h] at hv
  have hobj : v.type ≠ .EJSON_OBJECT := by
    intro h; simp [ejson_value.is_scalar, h] at hv
  obtain ⟨out, hout⟩ := ejson_parse2_returns (skip_spaces p) none ⟨1024, 0⟩ fmt_config
  have hroot : out.root = none := by
    rw [hout] at hparse
    cases hr : out.root with
    | none => rfl
    | some w => simp [hr] at hparse
  unfold ejson_match_and_unpack
  rw [hlen, Match.match_and_unpack]
  simp only [match_consume_spaces_eq { fmt := p, cur := 0, len := p.length, out := [] } rfl,
    List.drop_zero, Match.context_t.peek, hpeek]
  rw [if_neg (Nat.ne_of_lt hlt), if_neg hc63, if_neg hc36, if_neg harr, if_neg hobj]
  unfold Match.match_ Match.parse_next_value_in_fmt
  simp only [hsub]
  have hcfg : ({ EJSON_DEFAULT_CONFIGS with allow_single_quoted_strings := true } :
      ejson_config) = fmt_config := rfl
  rw [hcfg, hout]
  simp only [hroot]

/-- C10 (as the code behaves): against the Boolean `true`, the malformed pattern `@` and the
pattern `[1,2,...,18]`, whose 19 nodes exhaust the 1024-byte pool, are not decoded by the
parser (it returns `NULL` in both cases), and `match` does not return BadFormat: its test
looks at `val` instead of `val2`, so the `NULL` reaches `ejson_valcmp` and is
dereferenced. -/
theorem match_undecoded_literal :
    ((ejson_parse2 (bytes "@") none ⟨1024, 0⟩ fmt_config).bind (fun o => o.root)).isNone
      = true ∧
    ejson_match_and_unpack (.boolean [] true) (bytes "@") = .crash ∧
    ((ejson_parse2 big_literal none ⟨1024, 0⟩ fmt_config).bind (fun o => o.root)).isNone
      = true ∧
    ejson_match_and_unpack (.boolean [] true) big_literal = .crash :=
  ⟨by decide,
   match_undecoded (.boolean [] true) (bytes "@") 64 [] (by decide) (by decide) (by decide)
     (by decide) (by decide) (by decide),
   by decide,
   match_undecoded (.boolean [] true) big_literal 91 (big_literal.drop 1) (by decide)
     (by decide) (by decide) (by decide) (by decide) (by decide)⟩

/-! ## C5: the captures and the directives of the pattern -/

theorem ejson_parse2_end_le (src : List Nat) (error : Option (List Nat))
    (arena : ejson_arena) (config : ejson_config) (out : parse_out) (n : Nat)
    (h : ejson_parse2 src error arena config = some out) (hn : out.end_ = some n) :
    n ≤ src.length := by
  have hg := parse_any_good (src.length + 1)
    { error := error, arena := arena, src := src, len := src.length, cur := 0,
      config := config } (Nat.zero_le _) (by simp only []; omega)
  unfold ejson_parse2 at h
  simp only [] at h
  split at h
  · cases h
  · simp only [Option.some.injEq] at h
    subst h
    cases hn
  · next root c heq =>
    simp only [Option.some.injEq] at h
    subst h
    simp only [Option.some.injEq] at hn
    subst hn
    rw [heq] at hg
    have := hg.1.cur_le
    rw [hg.1.len] at this
    exact this

theorem ejson_seekbykey2_mem (value child : ejson_value) (key : List Nat) (size : Nat)
    (h : ejson_seekbykey2 value key size = some child) : child ∈ value.children := by
  unfold ejson_seekbykey2 at h
  split at h
  · cases h
  · exact List.mem_of_find?_eq_some h

theorem TokenAt.token_unique {fmt : List Nat} {len lo p p' : Nat} (h : TokenAt fmt len lo p)
    (h' : TokenAt fmt len lo p') : p' = p := by
  obtain ⟨h1, _, h3, h4⟩ := h
  obtain ⟨h1', _, h3', h4'⟩ := h'
  rcases Nat.lt_trichotomy p p' with hlt | heq | hgt
  · have := h3' p h1 hlt
    rw [h4] at this
    cases this
  · exact heq.symm
  · have := h3 p' h1' hgt
    rw [h4'] at this
    cases this

theorem TokenAt.token_absorb {fmt : List Nat} {len lo lo' p : Nat} (h : TokenAt fmt len lo p)
    (hle : lo' ≤ lo) (hws : ∀ i, lo' ≤ i → i < lo → is_space (fmt.getD i 0) = true) :
    TokenAt fmt len lo' p := by
  obtain ⟨h1, h2, h3, h4⟩ := h
  refine ⟨Nat.le_trans hle h1, h2, ?_, h4⟩
  intro i hi hip
  by_cases hl : i < lo
  · exact hws i hi hl
  · exact h3 i (Nat.le_of_not_lt hl) hip

theorem TokenAt.token_trans {fmt : List Nat} {len a b c : Nat} (h : TokenAt fmt len a b)
    (h' : TokenAt fmt len b c) : TokenAt fmt len a c :=
  h'.token_absorb h.1 h.2.2.1

theorem scan_while_spec (pr : Nat → Bool) (src : List Nat) (len : Nat) :
    ∀ n cur, len - cur ≤ n →
      (∀ i, cur ≤ i → i < scan_while pr src len n cur → pr (src.getD i 0) = true) ∧
      (scan_while pr src len n cur < len →
        pr (src.getD (scan_while pr src len n cur) 0) = false) := by
  intro n
  induction n with
  | zero =>
    intro cur hn
    simp only [scan_while]
    exact ⟨fun i h1 h2 => by omega, fun h => by omega⟩
  | succ n ih =>
    intro cur hn
    rw [scan_while]
    split
    · next hc =>
      obtain ⟨h1, h2⟩ := ih (cur + 1) (by omega)
      refine ⟨?_, h2⟩
      intro i hi hlt
      by_cases he : i = cur
      · subst he; exact hc.2
      · exact h1 i (by omega) hlt
    · next hc =>
      refine ⟨fun i h1 h2 => by omega, ?_⟩
      intro hlt
      cases hp : pr (src.getD cur 0) with
      | false => rfl
      | true => exact absurd ⟨hlt, hp⟩ hc

/-- After `consume_spaces` the cursor of the matcher is at the next token, unless the pattern
has ended. -/
theorem match_consume_token (ctx : Match.context_t) (hle : ctx.cur ≤ ctx.len)
    (hne : (Match.consume_spaces ctx).cur ≠ (Match.consume_spaces ctx).len) :
    TokenAt ctx.fmt ctx.len ctx.cur (Match.consume_spaces ctx).cur := by
  have hs := scan_while_spec is_space ctx.fmt ctx.len (ctx.len - ctx.cur) ctx.cur
    (Nat.le_refl _)
  have hge := scan_while_ge is_space ctx.fmt ctx.len (ctx.len - ctx.cur) ctx.cur
  have hle' := scan_while_le is_space ctx.fmt ctx.len (ctx.len - ctx.cur) ctx.cur hle
  have hlt : scan_while is_space ctx.fmt ctx.len (ctx.len - ctx.cur) ctx.cur < ctx.len :=
    Nat.lt_of_le_of_ne hle' hne
  exact ⟨hge, hlt, hs.1, hs.2 hlt⟩

theorem Matched.matched_le {fmt : List Nat} {len : Nat} {t : match_target} {lo hi : Nat}
    {ds : List (Nat × ejson_value)} (h : Matched fmt len t lo hi ds) : lo ≤ hi := by
  induction h with
  | wild ht _ => have := ht.1; omega
  | capture ht _ _ _ => have := ht.1; omega
  | literal ht _ _ _ _ _ _ => have := ht.1; omega
  | array ht _ _ _ ih => have := ht.1; omega
  | object ht _ _ _ ih => have := ht.1; omega
  | elems_nil => exact Nat.le_refl _
  | elems_close _ ht _ ih => have := ht.1; omega
  | elems_next _ ht _ _ _ ih1 ih2 => have := ht.1; omega
  | members_close ht _ _ ht2 _ _ ht3 _ ih =>
    have := ht.1; have := ht2.1; have := ht3.1; omega
  | members_next ht _ _ ht2 _ _ ht3 _ _ ih1 ih2 =>
    have := ht.1; have := ht2.1; have := ht3.1; omega

/-- White space in front of a pattern belongs to it. -/
theorem Matched.matched_absorb {fmt : List Nat} {len : Nat} {v : ejson_value} {lo lo' hi : Nat}
    {ds : List (Nat × ejson_value)} (h : Matched fmt len (.value v) lo hi ds)
    (hle : lo' ≤ lo) (hws : ∀ i, lo' ≤ i → i < lo → is_space (fmt.getD i 0) = true) :
    Matched fmt len (.value v) lo' hi ds := by
  cases h with
  | wild ht h1 => exact .wild (ht.token_absorb hle hws) h1
  | capture ht h1 h2 h3 => exact .capture (ht.token_absorb hle hws) h1 h2 h3
  | literal ht h1 h2 h3 h4 h5 h6 => exact .literal (ht.token_absorb hle hws) h1 h2 h3 h4 h5 h6
  | array ht h1 h2 h3 => exact .array (ht.token_absorb hle hws) h1 h2 h3
  | object ht h1 h2 h3 => exact .object (ht.token_absorb hle hws) h1 h2 h3

theorem unpack_went (ctx c : Match.context_t) (val : ejson_value) (lo : Nat)
    (htok : TokenAt ctx.fmt ctx.len lo ctx.cur) (hpk : ctx.peek = 36)
    (h : Match.unpack ctx val = (.EJSON_MATCH, c)) : Match.Went (.value val) lo ctx c := by
  unfold Match.unpack at h
  simp only [] at h
  split at h
  · cases h
  · next hne =>
    have hlt : ctx.cur + 1 < ctx.len := by
      have h2 := htok.2.1
      have hne' : ctx.cur + 1 ≠ ctx.len := hne
      omega
    split at h
    · cases h
    · next expected hexp =>
      split at h
      · cases h
      · next hty =>
        have hty' : val.type = expected := by
          by_contra hcon; exact hty hcon
        simp only [Prod.mk.injEq, true_and] at h
        subst h
        refine ⟨rfl, rfl, ?_, [(ctx.cur, val)], ?_, rfl⟩
        · show ctx.cur + 1 + 1 ≤ ctx.len
          omega
        · refine Matched.capture htok hpk hlt ?_
          rw [hty']
          unfold type_letter
          simp only [Match.context_t.advance, Match.context_t.peek] at hexp ⊢
          exact hexp

theorem match_went (ctx c : Match.context_t) (val : ejson_value) (lo : Nat)
    (htok : TokenAt ctx.fmt ctx.len lo ctx.cur) (h63 : ctx.peek ≠ 63) (h36 : ctx.peek ≠ 36)
    (harr : val.type ≠ .EJSON_ARRAY) (hobj : val.type ≠ .EJSON_OBJECT)
    (h : Match.match_ ctx val = .ret .EJSON_MATCH c) : Match.Went (.value val) lo ctx c := by
  unfold Match.match_ at h
  split at h
  · cases h
  · next val2 c1 hp =>
    split at h
    · cases h
    · next w =>
      split at h
      · cases h
      · next hcmp =>
        simp only [Match.match_res.ret.injEq, true_and] at h
        subst h
        unfold Match.parse_next_value_in_fmt at hp
        simp only [] at hp
        split at hp
        · cases hp
        · next res hres =>
          split at hp
          · next key num hroot hend =>
            simp only [Option.some.injEq, Prod.mk.injEq] at hp
            obtain ⟨hw, rfl⟩ := hp
            subst hw
            have hnum := ejson_parse2_end_le _ _ _ _ res num hres hend
            simp only [List.length_take, List.length_drop] at hnum
            have h2 := htok.2.1
            refine ⟨rfl, rfl, ?_, [], ?_, by simp⟩
            · show ctx.cur + num ≤ ctx.len
              omega
            · exact Matched.literal htok h63 h36 harr hobj ⟨res, hres, hroot, hend⟩ hcmp
          · simp only [Option.some.injEq, Prod.mk.injEq] at hp
            obtain ⟨hw, _⟩ := hp
            cases hw
      · cases h

theorem match_and_unpack_arr_loop_went
    (M : Match.context_t → ejson_value → Match.match_res)
    (hrec : ∀ ctx v c, ctx.cur ≤ ctx.len → M ctx v = .ret .EJSON_MATCH c →
      Match.Went (.value v) ctx.cur ctx c) :
    ∀ (cs : List ejson_value) (ctx c : Match.context_t), ctx.cur ≤ ctx.len →
      Match.match_and_unpack_arr_loop M cs ctx = .ret .EJSON_MATCH c →
      Match.Went (.elems cs) ctx.cur ctx c := by
  intro cs
  induction cs with
  | nil =>
    intro ctx c hle h
    simp only [Match.match_and_unpack_arr_loop, Match.match_res.ret.injEq, true_and] at h
    subst h
    exact ⟨rfl, rfl, hle, [], Matched.elems_nil, by simp⟩
  | cons child rest ih =>
    intro ctx c hle h
    unfold Match.match_and_unpack_arr_loop at h
    simp only [] at h
    have hge1 := scan_while_ge is_space ctx.fmt ctx.len (ctx.len - ctx.cur) ctx.cur
    have hle1 : (Match.consume_spaces ctx).cur ≤ (Match.consume_spaces ctx).len :=
      scan_while_le is_space ctx.fmt ctx.len (ctx.len - ctx.cur) ctx.cur hle
    split at h
    · cases h
    · next hne1 =>
      have htok1 := match_consume_token ctx hle hne1
      cases hM : M (Match.consume_spaces ctx) child with
      | crash => rw [hM] at h; cases h
      | starved => rw [hM] at h; cases h
      | ret r c1 =>
        rw [hM] at h
        cases r with
        | EJSON_NOMATCH => cases h
        | EJSON_BADFORMAT => cases h
        | EJSON_MATCH =>
          simp only [] at h
          obtain ⟨hf1, hl1, hc1, ds1, hm1, ho1⟩ := hrec _ child c1 hle1 hM
          have hm1' : Matched ctx.fmt ctx.len (.value child) ctx.cur c1.cur ds1 :=
            hm1.matched_absorb htok1.1 htok1.2.2.1
          have hle2 : (Match.consume_spaces c1).cur ≤ (Match.consume_spaces c1).len :=
            scan_while_le is_space c1.fmt c1.len (c1.len - c1.cur) c1.cur hc1
          have hfin : ∀ (c2 : Match.context_t) (ds2 : List (Nat × ejson_value)),
              c2.fmt = c1.fmt → c2.len = c1.len → c2.cur ≤ c2.len →
              c2.out = c1.out ++ ds2.map Prod.snd →
              Matched ctx.fmt ctx.len (.elems (child :: rest)) ctx.cur c2.cur (ds1 ++ ds2) →
              Match.Went (.elems (child :: rest)) ctx.cur ctx c2 := by
            intro c2 ds2 hf2 hl2 hc2 ho2 hm2
            refine ⟨hf2.trans hf1, hl2.trans hl1, hc2, ds1 ++ ds2, hm2, ?_⟩
            rw [ho2, ho1, List.map_append, List.append_assoc]
            rfl
          split at h
          · cases h
          · next hne2 =>
            have htok2 := match_consume_token c1 hc1 hne2
            have hf1' : c1.fmt = ctx.fmt := hf1
            have hl1' : c1.len = ctx.len := hl1
            rw [hf1', hl1'] at htok2
            have hlt2 : (Match.consume_spaces c1).cur < (Match.consume_spaces c1).len :=
              Nat.lt_of_le_of_ne hle2 hne2
            have hadv : (Match.consume_spaces c1).advance.cur =
                (Match.consume_spaces c1).cur + 1 := rfl
            have hpk : ∀ x, (Match.consume_spaces c1).peek = x →
                ctx.fmt.getD (Match.consume_spaces c1).cur 0 = x := by
              intro x hx
              rw [← hf1']
              exact hx
            have hcadv : (Match.consume_spaces c1).advance.cur ≤
                (Match.consume_spaces c1).advance.len := hlt2
            split at h
            · next hnx =>
              split at h
              · next h93 =>
                simp only [Match.match_res.ret.injEq, true_and] at h
                subst h
                exact hfin _ [] rfl rfl hcadv (by simp [Match.context_t.advance,
                  Match.consume_spaces]) (by
                    rw [List.append_nil]
                    exact Matched.elems_close hm1' htok2 (hpk _ h93))
              · split at h
                · cases h
                · next h44 =>
                  have h44' : (Match.consume_spaces c1).peek = 44 := by
                    by_contra hcon; exact h44 hcon
                  have hne : rest ≠ [] := by
                    intro he
                    subst he
                    simp [ejson_hasnext] at hnx
                  obtain ⟨hf2, hl2, hc2, ds2, hm2, ho2⟩ := ih _ c hcadv h
                  have hm2' : Matched ctx.fmt ctx.len (.elems rest)
                      ((Match.consume_spaces c1).cur + 1) c.cur ds2 := by
                    have := hm2
                    simp only [show (Match.consume_spaces c1).advance.fmt = c1.fmt from rfl,
                      show (Match.consume_spaces c1).advance.len = c1.len from rfl,
                      hf1', hl1', hadv] at this
                    exact this
                  exact hfin c ds2 hf2 hl2 hc2 ho2
                    (Matched.elems_next hm1' htok2 (hpk _ h44') hne hm2')
            · next hnx =>
              split at h
              · cases h
              · split at h
                · cases h
                · next h93 =>
                  have h93' : (Match.consume_spaces c1).peek = 93 := by
                    by_contra hcon; exact h93 hcon
                  have he : rest = [] := by
                    cases rest with
                    | nil => rfl
                    | cons a b => simp [ejson_hasnext] at hnx
                  subst he
                  simp only [Match.match_and_unpack_arr_loop, Match.match_res.ret.injEq,
                    true_and] at h
                  subst h
                  exact hfin _ [] rfl rfl hcadv (by simp [Match.context_t.advance,
                    Match.consume_spaces]) (by
                      rw [List.append_nil]
                      exact Matched.elems_close hm1' htok2 (hpk _ h93'))

theorem parse_next_decodes (ctx c : Match.context_t) (w : ejson_value)
    (hle : ctx.cur ≤ ctx.len)
    (h : Match.parse_next_value_in_fmt ctx 1024 = some (some w, c)) :
    ∃ n, Decodes ctx.fmt ctx.len ctx.cur w n ∧ c = { ctx with cur := ctx.cur + n } ∧
      ctx.cur + n ≤ ctx.len := by
  unfold Match.parse_next_value_in_fmt at h
  simp only [] at h
  split at h
  · cases h
  · next res hres =>
    split at h
    · next key num hroot hend =>
      simp only [Option.some.injEq, Prod.mk.injEq] at h
      obtain ⟨hw, rfl⟩ := h
      subst hw
      have hnum := ejson_parse2_end_le _ _ _ _ res num hres hend
      simp only [List.length_take, List.length_drop] at hnum
      exact ⟨num, ⟨res, hres, hroot, hend⟩, rfl, by omega⟩
    · simp only [Option.some.injEq, Prod.mk.injEq] at h
      obtain ⟨hw, _⟩ := h
      cases hw

theorem match_and_unpack_obj_loop_went
    (M : Match.context_t → ejson_value → Match.match_res)
    (hrec : ∀ ctx v c, ctx.cur ≤ ctx.len → M ctx v = .ret .EJSON_MATCH c →
      Match.Went (.value v) ctx.cur ctx c) (v : ejson_value) :
    ∀ (n : Nat) (ctx c : Match.context_t), ctx.cur ≤ ctx.len →
      Match.match_and_unpack_obj_loop M v n ctx = .ret .EJSON_MATCH c →
      Match.Went (.members v) ctx.cur ctx c := by
  intro n
  induction n with
  | zero => intro ctx c _ h; cases h
  | succ n ih =>
    intro ctx c hle h
    unfold Match.match_and_unpack_obj_loop at h
    simp only [] at h
    have hleA : (Match.consume_spaces ctx).cur ≤ (Match.consume_spaces ctx).len :=
      scan_while_le is_space ctx.fmt ctx.len (ctx.len - ctx.cur) ctx.cur hle
    split at h
    · cases h
    · next hneA =>
      have htokA := match_consume_token ctx hle hneA
      split at h
      · cases h
      · cases h
      · next k0 key c1 hp =>
        obtain ⟨num, hdec, hc1, hnum⟩ := parse_next_decodes _ c1 _ hleA hp
        have hdec' : Decodes ctx.fmt ctx.len (Match.consume_spaces ctx).cur
            (.string k0 key) num := hdec
        have hf1 : c1.fmt = ctx.fmt := by rw [hc1]; rfl
        have hl1 : c1.len = ctx.len := by rw [hc1]; rfl
        have ho1 : c1.out = ctx.out := by rw [hc1]; rfl
        have hcur1 : c1.cur = (Match.consume_spaces ctx).cur + num := by rw [hc1]
        have hle1 : c1.cur ≤ c1.len := by
          rw [hcur1, hl1]
          exact hnum
        split at h
        · cases h
        · next child hseek =>
          have hle2 : (Match.consume_spaces c1).cur ≤ (Match.consume_spaces c1).len :=
            scan_while_le is_space c1.fmt c1.len (c1.len - c1.cur) c1.cur hle1
          split at h
          · cases h
          · next hcond =>
            have hne2 : (Match.consume_spaces c1).cur ≠ (Match.consume_spaces c1).len :=
              fun he => hcond (Or.inl he)
            have h58 : (Match.consume_spaces c1).peek = 58 := by
              by_contra hcon; exact hcond (Or.inr hcon)
            have htok2 := match_consume_token c1 hle1 hne2
            rw [hf1, hl1, hcur1] at htok2
            have h58' : ctx.fmt.getD (Match.consume_spaces c1).cur 0 = 58 := by
              rw [← hf1]; exact h58
            have hcadv2 : (Match.consume_spaces c1).advance.cur ≤
                (Match.consume_spaces c1).advance.len :=
              Nat.lt_of_le_of_ne hle2 hne2
            cases hM : M (Match.consume_spaces c1).advance child with
            | crash => rw [hM] at h; cases h
            | starved => rw [hM] at h; cases h
            | ret r c3 =>
              rw [hM] at h
              cases r with
              | EJSON_NOMATCH => cases h
              | EJSON_BADFORMAT => cases h
              | EJSON_MATCH =>
                simp only [] at h
                obtain ⟨hf3, hl3, hc3, ds1, hm3, ho3⟩ := hrec _ child c3 hcadv2 hM
                have hf3' : c3.fmt = ctx.fmt := hf3.trans hf1
                have hl3' : c3.len = ctx.len := hl3.trans hl1
                have ho3' : c3.out = ctx.out ++ ds1.map Prod.snd := by
                  rw [ho3]
                  show c1.out ++ _ = _
                  rw [ho1]
                have hm3' : Matched ctx.fmt ctx.len (.value child)
                    ((Match.consume_spaces c1).cur + 1) c3.cur ds1 := by
                  have := hm3
                  simp only [show (Match.consume_spaces c1).advance.fmt = c1.fmt from rfl,
                    show (Match.consume_spaces c1).advance.len = c1.len from rfl,
                    show (Match.consume_spaces c1).advance.cur =
                      (Match.consume_spaces c1).cur + 1 from rfl, hf1, hl1] at this
                  exact this
                have hle4 : (Match.consume_spaces c3).cur ≤ (Match.consume_spaces c3).len :=
                  scan_while_le is_space c3.fmt c3.len (c3.len - c3.cur) c3.cur hc3
                split at h
                · cases h
                · next hne4 =>
                  have htok4 := match_consume_token c3 hc3 hne4
                  rw [hf3', hl3'] at htok4
                  have hcadv4 : (Match.consume_spaces c3).advance.cur ≤
                      (Match.consume_spaces c3).advance.len :=
                    Nat.lt_of_le_of_ne hle4 hne4
                  have hpk : ∀ x, (Match.consume_spaces c3).peek = x →
                      ctx.fmt.getD (Match.consume_spaces c3).cur 0 = x := by
                    intro x hx
                    rw [← hf3']
                    exact hx
                  split at h
                  · next h125 =>
                    simp only [Match.match_res.ret.injEq, true_and] at h
                    subst h
                    refine ⟨hf3', hl3', hcadv4, ds1, ?_, ho3'⟩
                    exact Matched.members_close htokA hdec' hseek htok2 h58' hm3' htok4
                      (hpk _ h125)
                  · split at h
                    · cases h
                    · next h44 =>
                      have h44' : (Match.consume_spaces c3).peek = 44 := by
                        by_contra hcon; exact h44 hcon
                      obtain ⟨hf5, hl5, hc5, ds2, hm5, ho5⟩ := ih _ c hcadv4 h
                      have hm5' : Matched ctx.fmt ctx.len (.members v)
                          ((Match.consume_spaces c3).cur + 1) c.cur ds2 := by
                        have := hm5
                        simp only [show (Match.consume_spaces c3).advance.fmt = c3.fmt
                            from rfl,
                          show (Match.consume_spaces c3).advance.len = c3.len from rfl,
                          show (Match.consume_spaces c3).advance.cur =
                            (Match.consume_spaces c3).cur + 1 from rfl, hf3', hl3'] at this
                        exact this
                      refine ⟨hf5.trans hf3', hl5.trans hl3', hc5, ds1 ++ ds2, ?_, ?_⟩
                      · exact Matched.members_next htokA hdec' hseek htok2 h58' hm3' htok4
                          (hpk _ h44') hm5'
                      · rw [ho5]
                        show c3.out ++ _ = _
                        rw [ho3', List.map_append, List.append_assoc]
      · cases h

/-- Soundness of the matcher for the grammar: a call of `match_and_unpack` that returns Match
went over a pattern for the value, and the captures it added are the sub-values that the
directives of that pattern are matched against, in their order. -/
theorem match_and_unpack_went : ∀ (fuel : Nat) (ctx : Match.context_t) (v : ejson_value)
    (c : Match.context_t), ctx.cur ≤ ctx.len →
    Match.match_and_unpack fuel ctx v = .ret .EJSON_MATCH c →
    Match.Went (.value v) ctx.cur ctx c := by
  intro fuel
  induction fuel with
  | zero => intro ctx v c _ h; cases h
  | succ fuel ih =>
    intro ctx v c hle h
    unfold Match.match_and_unpack at h
    simp only [] at h
    have hleA : (Match.consume_spaces ctx).cur ≤ (Match.consume_spaces ctx).len :=
      scan_while_le is_space ctx.fmt ctx.len (ctx.len - ctx.cur) ctx.cur hle
    split at h
    · cases h
    · next hneA =>
      have htok := match_consume_token ctx hle hneA
      have hcadv : (Match.consume_spaces ctx).advance.cur ≤
          (Match.consume_spaces ctx).advance.len := Nat.lt_of_le_of_ne hleA hneA
      split at h
      · next h63 =>
        simp only [Match.match_res.ret.injEq, true_and] at h
        subst h
        exact ⟨rfl, rfl, hcadv, [], Matched.wild htok h63, by simp [Match.context_t.advance,
          Match.consume_spaces]⟩
      · next h63 =>
        split at h
        · next h36 =>
          cases hu : Match.unpack (Match.consume_spaces ctx) v with
          | mk r c1 =>
            rw [hu] at h
            simp only [Match.match_res.ret.injEq] at h
            obtain ⟨rfl, rfl⟩ := h
            exact unpack_went (Match.consume_spaces ctx) c1 v ctx.cur htok h36 hu
        · next h36 =>
          split at h
          · next harr =>
            unfold Match.match_and_unpack_arr at h
            split at h
            · cases h
            · next hcond =>
              have h91 : (Match.consume_spaces ctx).peek = 91 := by
                by_contra hcon; exact hcond (Or.inr hcon)
              obtain ⟨hf, hl, hc, ds, hm, ho⟩ := match_and_unpack_arr_loop_went _ ih
                v.children _ c hcadv h
              exact ⟨hf, hl, hc, ds, Matched.array htok h91 harr hm, ho⟩
          · next harr =>
            split at h
            · next hobj =>
              unfold Match.match_and_unpack_obj at h
              split at h
              · cases h
              · next hcond =>
                have h123 : (Match.consume_spaces ctx).peek = 123 := by
                  by_contra hcon; exact hcond (Or.inr hcon)
                obtain ⟨hf, hl, hc, ds, hm, ho⟩ := match_and_unpack_obj_loop_went _ ih
                  v fuel _ c hcadv h
                exact ⟨hf, hl, hc, ds, Matched.object htok h123 hobj hm, ho⟩
            · next hobj =>
              exact match_went (Match.consume_spaces ctx) c v ctx.cur htok h63 h36 harr hobj h

/-- The directives listed by `Matched` stand at increasing positions of the text between
`lo` and `hi`, each is a `$` followed by the letter that names the type of the value it is
matched against, and that value lies in the target. -/
theorem Matched.matched_directives {fmt : List Nat} {len : Nat} {t : match_target} {lo hi : Nat}
    {ds : List (Nat × ejson_value)} (h : Matched fmt len t lo hi ds) :
    ds.Pairwise (fun a b => a.1 + 2 ≤ b.1) ∧
    ∀ d ∈ ds, lo ≤ d.1 ∧ d.1 + 2 ≤ hi ∧ fmt.getD d.1 0 = 36 ∧
      type_letter (fmt.getD (d.1 + 1) 0) = some d.2.type ∧ t.holds d.2 := by
  induction h with
  | wild ht _ => exact ⟨List.Pairwise.nil, fun _ hd => by cases hd⟩
  | @capture v lo p ht h36 hlt hty =>
    refine ⟨List.pairwise_singleton _ _, ?_⟩
    intro d hd
    simp only [List.mem_singleton] at hd
    subst hd
    exact ⟨ht.1, Nat.le_refl _, h36, hty, Sub.refl v⟩
  | literal ht _ _ _ _ _ _ => exact ⟨List.Pairwise.nil, fun _ hd => by cases hd⟩
  | @array v lo p hi ds ht _ _ _ ih =>
    refine ⟨ih.1, ?_⟩
    intro d hd
    obtain ⟨h1, h2, h3, h4, c, hc, hsub⟩ := ih.2 d hd
    have := ht.1
    exact ⟨by omega, h2, h3, h4, Sub.child hc hsub⟩
  | @object v lo p hi ds ht _ _ _ ih =>
    refine ⟨ih.1, ?_⟩
    intro d hd
    obtain ⟨h1, h2, h3, h4, hsub⟩ := ih.2 d hd
    have := ht.1
    exact ⟨by omega, h2, h3, h4, hsub⟩
  | elems_nil => exact ⟨List.Pairwise.nil, fun _ hd => by cases hd⟩
  | @elems_close c rest q q1 p ds hm ht _ ih =>
    refine ⟨ih.1, ?_⟩
    intro d hd
    obtain ⟨h1, h2, h3, h4, hsub⟩ := ih.2 d hd
    have := ht.1
    exact ⟨h1, by omega, h3, h4, c, List.mem_cons_self _ _, hsub⟩
  | @elems_next c rest q q1 p hi ds ds' hm ht _ _ hm' ih ih' =>
    have hq := hm.matched_le
    have hp := hm'.matched_le
    have := ht.1
    refine ⟨?_, ?_⟩
    · rw [List.pairwise_append]
      refine ⟨ih.1, ih'.1, ?_⟩
      intro a ha b hb
      have := (ih.2 a ha).2.1
      have := (ih'.2 b hb).1
      omega
    · intro d hd
      rcases List.mem_append.mp hd with hd | hd
      · obtain ⟨h1, h2, h3, h4, hsub⟩ := ih.2 d hd
        exact ⟨h1, by omega, h3, h4, c, List.mem_cons_self _ _, hsub⟩
      · obtain ⟨h1, h2, h3, h4, c', hc', hsub⟩ := ih'.2 d hd
        exact ⟨by omega, h2, h3, h4, c', List.mem_cons_of_mem _ hc', hsub⟩
  | @members_close v child k0 key q p n pc q1 p2 ds ht _ hseek ht2 _ hm ht3 _ ih =>
    refine ⟨ih.1, ?_⟩
    intro d hd
    obtain ⟨h1, h2, h3, h4, hsub⟩ := ih.2 d hd
    have := ht.1
    have := ht2.1
    have := ht3.1
    exact ⟨by omega, by omega, h3, h4,
      Sub.child (ejson_seekbykey2_mem v child key _ hseek) hsub⟩
  | @members_next v child k0 key q p n pc q1 p2 hi ds ds' ht _ hseek ht2 _ hm ht3 _ hm'
      ih ih' =>
    have := ht.1
    have := ht2.1
    have := ht3.1
    have hq := hm.matched_le
    have hp := hm'.matched_le
    refine ⟨?_, ?_⟩
    · rw [List.pairwise_append]
      refine ⟨ih.1, ih'.1, ?_⟩
      intro a ha b hb
      have := (ih.2 a ha).2.1
      have := (ih'.2 b hb).1
      omega
    · intro d hd
      rcases List.mem_append.mp hd with hd | hd
      · obtain ⟨h1, h2, h3, h4, hsub⟩ := ih.2 d hd
        exact ⟨by omega, by omega, h3, h4,
          Sub.child (ejson_seekbykey2_mem v child key _ hseek) hsub⟩
      · obtain ⟨h1, h2, h3, h4, hsub⟩ := ih'.2 d hd
        exact ⟨by omega, h2, h3, h4, hsub⟩

theorem Decodes.decodes_unique {fmt : List Nat} {len p : Nat} {w w' : ejson_value} {n n' : Nat}
    (h : Decodes fmt len p w n) (h' : Decodes fmt len p w' n') : w' = w ∧ n' = n := by
  obtain ⟨out, h1, h2, h3⟩ := h
  obtain ⟨out', h1', h2', h3'⟩ := h'
  rw [h1] at h1'
  simp only [Option.some.injEq] at h1'
  subst h1'
  rw [h2] at h2'
  rw [h3] at h3'
  simp only [Option.some.injEq] at h2' h3'
  exact ⟨h2'.symm, h3'.symm⟩

/-- The grammar is deterministic: the pattern text from `lo` on and the target determine
where the pattern ends and which directives it holds, matched against which sub-values. -/
theorem Matched.matched_unique {fmt : List Nat} {len : Nat} {t : match_target} {lo hi : Nat}
    {ds : List (Nat × ejson_value)} (h : Matched fmt len t lo hi ds) :
    ∀ {hi' : Nat} {ds' : List (Nat × ejson_value)}, Matched fmt len t lo hi' ds' →
      hi' = hi ∧ ds' = ds := by
  induction h with
  | wild ht h63 =>
    intro hi' ds' h'
    cases h' with
    | wild ht' _ => have := ht.token_unique ht'; subst this; exact ⟨rfl, rfl⟩
    | capture ht' h1 _ _ => have := ht.token_unique ht'; subst this; rw [h63] at h1; cases h1
    | literal ht' h1 _ _ _ _ _ => have := ht.token_unique ht'; subst this; exact absurd h63 h1
    | array ht' h1 _ _ => have := ht.token_unique ht'; subst this; rw [h63] at h1; cases h1
    | object ht' h1 _ _ => have := ht.token_unique ht'; subst this; rw [h63] at h1; cases h1
  | capture ht h36 hlt hty =>
    intro hi' ds' h'
    cases h' with
    | wild ht' h1 => have := ht.token_unique ht'; subst this; rw [h36] at h1; cases h1
    | capture ht' _ _ _ => have := ht.token_unique ht'; subst this; exact ⟨rfl, rfl⟩
    | literal ht' _ h1 _ _ _ _ => have := ht.token_unique ht'; subst this; exact absurd h36 h1
    | array ht' h1 _ _ => have := ht.token_unique ht'; subst this; rw [h36] at h1; cases h1
    | object ht' h1 _ _ => have := ht.token_unique ht'; subst this; rw [h36] at h1; cases h1
  | literal ht h63 h36 harr hobj hdec hcmp =>
    intro hi' ds' h'
    cases h' with
    | wild ht' h1 => have := ht.token_unique ht'; subst this; exact absurd h1 h63
    | capture ht' h1 _ _ => have := ht.token_unique ht'; subst this; exact absurd h1 h36
    | literal ht' _ _ _ _ hdec' _ =>
      have := ht.token_unique ht'
      subst this
      obtain ⟨_, hn⟩ := hdec.decodes_unique hdec'
      subst hn
      exact ⟨rfl, rfl⟩
    | array ht' _ h1 _ => exact absurd h1 harr
    | object ht' _ h1 _ => exact absurd h1 hobj
  | array ht h91 harr hm ih =>
    intro hi' ds' h'
    cases h' with
    | wild ht' h1 => have := ht.token_unique ht'; subst this; rw [h91] at h1; cases h1
    | capture ht' h1 _ _ => have := ht.token_unique ht'; subst this; rw [h91] at h1; cases h1
    | literal ht' _ _ h1 _ _ _ => exact absurd harr h1
    | array ht' _ _ hm' => have := ht.token_unique ht'; subst this; exact ih hm'
    | object ht' h1 _ _ => have := ht.token_unique ht'; subst this; rw [h91] at h1; cases h1
  | object ht h123 hobj hm ih =>
    intro hi' ds' h'
    cases h' with
    | wild ht' h1 => have := ht.token_unique ht'; subst this; rw [h123] at h1; cases h1
    | capture ht' h1 _ _ => have := ht.token_unique ht'; subst this; rw [h123] at h1; cases h1
    | literal ht' _ _ _ h1 _ _ => exact absurd hobj h1
    | array ht' h1 _ _ => have := ht.token_unique ht'; subst this; rw [h123] at h1; cases h1
    | object ht' _ _ hm' => have := ht.token_unique ht'; subst this; exact ih hm'
  | elems_nil =>
    intro hi' ds' h'
    cases h' with
    | elems_nil => exact ⟨rfl, rfl⟩
  | elems_close hm ht h93 ih =>
    intro hi' ds' h'
    cases h' with
    | elems_close hm' ht' _ =>
      obtain ⟨hq, hd⟩ := ih hm'
      subst hq hd
      have := ht.token_unique ht'
      subst this
      exact ⟨rfl, rfl⟩
    | elems_next hm' ht' h1 _ _ =>
      obtain ⟨hq, hd⟩ := ih hm'
      subst hq hd
      have := ht.token_unique ht'
      subst this
      rw [h93] at h1
      cases h1
  | elems_next hm ht h44 hne hmr ih ihr =>
    intro hi' ds' h'
    cases h' with
    | elems_close hm' ht' h1 =>
      obtain ⟨hq, hd⟩ := ih hm'
      subst hq hd
      have := ht.token_unique ht'
      subst this
      rw [h44] at h1
      cases h1
    | elems_next hm' ht' _ _ hmr' =>
      obtain ⟨hq, hd⟩ := ih hm'
      subst hq hd
      have := ht.token_unique ht'
      subst this
      obtain ⟨hq2, hd2⟩ := ihr hmr'
      subst hq2 hd2
      exact ⟨rfl, rfl⟩
  | members_close ht hdec hseek ht2 h58 hm ht3 h125 ih =>
    intro hi' ds' h'
    cases h' with
    | members_close ht' hdec' hseek' ht2' _ hm' ht3' _ =>
      have := ht.token_unique ht'
      subst this
      obtain ⟨hw, hn⟩ := hdec.decodes_unique hdec'
      cases hw
      subst hn
      rw [hseek] at hseek'
      cases hseek'
      have := ht2.token_unique ht2'
      subst this
      obtain ⟨hq, hd⟩ := ih hm'
      subst hq hd
      have := ht3.token_unique ht3'
      subst this
      exact ⟨rfl, rfl⟩
    | members_next ht' hdec' hseek' ht2' _ hm' ht3' h1 _ =>
      have := ht.token_unique ht'
      subst this
      obtain ⟨hw, hn⟩ := hdec.decodes_unique hdec'
      cases hw
      subst hn
      rw [hseek] at hseek'
      cases hseek'
      have := ht2.token_unique ht2'
      subst this
      obtain ⟨hq, hd⟩ := ih hm'
      subst hq hd
      have := ht3.token_unique ht3'
      subst this
      rw [h125] at h1
      cases h1
  | members_next ht hdec hseek ht2 h58 hm ht3 h44 hmr ih ihr =>
    intro hi' ds' h'
    cases h' with
    | members_close ht' hdec' hseek' ht2' _ hm' ht3' h1 =>
      have := ht.token_unique ht'
      subst this
      obtain ⟨hw, hn⟩ := hdec.decodes_unique hdec'
      cases hw
      subst hn
      rw [hseek] at hseek'
      cases hseek'
      have := ht2.token_unique ht2'
      subst this
      obtain ⟨hq, hd⟩ := ih hm'
      subst hq hd
      have := ht3.token_unique ht3'
      subst this
      rw [h44] at h1
      cases h1
    | members_next ht' hdec' hseek' ht2' _ hm' ht3' _ hmr' =>
      have := ht.token_unique ht'
      subst this
      obtain ⟨hw, hn⟩ := hdec.decodes_unique hdec'
      cases hw
      subst hn
      rw [hseek] at hseek'
      cases hseek'
      have := ht2.token_unique ht2'
      subst this
      obtain ⟨hq, hd⟩ := ih hm'
      subst hq hd
      have := ht3.token_unique ht3'
      subst this
      obtain ⟨hq2, hd2⟩ := ihr hmr'
      subst hq2 hd2
      exact ⟨rfl, rfl⟩

/-- C5: whenever `ejson_match_and_unpack` returns Match, the pattern text up to the final
cursor is a pattern for the value in the grammar of the matcher, and the captures stored in
the output buffer are exactly the sub-values that the `$` directives of that text are matched
against, one capture for each directive, in the left-to-right order of the directives (their
positions increase); each directive is a `$` followed by the letter that names the type of
its capture, and each capture is a sub-value of the matched value.  The directives and the
sub-values they are matched against are determined by the pattern and the value.  For the
scenario tree and the pattern `[$n, true, {'name': $b}]` the result is Match and the
captures are the Number 97.24 followed by the Boolean `false` stored under `name`. -/
theorem captures_in_order :
    (∀ (v : ejson_value) (fmt : List Nat) (c : Match.context_t),
      ejson_match_and_unpack v fmt = .ret .EJSON_MATCH c →
        ∃ ds : List (Nat × ejson_value),
          Matched fmt (strlen fmt) (.value v) 0 c.cur ds ∧
          c.out = ds.map Prod.snd ∧
          ds.Pairwise (fun a b => a.1 + 2 ≤ b.1) ∧
          (∀ d ∈ ds, fmt.getD d.1 0 = 36 ∧
            type_letter (fmt.getD (d.1 + 1) 0) = some d.2.type ∧ Sub d.2 v) ∧
          (∀ (hi' : Nat) (ds' : List (Nat × ejson_value)),
            Matched fmt (strlen fmt) (.value v) 0 hi' ds' → hi' = c.cur ∧ ds' = ds)) ∧
    (ejson_match_and_unpack scenario_tree
      (bytes "[$n, true, \x7b'name': $b\x7d]")).result = some .EJSON_MATCH ∧
    (ejson_match_and_unpack scenario_tree
      (bytes "[$n, true, \x7b'name': $b\x7d]")).captures =
        [.number [] 97 (.fin false 6842656683836048 (-46)),
         .boolean (bytes "name") false] := by
  refine ⟨?_, by decide, by rfl⟩
  intro v fmt c h
  unfold ejson_match_and_unpack at h
  simp only [] at h
  obtain ⟨_, _, _, ds, hm, ho⟩ := match_and_unpack_went (strlen fmt + 1)
    { fmt := fmt, len := strlen fmt, cur := 0, out := [] } v c (Nat.zero_le _) h
  have hd := hm.matched_directives
  refine ⟨ds, hm, by simpa using ho, hd.1, ?_, fun hi' ds' h' => hm.matched_unique h'⟩
  intro d hmem
  obtain ⟨_, _, h3, h4, h5⟩ := hd.2 d hmem
  exact ⟨h3, h4, h5⟩

/-- C5 at the scenario: the two captures of `[$n, true, {'name': $b}]` are the sub-values
that the directives at the positions 1 and 21 of the pattern are matched against. -/
theorem captures_in_order_witness :
    ∃ ds : List (Nat × ejson_value),
      Matched (bytes "[$n, true, \x7b'name': $b\x7d]")
        (strlen (bytes "[$n, true, \x7b'name': $b\x7d]")) (.value scenario_tree) 0 24 ds ∧
      [.number [] 97 (.fin false 6842656683836048 (-46)), .boolean (bytes "name") false] =
        ds.map Prod.snd ∧
      ds.Pairwise (fun a b => a.1 + 2 ≤ b.1) ∧
      (∀ d ∈ ds, (bytes "[$n, true, \x7b'name': $b\x7d]").getD d.1 0 = 36 ∧
        type_letter ((bytes "[$n, true, \x7b'name': $b\x7d]").getD (d.1 + 1) 0) =
          some d.2.type ∧ Sub d.2 scenario_tree) ∧
      (∀ (hi' : Nat) (ds' : List (Nat × ejson_value)),
        Matched (bytes "[$n, true, \x7b'name': $b\x7d]")
          (strlen (bytes "[$n, true, \x7b'name': $b\x7d]")) (.value scenario_tree) 0 hi' ds' →
        hi' = 24 ∧ ds' = ds) :=
  captures_in_order.1 scenario_tree (bytes "[$n, true, \x7b'name': $b\x7d]")
    { fmt := bytes "[$n, true, \x7b'name': $b\x7d]", cur := 24, len := 24,
      out := [.number [] 97 (.fin false 6842656683836048 (-46)),
              .boolean (bytes "name") false] } (by rfl)

/-! ## The parser on a text that starts with a quoted string -/

theorem drop_add_of_drop (src : List Nat) (cur : Nat) (a b : List Nat)
    (h : src.drop cur = a ++ b) : src.drop (cur + a.length) = b := by
  have := congrArg (List.drop a.length) h
  rw [List.drop_drop, List.drop_left] at this
  rw [← this, Nat.add_comm]

theorem drop_succ_of_drop (src : List Nat) (cur c : Nat) (tl : List Nat)
    (h : src.drop cur = c :: tl) : src.drop (cur + 1) = tl :=
  drop_add_of_drop src cur [c] tl h

theorem length_of_drop (src : List Nat) (cur : Nat) (a : List Nat)
    (h : src.drop cur = a) (hne : a ≠ []) : cur + a.length = src.length := by
  have hlt : cur < src.length := by
    by_contra hge
    rw [List.drop_eq_nil_of_le (by omega)] at h
    exact hne h.symm
  have := congrArg List.length h
  rw [List.length_drop] at this
  omega

/-- What `parse_str` does at an opening quote `q` followed by `s`, which has no `q`, and a
closing `q`. -/
theorem parse_str_quoted (ctx : context_t) (q : Nat) (s rest : List Nat)
    (hlen : ctx.len = ctx.src.length) (hrem : ctx.rem = q :: (s ++ q :: rest))
    (hs : ∀ b ∈ s, b ≠ q) :
    parse_str ctx = (some s, { ctx with cur := ctx.cur + s.length + 2 }) := by
  unfold context_t.rem at hrem
  have hpeek := peek_of_drop ctx q _ hrem
  have hd1 : ctx.src.drop (ctx.cur + 1) = s ++ q :: rest := drop_succ_of_drop _ _ _ _ hrem
  have htotal := length_of_drop ctx.src ctx.cur _ hrem (by simp)
  simp only [List.length_cons, List.length_append] at htotal
  have hscan : scan_while (fun c => c != q) ctx.src ctx.len (ctx.len - (ctx.cur + 1))
      (ctx.cur + 1) = ctx.cur + 1 + s.length := by
    rw [hlen, scan_while_eq _ ctx.src _ _ (Nat.le_refl _), hd1,
      takeWhile_append_of_all _ s (q :: rest) (fun b hb => by simpa using hs b hb)
        (fun c hc => by simp only [List.head?_cons, Option.some.injEq] at hc; subst hc; simp)]
  unfold parse_str
  simp only [context_t.advance, hpeek, hscan]
  rw [if_neg (by rw [hlen]; omega)]
  have htake : (ctx.src.drop (ctx.cur + 1)).take (ctx.cur + 1 + s.length - (ctx.cur + 1)) = s := by
    rw [hd1, Nat.add_sub_cancel_left, List.take_left]
  have hc : ctx.cur + 1 + s.length + 1 = ctx.cur + s.length + 2 := by omega
  rw [htake, hc]

/-- What `parse_str_2` does there when the arena has room for a node. -/
theorem parse_str_2_quoted (ctx : context_t) (q : Nat) (s rest : List Nat)
    (hlen : ctx.len = ctx.src.length) (hrem : ctx.rem = q :: (s ++ q :: rest))
    (hs : ∀ b ∈ s, b ≠ q)
    (hroom : ctx.arena.used + node_pad ctx.arena.used + sizeof_ejson_value ≤ ctx.arena.size)
    (hsize : ctx.arena.size < SIZE_WIDTH) :
    parse_str_2 ctx = (some (.string [] s),
      { ctx with cur := ctx.cur + s.length + 2, arena := { ctx.arena with
          used := ctx.arena.used + node_pad ctx.arena.used + sizeof_ejson_value } }) := by
  unfold parse_str_2
  rw [parse_str_quoted ctx q s rest hlen hrem hs]
  simp only []
  unfold make_val_for_str
  rw [make_val_of_room { ctx with cur := ctx.cur + s.length + 2 } _ hroom hsize]
  rfl

/-- The pool of `parse_next_value_in_fmt` decodes a quoted string at the start of the text
to a String node and reports its length with the two quotes. -/
theorem ejson_parse2_quoted (q : Nat) (s rest : List Nat) (hq : q = 34 ∨ q = 39)
    (hs : ∀ b ∈ s, b ≠ q) :
    ejson_parse2 (q :: (s ++ q :: rest)) none ⟨1024, 0⟩ fmt_config =
      some { root := some (.string [] s), end_ := some (s.length + 2), error := none,
             arena := ⟨1024, 56⟩ } := by
  have hsp : is_space q = false := by rcases hq with rfl | rfl <;> rfl
  unfold ejson_parse2
  simp only []
  rw [parse_any_at (q :: (s ++ q :: rest)).length
    { error := none, arena := ⟨1024, 0⟩, src := q :: (s ++ q :: rest),
      len := (q :: (s ++ q :: rest)).length, cur := 0, config := fmt_config } q
    (s ++ q :: rest) rfl rfl hsp]
  rw [if_pos (by rcases hq with rfl | rfl <;> simp [fmt_config])]
  rw [parse_str_2_quoted
    { error := none, arena := ⟨1024, 0⟩, src := q :: (s ++ q :: rest),
      len := (q :: (s ++ q :: rest)).length, cur := 0, config := fmt_config } q s rest rfl rfl hs
    (by show 0 + node_pad 0 + sizeof_ejson_value ≤ 1024; decide)
    (by show 1024 < SIZE_WIDTH; decide)]
  simp only [parse_res.of, Nat.zero_add]
  rfl

/-! ## The matcher in terms of the pattern text that is left -/

theorem match_peek_of_rem (ctx : Match.context_t) (c : Nat) (tl : List Nat)
    (h : ctx.rem = c :: tl) : ctx.peek = c := by
  unfold Match.context_t.peek
  rw [getD_eq_headD_drop]
  unfold Match.context_t.rem at h
  rw [h]
  rfl

theorem match_rem_advance (ctx : Match.context_t) (c : Nat) (tl : List Nat)
    (h : ctx.rem = c :: tl) : ctx.advance.rem = tl :=
  drop_succ_of_drop ctx.fmt ctx.cur c tl h

theorem match_cur_ne_len (ctx : Match.context_t) (c : Nat) (tl : List Nat)
    (hlen : ctx.len = ctx.fmt.length) (h : ctx.rem = c :: tl) : ctx.cur ≠ ctx.len := by
  have := cur_lt_of_drop ctx.fmt ctx.cur c tl h
  omega

theorem match_consume_spaces_rem (ctx : Match.context_t) (ws : List Nat) (c : Nat)
    (tl : List Nat) (hlen : ctx.len = ctx.fmt.length) (h : ctx.rem = ws ++ c :: tl)
    (hws : ∀ b ∈ ws, is_space b = true) (hc : is_space c = false) :
    Match.consume_spaces ctx = { ctx with cur := ctx.cur + ws.length } := by
  unfold Match.context_t.rem at h
  rw [match_consume_spaces_eq ctx hlen, h, takeWhile_append_of_all is_space ws (c :: tl) hws
    (fun x hx => by simp only [List.head?_cons, Option.some.injEq] at hx; subst hx; exact hc)]

theorem parse_next_value_in_fmt_quoted (ctx : Match.context_t) (q : Nat) (s rest : List Nat)
    (hlen : ctx.len = ctx.fmt.length) (hrem : ctx.rem = q :: (s ++ q :: rest))
    (hq : q = 34 ∨ q = 39) (hs : ∀ b ∈ s, b ≠ q) :
    Match.parse_next_value_in_fmt ctx 1024 =
      some (some (.string [] s), { ctx with cur := ctx.cur + (s.length + 2) }) := by
  unfold Match.context_t.rem at hrem
  unfold Match.parse_next_value_in_fmt
  have hsub : (ctx.fmt.drop ctx.cur).take (ctx.len - ctx.cur) = q :: (s ++ q :: rest) := by
    rw [List.take_of_length_le (by rw [hlen]; simp), hrem]
  have hcfg : ({ EJSON_DEFAULT_CONFIGS with allow_single_quoted_strings := true } :
      ejson_config) = fmt_config := rfl
  simp only [hsub, hcfg]
  rw [ejson_parse2_quoted q s rest hq hs]

/-- The wildcard `?`, after white space `ws`, matches any value and consumes one byte. -/
theorem match_and_unpack_wild (fuel : Nat) (ctx : Match.context_t) (v : ejson_value)
    (ws tl : List Nat) (hlen : ctx.len = ctx.fmt.length) (hrem : ctx.rem = ws ++ 63 :: tl)
    (hws : ∀ b ∈ ws, is_space b = true) :
    Match.match_and_unpack (fuel + 1) ctx v =
      .ret .EJSON_MATCH { ctx with cur := ctx.cur + ws.length + 1 } := by
  have hcs := match_consume_spaces_rem ctx ws 63 tl hlen hrem hws rfl
  have hrem1 : ({ ctx with cur := ctx.cur + ws.length } : Match.context_t).rem = 63 :: tl :=
    drop_add_of_drop ctx.fmt ctx.cur ws _ hrem
  rw [Match.match_and_unpack]
  simp only [hcs]
  have hne : ctx.cur + ws.length ≠ ctx.len :=
    match_cur_ne_len { ctx with cur := ctx.cur + ws.length } 63 tl hlen hrem1
  rw [if_neg hne, if_pos (match_peek_of_rem _ 63 tl hrem1)]
  rfl

/-! ## `strncmp` against a key without zero bytes, and the key lookup -/

theorem strncmp_eq_zero_iff (b : List Nat) (h0 : ∀ x ∈ b, x ≠ 0) :
    ∀ a : List Nat, a.length = b.length → (strncmp a b b.length = 0 ↔ a = b) := by
  induction b with
  | nil =>
    intro a ha
    have : a = [] := List.length_eq_zero.mp ha
    subst this
    simp [strncmp]
  | cons y l ih =>
    intro a ha
    cases a with
    | nil => simp at ha
    | cons x m =>
      have hy : y ≠ 0 := h0 y (List.mem_cons_self _ _)
      have hl : ∀ z ∈ l, z ≠ 0 := fun z hz => h0 z (List.mem_cons_of_mem _ hz)
      have hm : m.length = l.length := by simpa using ha
      simp only [List.length_cons, strncmp, List.headD_cons, List.tail_cons]
      by_cases hxy : x = y
      · subst hxy
        simp only [ne_eq, not_true_eq_false, if_false, if_neg hy]
        rw [ih hl m hm]
        simp
      · simp only [ne_eq, hxy, not_false_eq_true, if_true]
        constructor
        · intro h; omega
        · intro h; simp only [List.cons.injEq] at h; exact (hxy h.1).elim

theorem ejson_seekbykey2_object (key : List Nat) (cs : List ejson_value) (sz : Nat)
    (k : List Nat) (h0 : ∀ x ∈ k, x ≠ 0) :
    ejson_seekbykey2 (.object key cs sz) k k.length =
      cs.find? (fun c => decide (c.key = k)) := by
  unfold ejson_seekbykey2
  rw [if_neg (by simp [ejson_value.type])]
  simp only [ejson_value.children]
  congr 1
  funext c
  by_cases hck : c.key = k
  · have h1 : c.key.length = k.length ∧ strncmp c.key k k.length = 0 := by
      rw [hck]
      exact ⟨rfl, (strncmp_eq_zero_iff k h0 k rfl).mpr rfl⟩
    rw [decide_eq_true h1, decide_eq_true hck]
  · have h1 : ¬ (c.key.length = k.length ∧ strncmp c.key k k.length = 0) := by
      rintro ⟨hl, hs⟩
      exact hck ((strncmp_eq_zero_iff k h0 c.key hl).mp hs)
    rw [decide_eq_false h1, decide_eq_false hck]

theorem Match.At.at_peek {ctx : Match.context_t} {c : Nat} {tl : List Nat}
    {o : List ejson_value} (h : Match.At ctx (c :: tl) o) : ctx.peek = c :=
  match_peek_of_rem ctx c tl h.rem

theorem Match.At.at_ne {ctx : Match.context_t} {c : Nat} {tl : List Nat}
    {o : List ejson_value} (h : Match.At ctx (c :: tl) o) : ctx.cur ≠ ctx.len :=
  match_cur_ne_len ctx c tl h.len h.rem

theorem Match.At.at_advance {ctx : Match.context_t} {c : Nat} {tl : List Nat}
    {o : List ejson_value} (h : Match.At ctx (c :: tl) o) : Match.At ctx.advance tl o :=
  ⟨h.len, match_rem_advance ctx c tl h.rem, h.out⟩

theorem Match.At.at_consume_spaces {ctx : Match.context_t} {w : List Nat} {c : Nat}
    {tl : List Nat} {o : List ejson_value} (h : Match.At ctx (w ++ c :: tl) o)
    (hws : ∀ b ∈ w, is_space b = true) (hc : is_space c = false) :
    Match.At (Match.consume_spaces ctx) (c :: tl) o := by
  rw [match_consume_spaces_rem ctx w c tl h.len h.rem hws hc]
  exact ⟨h.len, drop_add_of_drop ctx.fmt ctx.cur w _ h.rem, h.out⟩

theorem Match.At.at_consume_spaces_nil {ctx : Match.context_t} {c : Nat}
    {tl : List Nat} {o : List ejson_value} (h : Match.At ctx (c :: tl) o)
    (hc : is_space c = false) : Match.At (Match.consume_spaces ctx) (c :: tl) o :=
  Match.At.at_consume_spaces (w := []) h (fun _ hb => by cases hb) hc

theorem Match.At.parse_quoted {ctx : Match.context_t} {q : Nat} {s rest : List Nat}
    {o : List ejson_value} (h : Match.At ctx (q :: (s ++ q :: rest)) o)
    (hq : q = 34 ∨ q = 39) (hs : ∀ b ∈ s, b ≠ q) :
    ∃ ctx', Match.parse_next_value_in_fmt ctx 1024 = some (some (.string [] s), ctx') ∧
      Match.At ctx' rest o := by
  refine ⟨_, parse_next_value_in_fmt_quoted ctx q s rest h.len h.rem hq hs, h.len, ?_, h.out⟩
  have hrem : ctx.fmt.drop ctx.cur = (q :: (s ++ [q])) ++ rest := by
    have := h.rem
    unfold Match.context_t.rem at this
    rw [this]
    simp
  have := drop_add_of_drop ctx.fmt ctx.cur _ rest hrem
  simp only [List.length_cons, List.length_append, List.length_nil, Nat.zero_add] at this
  exact this

theorem Match.At.wild {ctx : Match.context_t} {w tl : List Nat} {o : List ejson_value}
    (h : Match.At ctx (w ++ 63 :: tl) o) (hws : ∀ b ∈ w, is_space b = true)
    (fuel : Nat) (v : ejson_value) :
    ∃ ctx', Match.match_and_unpack (fuel + 1) ctx v = .ret .EJSON_MATCH ctx' ∧
      Match.At ctx' tl o := by
  refine ⟨_, match_and_unpack_wild fuel ctx v w tl h.len h.rem hws, h.len, ?_, h.out⟩
  have hrem : ctx.fmt.drop ctx.cur = (w ++ [63]) ++ tl := by
    have := h.rem
    unfold Match.context_t.rem at this
    rw [this]
    simp
  have := drop_add_of_drop ctx.fmt ctx.cur _ tl hrem
  simp only [List.length_append, List.length_cons, List.length_nil, Nat.zero_add,
    ← Nat.add_assoc] at this
  exact this

/-! ## C7: object patterns name a subset of the keys -/

theorem find_key_none (cs : List ejson_value) (k : List Nat)
    (h : cs.find? (fun c => decide (c.key = k)) = none) :
    (cs.any fun c => decide (c.key = k)) = false := by
  rw [List.find?_eq_none] at h
  rw [List.any_eq_false]
  intro c hc
  exact h c hc

theorem find_key_some (cs : List ejson_value) (k : List Nat) (child : ejson_value)
    (h : cs.find? (fun c => decide (c.key = k)) = some child) :
    (cs.any fun c => decide (c.key = k)) = true := by
  rw [List.any_eq_true]
  exact ⟨child, List.mem_of_find?_eq_some h,
    List.find?_some (p := fun (c : ejson_value) => decide (c.key = k)) h⟩

/-- The loop of `match_and_unpack_obj` on the members `k1: ?, ..., km: ?}` of an object
pattern: Match when every key is found among the children, NoMatch otherwise. -/
theorem match_and_unpack_obj_loop_items (fuel : Nat) (key : List Nat)
    (cs : List ejson_value) (sz : Nat) (post : List Nat) :
    ∀ (keys : List (Nat × List Nat)) (n : Nat) (ctx : Match.context_t) (ws : List Nat)
      (o : List ejson_value), keys ≠ [] →
      (∀ qk ∈ keys, (qk.1 = 34 ∨ qk.1 = 39) ∧ (∀ b ∈ qk.2, b ≠ qk.1) ∧ ∀ b ∈ qk.2, b ≠ 0) →
      Match.At ctx (ws ++ (obj_items keys ++ post)) o → (∀ b ∈ ws, is_space b = true) →
      keys.length ≤ n →
      (Match.match_and_unpack_obj_loop (Match.match_and_unpack (fuel + 1))
        (.object key cs sz) n ctx).result =
        some (if keys_present cs keys = true then .EJSON_MATCH else .EJSON_NOMATCH) := by
  intro keys
  induction keys with
  | nil => intro n ctx ws o h; exact (h rfl).elim
  | cons qk rest ih =>
    obtain ⟨q, k⟩ := qk
    intro n ctx ws o _ hk hat hws hn
    obtain ⟨hq, hkq, hk0⟩ := hk (q, k) (List.mem_cons_self _ _)
    simp only at hq hkq hk0
    have hrest : ∀ qk ∈ rest, (qk.1 = 34 ∨ qk.1 = 39) ∧ (∀ b ∈ qk.2, b ≠ qk.1) ∧
        ∀ b ∈ qk.2, b ≠ 0 := fun qk h => hk qk (List.mem_cons_of_mem _ h)
    obtain ⟨m, rfl⟩ : ∃ m, n = m + 1 := ⟨n - 1, by simp only [List.length_cons] at hn; omega⟩
    have hqs : is_space q = false := by rcases hq with rfl | rfl <;> rfl
    -- the text at the cursor
    obtain ⟨tail, htext, htail⟩ : ∃ tail,
        obj_items ((q, k) :: rest) ++ post = q :: (k ++ q :: (58 :: 32 :: 63 :: tail)) ∧
        ((rest = [] ∧ tail = 125 :: post) ∨
         (rest ≠ [] ∧ tail = 44 :: 32 :: (obj_items rest ++ post))) := by
      cases rest with
      | nil => exact ⟨125 :: post, by simp [obj_items], Or.inl ⟨rfl, rfl⟩⟩
      | cons qk' rest' =>
        exact ⟨44 :: 32 :: (obj_items (qk' :: rest') ++ post), by simp [obj_items],
          Or.inr ⟨by simp, rfl⟩⟩
    rw [htext] at hat
    have h1 := hat.at_consume_spaces hws hqs
    obtain ⟨ctx2, hp2, h2⟩ := h1.parse_quoted hq hkq
    rw [Match.match_and_unpack_obj_loop]
    simp only []
    rw [if_neg h1.at_ne, hp2]
    simp only []
    rw [ejson_seekbykey2_object key cs sz k hk0]
    cases hfind : cs.find? (fun c => decide (c.key = k)) with
    | none =>
      have hany := find_key_none cs k hfind
      simp only [keys_present, List.all_cons, hany, Bool.false_and]
      rfl
    | some child =>
      have hany := find_key_some cs k child hfind
      have h3 := h2.at_consume_spaces_nil (c := 58) rfl
      have hcond : ¬ ((Match.consume_spaces ctx2).cur = (Match.consume_spaces ctx2).len ∨
          (Match.consume_spaces ctx2).peek ≠ 58) := by
        rintro (h | h)
        · exact h3.at_ne h
        · exact h h3.at_peek
      obtain ⟨ctx4, hw4, h4⟩ := Match.At.wild (w := [32]) h3.at_advance
        (fun b hb => by simp only [List.mem_singleton] at hb; subst hb; rfl) fuel child
      simp only []
      rw [if_neg hcond, hw4]
      simp only []
      rcases htail with ⟨hnil, rfl⟩ | ⟨hne, rfl⟩
      · subst hnil
        have h5 := h4.at_consume_spaces_nil (c := 125) rfl
        rw [if_neg h5.at_ne, if_pos h5.at_peek]
        simp only [keys_present, List.all_cons, hany, List.all_nil, Bool.and_self, if_true]
        rfl
      · have h5 := h4.at_consume_spaces_nil (c := 44) rfl
        rw [if_neg h5.at_ne, if_neg (by rw [h5.at_peek]; decide), if_neg (by rw [h5.at_peek]; decide)]
        have h6 := h5.at_advance
        have hih := ih m (Match.consume_spaces ctx4).advance [32] o hne hrest
          (by simpa using h6)
          (fun b hb => by simp only [List.mem_singleton] at hb; subst hb; rfl)
          (by simp only [List.length_cons] at hn ⊢; omega)
        rw [hih]
        simp only [keys_present, List.all_cons, hany, Bool.true_and]

theorem obj_items_ne_zero (keys : List (Nat × List Nat))
    (hk : ∀ qk ∈ keys, (qk.1 = 34 ∨ qk.1 = 39) ∧ (∀ b ∈ qk.2, b ≠ qk.1) ∧ ∀ b ∈ qk.2, b ≠ 0) :
    ∀ b ∈ obj_items keys, b ≠ 0 := by
  induction keys with
  | nil => intro b hb; simp [obj_items] at hb; omega
  | cons qk rest ih =>
    obtain ⟨q, k⟩ := qk
    obtain ⟨hq, _, hk0⟩ := hk (q, k) (List.mem_cons_self _ _)
    simp only at hq hk0
    have hq0 : q ≠ 0 := by rcases hq with rfl | rfl <;> decide
    have hrest := ih (fun qk h => hk qk (List.mem_cons_of_mem _ h))
    intro b hb
    cases rest with
    | nil =>
      simp only [obj_items, List.mem_cons, List.mem_append, List.mem_singleton] at hb
      rcases hb with rfl | hb | rfl | rfl | rfl | rfl | rfl | hb
      · exact hq0
      · exact hk0 b hb
      · exact hq0
      all_goals first | decide | (cases hb)
    | cons qk' rest' =>
      simp only [obj_items, List.mem_cons, List.mem_append, List.mem_singleton,
        List.cons_append, List.nil_append] at hb
      rcases hb with rfl | hb | rfl | rfl | rfl | rfl | rfl | rfl | hb
      · exact hq0
      · exact hk0 b hb
      · exact hq0
      all_goals first | decide | exact hrest b hb

theorem obj_items_length (keys : List (Nat × List Nat)) :
    keys.length ≤ (obj_items keys).length := by
  induction keys with
  | nil => simp
  | cons qk rest ih =>
    obtain ⟨q, k⟩ := qk
    cases rest with
    | nil => simp [obj_items]
    | cons qk' rest' =>
      simp only [obj_items, List.length_cons, List.length_append, List.cons_append,
        List.nil_append] at ih ⊢
      omega

theorem keys_present_congr (cs cs' : List ejson_value) (keys : List (Nat × List Nat))
    (h : ∀ k, (∃ c ∈ cs, c.key = k) ↔ (∃ c ∈ cs', c.key = k)) :
    keys_present cs keys = keys_present cs' keys := by
  unfold keys_present
  congr 1
  funext qk
  have := h qk.2
  rw [Bool.eq_iff_iff]
  simpa [List.any_eq_true] using this

/-- C7: for every Object value `O` and every object pattern `{k1: ?, ..., km: ?}` with
`m ≥ 1` keys, each between two single or two double quotes (and, the pattern being a C
string, without a zero byte and without its own quote byte): the result is Match if every
pattern key is the key of some child of `O`, and NoMatch if one is missing.  Hence an
Object with the same set of keys, whatever its other fields and the order of its
children, gets the same result. -/
theorem obj_pattern_keys (key : List Nat) (cs : List ejson_value) (sz : Nat)
    (keys : List (Nat × List Nat)) (hne : keys ≠ [])
    (hk : ∀ qk ∈ keys, (qk.1 = 34 ∨ qk.1 = 39) ∧ (∀ b ∈ qk.2, b ≠ qk.1) ∧ ∀ b ∈ qk.2, b ≠ 0) :
    (ejson_match_and_unpack (.object key cs sz) (obj_pattern keys)).result =
      some (if keys_present cs keys = true then .EJSON_MATCH else .EJSON_NOMATCH) ∧
    ∀ (key' : List Nat) (cs' : List ejson_value) (sz' : Nat),
      (∀ k, (∃ c ∈ cs, c.key = k) ↔ (∃ c ∈ cs', c.key = k)) →
      (ejson_match_and_unpack (.object key' cs' sz') (obj_pattern keys)).result =
        (ejson_match_and_unpack (.object key cs sz) (obj_pattern keys)).result := by
  have main : ∀ (key : List Nat) (cs : List ejson_value) (sz : Nat),
      (ejson_match_and_unpack (.object key cs sz) (obj_pattern keys)).result =
        some (if keys_present cs keys = true then .EJSON_MATCH else .EJSON_NOMATCH) := by
    intro key cs sz
    have h0 : ∀ b ∈ obj_pattern keys, b ≠ 0 := by
      intro b hb
      simp only [obj_pattern, List.mem_cons] at hb
      rcases hb with rfl | hb
      · decide
      · exact obj_items_ne_zero keys hk b hb
    have hlen := strlen_eq_length _ h0
    obtain ⟨fuel, hfuel⟩ : ∃ fuel, (obj_pattern keys).length = fuel + 1 :=
      ⟨(obj_items keys).length, by simp [obj_pattern]⟩
    have hkl : keys.length ≤ fuel + 1 := by
      have := obj_items_length keys
      simp only [obj_pattern, List.length_cons] at hfuel
      omega
    have hat : Match.At { fmt := obj_pattern keys, len := fuel + 1, cur := 0, out := [] }
        (123 :: obj_items keys) [] := ⟨hfuel.symm, rfl, rfl⟩
    have h1 := hat.at_consume_spaces_nil (c := 123) rfl
    have h2 := h1.at_advance
    unfold ejson_match_and_unpack
    rw [hlen, hfuel, Match.match_and_unpack]
    simp only []
    rw [if_neg h1.at_ne, if_neg (by rw [h1.at_peek]; decide), if_neg (by rw [h1.at_peek]; decide),
      if_neg (by simp [ejson_value.type]), if_pos (by simp [ejson_value.type])]
    unfold Match.match_and_unpack_obj
    rw [if_neg (by rintro (h | h); exact h1.at_ne h; exact h h1.at_peek)]
    exact match_and_unpack_obj_loop_items fuel key cs sz [] keys (fuel + 1) _ [] [] hne hk
      (by simpa using h2) (fun _ hb => by cases hb) hkl
  refine ⟨main key cs sz, fun key' cs' sz' h => ?_⟩
  rw [main key' cs' sz', main key cs sz, keys_present_congr cs cs' keys h]

/-- C7 at the scenario: `{'name': ?}` matches the object `{"name": false, "pass":
"HelloKitty"}`, of which it names one key. -/
theorem obj_pattern_keys_witness :
    (ejson_match_and_unpack
      (.object [] [.boolean (bytes "name") false,
        .string (bytes "pass") (bytes "HelloKitty")] 2)
      (obj_pattern [(39, bytes "name")])).result = some .EJSON_MATCH ∧
    obj_pattern [(39, bytes "name")] = bytes "\x7b'name': ?\x7d" :=
  ⟨(obj_pattern_keys [] [.boolean (bytes "name") false,
      .string (bytes "pass") (bytes "HelloKitty")] 2 [(39, bytes "name")] (by simp)
      (by decide)).1,
   by decide⟩

/-! ## C6: array patterns shorter or longer than the array -/

/-- The loop of `match_and_unpack_arr` on the elements `p1, ..., pm]` of an array pattern
whose elements match the children they meet: NoMatch when elements are left after the last
child, Match otherwise, also when the bracket comes while children remain. -/
theorem match_and_unpack_arr_loop_items (fuel : Nat) (post : List Nat) :
    ∀ (cs : List ejson_value) (es : List (List Nat)) (ctx : Match.context_t) (ws : List Nat)
      (o : List ejson_value), cs ≠ [] → es ≠ [] →
      (∀ p ∈ es.zip cs, ElemMatches fuel p.1 p.2) →
      Match.At ctx (ws ++ (arr_items es ++ post)) o → (∀ b ∈ ws, is_space b = true) →
      (Match.match_and_unpack_arr_loop (Match.match_and_unpack fuel) cs ctx).result =
        some (if es.length ≤ cs.length then .EJSON_MATCH else .EJSON_NOMATCH) := by
  intro cs
  induction cs with
  | nil => intro es ctx ws o h; exact (h rfl).elim
  | cons c cs' ih =>
    intro es ctx ws o _ hes hm hat hws
    obtain ⟨e, es', rfl⟩ : ∃ e es', es = e :: es' := by
      cases es with
      | nil => exact (hes rfl).elim
      | cons e es' => exact ⟨e, es', rfl⟩
    have hme : ElemMatches fuel e c := hm (e, c) (by simp)
    have hm' : ∀ p ∈ es'.zip cs', ElemMatches fuel p.1 p.2 :=
      fun p hp => hm p (by simp only [List.zip_cons_cons]; exact List.mem_cons_of_mem _ hp)
    obtain ⟨⟨a, t, rfl, ha⟩, hrun⟩ := hme
    -- the text at the cursor: the element, then `]` or `, ` and the other elements
    obtain ⟨d, tl, htext, hd, htail⟩ : ∃ d tl,
        arr_items ((a :: t) :: es') ++ post = (a :: t) ++ d :: tl ∧ (d = 44 ∨ d = 93) ∧
        ((es' = [] ∧ d = 93) ∨
         (es' ≠ [] ∧ d = 44 ∧ tl = 32 :: (arr_items es' ++ post))) := by
      cases es' with
      | nil => exact ⟨93, post, by simp [arr_items], Or.inr rfl, Or.inl ⟨rfl, rfl⟩⟩
      | cons e' rest =>
        exact ⟨44, 32 :: (arr_items (e' :: rest) ++ post), by simp [arr_items], Or.inl rfl,
          Or.inr ⟨by simp, rfl, rfl⟩⟩
    rw [htext] at hat
    have h1 : Match.At (Match.consume_spaces ctx) ((a :: t) ++ d :: tl) o :=
      Match.At.at_consume_spaces (by simpa using hat) hws ha
    obtain ⟨ctx2, o2, hM, h2⟩ := hrun _ d tl o hd h1
    have hds : is_space d = false := by rcases hd with rfl | rfl <;> rfl
    have h3 := h2.at_consume_spaces_nil hds
    rw [Match.match_and_unpack_arr_loop]
    simp only []
    rw [if_neg (Match.At.at_ne (by simpa using h1)), hM]
    simp only []
    rw [if_neg h3.at_ne, h3.at_peek]
    cases cs' with
    | nil =>
      -- the last child
      have hno : ejson_hasnext [c] = false := rfl
      rw [hno]
      simp only [Bool.false_eq_true, if_false]
      rcases htail with ⟨hnil, rfl⟩ | ⟨hne, rfl, _⟩
      · subst hnil
        rw [if_neg (by decide), if_neg (by simp)]
        rfl
      · rw [if_pos rfl]
        rw [if_neg (by
          cases es' with
          | nil => exact (hne rfl).elim
          | cons _ _ => simp)]
        rfl
    | cons c' cs'' =>
      have hyes : ejson_hasnext (c :: c' :: cs'') = true := rfl
      rw [hyes]
      simp only [if_true]
      rcases htail with ⟨hnil, rfl⟩ | ⟨hne, rfl, rfl⟩
      · subst hnil
        rw [if_pos rfl]
        simp
        rfl
      · rw [if_neg (by decide), if_neg (by simp)]
        have hih := ih es' (Match.consume_spaces ctx2).advance [32] o2 (by simp) hne hm'
          (by simpa using h3.at_advance)
          (fun b hb => by simp only [List.mem_singleton] at hb; subst hb; rfl)
        rw [hih]
        simp only [List.length_cons, Nat.add_le_add_iff_right]

theorem arr_items_ne_zero (es : List (List Nat)) (h0 : ∀ e ∈ es, ∀ b ∈ e, b ≠ 0) :
    ∀ b ∈ arr_items es, b ≠ 0 := by
  induction es with
  | nil => intro b hb; simp [arr_items] at hb; omega
  | cons e rest ih =>
    have he := h0 e (List.mem_cons_self _ _)
    have hrest := ih (fun e h => h0 e (List.mem_cons_of_mem _ h))
    intro b hb
    cases rest with
    | nil =>
      simp only [arr_items, List.mem_append, List.mem_singleton] at hb
      rcases hb with hb | rfl
      · exact he b hb
      · decide
    | cons e' rest' =>
      simp only [arr_items, List.mem_append, List.mem_cons, List.cons_append,
        List.nil_append] at hb
      rcases hb with hb | rfl | rfl | hb
      · exact he b hb
      · decide
      · decide
      · exact hrest b hb

/-- The wildcard is an element pattern that matches every value. -/
theorem elem_matches_wild (fuel : Nat) (c : ejson_value) : ElemMatches (fuel + 1) [63] c := by
  refine ⟨⟨63, [], rfl, rfl⟩, fun ctx d tl o _ hat => ?_⟩
  obtain ⟨ctx', h, hat'⟩ := Match.At.wild (w := []) (by simpa using hat)
    (fun _ hb => by cases hb) fuel c
  exact ⟨ctx', o, h, hat'⟩

theorem elem_matches_wilds (fuel : Nat) (es : List (List Nat)) (cs : List ejson_value)
    (h : ∀ e ∈ es, e = [63]) : ∀ p ∈ es.zip cs, ElemMatches (fuel + 1) p.1 p.2 := by
  intro p hp
  obtain ⟨e, c⟩ := p
  have := h e (List.of_mem_zip hp).1
  subst this
  exact elem_matches_wild fuel c

/-- C6 as stated fails: the pattern `[$n, true]` has two elements, the scenario array has
three children, and the result is Match, neither NoMatch nor BadFormat. -/
theorem arr_pattern_short_counterexample :
    scenario_tree.type = .EJSON_ARRAY ∧ scenario_tree.children.length = 3 ∧
    (ejson_match_and_unpack scenario_tree (bytes "[$n, true]")).result = some .EJSON_MATCH ∧
    ¬ ((ejson_match_and_unpack scenario_tree (bytes "[$n, true]")).result =
          some .EJSON_NOMATCH ∨
       (ejson_match_and_unpack scenario_tree (bytes "[$n, true]")).result =
          some .EJSON_BADFORMAT) := by
  decide

/-- C6, amended: for every Array value with `n ≥ 1` children and every array pattern
`[p1, ..., pm]` with `m ≥ 1` elements (a C string, so without zero bytes) whose first
`min m n` elements match the children they stand for: the result is NoMatch when the
pattern has more elements than the array, and Match otherwise, in particular when the
closing bracket comes while children remain (the pattern then covers a prefix of the
array). -/
theorem arr_pattern_length (key : List Nat) (cs : List ejson_value) (sz : Nat)
    (es : List (List Nat)) (hcs : cs ≠ []) (hes : es ≠ [])
    (h0 : ∀ e ∈ es, ∀ b ∈ e, b ≠ 0)
    (hm : ∀ p ∈ es.zip cs, ElemMatches (arr_pattern es).length p.1 p.2) :
    (ejson_match_and_unpack (.array key cs sz) (arr_pattern es)).result =
      some (if es.length ≤ cs.length then .EJSON_MATCH else .EJSON_NOMATCH) := by
  have h0' : ∀ b ∈ arr_pattern es, b ≠ 0 := by
    intro b hb
    simp only [arr_pattern, List.mem_cons] at hb
    rcases hb with rfl | hb
    · decide
    · exact arr_items_ne_zero es h0 b hb
  have hlen := strlen_eq_length _ h0'
  have hat : Match.At ⟨arr_pattern es, 0, (arr_pattern es).length, []⟩
      (91 :: arr_items es) [] := ⟨rfl, rfl, rfl⟩
  have h1 := hat.at_consume_spaces_nil (c := 91) rfl
  have h2 := h1.at_advance
  unfold ejson_match_and_unpack
  rw [hlen, Match.match_and_unpack]
  simp only []
  rw [if_neg h1.at_ne, if_neg (by rw [h1.at_peek]; decide), if_neg (by rw [h1.at_peek]; decide),
    if_pos (by simp [ejson_value.type])]
  unfold Match.match_and_unpack_arr
  rw [if_neg (by rintro (h | h); exact h1.at_ne h; exact h h1.at_peek)]
  exact match_and_unpack_arr_loop_items _ [] cs es _ [] [] hcs hes hm
    (by simpa using h2) (fun _ hb => by cases hb)

/-- C6, amended, at the scenario array (three children): the pattern `[?, ?]` gives Match
and the pattern `[?, ?, ?, ?]` gives NoMatch. -/
theorem arr_pattern_length_witness :
    (ejson_match_and_unpack (.array [] scenario_tree.children 3)
      (arr_pattern [[63], [63]])).result = some .EJSON_MATCH ∧
    (ejson_match_and_unpack (.array [] scenario_tree.children 3)
      (arr_pattern [[63], [63], [63], [63]])).result = some .EJSON_NOMATCH ∧
    arr_pattern [[63], [63]] = bytes "[?, ?]" :=
  ⟨arr_pattern_length [] scenario_tree.children 3 [[63], [63]]
      (by show (_ :: _) ≠ []; exact List.cons_ne_nil _ _) (by decide) (by decide)
      (elem_matches_wilds 5 _ _ (by decide)),
   arr_pattern_length [] scenario_tree.children 3 [[63], [63], [63], [63]]
      (by show (_ :: _) ≠ []; exact List.cons_ne_nil _ _) (by decide) (by decide)
      (elem_matches_wilds 11 _ _ (by decide)),
   by decide⟩

/-! ## Induction over trees -/

/-- Induction over a tree: a property that holds of the scalar nodes, and of a composite
whenever it holds of its children, holds of every value. -/
theorem ejson_value.induct (P : ejson_value → Prop)
    (hnull : ∀ k, P (.null k))
    (harr : ∀ k head s, (∀ c ∈ head, P c) → P (.array k head s))
    (hobj : ∀ k head s, (∀ c ∈ head, P c) → P (.object k head s))
    (hnum : ∀ k i f, P (.number k i f))
    (hstr : ∀ k s, P (.string k s))
    (hbool : ∀ k b, P (.boolean k b)) : ∀ v, P v :=
  @ejson_value.rec P (fun l => ∀ c ∈ l, P c)
    hnull harr hobj hnum hstr hbool
    (fun _ h => by cases h)
    (fun head tail h1 h2 c hc => by
      rcases List.mem_cons.mp hc with rfl | hc
      · exact h1
      · exact h2 c hc)

theorem all_nodes_chain_iff (p : ejson_value → Bool) (l : List ejson_value) :
    all_nodes_chain p l = true ↔ ∀ c ∈ l, all_nodes p c = true := by
  induction l with
  | nil => simp [all_nodes_chain]
  | cons v rest ih => simp [all_nodes_chain, ih]

theorem all_nodes_self (p : ejson_value → Bool) (v : ejson_value)
    (h : all_nodes p v = true) : p v = true := by
  cases v <;> simp only [all_nodes, Bool.and_eq_true] at h <;> first | exact h | exact h.1

theorem all_nodes_children (p : ejson_value → Bool) (v : ejson_value)
    (h : all_nodes p v = true) : ∀ c ∈ v.children, all_nodes p c = true := by
  cases v <;> simp only [all_nodes, Bool.and_eq_true, ejson_value.children] at h ⊢
  case array => exact (all_nodes_chain_iff p _).mp h.2
  case object => exact (all_nodes_chain_iff p _).mp h.2
  all_goals (intro c hc; cases hc)

theorem all_nodes_set_key (p : ejson_value → Bool) (hp : ∀ v k, p (v.set_key k) = p v)
    (v : ejson_value) (k : List Nat) : all_nodes p (v.set_key k) = all_nodes p v := by
  cases v <;> simp only [ejson_value.set_key, all_nodes]
  case null k' => exact hp (.null k') k
  case array k' h s => rw [show p (.array k h s) = p (.array k' h s) from hp (.array k' h s) k]
  case object k' h s => rw [show p (.object k h s) = p (.object k' h s) from hp (.object k' h s) k]
  case number k' i f => exact hp (.number k' i f) k
  case string k' s => exact hp (.string k' s) k
  case boolean k' b => exact hp (.boolean k' b) k

theorem node_shape_set_key (v : ejson_value) (k : List Nat) :
    node_shape (v.set_key k) = node_shape v := by
  cases v <;> rfl

theorem node_int_set_key (v : ejson_value) (k : List Nat) :
    node_int (v.set_key k) = node_int v := by
  cases v <;> rfl

theorem key_set_key (v : ejson_value) (k : List Nat) : (v.set_key k).key = k := by
  cases v <;> rfl

theorem set_key_key (v : ejson_value) : v.set_key v.key = v := by
  cases v <;> rfl

theorem set_key_set_key (v : ejson_value) (k k' : List Nat) :
    (v.set_key k).set_key k' = v.set_key k' := by
  cases v <;> rfl

/-! ## The shape of the trees the parser builds -/

theorem Same.same_refl (a : context_t) : Same a a := ⟨rfl, rfl, rfl⟩

theorem Same.same_trans {a b c : context_t} (h₁ : Same a b) (h₂ : Same b c) : Same a c :=
  ⟨h₂.1.trans h₁.1, h₂.2.1.trans h₁.2.1, h₂.2.2.trans h₁.2.2⟩

theorem Same.same_set_cur {a b : context_t} (h : Same a b) (cur : Nat) :
    Same a { b with cur := cur } := h

theorem Same.same_consume_spaces {a b : context_t} (h : Same a b) : Same a (consume_spaces b) := h

theorem Same.same_advance {a b : context_t} (h : Same a b) : Same a b.advance := h

theorem Same.len_eq {a b : context_t} (h : Same a b) (hl : a.len = a.src.length) :
    b.len = b.src.length := by rw [h.2.1, h.1, hl]

theorem parse_res.shaped_of_same {a b : context_t} (h : Same a b) {r : parse_res}
    (hr : r.shaped b) : r.shaped a := by
  cases r with
  | starved => trivial
  | null c => trivial
  | val v c => exact ⟨hr.1, hr.2.1, h.same_trans hr.2.2⟩

theorem shaped_of_make_val {a b : context_t} (h : Same a b) (init : ejson_value)
    (hk : init.key = []) (hs : all_nodes node_shape init = true) :
    (parse_res.of (make_val b init)).shaped a := by
  obtain ⟨arena, error, he⟩ := make_val_snd b init
  have hfst : (make_val b init).1 = none ∨ (make_val b init).1 = some init := by
    unfold make_val
    split
    · exact Or.inl rfl
    · exact Or.inr rfl
  revert he hfst
  cases make_val b init with
  | mk r c =>
    intro he hfst
    simp only at he hfst
    subst he
    rcases hfst with rfl | rfl
    · trivial
    · exact ⟨hk, hs, h⟩

theorem take_takeWhile_length (p : Nat → Bool) (l : List Nat) :
    l.take (l.takeWhile p).length = l.takeWhile p := by
  induction l with
  | nil => rfl
  | cons a t ih =>
    by_cases h : p a = true
    · simp [List.takeWhile_cons, h, ih]
    · simp [List.takeWhile_cons, h]

/-- The bytes `parse_str` returns do not contain the quote the string was opened with. -/
theorem parse_str_no_quote (ctx : context_t) (hl : ctx.len = ctx.src.length) (s : List Nat)
    (c : context_t) (h : parse_str ctx = (some s, c)) :
    (∀ b ∈ s, b ≠ ctx.peek) ∧ Same ctx c := by
  unfold parse_str at h
  simp only [context_t.advance] at h
  split at h
  · cases h
  · simp only [Prod.mk.injEq, Option.some.injEq] at h
    obtain ⟨hs, hc⟩ := h
    subst hc
    refine ⟨?_, rfl, rfl, rfl⟩
    rw [hl, scan_while_eq _ ctx.src _ _ (Nat.le_refl _), Nat.add_sub_cancel_left,
      take_takeWhile_length] at hs
    subst hs
    intro b hb
    have := List.mem_takeWhile_imp hb
    simpa using this

theorem parse_str_2_shaped (ctx : context_t) (hl : ctx.len = ctx.src.length)
    (hq : ctx.peek = 34) : (parse_res.of (parse_str_2 ctx)).shaped ctx := by
  unfold parse_str_2
  cases hp : parse_str ctx with
  | mk r c =>
    cases r with
    | none => trivial
    | some s =>
      obtain ⟨hs, hsame⟩ := parse_str_no_quote ctx hl s c hp
      unfold make_val_for_str
      refine shaped_of_make_val hsame _ rfl ?_
      simp only [all_nodes, node_shape, decide_eq_true_eq]
      intro hmem
      exact hs 34 hmem hq.symm

theorem parse_int_shaped (ctx : context_t) : (parse_res.of (parse_int ctx)).shaped ctx := by
  unfold parse_int make_val_for_int
  split
  · trivial
  · exact shaped_of_make_val ((Same.same_refl ctx).same_set_cur _) _ rfl rfl

theorem parse_flt_shaped (ctx : context_t) : (parse_res.of (parse_flt ctx)).shaped ctx := by
  unfold parse_flt make_val_for_flt
  simp only []
  split
  · exact shaped_of_make_val ((Same.same_refl ctx).same_set_cur _) _ rfl rfl
  · exact shaped_of_make_val ((Same.same_refl ctx).same_set_cur _) _ rfl rfl

theorem parse_num_shaped (ctx : context_t) : (parse_res.of (parse_num ctx)).shaped ctx := by
  unfold parse_num
  simp only []
  split
  · exact parse_flt_shaped ctx
  · exact parse_int_shaped ctx

theorem parse_oth_shaped (ctx : context_t) : (parse_res.of (parse_oth ctx)).shaped ctx := by
  unfold parse_oth make_val_for_null make_val_for_true make_val_for_false
  simp only []
  split
  · split <;> trivial
  · split
    · exact shaped_of_make_val ((Same.same_refl ctx).same_set_cur _) _ rfl rfl
    · split
      · exact shaped_of_make_val ((Same.same_refl ctx).same_set_cur _) _ rfl rfl
      · split
        · exact shaped_of_make_val ((Same.same_refl ctx).same_set_cur _) _ rfl rfl
        · trivial

theorem Same.pre {a b : context_t} (h : Same a b)
    (hp : a.len = a.src.length ∧ a.config.allow_single_quoted_strings = false) :
    b.len = b.src.length ∧ b.config.allow_single_quoted_strings = false :=
  ⟨h.len_eq hp.1, by rw [h.2.2]; exact hp.2⟩

theorem shaped_val {a : context_t} {r : parse_res} (hr : r.shaped a) :
    r = .starved ∨ (∃ c, r = .null c) ∨
      ∃ v c, r = .val v c ∧ v.key = [] ∧ all_nodes node_shape v = true ∧ Same a c := by
  cases r with
  | starved => exact Or.inl rfl
  | null c => exact Or.inr (Or.inl ⟨c, rfl⟩)
  | val v c => exact Or.inr (Or.inr ⟨v, c, rfl, hr.1, hr.2.1, hr.2.2⟩)

theorem parse_arr_loop_shaped (rec : context_t → parse_res)
    (hrec : ∀ ctx, (ctx.len = ctx.src.length ∧ ctx.config.allow_single_quoted_strings = false) →
      (rec ctx).shaped ctx) :
    ∀ n ctx0 ctx head size, Same ctx0 ctx →
      (ctx0.len = ctx0.src.length ∧ ctx0.config.allow_single_quoted_strings = false) →
      size = head.length → (∀ c ∈ head, c.key = [] ∧ all_nodes node_shape c = true) →
      (parse_arr_loop rec n ctx head size).shaped ctx0 := by
  intro n
  induction n with
  | zero => intro ctx0 ctx head size _ _ _ _; trivial
  | succ n ih =>
    intro ctx0 ctx head size hs hp hsz hhead
    unfold parse_arr_loop
    rcases shaped_val (hrec ctx (hs.pre hp)) with hr | ⟨c, hr⟩ | ⟨v, c, hr, hk, hv, hc⟩
    · rw [hr]; trivial
    · rw [hr]; trivial
    · rw [hr]
      simp only []
      have hhead' : ∀ x ∈ head ++ [v], x.key = [] ∧ all_nodes node_shape x = true := by
        intro x hx
        rcases List.mem_append.mp hx with hx | hx
        · exact hhead x hx
        · simp only [List.mem_singleton] at hx; subst hx; exact ⟨hk, hv⟩
      have hsz' : size + 1 = (head ++ [v]).length := by simp [hsz]
      have h1 : Same ctx0 (consume_spaces c) := (hs.same_trans hc).same_consume_spaces
      split
      · trivial
      · split
        · unfold make_val_for_arr
          refine shaped_of_make_val h1.same_advance _ rfl ?_
          simp only [all_nodes, node_shape, Bool.and_eq_true, decide_eq_true_eq,
            List.all_eq_true, all_nodes_chain_iff]
          exact ⟨⟨hsz', fun x hx => (hhead' x hx).1⟩, fun x hx => (hhead' x hx).2⟩
        · split
          · split <;> trivial
          · split
            · trivial
            · exact ih ctx0 _ _ _ h1.same_advance.same_consume_spaces hp hsz' hhead'

theorem parse_arr_shaped (rec : context_t → parse_res)
    (hrec : ∀ ctx, (ctx.len = ctx.src.length ∧ ctx.config.allow_single_quoted_strings = false) →
      (rec ctx).shaped ctx)
    (n : Nat) (ctx : context_t)
    (hp : ctx.len = ctx.src.length ∧ ctx.config.allow_single_quoted_strings = false) :
    (parse_arr rec n ctx).shaped ctx := by
  have h1 : Same ctx (consume_spaces ctx.advance) :=
    (Same.same_refl ctx).same_advance.same_consume_spaces
  unfold parse_arr
  simp only []
  split
  · trivial
  · split
    · unfold make_val_for_empty_arr make_val_for_arr
      exact shaped_of_make_val h1.same_advance _ rfl rfl
    · exact parse_arr_loop_shaped rec hrec n ctx _ [] 0 h1 hp rfl (fun _ h => by cases h)

theorem parse_obj_loop_shaped (rec : context_t → parse_res)
    (hrec : ∀ ctx, (ctx.len = ctx.src.length ∧ ctx.config.allow_single_quoted_strings = false) →
      (rec ctx).shaped ctx) :
    ∀ n ctx0 ctx head size, Same ctx0 ctx →
      (ctx0.len = ctx0.src.length ∧ ctx0.config.allow_single_quoted_strings = false) →
      size = head.length → (∀ c ∈ head, 34 ∉ c.key ∧ all_nodes node_shape c = true) →
      (parse_obj_loop rec n ctx head size).shaped ctx0 := by
  intro n
  induction n with
  | zero => intro ctx0 ctx head size _ _ _ _; trivial
  | succ n ih =>
    intro ctx0 ctx head size hs hp hsz hhead
    unfold parse_obj_loop
    simp only []
    split
    · split <;> trivial
    · next hq =>
      have hq' : ctx.peek = 34 := by
        by_contra h; exact hq h
      cases hps : parse_str ctx with
      | mk r c1 =>
        cases r with
        | none => trivial
        | some key =>
          obtain ⟨hkey, hc1⟩ := parse_str_no_quote ctx (hs.pre hp).1 key c1 hps
          have hkey' : 34 ∉ key := fun hm => hkey 34 hm hq'.symm
          simp only []
          split
          · trivial
          · split
            · split <;> trivial
            · have h2 : Same ctx0 (consume_spaces c1).advance :=
                (hs.same_trans hc1).same_consume_spaces.same_advance
              rcases shaped_val (hrec _ (h2.pre hp)) with hr | ⟨c, hr⟩ | ⟨v, c, hr, hk, hv, hc⟩
              · rw [hr]; trivial
              · rw [hr]; trivial
              · rw [hr]
                simp only []
                have hhead' : ∀ x ∈ head ++ [v.set_key key],
                    34 ∉ x.key ∧ all_nodes node_shape x = true := by
                  intro x hx
                  rcases List.mem_append.mp hx with hx | hx
                  · exact hhead x hx
                  · simp only [List.mem_singleton] at hx
                    subst hx
                    rw [key_set_key, all_nodes_set_key _ node_shape_set_key]
                    exact ⟨hkey', hv⟩
                have hsz' : size + 1 = (head ++ [v.set_key key]).length := by simp [hsz]
                have h3 : Same ctx0 (consume_spaces c) := (h2.same_trans hc).same_consume_spaces
                split
                · trivial
                · split
                  · unfold make_val_for_obj
                    refine shaped_of_make_val h3.same_advance _ rfl ?_
                    simp only [all_nodes, node_shape, Bool.and_eq_true, decide_eq_true_eq,
                      List.all_eq_true, all_nodes_chain_iff]
                    exact ⟨⟨hsz', fun x hx => (hhead' x hx).1⟩, fun x hx => (hhead' x hx).2⟩
                  · split
                    · split <;> trivial
                    · split
                      · trivial
                      · exact ih ctx0 _ _ _ h3.same_advance.same_consume_spaces hp hsz' hhead'

theorem parse_obj_shaped (rec : context_t → parse_res)
    (hrec : ∀ ctx, (ctx.len = ctx.src.length ∧ ctx.config.allow_single_quoted_strings = false) →
      (rec ctx).shaped ctx)
    (n : Nat) (ctx : context_t)
    (hp : ctx.len = ctx.src.length ∧ ctx.config.allow_single_quoted_strings = false) :
    (parse_obj rec n ctx).shaped ctx := by
  have h1 : Same ctx (consume_spaces ctx.advance) :=
    (Same.same_refl ctx).same_advance.same_consume_spaces
  unfold parse_obj
  simp only []
  split
  · trivial
  · split
    · unfold make_val_for_empty_obj make_val_for_obj
      exact shaped_of_make_val h1.same_advance _ rfl rfl
    · exact parse_obj_loop_shaped rec hrec n ctx _ [] 0 h1 hp rfl (fun _ h => by cases h)

/-- Every tree `parse_any` returns under the default configuration has the parser's shape
and no key at its root. -/
theorem parse_any_shaped : ∀ fuel ctx,
    (ctx.len = ctx.src.length ∧ ctx.config.allow_single_quoted_strings = false) →
    (parse_any fuel ctx).shaped ctx := by
  intro fuel
  induction fuel with
  | zero => intro ctx _; trivial
  | succ fuel ih =>
    intro ctx hp
    have h1 : Same ctx (consume_spaces ctx) := (Same.same_refl ctx).same_consume_spaces
    have hp1 := h1.pre hp
    unfold parse_any
    simp only []
    split
    · trivial
    · split
      · next hq =>
        have hq' : (consume_spaces ctx).peek = 34 := by
          rcases hq with h | ⟨_, h⟩
          · exact h
          · rw [hp1.2] at h; cases h
        exact parse_res.shaped_of_same h1 (parse_str_2_shaped _ hp1.1 hq')
      · split
        · exact parse_res.shaped_of_same h1 (parse_obj_shaped _ ih fuel _ hp1)
        · split
          · exact parse_res.shaped_of_same h1 (parse_arr_shaped _ ih fuel _ hp1)
          · split
            · exact parse_res.shaped_of_same h1 (parse_num_shaped _)
            · exact parse_res.shaped_of_same h1 (parse_oth_shaped _)

/-- The tree `ejson_parse` returns has the parser's shape and no key at its root. -/
theorem ejson_parse_shaped (src : List Nat) (error : Option (List Nat)) (arena : ejson_arena)
    (out : parse_out) (T : ejson_value) (h : ejson_parse src error arena = some out)
    (hT : out.root = some T) : T.key = [] ∧ all_nodes node_shape T = true := by
  have hs := parse_any_shaped (src.length + 1)
    { error := error, arena := arena, src := src, len := src.length, cur := 0,
      config := EJSON_DEFAULT_CONFIGS } ⟨rfl, rfl⟩
  unfold ejson_parse ejson_parse2 at h
  simp only [] at h
  split at h
  · cases h
  · simp only [Option.some.injEq] at h
    subst h
    cases hT
  · next root c heq =>
    simp only [Option.some.injEq] at h
    subst h
    simp only [Option.some.injEq] at hT
    subst hT
    rw [heq] at hs
    exact ⟨hs.1, hs.2.1⟩

/-! ## The printer writes the serialization -/

theorem store_length (dst : List Nat) (a : Nat) (x : List Nat) (h : a + x.length ≤ dst.length) :
    (store dst a x).length = dst.length := by
  unfold store
  simp only [List.length_append, List.length_take, List.length_drop]
  omega

theorem store_store (dst : List Nat) (a : Nat) (x y : List Nat)
    (h : a + x.length ≤ dst.length) :
    store (store dst a x) (a + x.length) y = store dst a (x ++ y) := by
  have h1 : (dst.take a).length = a := by rw [List.length_take]; omega
  have h2 : (dst.take a ++ x).length = a + x.length := by
    rw [List.length_append, h1]
  unfold store
  have e1 : (dst.take a ++ x ++ dst.drop (a + x.length)).take (a + x.length) = dst.take a ++ x := by
    rw [← h2, List.take_left]
  have e2 : (dst.take a ++ x ++ dst.drop (a + x.length)).drop (a + x.length + y.length) =
      dst.drop (a + (x ++ y).length) := by
    rw [← List.drop_drop]
    have : (dst.take a ++ x ++ dst.drop (a + x.length)).drop (a + x.length) =
        dst.drop (a + x.length) := by
      rw [← h2, List.drop_left]
    rw [this, List.drop_drop, List.length_append]
    congr 1
    omega
  rw [e1, e2]
  simp only [List.append_assoc]

theorem printed_printed (ctx : print_context_t) (x y : List Nat)
    (h : ctx.num + x.length ≤ ctx.dst.length) :
    (ctx.printed x).printed y = ctx.printed (x ++ y) := by
  unfold print_context_t.printed
  simp only [store_store ctx.dst ctx.num x y h, List.length_append, Nat.add_assoc]

theorem printed_nil (ctx : print_context_t) :
    ctx.printed [] = ctx := by
  unfold print_context_t.printed store
  simp

theorem room_printed (ctx : print_context_t) (x : List Nat) (n : Nat)
    (h : ctx.room (x.length + n)) : (ctx.printed x).room n := by
  obtain ⟨h1, h2, h3⟩ := h
  refine ⟨?_, ?_, h3⟩
  · show ctx.num + x.length + n < ctx.max
    omega
  · show ctx.max ≤ (store ctx.dst ctx.num x).length
    rw [store_length _ _ _ (by omega)]
    exact h2

theorem room_mono (ctx : print_context_t) (m n : Nat) (h : ctx.room n) (hmn : m ≤ n) :
    ctx.room m := ⟨by have := h.1; omega, h.2.1, h.2.2⟩

/-- An `append` that fits writes the `len` bytes it is given. -/
theorem append_fits (ctx : print_context_t) (str : List Nat) (len : Nat)
    (hlen : len ≤ str.length) (h : ctx.room len) :
    append ctx str len = some (ctx.printed (str.take len)) := by
  obtain ⟨h1, h2, h3⟩ := h
  unfold append
  rw [if_pos (by omega)]
  have hmin : min len (ctx.max - ctx.num) = len := by omega
  simp only [hmin]
  rw [if_neg (by omega)]
  unfold print_context_t.printed
  have : (ctx.num + len) % SIZE_WIDTH = ctx.num + len := Nat.mod_eq_of_lt (by omega)
  rw [this, List.length_take, Nat.min_eq_left hlen]

theorem append_fits_all (ctx : print_context_t) (str : List Nat) (h : ctx.room str.length) :
    append ctx str str.length = some (ctx.printed str) := by
  rw [append_fits ctx str str.length (Nat.le_refl _) h, List.take_length]

/-! ## Decimal digits and the comparison of a converted integer with itself -/

theorem dec_value_append_singleton (l : List Nat) (d : Nat) :
    dec_value (l ++ [d]) = dec_value l * 10 + (d - 48) := by
  unfold dec_value
  rw [List.foldl_append]
  rfl

theorem dec_digits_spec : ∀ (f n : Nat), n < 10 ^ f →
    (∀ c ∈ dec_digits f n, is_digit c = true) ∧ dec_value (dec_digits f n) = n ∧
      (dec_digits f n).length ≤ f ∧ (0 < f → dec_digits f n ≠ []) := by
  intro f
  induction f with
  | zero =>
    intro n hn
    have : n = 0 := by simpa using hn
    subst this
    exact ⟨fun c hc => (by cases hc), rfl, Nat.le_refl _, fun h => (by omega)⟩
  | succ f ih =>
    intro n hn
    unfold dec_digits
    split
    · next hlt =>
      refine ⟨fun c hc => ?_, ?_, by simp, fun _ => by simp⟩
      · simp only [List.mem_singleton] at hc
        subst hc
        simp only [is_digit, Bool.and_eq_true, decide_eq_true_eq]
        omega
      · simp [dec_value]
    · next hge =>
      have hdiv : n / 10 < 10 ^ f := by
        rw [Nat.div_lt_iff_lt_mul (by omega)]
        rw [Nat.pow_succ] at hn
        exact hn
      obtain ⟨h1, h2, h3, _⟩ := ih (n / 10) hdiv
      refine ⟨fun c hc => ?_, ?_, ?_, fun _ => by simp⟩
      · rcases List.mem_append.mp hc with hc | hc
        · exact h1 c hc
        · simp only [List.mem_singleton] at hc
          subst hc
          simp only [is_digit, Bool.and_eq_true, decide_eq_true_eq]
          omega
      · rw [dec_value_append_singleton, h2]
        omega
      · simp only [List.length_append, List.length_singleton]
        omega

theorem ite_ne_nan (c : Prop) [Decidable c] (a b : Double) (ha : a ≠ .nan)
    (hb : b ≠ .nan) : (if c then a else b) ≠ .nan := by
  split <;> assumption

theorem Double.round_ne_nan (neg : Bool) (p q : Nat) : Double.round neg p q ≠ .nan := by
  unfold Double.round
  exact ite_ne_nan _ _ _ (fun h => by cases h)
    (ite_ne_nan _ _ _ (fun h => by cases h) (fun h => by cases h))

theorem Double.eq_self (x : Double) (h : x ≠ .nan) : Double.eq x x = true := by
  cases x with
  | nan => exact (h rfl).elim
  | inf s => simp [Double.eq]
  | fin s m e => simp [Double.eq]

theorem Double.eq_ofInt_self (i : Int) : Double.eq (Double.ofInt i) (Double.ofInt i) = true :=
  Double.eq_self _ (Double.round_ne_nan _ _ _)

/-- The serialization of the Number node of an integer literal is the run of its decimal
digits. -/
theorem serialize_node_int (k : List Nat) (i : Int) (f : Double)
    (h : node_int (.number k i f) = true) :
    ∃ n : Nat, i = (n : Int) ∧ n ≤ INT64_MAX ∧ f = Double.ofInt n ∧
      serialize (.number k i f) = dec_digits 20 n ∧
      (∀ c ∈ dec_digits 20 n, is_digit c = true) ∧ dec_value (dec_digits 20 n) = n ∧
      (dec_digits 20 n).length ≤ 20 ∧ dec_digits 20 n ≠ [] := by
  simp only [node_int, decide_eq_true_eq] at h
  obtain ⟨h0, hmax, hf⟩ := h
  obtain ⟨n, rfl⟩ := Int.eq_ofNat_of_zero_le h0
  have hn : n ≤ INT64_MAX := by exact_mod_cast hmax
  have hlt : n < 10 ^ 20 := by unfold INT64_MAX at hn; omega
  obtain ⟨h1, h2, h3, h4⟩ := dec_digits_spec 20 n hlt
  refine ⟨n, rfl, hn, hf, ?_, h1, h2, h3, h4 (by omega)⟩
  rw [serialize, hf, Double.eq_ofInt_self, if_pos rfl]
  unfold fmt_lld
  rw [if_neg (by omega)]
  rfl

theorem int_numbers_children (v : ejson_value) (h : int_numbers v = true) :
    ∀ c ∈ v.children, int_numbers c = true :=
  all_nodes_children node_int v h

theorem print_arr_loop_serialize :
    ∀ (head : List ejson_value),
      (∀ c ∈ head, int_numbers c = true → ∀ ctx : print_context_t,
        ctx.room (serialize c).length → print_any ctx c = some (ctx.printed (serialize c))) →
      (∀ c ∈ head, int_numbers c = true) → ∀ ctx : print_context_t,
      ctx.room (serialize_arr head).length →
      print_arr_loop ctx head = some (ctx.printed (serialize_arr head)) := by
  intro head
  induction head with
  | nil =>
    intro _ _ ctx _
    rw [print_arr_loop, serialize_arr, printed_nil]
  | cons v rest ih =>
    intro hP hint ctx hroom
    have hv := hP v (List.mem_cons_self _ _) (hint v (List.mem_cons_self _ _))
    have hrest := ih (fun c hc => hP c (List.mem_cons_of_mem _ hc))
      (fun c hc => hint c (List.mem_cons_of_mem _ hc))
    rw [serialize_arr] at hroom ⊢
    simp only [List.length_append, Nat.add_assoc] at hroom
    have h1 := hv ctx (room_mono ctx _ _ hroom (Nat.le_add_right _ _))
    have hr1 := room_printed ctx (serialize v) _ hroom
    have hle1 : ctx.num + (serialize v).length ≤ ctx.dst.length := by
      have := hroom.1; have := hroom.2.1; omega
    rw [print_arr_loop]
    simp only [h1, Option.bind_eq_bind, Option.some_bind]
    by_cases hn : ejson_hasnext (v :: rest) = true
    · simp only [hn, if_true] at hr1 hroom ⊢
      have h2 := append_fits_all (ctx.printed (serialize v)) [44, 32]
        (room_mono _ _ _ hr1 (Nat.le_add_right _ _))
      have hr2 := room_printed (ctx.printed (serialize v)) [44, 32] _ hr1
      rw [show (2 : Nat) = [44, 32].length from rfl, h2]
      show print_arr_loop _ rest = _
      rw [hrest _ hr2, printed_printed _ _ _ hle1, printed_printed _ _ _
        (by simp only [List.length_append]
            have := hroom.1; have := hroom.2.1
            simp only [List.length_cons, List.length_nil] at *
            omega)]
    · simp only [hn, if_false, Bool.false_eq_true] at hr1 hroom ⊢
      simp only [List.length_nil, Nat.zero_add] at hr1
      show print_arr_loop _ rest = _
      rw [hrest _ hr1, printed_printed _ _ _ hle1, List.append_nil]

theorem print_str_serialize (ctx : print_context_t) (s : List Nat)
    (hroom : ctx.room ([34] ++ s ++ [34]).length) :
    print_str ctx s = some (ctx.printed ([34] ++ s ++ [34])) := by
  have hle : ctx.num + 1 + s.length + 1 ≤ ctx.dst.length := by
    have := hroom.1; have := hroom.2.1
    simp only [List.length_append, List.length_cons, List.length_nil] at *
    omega
  simp only [List.length_append, Nat.add_assoc] at hroom
  have h1 := append_fits_all ctx [34] (room_mono ctx _ _ hroom (Nat.le_add_right _ _))
  have hr1 := room_printed ctx [34] _ hroom
  have h2 := append_fits_all (ctx.printed [34]) s (room_mono _ _ _ hr1 (Nat.le_add_right _ _))
  have hr2 := room_printed (ctx.printed [34]) s _ hr1
  have h3 := append_fits_all ((ctx.printed [34]).printed s) [34] hr2
  unfold print_str
  rw [show (1 : Nat) = [34].length from rfl, h1]
  show (append (ctx.printed [34]) s s.length >>= fun c => append c [34] [34].length) = _
  rw [h2]
  show append ((ctx.printed [34]).printed s) [34] [34].length = _
  have e1 := printed_printed ctx [34] s (by show ctx.num + 1 ≤ _; omega)
  have e2 := printed_printed ctx ([34] ++ s) [34] (by
    simp only [List.length_append, List.length_cons, List.length_nil]; omega)
  rw [h3, e1, e2]

theorem print_obj_loop_serialize :
    ∀ (head : List ejson_value),
      (∀ c ∈ head, int_numbers c = true → ∀ ctx : print_context_t,
        ctx.room (serialize c).length → print_any ctx c = some (ctx.printed (serialize c))) →
      (∀ c ∈ head, int_numbers c = true) → ∀ ctx : print_context_t,
      ctx.room (serialize_obj head).length →
      print_obj_loop ctx head = some (ctx.printed (serialize_obj head)) := by
  intro head
  induction head with
  | nil =>
    intro _ _ ctx _
    rw [print_obj_loop, serialize_obj, printed_nil]
  | cons v rest ih =>
    intro hP hint ctx hroom
    have hv := hP v (List.mem_cons_self _ _) (hint v (List.mem_cons_self _ _))
    have hrest := ih (fun c hc => hP c (List.mem_cons_of_mem _ hc))
      (fun c hc => hint c (List.mem_cons_of_mem _ hc))
    rw [serialize_obj] at hroom ⊢
    -- the four pieces in front of the rest of the chain
    generalize hsep : (if ejson_hasnext (v :: rest) = true then [44, 32] else []) = sep
      at hroom ⊢
    have hlen : ([34] ++ v.key ++ [34] ++ [58, 32] ++ serialize v ++ sep ++
        serialize_obj rest).length = ([34] ++ v.key ++ [34]).length + (2 +
          ((serialize v).length + (sep.length + (serialize_obj rest).length))) := by
      simp only [List.length_append, List.length_cons, List.length_nil]
      omega
    rw [hlen] at hroom
    have hbound : ctx.num + (([34] ++ v.key ++ [34]).length + (2 +
          ((serialize v).length + (sep.length + (serialize_obj rest).length)))) <
        ctx.dst.length := by
      have := hroom.1; have := hroom.2.1; omega
    have h1 := print_str_serialize ctx v.key (room_mono ctx _ _ hroom (Nat.le_add_right _ _))
    have hr1 := room_printed ctx ([34] ++ v.key ++ [34]) _ hroom
    have h2 := append_fits_all (ctx.printed ([34] ++ v.key ++ [34])) [58, 32]
      (room_mono _ _ _ hr1 (Nat.le_add_right _ _))
    have hr2 := room_printed (ctx.printed ([34] ++ v.key ++ [34])) [58, 32] _ hr1
    have h3 := hv _ (room_mono _ _ _ hr2 (Nat.le_add_right _ _))
    have hr3 := room_printed ((ctx.printed ([34] ++ v.key ++ [34])).printed [58, 32])
      (serialize v) _ hr2
    have h2' : append (ctx.printed ([34] ++ v.key ++ [34])) [58, 32] 2 =
        some ((ctx.printed ([34] ++ v.key ++ [34])).printed [58, 32]) := h2
    have e1 := printed_printed ctx ([34] ++ v.key ++ [34]) [58, 32] (by omega)
    have e2 := printed_printed ctx ([34] ++ v.key ++ [34] ++ [58, 32]) (serialize v) (by
      simp only [List.length_append, List.length_cons, List.length_nil] at hbound ⊢; omega)
    have e3 := printed_printed ctx ([34] ++ v.key ++ [34] ++ [58, 32] ++ serialize v) sep (by
      simp only [List.length_append, List.length_cons, List.length_nil] at hbound ⊢; omega)
    have e4 := printed_printed ctx ([34] ++ v.key ++ [34] ++ [58, 32] ++ serialize v ++ sep)
      (serialize_obj rest) (by
      simp only [List.length_append, List.length_cons, List.length_nil] at hbound ⊢; omega)
    rw [print_obj_loop]
    simp only [Option.bind_eq_bind]
    rw [h1, Option.some_bind, h2', Option.some_bind, h3, Option.some_bind]
    by_cases hn : ejson_hasnext (v :: rest) = true
    · rw [if_pos hn] at hsep ⊢
      subst hsep
      have h4 : append (((ctx.printed ([34] ++ v.key ++ [34])).printed [58, 32]).printed
          (serialize v)) [44, 32] 2 = some _ :=
        append_fits_all _ [44, 32] (room_mono _ _ _ hr3 (Nat.le_add_right _ _))
      rw [h4, Option.some_bind, hrest _ (room_printed _ [44, 32] _ hr3), e1, e2, e3, e4]
    · rw [if_neg hn] at hsep ⊢
      subst hsep
      have hr4 := room_printed _ [] _ hr3
      rw [printed_nil] at hr4
      rw [Option.some_bind, hrest _ hr4, e1, e2]
      rw [printed_nil] at e3
      rw [← e3] at e4
      rw [e4]

/-- The printer, given room for the whole text, writes the serialization of a tree whose
Numbers are those of integer literals. -/
theorem print_any_serialize : ∀ v : ejson_value, int_numbers v = true →
    ∀ ctx : print_context_t, ctx.room (serialize v).length →
      print_any ctx v = some (ctx.printed (serialize v)) := by
  intro v
  induction v using ejson_value.induct with
  | hnull k =>
    intro _ ctx hroom
    rw [print_any, serialize]
    exact append_fits_all ctx (bytes "null") hroom
  | hbool k b =>
    intro _ ctx hroom
    rw [print_any, serialize]
    cases b
    · exact append_fits_all ctx (bytes "false") hroom
    · exact append_fits_all ctx (bytes "true") hroom
  | hstr k s =>
    intro _ ctx hroom
    rw [print_any, serialize]
    exact print_str_serialize ctx s hroom
  | hnum k i f =>
    intro hint ctx hroom
    obtain ⟨n, rfl, hn, rfl, hser, _, _, hlen, _⟩ := serialize_node_int k i f
      (all_nodes_self node_int _ hint)
    rw [hser] at hroom ⊢
    rw [print_any, Double.eq_ofInt_self]
    simp only [if_true, snprintf_buff]
    have hfmt : fmt_lld (n : Int) = dec_digits 20 n := by
      unfold fmt_lld
      rw [if_neg (by omega)]
      rfl
    rw [hfmt]
    have htake : (dec_digits 20 n).take 127 = dec_digits 20 n :=
      List.take_of_length_le (by omega)
    rw [htake, append_fits ctx _ _ (by simp) hroom, List.take_left]
  | harr k head s ih =>
    intro hint ctx hroom
    have hch := int_numbers_children _ hint
    simp only [ejson_value.children] at hch
    rw [serialize] at hroom ⊢
    have hbound : ctx.num + ([91] ++ serialize_arr head ++ [93]).length < ctx.dst.length := by
      have := hroom.1; have := hroom.2.1; omega
    simp only [List.length_append, Nat.add_assoc] at hroom
    have h1 := append_fits_all ctx [91] (room_mono ctx _ _ hroom (Nat.le_add_right _ _))
    have hr1 := room_printed ctx [91] _ hroom
    have h2 := print_arr_loop_serialize head ih hch _
      (room_mono _ _ _ hr1 (Nat.le_add_right _ _))
    have hr2 := room_printed (ctx.printed [91]) (serialize_arr head) _ hr1
    have h3 := append_fits_all ((ctx.printed [91]).printed (serialize_arr head)) [93] hr2
    have h1' : append ctx [91] 1 = some (ctx.printed [91]) := h1
    have h3' : append ((ctx.printed [91]).printed (serialize_arr head)) [93] 1 = some _ := h3
    rw [print_any]
    simp only [Option.bind_eq_bind]
    rw [h1', Option.some_bind, h2, Option.some_bind, h3']
    simp only [List.length_append, List.length_cons, List.length_nil] at hbound
    have e1 := printed_printed ctx [91] (serialize_arr head) (by
      show ctx.num + 1 ≤ _; omega)
    have e2 := printed_printed ctx ([91] ++ serialize_arr head) [93] (by
      simp only [List.length_append, List.length_cons, List.length_nil]; omega)
    rw [e1, e2]
  | hobj k head s ih =>
    intro hint ctx hroom
    have hch := int_numbers_children _ hint
    simp only [ejson_value.children] at hch
    rw [serialize] at hroom ⊢
    have hbound : ctx.num + ([123] ++ serialize_obj head ++ [125]).length < ctx.dst.length := by
      have := hroom.1; have := hroom.2.1; omega
    simp only [List.length_append, Nat.add_assoc] at hroom
    have h1 := append_fits_all ctx [123] (room_mono ctx _ _ hroom (Nat.le_add_right _ _))
    have hr1 := room_printed ctx [123] _ hroom
    have h2 := print_obj_loop_serialize head ih hch _
      (room_mono _ _ _ hr1 (Nat.le_add_right _ _))
    have hr2 := room_printed (ctx.printed [123]) (serialize_obj head) _ hr1
    have h3 := append_fits_all ((ctx.printed [123]).printed (serialize_obj head)) [125] hr2
    have h1' : append ctx [123] 1 = some (ctx.printed [123]) := h1
    have h3' : append ((ctx.printed [123]).printed (serialize_obj head)) [125] 1 = some _ := h3
    rw [print_any]
    simp only [Option.bind_eq_bind]
    rw [h1', Option.some_bind, h2, Option.some_bind, h3']
    simp only [List.length_append, List.length_cons, List.length_nil] at hbound
    have e1 := printed_printed ctx [123] (serialize_obj head) (by
      show ctx.num + 1 ≤ _; omega)
    have e2 := printed_printed ctx ([123] ++ serialize_obj head) [125] (by
      simp only [List.length_append, List.length_cons, List.length_nil]; omega)
    rw [e1, e2]

theorem store_take (dst : List Nat) (a : Nat) (x : List Nat) (h : a ≤ dst.length) :
    (store dst a x).take a = dst.take a := by
  unfold store
  have h1 : (dst.take a).length = a := by rw [List.length_take]; omega
  rw [List.append_assoc, List.take_append_eq_append_take, h1, Nat.sub_self, List.take_zero,
    List.append_nil, List.take_take, Nat.min_self]

/-- The call `ejson_print` with room for the whole text and its terminator: the returned
length is the length of the serialization and the buffer starts with the serialization. -/
theorem ejson_print_serialize (v : ejson_value) (hint : int_numbers v = true)
    (dst : List Nat) (max : Nat) (hfit : (serialize v).length < max)
    (hmax : max ≤ dst.length) (hsz : max < SIZE_WIDTH) :
    ∃ dst', ejson_print v dst max = some ((serialize v).length, dst') ∧
      dst'.take (serialize v).length = serialize v := by
  have hp := print_any_serialize v hint { dst := dst, max := max, num := 0 }
    ⟨by simpa using hfit, hmax, hsz⟩
  unfold ejson_print
  rw [hp]
  simp only [print_context_t.printed, Nat.zero_add]
  rw [if_pos hfit]
  have hlen : (store dst 0 (serialize v)).length = dst.length :=
    store_length _ _ _ (by omega)
  rw [if_pos (by rw [hlen]; omega)]
  refine ⟨_, rfl, ?_⟩
  rw [store_take _ _ _ (by rw [hlen]; omega)]
  unfold store
  simp

/-! ## The parser on the serialization of a tree -/

theorem ejson_arena.after_one (a : ejson_arena) :
    a.after 1 = { a with used := a.used + node_pad a.used + sizeof_ejson_value } := by
  unfold ejson_arena.after
  simp

theorem node_pad_after (a : ejson_arena) (j : Nat) (hj : 0 < j) :
    node_pad (a.after j).used = 0 := by
  unfold ejson_arena.after
  rw [if_neg (by omega)]
  unfold node_pad sizeof_ejson_value
  simp only []
  omega

theorem ejson_arena.after_after (a : ejson_arena) (j k : Nat) :
    (a.after j).after k = a.after (j + k) := by
  by_cases hj : j = 0
  · subst hj; simp [ejson_arena.after]
  · by_cases hk : k = 0
    · subst hk; simp [ejson_arena.after]
    · have hpad := node_pad_after a j (by omega)
      unfold ejson_arena.after at hpad ⊢
      rw [if_neg hj] at hpad ⊢
      rw [if_neg hk, if_neg (by omega)]
      simp only [] at hpad ⊢
      rw [hpad]
      congr 1
      unfold sizeof_ejson_value
      omega

theorem ejson_arena.after_size (a : ejson_arena) (k : Nat) : (a.after k).size = a.size := by
  unfold ejson_arena.after
  split <;> rfl

theorem ejson_arena.after_used_mono (a : ejson_arena) (j k : Nat) (h : j ≤ k) :
    (a.after j).used ≤ (a.after k).used := by
  unfold ejson_arena.after sizeof_ejson_value
  split <;> split <;> (try simp only []) <;> omega

theorem ejson_arena.fits_mono (a : ejson_arena) (j k : Nat) (h : a.fits k) (hjk : j ≤ k) :
    a.fits j :=
  ⟨Nat.le_trans (a.after_used_mono j k hjk) h.1, h.2⟩

theorem ejson_arena.fits_after (a : ejson_arena) (j k : Nat) (h : a.fits (j + k)) :
    (a.after j).fits k := by
  unfold ejson_arena.fits
  rw [ejson_arena.after_after, ejson_arena.after_size]
  exact h

/-- Taking one node from an arena that has room for it. -/
theorem make_val_fits (ctx : context_t) (init : ejson_value) (h : ctx.arena.fits 1) :
    make_val ctx init = (some init, { ctx with arena := ctx.arena.after 1 }) := by
  obtain ⟨h1, h2⟩ := h
  rw [ejson_arena.after_one] at h1
  rw [make_val_of_room ctx init h1 h2, ejson_arena.after_one]

theorem PAt.peek {ctx : context_t} {c : Nat} {tl : List Nat} {a : ejson_arena}
    (h : PAt ctx (c :: tl) a) : ctx.peek = c :=
  peek_of_drop ctx c tl h.rem

theorem PAt.ne {ctx : context_t} {c : Nat} {tl : List Nat} {a : ejson_arena}
    (h : PAt ctx (c :: tl) a) : ctx.cur ≠ ctx.len := by
  have := cur_lt_of_drop ctx.src ctx.cur c tl h.rem
  have := h.len
  omega

theorem PAt.pat_advance {ctx : context_t} {c : Nat} {tl : List Nat} {a : ejson_arena}
    (h : PAt ctx (c :: tl) a) : PAt ctx.advance tl a :=
  ⟨h.len, drop_succ_of_drop ctx.src ctx.cur c tl h.rem, h.arena⟩

theorem PAt.pat_consume_spaces {ctx : context_t} {w : List Nat} {c : Nat} {tl : List Nat}
    {a : ejson_arena} (h : PAt ctx (w ++ c :: tl) a) (hws : ∀ b ∈ w, is_space b = true)
    (hc : is_space c = false) : PAt (Ejson.consume_spaces ctx) (c :: tl) a := by
  have hrem : ctx.src.drop ctx.cur = w ++ c :: tl := h.rem
  rw [consume_spaces_eq ctx h.len, hrem, takeWhile_append_of_all is_space w (c :: tl) hws
    (fun x hx => by simp only [List.head?_cons, Option.some.injEq] at hx; subst hx; exact hc)]
  exact ⟨h.len, drop_add_of_drop ctx.src ctx.cur w _ hrem, h.arena⟩

theorem PAt.consume_spaces_nil {ctx : context_t} {c : Nat} {tl : List Nat}
    {a : ejson_arena} (h : PAt ctx (c :: tl) a) (hc : is_space c = false) :
    PAt (Ejson.consume_spaces ctx) (c :: tl) a :=
  PAt.pat_consume_spaces (w := []) h (fun _ hb => by cases hb) hc

theorem PAt.pat_make_val {ctx : context_t} {r : List Nat} {a : ejson_arena} (h : PAt ctx r a)
    (init : ejson_value) (hfit : a.fits 1) :
    ∃ ctx', Ejson.make_val ctx init = (some init, ctx') ∧ PAt ctx' r (a.after 1) := by
  have hfit' : ctx.arena.fits 1 := by rw [h.arena]; exact hfit
  refine ⟨_, make_val_fits ctx init hfit', h.len, h.rem, ?_⟩
  show ctx.arena.after 1 = a.after 1
  rw [h.arena]

theorem PAt.parse_str {ctx : context_t} {q : Nat} {s rest : List Nat} {a : ejson_arena}
    (h : PAt ctx (q :: (s ++ q :: rest)) a) (hs : ∀ b ∈ s, b ≠ q) :
    ∃ ctx', Ejson.parse_str ctx = (some s, ctx') ∧ PAt ctx' rest a := by
  refine ⟨_, parse_str_quoted ctx q s rest h.len h.rem hs, h.len, ?_, h.arena⟩
  have hrem : ctx.src.drop ctx.cur = (q :: (s ++ [q])) ++ rest := by
    have := h.rem
    unfold context_t.rem at this
    rw [this]
    simp
  have := drop_add_of_drop ctx.src ctx.cur _ rest hrem
  simp only [List.length_cons, List.length_append, List.length_nil, Nat.zero_add] at this
  exact this

/-- The dispatch of `parse_any` after white space `ws`, at a byte `c` that is not white
space. -/
theorem PAt.parse_any {ctx : context_t} {ws : List Nat} {c : Nat} {tl : List Nat}
    {a : ejson_arena} (h : PAt ctx (ws ++ c :: tl) a) (hws : ∀ b ∈ ws, is_space b = true)
    (hc : is_space c = false) (fuel : Nat) :
    Ejson.parse_any (fuel + 1) ctx =
      if c = 34 ∨ (c = 39 ∧ ctx.config.allow_single_quoted_strings = true) then
        parse_res.of (parse_str_2 (Ejson.consume_spaces ctx))
      else if c = 123 then parse_obj (Ejson.parse_any fuel) fuel (Ejson.consume_spaces ctx)
      else if c = 91 then parse_arr (Ejson.parse_any fuel) fuel (Ejson.consume_spaces ctx)
      else if is_digit c then parse_res.of (parse_num (Ejson.consume_spaces ctx))
      else parse_res.of (parse_oth (Ejson.consume_spaces ctx)) := by
  have h1 := h.pat_consume_spaces hws hc
  rw [Ejson.parse_any]
  simp only []
  rw [if_neg h1.ne, h1.peek]
  rfl

theorem delim_not_alpha (post : List Nat) (h : delim post) :
    ∀ c, post.head? = some c → is_alpha c = false := by
  intro c hc
  rcases h c hc with rfl | rfl | rfl | hsp
  · rfl
  · rfl
  · rfl
  · simp only [is_space, Bool.or_eq_true, beq_iff_eq] at hsp
    rcases hsp with ((rfl | rfl) | rfl) | rfl <;> rfl

theorem delim_not_digit (post : List Nat) (h : delim post) :
    ∀ c, post.head? = some c → is_digit c = false ∧ c ≠ 46 := by
  intro c hc
  rcases h c hc with rfl | rfl | rfl | hsp
  · exact ⟨rfl, by decide⟩
  · exact ⟨rfl, by decide⟩
  · exact ⟨rfl, by decide⟩
  · simp only [is_space, Bool.or_eq_true, beq_iff_eq] at hsp
    rcases hsp with ((rfl | rfl) | rfl) | rfl <;> exact ⟨rfl, by decide⟩

theorem reparse_string (k s : List Nat) (hshape : node_shape (.string k s) = true) :
    Reparse (.string k s) := by
  intro fuel ctx ws post a hat hws _ hfuel hfit
  have hs : ∀ b ∈ s, b ≠ 34 := by
    simp only [node_shape, decide_eq_true_eq] at hshape
    intro b hb h
    exact hshape (h ▸ hb)
  rw [serialize] at hat hfuel
  obtain ⟨f, rfl⟩ : ∃ f, fuel = f + 1 := ⟨fuel - 1, by
    simp only [List.length_append, List.length_cons, List.length_nil] at hfuel; omega⟩
  have hat' : PAt ctx (ws ++ 34 :: (s ++ 34 :: post)) a := by simpa using hat
  have h1 := hat'.pat_consume_spaces hws rfl
  obtain ⟨ctx2, hp2, h2⟩ := h1.parse_str hs
  obtain ⟨ctx3, hp3, h3⟩ := h2.pat_make_val (.string EMPTY_STRING s) hfit
  refine ⟨ctx3, ?_, h3⟩
  rw [hat'.parse_any hws rfl f, if_pos (Or.inl rfl)]
  unfold parse_str_2
  rw [hp2]
  simp only []
  unfold make_val_for_str
  rw [hp3]
  rfl

theorem parse_oth_keyword (ctx : context_t) (c : Nat) (kw post : List Nat) (a : ejson_arena)
    (hat : PAt ctx (c :: kw ++ post) a) (hc : is_alpha c = true)
    (hkw : ∀ b ∈ kw, is_alpha b = true) (hpost : delim post) :
    parse_oth ctx =
      (if kw.length + 1 = 4 ∧ strncmp (bytes "null") (c :: kw ++ post) 4 = 0 then
        make_val_for_null { ctx with cur := ctx.cur + 1 + kw.length }
      else if kw.length + 1 = 4 ∧ strncmp (bytes "true") (c :: kw ++ post) 4 = 0 then
        make_val_for_true { ctx with cur := ctx.cur + 1 + kw.length }
      else if kw.length + 1 = 5 ∧ strncmp (bytes "false") (c :: kw ++ post) 5 = 0 then
        make_val_for_false { ctx with cur := ctx.cur + 1 + kw.length }
      else
        (none, { ctx with cur := ctx.cur + 1 + kw.length }.report (bytes "Invalid token '" ++
          ((c :: kw ++ post).take (kw.length + 1)).takeWhile (fun b => b != 0) ++
            bytes "'"))) := by
  have hrem : ctx.src.drop ctx.cur = c :: (kw ++ post) := hat.rem
  have hd1 : ctx.src.drop (ctx.cur + 1) = kw ++ post := drop_succ_of_drop _ _ _ _ hrem
  have hscan : scan_while is_alpha ctx.src ctx.len (ctx.len - (ctx.cur + 1)) (ctx.cur + 1) =
      ctx.cur + 1 + kw.length := by
    rw [hat.len, scan_while_eq _ ctx.src _ _ (Nat.le_refl _), hd1,
      takeWhile_append_of_all _ kw post hkw (delim_not_alpha post hpost)]
  unfold parse_oth
  simp only [context_t.advance, hat.peek, hc, hscan, hrem]
  have e : ctx.cur + 1 + kw.length - ctx.cur = kw.length + 1 := by omega
  simp only [e, Bool.true_eq_false, if_false, List.cons_append]

theorem reparse_null (k : List Nat) : Reparse (.null k) := by
  intro fuel ctx ws post a hat hws hpost hfuel hfit
  rw [serialize] at hat hfuel
  obtain ⟨f, rfl⟩ : ∃ f, fuel = f + 1 := ⟨fuel - 1, by
    have : (bytes "null").length = 4 := rfl
    omega⟩
  have hat' : PAt ctx (ws ++ 110 :: ([117, 108, 108] ++ post)) a := hat
  have h1 := hat'.pat_consume_spaces hws rfl
  have hrem2 : ({ (Ejson.consume_spaces ctx) with
      cur := (Ejson.consume_spaces ctx).cur + 1 + [117, 108, 108].length } : context_t).rem
      = post := by
    have := drop_add_of_drop _ _ [110, 117, 108, 108] post h1.rem
    exact this
  obtain ⟨ctx3, hp3, h3⟩ := @PAt.pat_make_val { (Ejson.consume_spaces ctx) with
      cur := (Ejson.consume_spaces ctx).cur + 1 + [117, 108, 108].length } _ _
      ⟨h1.len, hrem2, h1.arena⟩ (.null EMPTY_STRING) hfit
  refine ⟨ctx3, ?_, h3⟩
  rw [hat'.parse_any hws rfl f, if_neg (by simp), if_neg (by decide), if_neg (by decide)]
  rw [show is_digit 110 = false from rfl]
  simp only [Bool.false_eq_true, if_false]
  rw [parse_oth_keyword _ 110 [117, 108, 108] post a h1 rfl (by decide) hpost]
  rw [if_pos ⟨rfl, rfl⟩]
  unfold make_val_for_null
  rw [hp3]
  rfl

theorem reparse_boolean (k : List Nat) (b : Bool) : Reparse (.boolean k b) := by
  intro fuel ctx ws post a hat hws hpost hfuel hfit
  rw [serialize] at hat hfuel
  cases b with
  | true =>
    obtain ⟨f, rfl⟩ : ∃ f, fuel = f + 1 := ⟨fuel - 1, by
      have : (bytes "true").length = 4 := rfl
      simp only [if_true] at hfuel
      omega⟩
    have hat' : PAt ctx (ws ++ 116 :: ([114, 117, 101] ++ post)) a := hat
    have h1 := hat'.pat_consume_spaces hws rfl
    have hrem2 : ({ (Ejson.consume_spaces ctx) with
        cur := (Ejson.consume_spaces ctx).cur + 1 + [114, 117, 101].length } : context_t).rem
        = post := drop_add_of_drop _ _ [116, 114, 117, 101] post h1.rem
    obtain ⟨ctx3, hp3, h3⟩ := @PAt.pat_make_val { (Ejson.consume_spaces ctx) with
        cur := (Ejson.consume_spaces ctx).cur + 1 + [114, 117, 101].length } _ _
        ⟨h1.len, hrem2, h1.arena⟩ (.boolean EMPTY_STRING true) hfit
    refine ⟨ctx3, ?_, h3⟩
    rw [hat'.parse_any hws rfl f, if_neg (by simp), if_neg (by decide), if_neg (by decide)]
    rw [show is_digit 116 = false from rfl]
    simp only [Bool.false_eq_true, if_false]
    rw [parse_oth_keyword _ 116 [114, 117, 101] post a h1 rfl (by decide) hpost]
    rw [if_neg (by rintro ⟨_, h⟩; revert h; simp [strncmp, bytes]), if_pos ⟨rfl, rfl⟩]
    unfold make_val_for_true
    rw [hp3]
    rfl
  | false =>
    obtain ⟨f, rfl⟩ : ∃ f, fuel = f + 1 := ⟨fuel - 1, by
      have : (bytes "false").length = 5 := rfl
      simp only [Bool.false_eq_true, if_false] at hfuel
      omega⟩
    have hat' : PAt ctx (ws ++ 102 :: ([97, 108, 115, 101] ++ post)) a := hat
    have h1 := hat'.pat_consume_spaces hws rfl
    have hrem2 : ({ (Ejson.consume_spaces ctx) with
        cur := (Ejson.consume_spaces ctx).cur + 1 + [97, 108, 115, 101].length } :
        context_t).rem = post := drop_add_of_drop _ _ [102, 97, 108, 115, 101] post h1.rem
    obtain ⟨ctx3, hp3, h3⟩ := @PAt.pat_make_val { (Ejson.consume_spaces ctx) with
        cur := (Ejson.consume_spaces ctx).cur + 1 + [97, 108, 115, 101].length } _ _
        ⟨h1.len, hrem2, h1.arena⟩ (.boolean EMPTY_STRING false) hfit
    refine ⟨ctx3, ?_, h3⟩
    rw [hat'.parse_any hws rfl f, if_neg (by simp), if_neg (by decide), if_neg (by decide)]
    rw [show is_digit 102 = false from rfl]
    simp only [Bool.false_eq_true, if_false]
    rw [parse_oth_keyword _ 102 [97, 108, 115, 101] post a h1 rfl (by decide) hpost]
    rw [if_neg (by rintro ⟨h, _⟩; revert h; decide),
      if_neg (by rintro ⟨h, _⟩; revert h; decide), if_pos ⟨rfl, rfl⟩]
    unfold make_val_for_false
    rw [hp3]
    rfl

theorem reparse_number (k : List Nat) (i : Int) (f : Double)
    (hint : node_int (.number k i f) = true) : Reparse (.number k i f) := by
  intro fuel ctx ws post a hat hws hpost hfuel hfit
  obtain ⟨n, rfl, hn, rfl, hser, hdig, hval, _, hne⟩ := serialize_node_int k i f hint
  rw [hser] at hat hfuel
  obtain ⟨d, ds, hds⟩ : ∃ d ds, dec_digits 20 n = d :: ds := by
    cases h : dec_digits 20 n with
    | nil => exact (hne h).elim
    | cons d ds => exact ⟨d, ds, rfl⟩
  obtain ⟨g, rfl⟩ : ∃ g, fuel = g + 1 := ⟨fuel - 1, by
    rw [hds] at hfuel; simp only [List.length_cons] at hfuel; omega⟩
  have hd : is_digit d = true := hdig d (by rw [hds]; exact List.mem_cons_self _ _)
  have hd' := hd
  simp only [is_digit, Bool.and_eq_true, decide_eq_true_eq] at hd'
  have hat' : PAt ctx (ws ++ d :: (ds ++ post)) a := by
    rw [hds] at hat; simpa using hat
  have h1 := hat'.pat_consume_spaces hws (digit_not_space d hd)
  -- the source as the consumed part, the digits and the rest
  have hrem : (Ejson.consume_spaces ctx).src.drop (Ejson.consume_spaces ctx).cur =
      dec_digits 20 n ++ post := by
    rw [hds]; exact h1.rem
  have hlt := cur_lt_of_drop _ _ d (ds ++ post) h1.rem
  have hsrc : (Ejson.consume_spaces ctx).src =
      (Ejson.consume_spaces ctx).src.take (Ejson.consume_spaces ctx).cur ++
        dec_digits 20 n ++ post := by
    rw [List.append_assoc, ← hrem, List.take_append_drop]
  have hcur : (Ejson.consume_spaces ctx).cur =
      ((Ejson.consume_spaces ctx).src.take (Ejson.consume_spaces ctx).cur).length := by
    rw [List.length_take]; omega
  have hrun := parse_num_run (Ejson.consume_spaces ctx) _ (dec_digits 20 n) post hsrc h1.len
    hcur hne hdig (delim_not_digit post hpost)
  rw [hval, if_pos hn, ← hcur] at hrun
  have hrem2 : ({ (Ejson.consume_spaces ctx) with
      cur := (Ejson.consume_spaces ctx).cur + (dec_digits 20 n).length } : context_t).rem
      = post := drop_add_of_drop _ _ (dec_digits 20 n) post hrem
  obtain ⟨ctx3, hp3, h3⟩ := @PAt.pat_make_val { (Ejson.consume_spaces ctx) with
      cur := (Ejson.consume_spaces ctx).cur + (dec_digits 20 n).length } _ _
      ⟨h1.len, hrem2, h1.arena⟩ (.number EMPTY_STRING (n : Int) (Double.ofInt n)) hfit
  refine ⟨ctx3, ?_, h3⟩
  rw [hat'.parse_any hws (digit_not_space d hd) g, if_neg (by omega), if_neg (by omega),
    if_neg (by omega), if_pos hd, hrun]
  unfold make_val_for_int
  rw [hp3]
  rfl

theorem set_key_key' (v : ejson_value) (h : v.key = []) : v.set_key [] = v := by
  rw [← h]; exact set_key_key v

/-- The serialization of a value starts with a byte that is neither white space nor a
closing bracket or brace. -/
theorem serialize_head (v : ejson_value) (hint : node_int v = true) :
    ∃ x tl, serialize v = x :: tl ∧ is_space x = false ∧ x ≠ 93 ∧ x ≠ 125 := by
  cases v with
  | null k => exact ⟨110, [117, 108, 108], rfl, rfl, by decide, by decide⟩
  | array k h s => exact ⟨91, serialize_arr h ++ [93], by rw [serialize]; rfl, rfl,
      by decide, by decide⟩
  | object k h s => exact ⟨123, serialize_obj h ++ [125], by rw [serialize]; rfl, rfl,
      by decide, by decide⟩
  | string k s => exact ⟨34, s ++ [34], by rw [serialize]; rfl, rfl, by decide, by decide⟩
  | boolean k b =>
    cases b
    · exact ⟨102, [97, 108, 115, 101], rfl, rfl, by decide, by decide⟩
    · exact ⟨116, [114, 117, 101], rfl, rfl, by decide, by decide⟩
  | number k i f =>
    obtain ⟨n, _, _, _, hser, hdig, _, _, hne⟩ := serialize_node_int k i f hint
    cases h : dec_digits 20 n with
    | nil => exact (hne h).elim
    | cons d ds =>
      have hd : is_digit d = true := hdig d (by rw [h]; exact List.mem_cons_self _ _)
      have hd' := hd
      simp only [is_digit, Bool.and_eq_true, decide_eq_true_eq] at hd'
      exact ⟨d, ds, by rw [hser, h], digit_not_space d hd, by omega, by omega⟩

theorem serialize_length_pos (v : ejson_value) (hint : node_int v = true) :
    0 < (serialize v).length := by
  obtain ⟨x, tl, h, _⟩ := serialize_head v hint
  rw [h]
  simp

theorem serialize_arr_length (head : List ejson_value)
    (hint : ∀ c ∈ head, node_int c = true) :
    head.length ≤ (serialize_arr head).length ∧
      ∀ c ∈ head, (serialize c).length ≤ (serialize_arr head).length := by
  induction head with
  | nil => exact ⟨Nat.le_refl _, fun c hc => by cases hc⟩
  | cons v rest ih =>
    obtain ⟨h1, h2⟩ := ih (fun c hc => hint c (List.mem_cons_of_mem _ hc))
    have hv := serialize_length_pos v (hint v (List.mem_cons_self _ _))
    rw [serialize_arr]
    simp only [List.length_append, List.length_cons]
    refine ⟨by omega, fun c hc => ?_⟩
    rcases List.mem_cons.mp hc with rfl | hc
    · omega
    · have := h2 c hc; omega

theorem serialize_obj_length (head : List ejson_value)
    (hint : ∀ c ∈ head, node_int c = true) :
    head.length ≤ (serialize_obj head).length ∧
      ∀ c ∈ head, (serialize c).length ≤ (serialize_obj head).length := by
  induction head with
  | nil => exact ⟨Nat.le_refl _, fun c hc => by cases hc⟩
  | cons v rest ih =>
    obtain ⟨h1, h2⟩ := ih (fun c hc => hint c (List.mem_cons_of_mem _ hc))
    have hv := serialize_length_pos v (hint v (List.mem_cons_self _ _))
    rw [serialize_obj]
    simp only [List.length_append, List.length_cons]
    refine ⟨by omega, fun c hc => ?_⟩
    rcases List.mem_cons.mp hc with rfl | hc
    · omega
    · have := h2 c hc; omega

/-- The loop of `parse_arr` on the serialization of the children that are left. -/
theorem parse_arr_loop_reparse (f : Nat) (post : List Nat) :
    ∀ (rest acc : List ejson_value) (n : Nat) (ctx : context_t) (a : ejson_arena),
      rest ≠ [] → PAt ctx (serialize_arr rest ++ 93 :: post) a →
      (∀ c ∈ rest, Reparse c ∧ c.key = [] ∧ node_int c = true ∧ (serialize c).length ≤ f) →
      rest.length ≤ n → a.fits (node_count_chain rest + 1) →
      ∃ ctx', parse_arr_loop (parse_any f) n ctx acc acc.length =
          .val (.array [] (acc ++ rest) (acc.length + rest.length)) ctx' ∧
        PAt ctx' post (a.after (node_count_chain rest + 1)) := by
  intro rest
  induction rest with
  | nil => intro acc n ctx a h; exact (h rfl).elim
  | cons c rest' ih =>
    intro acc n ctx a _ hat hall hn hfit
    obtain ⟨hre, hkey, hci, hcf⟩ := hall c (List.mem_cons_self _ _)
    have hall' : ∀ x ∈ rest', Reparse x ∧ x.key = [] ∧ node_int x = true ∧
        (serialize x).length ≤ f := fun x hx => hall x (List.mem_cons_of_mem _ hx)
    obtain ⟨m, rfl⟩ : ∃ m, n = m + 1 := ⟨n - 1, by simp only [List.length_cons] at hn; omega⟩
    rw [node_count_chain] at hfit ⊢
    rw [serialize_arr] at hat
    -- the child
    have hat1 : PAt ctx ([] ++ (serialize c ++
        ((if ejson_hasnext (c :: rest') = true then [44, 32] else []) ++
          (serialize_arr rest' ++ 93 :: post)))) a := by
      simpa [List.append_assoc] using hat
    by_cases hrest : rest' = []
    · -- the last child: `]` follows
      subst hrest
      have hsep : (if ejson_hasnext [c] = true then [44, 32] else []) ++
          (serialize_arr [] ++ 93 :: post) = 93 :: post := rfl
      rw [hsep] at hat1
      obtain ⟨ctx1, hp1, h1⟩ := hre f ctx [] (93 :: post) a hat1 (fun _ hb => by cases hb)
        (fun x hx => by
          simp only [List.head?_cons, Option.some.injEq] at hx; subst hx; exact Or.inr (Or.inl rfl))
        hcf (a.fits_mono _ _ hfit (by simp only [node_count_chain]; omega))
      have h2 := h1.consume_spaces_nil (c := 93) rfl
      obtain ⟨ctx3, hp3, h3⟩ := h2.pat_advance.pat_make_val
        (.array EMPTY_STRING (acc ++ [c]) (acc.length + 1))
        (by
          have := a.fits_after (node_count c) 1
            (by simpa [node_count_chain] using hfit)
          exact this)
      refine ⟨ctx3, ?_, ?_⟩
      · rw [parse_arr_loop, hp1]
        simp only []
        rw [if_neg h2.ne, if_pos h2.peek]
        unfold make_val_for_arr
        rw [set_key_key' c hkey, hp3]
        rfl
      · rw [ejson_arena.after_after] at h3
        simpa [node_count_chain] using h3
    · -- more children: `, ` follows
      have hnext : ejson_hasnext (c :: rest') = true := by
        cases rest' with
        | nil => exact (hrest rfl).elim
        | cons _ _ => rfl
      rw [hnext] at hat1
      simp only [if_true] at hat1
      obtain ⟨ctx1, hp1, h1⟩ := hre f ctx [] (44 :: 32 :: (serialize_arr rest' ++ 93 :: post)) a
        (by simpa using hat1) (fun _ hb => by cases hb)
        (fun x hx => by
          simp only [List.head?_cons, Option.some.injEq] at hx; subst hx; exact Or.inl rfl)
        hcf (a.fits_mono _ _ hfit (by omega))
      have h2 := h1.consume_spaces_nil (c := 44) rfl
      obtain ⟨y, tl, hy⟩ : ∃ y tl, serialize_arr rest' ++ 93 :: post = y :: tl ∧
          is_space y = false := by
        cases rest' with
        | nil => exact (hrest rfl).elim
        | cons c' r =>
          obtain ⟨x, t, hx, hxs, _⟩ := serialize_head c' (hall' c' (List.mem_cons_self _ _)).2.2.1
          rw [serialize_arr, hx]
          exact ⟨x, _, rfl, hxs⟩
      have h3 : PAt (Ejson.consume_spaces (Ejson.consume_spaces ctx1).advance)
          (y :: tl) (a.after (node_count c)) :=
        PAt.pat_consume_spaces (w := [32]) (by rw [← hy.1]; exact h2.pat_advance)
          (fun b hb => by simp only [List.mem_singleton] at hb; subst hb; rfl) hy.2
      have h3' := h3
      rw [← hy.1] at h3'
      obtain ⟨ctx4, hp4, h4⟩ := ih (acc ++ [c]) m _ (a.after (node_count c)) hrest h3' hall'
        (by simp only [List.length_cons] at hn; omega)
        (a.fits_after _ _ (by rw [← Nat.add_assoc]; exact hfit))
      refine ⟨ctx4, ?_, ?_⟩
      · rw [parse_arr_loop, hp1]
        simp only []
        rw [if_neg h2.ne, if_neg (by rw [h2.peek]; decide), if_neg (by rw [h2.peek]; decide),
          if_neg h3.ne, set_key_key' c hkey]
        have hlen : (acc ++ [c]).length = acc.length + 1 := by simp
        rw [hlen] at hp4
        rw [hp4]
        simp only [List.append_assoc, List.singleton_append, List.length_cons]
        congr 2
        omega
      · rw [ejson_arena.after_after, ← Nat.add_assoc] at h4
        exact h4

/-- The loop of `parse_obj` on the serialization of the members that are left. -/
theorem parse_obj_loop_reparse (f : Nat) (post : List Nat) :
    ∀ (rest acc : List ejson_value) (n : Nat) (ctx : context_t) (a : ejson_arena),
      rest ≠ [] → PAt ctx (serialize_obj rest ++ 125 :: post) a →
      (∀ c ∈ rest, Reparse c ∧ 34 ∉ c.key ∧ node_int c = true ∧ (serialize c).length ≤ f) →
      rest.length ≤ n → a.fits (node_count_chain rest + 1) →
      ∃ ctx', parse_obj_loop (parse_any f) n ctx acc acc.length =
          .val (.object [] (acc ++ rest) (acc.length + rest.length)) ctx' ∧
        PAt ctx' post (a.after (node_count_chain rest + 1)) := by
  intro rest
  induction rest with
  | nil => intro acc n ctx a h; exact (h rfl).elim
  | cons c rest' ih =>
    intro acc n ctx a _ hat hall hn hfit
    obtain ⟨hre, hkey, hci, hcf⟩ := hall c (List.mem_cons_self _ _)
    have hall' : ∀ x ∈ rest', Reparse x ∧ 34 ∉ x.key ∧ node_int x = true ∧
        (serialize x).length ≤ f := fun x hx => hall x (List.mem_cons_of_mem _ hx)
    obtain ⟨m, rfl⟩ : ∃ m, n = m + 1 := ⟨n - 1, by simp only [List.length_cons] at hn; omega⟩
    rw [node_count_chain] at hfit ⊢
    rw [serialize_obj] at hat
    have hset : (c.set_key []).set_key c.key = c := by rw [set_key_set_key, set_key_key]
    by_cases hrest : rest' = []
    · -- the last member: the closing brace follows
      subst hrest
      have hat0 : PAt ctx (34 :: (c.key ++ 34 :: (58 :: ([32] ++ (serialize c ++ 125 :: post))))) a := by
        have e : [34] ++ c.key ++ [34] ++ [58, 32] ++ serialize c ++
            (if ejson_hasnext [c] = true then [44, 32] else []) ++ serialize_obj [] ++
              125 :: post = 34 :: (c.key ++ 34 :: (58 :: ([32] ++ (serialize c ++ 125 :: post)))) := by
          have : (if ejson_hasnext [c] = true then [44, 32] else ([] : List Nat)) = [] := rfl
          rw [this, serialize_obj]
          simp [List.append_assoc]
        rw [← e]; exact hat
      obtain ⟨ctxk, hpk, hk⟩ := hat0.parse_str (fun b hb hq => hkey (hq ▸ hb))
      have hk1 := hk.consume_spaces_nil (c := 58) rfl
      obtain ⟨ctx1, hp1, h1⟩ := hre f _ [32] (125 :: post) a hk1.pat_advance
        (fun b hb => by simp only [List.mem_singleton] at hb; subst hb; rfl)
        (fun x hx => by
          simp only [List.head?_cons, Option.some.injEq] at hx; subst hx
          exact Or.inr (Or.inr (Or.inl rfl)))
        hcf (a.fits_mono _ _ hfit (by simp only [node_count_chain]; omega))
      have h2 := h1.consume_spaces_nil (c := 125) rfl
      obtain ⟨ctx3, hp3, h3⟩ := h2.pat_advance.pat_make_val
        (.object EMPTY_STRING (acc ++ [c]) (acc.length + 1))
        (a.fits_after (node_count c) 1 (by simpa [node_count_chain] using hfit))
      refine ⟨ctx3, ?_, ?_⟩
      · rw [parse_obj_loop]
        simp only []
        rw [if_neg (by rw [hat0.peek]; decide), hpk]
        simp only []
        rw [if_neg hk1.ne, if_neg (by rw [hk1.peek]; decide), hp1]
        simp only []
        rw [if_neg h2.ne, if_pos h2.peek]
        unfold make_val_for_obj
        rw [hset, hp3]
        rfl
      · rw [ejson_arena.after_after] at h3
        simpa [node_count_chain] using h3
    · -- more members: `, ` follows
      have hnext : ejson_hasnext (c :: rest') = true := by
        cases rest' with
        | nil => exact (hrest rfl).elim
        | cons _ _ => rfl
      have hat0 : PAt ctx (34 :: (c.key ++ 34 :: (58 :: ([32] ++ (serialize c ++
          44 :: 32 :: (serialize_obj rest' ++ 125 :: post)))))) a := by
        have e : [34] ++ c.key ++ [34] ++ [58, 32] ++ serialize c ++
            (if ejson_hasnext (c :: rest') = true then [44, 32] else []) ++ serialize_obj rest' ++
              125 :: post = 34 :: (c.key ++ 34 :: (58 :: ([32] ++ (serialize c ++
                44 :: 32 :: (serialize_obj rest' ++ 125 :: post))))) := by
          rw [if_pos hnext]
          simp [List.append_assoc]
        rw [← e]; exact hat
      obtain ⟨ctxk, hpk, hk⟩ := hat0.parse_str (fun b hb hq => hkey (hq ▸ hb))
      have hk1 := hk.consume_spaces_nil (c := 58) rfl
      obtain ⟨ctx1, hp1, h1⟩ := hre f _ [32] (44 :: 32 :: (serialize_obj rest' ++ 125 :: post))
        a hk1.pat_advance
        (fun b hb => by simp only [List.mem_singleton] at hb; subst hb; rfl)
        (fun x hx => by
          simp only [List.head?_cons, Option.some.injEq] at hx; subst hx; exact Or.inl rfl)
        hcf (a.fits_mono _ _ hfit (by omega))
      have h2 := h1.consume_spaces_nil (c := 44) rfl
      obtain ⟨tl, hy⟩ : ∃ tl, serialize_obj rest' ++ 125 :: post = 34 :: tl := by
        cases rest' with
        | nil => exact (hrest rfl).elim
        | cons c' r =>
          rw [serialize_obj]
          exact ⟨_, rfl⟩
      have h3 : PAt (Ejson.consume_spaces (Ejson.consume_spaces ctx1).advance)
          (34 :: tl) (a.after (node_count c)) :=
        PAt.pat_consume_spaces (w := [32]) (by rw [← hy]; exact h2.pat_advance)
          (fun b hb => by simp only [List.mem_singleton] at hb; subst hb; rfl) rfl
      have h3' := h3
      rw [← hy] at h3'
      obtain ⟨ctx4, hp4, h4⟩ := ih (acc ++ [c]) m _ (a.after (node_count c)) hrest h3' hall'
        (by simp only [List.length_cons] at hn; omega)
        (a.fits_after _ _ (by rw [← Nat.add_assoc]; exact hfit))
      refine ⟨ctx4, ?_, ?_⟩
      · rw [parse_obj_loop]
        simp only []
        rw [if_neg (by rw [hat0.peek]; decide), hpk]
        simp only []
        rw [if_neg hk1.ne, if_neg (by rw [hk1.peek]; decide), hp1]
        simp only []
        rw [if_neg h2.ne, if_neg (by rw [h2.peek]; decide), if_neg (by rw [h2.peek]; decide),
          if_neg h3.ne, hset]
        have hlen : (acc ++ [c]).length = acc.length + 1 := by simp
        rw [hlen] at hp4
        rw [hp4]
        simp only [List.append_assoc, List.singleton_append, List.length_cons]
        congr 2
        omega
      · rw [ejson_arena.after_after, ← Nat.add_assoc] at h4
        exact h4

theorem reparse_array (k : List Nat) (head : List ejson_value) (s : Nat)
    (hshape : node_shape (.array k head s) = true) (hint : ∀ c ∈ head, node_int c = true)
    (ih : ∀ c ∈ head, Reparse c) : Reparse (.array k head s) := by
  intro fuel ctx ws post a hat hws _ hfuel hfit
  simp only [node_shape, Bool.and_eq_true, decide_eq_true_eq, List.all_eq_true] at hshape
  obtain ⟨hs, hkeys⟩ := hshape
  obtain ⟨hlen, hchild⟩ := serialize_arr_length head hint
  have hserl : (serialize (.array k head s)).length = (serialize_arr head).length + 2 := by
    rw [serialize]; simp
  obtain ⟨f, rfl⟩ : ∃ f, fuel = f + 1 := ⟨fuel - 1, by omega⟩
  have hat' : PAt ctx (ws ++ 91 :: (serialize_arr head ++ 93 :: post)) a := by
    have e : ws ++ (serialize (.array k head s) ++ post) =
        ws ++ 91 :: (serialize_arr head ++ 93 :: post) := by
      rw [serialize]; simp
    rw [← e]; exact hat
  have h1 := hat'.pat_consume_spaces hws rfl
  rw [hat'.parse_any hws rfl f, if_neg (by simp), if_neg (by decide), if_pos rfl]
  unfold parse_arr
  simp only []
  have hcnt : node_count (.array k head s) = node_count_chain head + 1 := by
    rw [node_count, Nat.add_comm]
  rw [hcnt] at hfit ⊢
  cases head with
  | nil =>
    have h2 := h1.pat_advance.consume_spaces_nil (c := 93) rfl
    obtain ⟨ctx3, hp3, h3⟩ := h2.pat_advance.pat_make_val (.array EMPTY_STRING [] 0)
      (by simpa [node_count_chain] using hfit)
    refine ⟨ctx3, ?_, by simpa [node_count_chain] using h3⟩
    rw [if_neg h2.ne, if_pos h2.peek]
    unfold make_val_for_empty_arr make_val_for_arr
    rw [hp3, hs]
    rfl
  | cons c r =>
    obtain ⟨x, tl, hx, hxs, hx93, _⟩ := serialize_head c (hint c (List.mem_cons_self _ _))
    obtain ⟨tl', htl⟩ : ∃ tl', serialize_arr (c :: r) ++ 93 :: post = x :: tl' := by
      rw [serialize_arr, hx]
      exact ⟨_, rfl⟩
    have h2 : PAt (Ejson.consume_spaces (Ejson.consume_spaces ctx).advance) (x :: tl') a :=
      PAt.consume_spaces_nil (by rw [← htl]; exact h1.pat_advance) hxs
    have h2' := h2
    rw [← htl] at h2'
    obtain ⟨ctx4, hp4, h4⟩ := parse_arr_loop_reparse f post (c :: r) [] f _ a
      (by simp) h2'
      (fun d hd => ⟨ih d hd, by simpa using hkeys d hd, hint d hd, by
        have := hchild d hd; omega⟩)
      (by omega) hfit
    refine ⟨ctx4, ?_, h4⟩
    rw [if_neg h2.ne, if_neg (by rw [h2.peek]; exact hx93)]
    have hp4' : parse_arr_loop (Ejson.parse_any f) f
        (Ejson.consume_spaces (Ejson.consume_spaces ctx).advance) [] 0 =
        .val (.array [] (c :: r) s) ctx4 := by
      rw [hs]
      simpa using hp4
    rw [hp4']
    rfl

theorem reparse_object (k : List Nat) (head : List ejson_value) (s : Nat)
    (hshape : node_shape (.object k head s) = true) (hint : ∀ c ∈ head, node_int c = true)
    (ih : ∀ c ∈ head, Reparse c) : Reparse (.object k head s) := by
  intro fuel ctx ws post a hat hws _ hfuel hfit
  simp only [node_shape, Bool.and_eq_true, decide_eq_true_eq, List.all_eq_true] at hshape
  obtain ⟨hs, hkeys⟩ := hshape
  obtain ⟨hlen, hchild⟩ := serialize_obj_length head hint
  have hserl : (serialize (.object k head s)).length = (serialize_obj head).length + 2 := by
    rw [serialize]; simp
  obtain ⟨f, rfl⟩ : ∃ f, fuel = f + 1 := ⟨fuel - 1, by omega⟩
  have hat' : PAt ctx (ws ++ 123 :: (serialize_obj head ++ 125 :: post)) a := by
    have e : ws ++ (serialize (.object k head s) ++ post) =
        ws ++ 123 :: (serialize_obj head ++ 125 :: post) := by
      rw [serialize]; simp
    rw [← e]; exact hat
  have h1 := hat'.pat_consume_spaces hws rfl
  rw [hat'.parse_any hws rfl f, if_neg (by simp), if_pos rfl]
  unfold parse_obj
  simp only []
  have hcnt : node_count (.object k head s) = node_count_chain head + 1 := by
    rw [node_count, Nat.add_comm]
  rw [hcnt] at hfit ⊢
  cases head with
  | nil =>
    have h2 := h1.pat_advance.consume_spaces_nil (c := 125) rfl
    obtain ⟨ctx3, hp3, h3⟩ := h2.pat_advance.pat_make_val (.object EMPTY_STRING [] 0)
      (by simpa [node_count_chain] using hfit)
    refine ⟨ctx3, ?_, by simpa [node_count_chain] using h3⟩
    rw [if_neg h2.ne, if_pos h2.peek]
    unfold make_val_for_empty_obj make_val_for_obj
    rw [hp3, hs]
    rfl
  | cons c r =>
    obtain ⟨tl', htl⟩ : ∃ tl', serialize_obj (c :: r) ++ 125 :: post = 34 :: tl' := by
      rw [serialize_obj]
      exact ⟨_, rfl⟩
    have h2 : PAt (Ejson.consume_spaces (Ejson.consume_spaces ctx).advance) (34 :: tl') a :=
      PAt.consume_spaces_nil (by rw [← htl]; exact h1.pat_advance) rfl
    have h2' := h2
    rw [← htl] at h2'
    obtain ⟨ctx4, hp4, h4⟩ := parse_obj_loop_reparse f post (c :: r) [] f _ a
      (by simp) h2'
      (fun d hd => ⟨ih d hd, by simpa using hkeys d hd, hint d hd, by
        have := hchild d hd; omega⟩)
      (by omega) hfit
    refine ⟨ctx4, ?_, h4⟩
    rw [if_neg h2.ne, if_neg (by rw [h2.peek]; decide)]
    have hp4' : parse_obj_loop (Ejson.parse_any f) f
        (Ejson.consume_spaces (Ejson.consume_spaces ctx).advance) [] 0 =
        .val (.object [] (c :: r) s) ctx4 := by
      rw [hs]
      simpa using hp4
    rw [hp4']
    rfl

/-- Every tree with the shape the parser gives its nodes, and whose Numbers are those of
integer literals, is read back from its serialization. -/
theorem reparse_all : ∀ v : ejson_value,
    all_nodes node_shape v = true → int_numbers v = true → Reparse v := by
  intro v
  induction v using ejson_value.induct with
  | hnull k => intro _ _; exact reparse_null k
  | hbool k b => intro _ _; exact reparse_boolean k b
  | hstr k s => intro hs _; exact reparse_string k s (all_nodes_self _ _ hs)
  | hnum k i f => intro _ hi; exact reparse_number k i f (all_nodes_self _ _ hi)
  | harr k head s ih =>
    intro hs hi
    have hcs := all_nodes_children _ _ hs
    have hci := all_nodes_children _ _ hi
    simp only [ejson_value.children] at hcs hci
    exact reparse_array k head s (all_nodes_self _ _ hs)
      (fun c hc => all_nodes_self _ _ (hci c hc))
      (fun c hc => ih c hc (hcs c hc) (hci c hc))
  | hobj k head s ih =>
    intro hs hi
    have hcs := all_nodes_children _ _ hs
    have hci := all_nodes_children _ _ hi
    simp only [ejson_value.children] at hcs hci
    exact reparse_object k head s (all_nodes_self _ _ hs)
      (fun c hc => all_nodes_self _ _ (hci c hc))
      (fun c hc => ih c hc (hcs c hc) (hci c hc))

/-! ## A tree compared with itself -/

theorem strncmp_self (s : List Nat) : ∀ n, strncmp s s n = 0 := by
  induction s with
  | nil => intro n; cases n <;> simp [strncmp]
  | cons x l ih =>
    intro n
    cases n with
    | zero => simp [strncmp]
    | succ n =>
      simp only [strncmp, List.headD_cons, List.tail_cons]
      simp [ih n]

theorem valcmp_chain_self (h : List ejson_value)
    (ih : ∀ c ∈ h, ejson_valcmp c c = some true) : valcmp_chain h h = some true := by
  induction h with
  | nil => rw [valcmp_chain]
  | cons c r ihr =>
    rw [valcmp_chain, ih c (List.mem_cons_self _ _)]
    exact ihr (fun d hd => ih d (List.mem_cons_of_mem _ hd))

/-- A tree whose Numbers are those of integer literals compares equal to itself. -/
theorem ejson_valcmp_self : ∀ v : ejson_value, int_numbers v = true →
    ejson_valcmp v v = some true := by
  intro v
  induction v using ejson_value.induct with
  | hnull k => intro _; rfl
  | hbool k b => intro _; cases b <;> rfl
  | hstr k s =>
    intro _
    rw [ejson_valcmp, strncmp_self]
    simp
  | hnum k i f =>
    intro hi
    have h := all_nodes_self _ _ hi
    simp only [node_int, decide_eq_true_eq] at h
    rw [ejson_valcmp, h.2.2, Double.eq_ofInt_self]
    simp
  | harr k head s ih =>
    intro hi
    have hci := all_nodes_children _ _ hi
    simp only [ejson_value.children] at hci
    rw [ejson_valcmp, if_neg (by simp)]
    exact valcmp_chain_self head (fun c hc => ih c hc (hci c hc))
  | hobj k head s ih =>
    intro hi
    have hci := all_nodes_children _ _ hi
    simp only [ejson_value.children] at hci
    rw [ejson_valcmp, if_neg (by simp)]
    exact valcmp_chain_self head (fun c hc => ih c hc (hci c hc))

theorem node_count_pos (v : ejson_value) : 0 < node_count v := by
  cases v <;> simp [node_count]

theorem fits_of_arena_room (a : ejson_arena) (n : Nat) (hn : 0 < n) (h : arena_room a n) :
    a.fits n := by
  unfold ejson_arena.fits ejson_arena.after
  rw [if_neg (by omega)]
  exact h

/-- Parsing the serialization of a tree that has the parser's shape and no key gives the
tree back. -/
theorem ejson_parse_serialize (T : ejson_value) (hkey : T.key = [])
    (hshape : all_nodes node_shape T = true) (hint : int_numbers T = true)
    (error : Option (List Nat)) (arena : ejson_arena) (hroom : arena_room arena (node_count T)) :
    ∃ out, ejson_parse (serialize T) error arena = some out ∧ out.root = some T := by
  have hre := reparse_all T hshape hint
  obtain ⟨ctx', hp, _⟩ := hre ((serialize T).length + 1)
    { error := error, arena := arena, src := serialize T, len := (serialize T).length,
      cur := 0, config := EJSON_DEFAULT_CONFIGS } [] [] arena
    ⟨rfl, by simp [context_t.rem], rfl⟩ (fun _ hb => by cases hb)
    (fun c hc => by cases hc) (by omega)
    (fits_of_arena_room arena _ (node_count_pos T) hroom)
  rw [set_key_key' T hkey] at hp
  unfold ejson_parse ejson_parse2
  simp only []
  rw [hp]
  exact ⟨_, rfl, rfl⟩

/-! ## C2: the round trip through `ejson_print` and `ejson_parse` -/

/-- C2: let `T` be the tree `ejson_parse` (default configuration) returns for a source, with
every Number of `T` the node of an integer literal, as it is for every source without
fractional literal (`ejson_parse_integral`).  Printing `T` with `ejson_print` into a buffer
of `max` bytes, with `max` above the length of the complete serialization, and parsing the
`n` bytes printed with an arena that has room for the nodes of `T`, succeeds and returns a
tree `T'` with `ejson_valcmp(T, T')` true. -/
theorem round_trip (src : List Nat) (error : Option (List Nat)) (arena : ejson_arena)
    (out : parse_out) (T : ejson_value) (hparse : ejson_parse src error arena = some out)
    (hroot : out.root = some T) (hint : int_numbers T = true)
    (dst : List Nat) (max : Nat) (hroom : (serialize T).length < max)
    (hmax : max ≤ dst.length) (hsz : max < SIZE_WIDTH)
    (error2 : Option (List Nat)) (arena2 : ejson_arena)
    (harena : arena_room arena2 (node_count T)) :
    ∃ n dst' out' T', ejson_print T dst max = some (n, dst') ∧ n < max ∧
      ejson_parse (dst'.take n) error2 arena2 = some out' ∧ out'.root = some T' ∧
      ejson_valcmp T T' = some true := by
  obtain ⟨hkey, hshape⟩ := ejson_parse_shaped src error arena out T hparse hroot
  obtain ⟨dst', hprint, htext⟩ := ejson_print_serialize T hint dst max hroom hmax hsz
  obtain ⟨out', hparse', hroot'⟩ := ejson_parse_serialize T hkey hshape hint error2 arena2 harena
  refine ⟨(serialize T).length, dst', out', T, hprint, hroom, ?_, hroot', ejson_valcmp_self T hint⟩
  rw [htext]
  exact hparse'

set_option maxRecDepth 100000 in
theorem round_trip_witness :
    ∃ n dst' out' T', ejson_print round_trip_tree (List.replicate 64 0) 64 = some (n, dst') ∧
      n < 64 ∧ ejson_parse (dst'.take n) none ⟨1024, 0⟩ = some out' ∧ out'.root = some T' ∧
      ejson_valcmp round_trip_tree T' = some true :=
  round_trip round_trip_src none ⟨65536, 0⟩
    ⟨some round_trip_tree, some 36, none, ⟨65536, 392⟩⟩ round_trip_tree rfl rfl rfl
    (List.replicate 64 0) 64 (by decide) (by decide) (by decide) none ⟨1024, 0⟩
    (by unfold arena_room; decide)

/-! ## Sources without fraction give trees of integer literals -/

theorem parse_res.integral_of_same {a b : context_t} (h : Same a b) {r : parse_res}
    (hr : r.integral b) : r.integral a := by
  cases r with
  | starved => trivial
  | null c => trivial
  | val v c => exact ⟨hr.1, h.same_trans hr.2⟩

theorem integral_of_make_val {a b : context_t} (h : Same a b) (init : ejson_value)
    (hi : int_numbers init = true) : (parse_res.of (make_val b init)).integral a := by
  obtain ⟨arena, error, he⟩ := make_val_snd b init
  have hfst : (make_val b init).1 = none ∨ (make_val b init).1 = some init := by
    unfold make_val
    split
    · exact Or.inl rfl
    · exact Or.inr rfl
  revert he hfst
  cases make_val b init with
  | mk r c =>
    intro he hfst
    simp only at he hfst
    subst he
    rcases hfst with rfl | rfl
    · trivial
    · exact ⟨hi, h⟩

theorem integral_val {a : context_t} {r : parse_res} (hr : r.integral a) :
    r = .starved ∨ (∃ c, r = .null c) ∨
      ∃ v c, r = .val v c ∧ int_numbers v = true ∧ Same a c := by
  cases r with
  | starved => exact Or.inl rfl
  | null c => exact Or.inr (Or.inl ⟨c, rfl⟩)
  | val v c => exact Or.inr (Or.inr ⟨v, c, rfl, hr.1, hr.2⟩)

/-- The value `parse_int_loop` returns is at most `INT64_MAX`. -/
theorem parse_int_loop_le (src : List Nat) (len : Nat) :
    ∀ n cur v cur' value, parse_int_loop src len n cur v = some (cur', value) →
      v ≤ INT64_MAX → value ≤ INT64_MAX := by
  intro n
  induction n with
  | zero =>
    intro cur v cur' value h hv
    simp only [parse_int_loop, Option.some.injEq, Prod.mk.injEq] at h
    omega
  | succ n ih =>
    intro cur v cur' value h hv
    unfold parse_int_loop at h
    simp only [] at h
    split at h
    · cases h
    · next hlt =>
      have hd : src.getD cur 0 &&& 15 ≤ 15 := Nat.and_le_right
      have hnew : v * 10 + (src.getD cur 0 &&& 15) ≤ INT64_MAX := by
        have h1 : v ≤ (INT64_MAX - (src.getD cur 0 &&& 15)) / 10 := Nat.le_of_not_lt hlt
        have h2 := Nat.mul_le_of_le_div _ _ _ h1
        have h3 : src.getD cur 0 &&& 15 ≤ INT64_MAX := by
          unfold INT64_MAX; omega
        omega
      split at h
      · exact ih _ _ _ _ h hnew
      · simp only [Option.some.injEq, Prod.mk.injEq] at h
        omega

theorem parse_int_integral (ctx : context_t) :
    (parse_res.of (parse_int ctx)).integral ctx := by
  unfold parse_int make_val_for_int
  split
  · trivial
  · next cur value heq =>
    have hle := parse_int_loop_le _ _ _ _ _ _ _ heq (Nat.zero_le _)
    refine integral_of_make_val ((Same.same_refl ctx).same_set_cur _) _ ?_
    simp only [int_numbers, all_nodes, node_int, decide_eq_true_eq]
    exact ⟨Int.natCast_nonneg _, by exact_mod_cast hle, trivial⟩

theorem takeWhile_getD (p : Nat → Bool) :
    ∀ (l : List Nat) (j : Nat), j < (l.takeWhile p).length → p (l.getD j 0) = true := by
  intro l
  induction l with
  | nil => intro j h; simp at h
  | cons a t ih =>
    intro j h
    by_cases ha : p a = true
    · rw [List.takeWhile_cons, if_pos ha] at h
      cases j with
      | zero => simpa using ha
      | succ j =>
        simp only [List.length_cons] at h
        simpa using ih j (by omega)
    · rw [List.takeWhile_cons, if_neg ha] at h
      simp at h

/-- In a source without fraction `parse_num`, called at a digit, reads an integer literal. -/
theorem parse_num_integral (ctx : context_t) (hl : ctx.len = ctx.src.length)
    (hnf : no_fraction ctx.src = true) (hd : is_digit ctx.peek = true) :
    (parse_res.of (parse_num ctx)).integral ctx := by
  unfold parse_num
  simp only []
  rw [if_neg]
  · exact parse_int_integral ctx
  · rintro ⟨hlt, h46⟩
    rw [hl, scan_while_eq _ _ _ _ (Nat.le_refl _)] at hlt h46
    have hcur : ctx.cur < ctx.src.length := by omega
    have hdrop := drop_eq_cons_of_lt ctx.src ctx.cur hcur
    have hd' : is_digit (ctx.src.getD ctx.cur 0) = true := hd
    have hpos : 0 < ((ctx.src.drop ctx.cur).takeWhile is_digit).length := by
      rw [hdrop, List.takeWhile_cons, if_pos hd']
      simp
    obtain ⟨j, hj⟩ : ∃ j, ((ctx.src.drop ctx.cur).takeWhile is_digit).length = j + 1 :=
      ⟨_, (Nat.succ_pred_eq_of_pos hpos).symm⟩
    rw [hj] at hlt h46
    have hdig := takeWhile_getD is_digit (ctx.src.drop ctx.cur) j (by omega)
    have hget : (ctx.src.drop ctx.cur).getD j 0 = ctx.src.getD (ctx.cur + j) 0 := by
      simp [List.getD_eq_getElem?_getD, List.getElem?_drop]
    rw [hget] at hdig
    unfold no_fraction at hnf
    rw [List.all_eq_true] at hnf
    have := hnf (ctx.cur + j) (List.mem_range.mpr (by omega))
    rw [hdig, show ctx.cur + j + 1 = ctx.cur + (j + 1) from rfl, h46] at this
    simp at this

theorem parse_oth_integral (ctx : context_t) :
    (parse_res.of (parse_oth ctx)).integral ctx := by
  unfold parse_oth make_val_for_null make_val_for_true make_val_for_false
  simp only []
  split
  · split <;> trivial
  · split
    · exact integral_of_make_val ((Same.same_refl ctx).same_set_cur _) _ rfl
    · split
      · exact integral_of_make_val ((Same.same_refl ctx).same_set_cur _) _ rfl
      · split
        · exact integral_of_make_val ((Same.same_refl ctx).same_set_cur _) _ rfl
        · trivial

theorem parse_str_2_integral (ctx : context_t) (hl : ctx.len = ctx.src.length) :
    (parse_res.of (parse_str_2 ctx)).integral ctx := by
  unfold parse_str_2
  cases hp : parse_str ctx with
  | mk r c =>
    cases r with
    | none => trivial
    | some s =>
      obtain ⟨_, hsame⟩ := parse_str_no_quote ctx hl s c hp
      unfold make_val_for_str
      exact integral_of_make_val hsame _ rfl

theorem Same.fraction_free {a b : context_t} (h : Same a b)
    (hp : a.len = a.src.length ∧ no_fraction a.src = true) :
    b.len = b.src.length ∧ no_fraction b.src = true :=
  ⟨h.len_eq hp.1, by rw [h.1]; exact hp.2⟩

theorem int_numbers_array (k : List Nat) (head : List ejson_value) (s : Nat)
    (hhead : ∀ c ∈ head, int_numbers c = true) : int_numbers (.array k head s) = true := by
  unfold int_numbers
  rw [all_nodes]
  simp only [node_int, Bool.true_and]
  exact (all_nodes_chain_iff _ _).mpr hhead

theorem int_numbers_object (k : List Nat) (head : List ejson_value) (s : Nat)
    (hhead : ∀ c ∈ head, int_numbers c = true) : int_numbers (.object k head s) = true := by
  unfold int_numbers
  rw [all_nodes]
  simp only [node_int, Bool.true_and]
  exact (all_nodes_chain_iff _ _).mpr hhead

theorem parse_arr_loop_integral (rec : context_t → parse_res)
    (hrec : ∀ ctx, (ctx.len = ctx.src.length ∧ no_fraction ctx.src = true) →
      (rec ctx).integral ctx) :
    ∀ n ctx0 ctx head size, Same ctx0 ctx →
      (ctx0.len = ctx0.src.length ∧ no_fraction ctx0.src = true) →
      (∀ c ∈ head, int_numbers c = true) →
      (parse_arr_loop rec n ctx head size).integral ctx0 := by
  intro n
  induction n with
  | zero => intro ctx0 ctx head size _ _ _; trivial
  | succ n ih =>
    intro ctx0 ctx head size hs hp hhead
    unfold parse_arr_loop
    rcases integral_val (hrec ctx (hs.fraction_free hp)) with hr | ⟨c, hr⟩ | ⟨v, c, hr, hv, hc⟩
    · rw [hr]; trivial
    · rw [hr]; trivial
    · rw [hr]
      simp only []
      have hhead' : ∀ x ∈ head ++ [v], int_numbers x = true := by
        intro x hx
        rcases List.mem_append.mp hx with hx | hx
        · exact hhead x hx
        · simp only [List.mem_singleton] at hx; subst hx; exact hv
      have h1 : Same ctx0 (consume_spaces c) := (hs.same_trans hc).same_consume_spaces
      split
      · trivial
      · split
        · unfold make_val_for_arr
          exact integral_of_make_val h1.same_advance _ (int_numbers_array _ _ _ hhead')
        · split
          · split <;> trivial
          · split
            · trivial
            · exact ih ctx0 _ _ _ h1.same_advance.same_consume_spaces hp hhead'

theorem parse_arr_integral (rec : context_t → parse_res)
    (hrec : ∀ ctx, (ctx.len = ctx.src.length ∧ no_fraction ctx.src = true) →
      (rec ctx).integral ctx)
    (n : Nat) (ctx : context_t)
    (hp : ctx.len = ctx.src.length ∧ no_fraction ctx.src = true) :
    (parse_arr rec n ctx).integral ctx := by
  have h1 : Same ctx (consume_spaces ctx.advance) :=
    (Same.same_refl ctx).same_advance.same_consume_spaces
  unfold parse_arr
  simp only []
  split
  · trivial
  · split
    · unfold make_val_for_empty_arr make_val_for_arr
      exact integral_of_make_val h1.same_advance _ rfl
    · exact parse_arr_loop_integral rec hrec n ctx _ [] 0 h1 hp (fun _ h => by cases h)

theorem parse_obj_loop_integral (rec : context_t → parse_res)
    (hrec : ∀ ctx, (ctx.len = ctx.src.length ∧ no_fraction ctx.src = true) →
      (rec ctx).integral ctx) :
    ∀ n ctx0 ctx head size, Same ctx0 ctx →
      (ctx0.len = ctx0.src.length ∧ no_fraction ctx0.src = true) →
      (∀ c ∈ head, int_numbers c = true) →
      (parse_obj_loop rec n ctx head size).integral ctx0 := by
  intro n
  induction n with
  | zero => intro ctx0 ctx head size _ _ _; trivial
  | succ n ih =>
    intro ctx0 ctx head size hs hp hhead
    unfold parse_obj_loop
    simp only []
    split
    · split <;> trivial
    · cases hps : parse_str ctx with
      | mk r c1 =>
        cases r with
        | none => trivial
        | some key =>
          obtain ⟨_, hc1⟩ := parse_str_no_quote ctx (hs.fraction_free hp).1 key c1 hps
          simp only []
          split
          · trivial
          · split
            · split <;> trivial
            · have h2 : Same ctx0 (consume_spaces c1).advance :=
                (hs.same_trans hc1).same_consume_spaces.same_advance
              rcases integral_val (hrec _ (h2.fraction_free hp)) with
                hr | ⟨c, hr⟩ | ⟨v, c, hr, hv, hc⟩
              · rw [hr]; trivial
              · rw [hr]; trivial
              · rw [hr]
                simp only []
                have hhead' : ∀ x ∈ head ++ [v.set_key key], int_numbers x = true := by
                  intro x hx
                  rcases List.mem_append.mp hx with hx | hx
                  · exact hhead x hx
                  · simp only [List.mem_singleton] at hx
                    subst hx
                    unfold int_numbers
                    rw [all_nodes_set_key _ node_int_set_key]
                    exact hv
                have h3 : Same ctx0 (consume_spaces c) := (h2.same_trans hc).same_consume_spaces
                split
                · trivial
                · split
                  · unfold make_val_for_obj
                    exact integral_of_make_val h3.same_advance _
                      (int_numbers_object _ _ _ hhead')
                  · split
                    · split <;> trivial
                    · split
                      · trivial
                      · exact ih ctx0 _ _ _ h3.same_advance.same_consume_spaces hp hhead'

theorem parse_obj_integral (rec : context_t → parse_res)
    (hrec : ∀ ctx, (ctx.len = ctx.src.length ∧ no_fraction ctx.src = true) →
      (rec ctx).integral ctx)
    (n : Nat) (ctx : context_t)
    (hp : ctx.len = ctx.src.length ∧ no_fraction ctx.src = true) :
    (parse_obj rec n ctx).integral ctx := by
  have h1 : Same ctx (consume_spaces ctx.advance) :=
    (Same.same_refl ctx).same_advance.same_consume_spaces
  unfold parse_obj
  simp only []
  split
  · trivial
  · split
    · unfold make_val_for_empty_obj make_val_for_obj
      exact integral_of_make_val h1.same_advance _ rfl
    · exact parse_obj_loop_integral rec hrec n ctx _ [] 0 h1 hp (fun _ h => by cases h)

/-- Every Number of a tree `parse_any` returns for a source without fraction is the node of
an integer literal. -/
theorem parse_any_integral : ∀ fuel ctx,
    (ctx.len = ctx.src.length ∧ no_fraction ctx.src = true) →
    (parse_any fuel ctx).integral ctx := by
  intro fuel
  induction fuel with
  | zero => intro ctx _; trivial
  | succ fuel ih =>
    intro ctx hp
    have h1 : Same ctx (consume_spaces ctx) := (Same.same_refl ctx).same_consume_spaces
    have hp1 := h1.fraction_free hp
    unfold parse_any
    simp only []
    split
    · trivial
    · split
      · exact parse_res.integral_of_same h1 (parse_str_2_integral _ hp1.1)
      · split
        · exact parse_res.integral_of_same h1 (parse_obj_integral _ ih fuel _ hp1)
        · split
          · exact parse_res.integral_of_same h1 (parse_arr_integral _ ih fuel _ hp1)
          · split
            · next hd =>
              exact parse_res.integral_of_same h1 (parse_num_integral _ hp1.1 hp1.2 hd)
            · exact parse_res.integral_of_same h1 (parse_oth_integral _)

/-- The tree `ejson_parse` returns for a source in which no digit is followed by a point
has only Numbers of integer literals. -/
theorem ejson_parse_integral (src : List Nat) (error : Option (List Nat)) (arena : ejson_arena)
    (out : parse_out) (T : ejson_value) (h : ejson_parse src error arena = some out)
    (hT : out.root = some T) (hnf : no_fraction src = true) : int_numbers T = true := by
  have hs := parse_any_integral (src.length + 1)
    { error := error, arena := arena, src := src, len := src.length, cur := 0,
      config := EJSON_DEFAULT_CONFIGS } ⟨rfl, hnf⟩
  unfold ejson_parse ejson_parse2 at h
  simp only [] at h
  split at h
  · cases h
  · simp only [Option.some.injEq] at h
    subst h
    cases hT
  · next root c heq =>
    simp only [Option.some.injEq] at h
    subst h
    simp only [Option.some.injEq] at hT
    subst hT
    rw [heq] at hs
    exact hs.1

/-! ## C11: the comparison of composites -/

/-- The loop of `ejson_valcmp` on two chains of the same length whose pairs are compared
without failure: it returns, and returns true exactly when every pair compares equal. -/
theorem valcmp_chain_spec : ∀ (h1 h2 : List ejson_value), h1.length = h2.length →
    (∀ (i : Nat) c1 c2, h1[i]? = some c1 → h2[i]? = some c2 →
      ∃ r, ejson_valcmp c1 c2 = some r) →
    (∃ r, valcmp_chain h1 h2 = some r) ∧
    (valcmp_chain h1 h2 = some true ↔
      ∀ (i : Nat) c1 c2, h1[i]? = some c1 → h2[i]? = some c2 →
        ejson_valcmp c1 c2 = some true) := by
  intro h1
  induction h1 with
  | nil =>
    intro h2 _ _
    refine ⟨⟨true, by rw [valcmp_chain]⟩, ?_⟩
    rw [valcmp_chain]
    simp
  | cons c1 r1 ih =>
    intro h2 hlen htot
    cases h2 with
    | nil => simp at hlen
    | cons c2 r2 =>
      have hlen' : r1.length = r2.length := by simpa using hlen
      obtain ⟨r, hr⟩ := htot 0 c1 c2 (by simp) (by simp)
      have htot' : ∀ (i : Nat) d1 d2, r1[i]? = some d1 → r2[i]? = some d2 →
          ∃ r, ejson_valcmp d1 d2 = some r :=
        fun i d1 d2 e1 e2 => htot (i + 1) d1 d2 (by simpa using e1) (by simpa using e2)
      obtain ⟨htail, hiff⟩ := ih r2 hlen' htot'
      rw [valcmp_chain, hr]
      cases r with
      | false =>
        refine ⟨⟨false, rfl⟩, ?_⟩
        constructor
        · intro h; cases h
        · intro h
          have := h 0 c1 c2 (by simp) (by simp)
          rw [hr] at this
          cases this
      | true =>
        refine ⟨htail, ?_⟩
        show valcmp_chain r1 r2 = some true ↔ _
        rw [hiff]
        constructor
        · intro h i d1 d2 e1 e2
          cases i with
          | zero =>
            simp only [List.getElem?_cons_zero, Option.some.injEq] at e1 e2
            subst e1 e2
            exact hr
          | succ i => exact h i d1 d2 (by simpa using e1) (by simpa using e2)
        · intro h i d1 d2 e1 e2
          exact h (i + 1) d1 d2 (by simpa using e1) (by simpa using e2)

theorem well_formed_children (v : ejson_value) (h : well_formed v = true) :
    ∀ c ∈ v.children, well_formed c = true :=
  all_nodes_children node_sized v h

theorem mem_of_getElem? {l : List ejson_value} {i : Nat} {c : ejson_value}
    (h : l[i]? = some c) : c ∈ l := by
  obtain ⟨hi, rfl⟩ := List.getElem?_eq_some.mp h
  exact List.getElem_mem _

/-- On well-formed values `ejson_valcmp` returns: the assertion in its loop holds. -/
theorem ejson_valcmp_total : ∀ a : ejson_value, ∀ b : ejson_value,
    well_formed a = true → well_formed b = true → ∃ r, ejson_valcmp a b = some r := by
  intro a
  induction a using ejson_value.induct with
  | hnull k => intro b _ _; cases b <;> exact ⟨_, rfl⟩
  | hbool k x => intro b _ _; cases b <;> exact ⟨_, rfl⟩
  | hstr k s => intro b _ _; cases b <;> exact ⟨_, rfl⟩
  | hnum k i f => intro b _ _; cases b <;> exact ⟨_, rfl⟩
  | harr k head s ih =>
    intro b ha hb
    cases b with
    | array k2 head2 s2 =>
      rw [ejson_valcmp]
      by_cases hs : s ≠ s2
      · rw [if_pos hs]; exact ⟨_, rfl⟩
      · rw [if_neg hs]
        have hs' : s = s2 := by_contra hs
        have h1 := all_nodes_self _ _ ha
        have h2 := all_nodes_self _ _ hb
        simp only [node_sized, decide_eq_true_eq] at h1 h2
        have hca := well_formed_children _ ha
        have hcb := well_formed_children _ hb
        simp only [ejson_value.children] at hca hcb
        exact (valcmp_chain_spec head head2 (by omega) (fun i c1 c2 e1 e2 =>
          ih c1 (mem_of_getElem? e1) c2 (hca c1 (mem_of_getElem? e1))
            (hcb c2 (mem_of_getElem? e2)))).1
    | null _ => exact ⟨_, rfl⟩
    | object _ _ _ => exact ⟨_, rfl⟩
    | number _ _ _ => exact ⟨_, rfl⟩
    | string _ _ => exact ⟨_, rfl⟩
    | boolean _ _ => exact ⟨_, rfl⟩
  | hobj k head s ih =>
    intro b ha hb
    cases b with
    | object k2 head2 s2 =>
      rw [ejson_valcmp]
      by_cases hs : s ≠ s2
      · rw [if_pos hs]; exact ⟨_, rfl⟩
      · rw [if_neg hs]
        have hs' : s = s2 := by_contra hs
        have h1 := all_nodes_self _ _ ha
        have h2 := all_nodes_self _ _ hb
        simp only [node_sized, decide_eq_true_eq] at h1 h2
        have hca := well_formed_children _ ha
        have hcb := well_formed_children _ hb
        simp only [ejson_value.children] at hca hcb
        exact (valcmp_chain_spec head head2 (by omega) (fun i c1 c2 e1 e2 =>
          ih c1 (mem_of_getElem? e1) c2 (hca c1 (mem_of_getElem? e1))
            (hcb c2 (mem_of_getElem? e2)))).1
    | null _ => exact ⟨_, rfl⟩
    | array _ _ _ => exact ⟨_, rfl⟩
    | number _ _ _ => exact ⟨_, rfl⟩
    | string _ _ => exact ⟨_, rfl⟩
    | boolean _ _ => exact ⟨_, rfl⟩

theorem valcmp_chain_strip_keys : ∀ (h1 h2 : List ejson_value),
    (∀ c ∈ h1, ∀ b, ejson_valcmp (strip_keys c) (strip_keys b) = ejson_valcmp c b) →
    valcmp_chain (strip_keys_chain h1) (strip_keys_chain h2) = valcmp_chain h1 h2 := by
  intro h1
  induction h1 with
  | nil => intro h2 _; rw [strip_keys_chain, valcmp_chain, valcmp_chain]
  | cons c1 r1 ih =>
    intro h2 h
    cases h2 with
    | nil => rw [strip_keys_chain, strip_keys_chain, valcmp_chain, valcmp_chain]
    | cons c2 r2 =>
      rw [strip_keys_chain, strip_keys_chain, valcmp_chain, valcmp_chain,
        h c1 (List.mem_cons_self _ _) c2, ih r2 (fun c hc => h c (List.mem_cons_of_mem _ hc))]

/-- The keys of the nodes play no part in `ejson_valcmp`. -/
theorem ejson_valcmp_strip_keys : ∀ a b : ejson_value,
    ejson_valcmp (strip_keys a) (strip_keys b) = ejson_valcmp a b := by
  intro a
  induction a using ejson_value.induct with
  | hnull k => intro b; cases b <;> rfl
  | hbool k x => intro b; cases b <;> rfl
  | hstr k s => intro b; cases b <;> rfl
  | hnum k i f => intro b; cases b <;> rfl
  | harr k head s ih =>
    intro b
    cases b with
    | array k2 head2 s2 =>
      rw [strip_keys, strip_keys, ejson_valcmp, ejson_valcmp,
        valcmp_chain_strip_keys head head2 ih]
    | null _ => rfl
    | object _ _ _ => rfl
    | number _ _ _ => rfl
    | string _ _ => rfl
    | boolean _ _ => rfl
  | hobj k head s ih =>
    intro b
    cases b with
    | object k2 head2 s2 =>
      rw [strip_keys, strip_keys, ejson_valcmp, ejson_valcmp,
        valcmp_chain_strip_keys head head2 ih]
    | null _ => rfl
    | array _ _ _ => rfl
    | number _ _ _ => rfl
    | string _ _ => rfl
    | boolean _ _ => rfl

/-- Two composites of the same kind, with the cached counts of well-formed nodes: the
comparison is that of the counts followed by the loop over the chains. -/
theorem valcmp_same_kind (head head2 : List ejson_value) (s s2 : Nat)
    (hs : s = head.length) (hs2 : s2 = head2.length)
    (htot : ∀ (i : Nat) c1 c2, head[i]? = some c1 → head2[i]? = some c2 →
      ∃ r, ejson_valcmp c1 c2 = some r)
    (r : Option Bool) (hr : r = if s ≠ s2 then some false else valcmp_chain head head2) :
    (r = some true ↔ head2.length = head.length ∧
      ∀ (i : Nat) ca cb, head[i]? = some ca → head2[i]? = some cb →
        ejson_valcmp ca cb = some true) ∧
    (r = some true ∨ r = some false) := by
  subst hr
  by_cases hne : s ≠ s2
  · rw [if_pos hne]
    refine ⟨⟨fun h => (by cases h), fun h => (hne (by omega)).elim⟩, Or.inr rfl⟩
  · rw [if_neg hne]
    have heq : s = s2 := by_contra hne
    obtain ⟨⟨x, hx⟩, hiff⟩ := valcmp_chain_spec head head2 (by omega) htot
    refine ⟨?_, ?_⟩
    · rw [hiff]
      exact ⟨fun h => ⟨by omega, h⟩, fun h => h.2⟩
    · rw [hx]
      cases x
      · exact Or.inr rfl
      · exact Or.inl rfl

/-- C11: for every two well-formed values `a` and `b` (every composite node caches the
length of its chain) with `a` an Array or an Object, `ejson_valcmp(a, b)` returns, and it is
true if and only if `b` has the type tag of `a`, the two have the same number of children
and, at every position, the child of `a` and the child of `b` compare equal under
`ejson_valcmp`; emptying every key of both trees does not change the result. -/
theorem valcmp_composite (a b : ejson_value) (ha : well_formed a = true)
    (hb : well_formed b = true) (hc : a.type = .EJSON_ARRAY ∨ a.type = .EJSON_OBJECT) :
    (ejson_valcmp a b = some true ↔
      b.type = a.type ∧ b.children.length = a.children.length ∧
      ∀ (i : Nat) ca cb, a.children[i]? = some ca → b.children[i]? = some cb →
        ejson_valcmp ca cb = some true) ∧
    (ejson_valcmp a b = some true ∨ ejson_valcmp a b = some false) ∧
    ejson_valcmp (strip_keys a) (strip_keys b) = ejson_valcmp a b := by
  refine ⟨?_, ?_, ejson_valcmp_strip_keys a b⟩
  · cases a with
    | array k head s =>
      cases b with
      | array k2 head2 s2 =>
        have h1 := all_nodes_self _ _ ha
        have h2 := all_nodes_self _ _ hb
        simp only [node_sized, decide_eq_true_eq] at h1 h2
        have hca := well_formed_children _ ha
        have hcb := well_formed_children _ hb
        simp only [ejson_value.children] at hca hcb ⊢
        have := (valcmp_same_kind head head2 s s2 h1 h2 (fun i c1 c2 e1 e2 =>
          ejson_valcmp_total c1 c2 (hca c1 (mem_of_getElem? e1))
            (hcb c2 (mem_of_getElem? e2)))
          (ejson_valcmp (.array k head s) (.array k2 head2 s2)) (by rw [ejson_valcmp])).1
        rw [this]
        simp [ejson_value.type]
      | null _ => simp [ejson_valcmp, ejson_value.type]
      | object _ _ _ => simp [ejson_valcmp, ejson_value.type]
      | number _ _ _ => simp [ejson_valcmp, ejson_value.type]
      | string _ _ => simp [ejson_valcmp, ejson_value.type]
      | boolean _ _ => simp [ejson_valcmp, ejson_value.type]
    | object k head s =>
      cases b with
      | object k2 head2 s2 =>
        have h1 := all_nodes_self _ _ ha
        have h2 := all_nodes_self _ _ hb
        simp only [node_sized, decide_eq_true_eq] at h1 h2
        have hca := well_formed_children _ ha
        have hcb := well_formed_children _ hb
        simp only [ejson_value.children] at hca hcb ⊢
        have := (valcmp_same_kind head head2 s s2 h1 h2 (fun i c1 c2 e1 e2 =>
          ejson_valcmp_total c1 c2 (hca c1 (mem_of_getElem? e1))
            (hcb c2 (mem_of_getElem? e2)))
          (ejson_valcmp (.object k head s) (.object k2 head2 s2)) (by rw [ejson_valcmp])).1
        rw [this]
        simp [ejson_value.type]
      | null _ => simp [ejson_valcmp, ejson_value.type]
      | array _ _ _ => simp [ejson_valcmp, ejson_value.type]
      | number _ _ _ => simp [ejson_valcmp, ejson_value.type]
      | string _ _ => simp [ejson_valcmp, ejson_value.type]
      | boolean _ _ => simp [ejson_valcmp, ejson_value.type]
    | null _ => simp [ejson_value.type] at hc
    | number _ _ _ => simp [ejson_value.type] at hc
    | string _ _ => simp [ejson_value.type] at hc
    | boolean _ _ => simp [ejson_value.type] at hc
  · obtain ⟨r, hr⟩ := ejson_valcmp_total a b ha hb
    rw [hr]
    cases r
    · exact Or.inr rfl
    · exact Or.inl rfl

theorem valcmp_composite_witness :
    (ejson_valcmp round_trip_tree scenario_tree = some true ↔
      scenario_tree.type = round_trip_tree.type ∧
      scenario_tree.children.length = round_trip_tree.children.length ∧
      ∀ (i : Nat) ca cb, round_trip_tree.children[i]? = some ca →
        scenario_tree.children[i]? = some cb → ejson_valcmp ca cb = some true) ∧
    (ejson_valcmp round_trip_tree scenario_tree = some true ∨
      ejson_valcmp round_trip_tree scenario_tree = some false) ∧
    ejson_valcmp (strip_keys round_trip_tree) (strip_keys scenario_tree) =
      ejson_valcmp round_trip_tree scenario_tree :=
  valcmp_composite round_trip_tree scenario_tree rfl rfl (Or.inl rfl)

/-! ## C12: Objects that list the same members in another order -/

/-- Two lists with the same elements in different orders differ at some position, where the
second list holds an element that the first holds at another position. -/
theorem perm_ne_position (cs cs' : List ejson_value) (hperm : cs'.Perm cs) (hne : cs' ≠ cs) :
    ∃ (i j : Nat) (ci cj : ejson_value), i ≠ j ∧ cs[i]? = some ci ∧ cs[j]? = some cj ∧
      cs'[i]? = some cj := by
  have hlen := hperm.length_eq
  obtain ⟨i, hi⟩ : ∃ i : Nat, cs'[i]? ≠ cs[i]? := by
    by_contra hall
    exact hne (List.ext_getElem? (fun i => by_contra fun h => hall ⟨i, h⟩))
  have hlt : i < cs.length := by
    by_contra hge
    rw [List.getElem?_eq_none (by omega), List.getElem?_eq_none (by omega)] at hi
    exact hi rfl
  have hlt' : i < cs'.length := by omega
  have hmem : cs'[i] ∈ cs := hperm.mem_iff.mp (List.getElem_mem _)
  obtain ⟨j, hj, hcj⟩ := List.getElem_of_mem hmem
  refine ⟨i, j, cs[i], cs'[i], ?_, List.getElem?_eq_getElem hlt, ?_,
    List.getElem?_eq_getElem hlt'⟩
  · intro hij
    subst hij
    apply hi
    rw [List.getElem?_eq_getElem hlt, List.getElem?_eq_getElem hlt', hcj]
  · rw [List.getElem?_eq_getElem hj, hcj]

/-- C12 as stated fails: `{"a": 1, "b": 1}` and `{"b": 1, "a": 1}` hold the same key/value
pairs in different orders and `ejson_valcmp` returns true, because it compares the children
by position and never looks at a key. -/
theorem valcmp_reordered_counterexample :
    ((ejson_parse (bytes "\x7b\"a\": 1, \"b\": 1\x7d") none ⟨1024, 0⟩).bind
        (fun o => o.root) = some obj_a1_b1 ∧
     (ejson_parse (bytes "\x7b\"b\": 1, \"a\": 1\x7d") none ⟨1024, 0⟩).bind
        (fun o => o.root) = some obj_b1_a1) ∧
    obj_b1_a1.children.Perm obj_a1_b1.children ∧
    obj_b1_a1.children ≠ obj_a1_b1.children ∧
    ejson_valcmp obj_a1_b1 obj_b1_a1 = some true ∧
    ¬ (ejson_valcmp obj_a1_b1 obj_b1_a1 = some false) := by
  refine ⟨⟨by set_option maxRecDepth 100000 in rfl, by set_option maxRecDepth 100000 in rfl⟩,
    List.Perm.swap _ _ _, ?_, by rfl, ?_⟩
  · intro h
    have hk := congrArg (fun l => l.map ejson_value.key) h
    revert hk
    decide
  · rw [show ejson_valcmp obj_a1_b1 obj_b1_a1 = some true from rfl]
    decide

/-- C12, amended: for every well-formed Object and every Object that lists the same
key/value pairs in a different order, when no two members of the Object have values that
compare equal under `ejson_valcmp`, the comparison of the two Objects returns false. -/
theorem valcmp_reordered (k1 k2 : List Nat) (cs cs' : List ejson_value) (s s' : Nat)
    (hwf : well_formed (.object k1 cs s) = true) (hperm : cs'.Perm cs) (hne : cs' ≠ cs)
    (hdist : ∀ (i j : Nat) ci cj, i ≠ j → cs[i]? = some ci → cs[j]? = some cj →
      ejson_valcmp ci cj ≠ some true) :
    ejson_valcmp (.object k1 cs s) (.object k2 cs' s') = some false := by
  have h1 := all_nodes_self _ _ hwf
  simp only [node_sized, decide_eq_true_eq] at h1
  have hca := well_formed_children _ hwf
  simp only [ejson_value.children] at hca
  have hcb : ∀ c ∈ cs', well_formed c = true := fun c hc => hca c (hperm.mem_iff.mp hc)
  rw [ejson_valcmp]
  by_cases hs : s ≠ s'
  · rw [if_pos hs]
  · rw [if_neg hs]
    obtain ⟨⟨r, hr⟩, hiff⟩ := valcmp_chain_spec cs cs' hperm.length_eq.symm
      (fun i c1 c2 e1 e2 => ejson_valcmp_total c1 c2 (hca c1 (mem_of_getElem? e1))
        (hcb c2 (mem_of_getElem? e2)))
    rw [hr]
    cases r with
    | false => rfl
    | true =>
      obtain ⟨i, j, ci, cj, hij, ei, ej, ei'⟩ := perm_ne_position cs cs' hperm hne
      exact (hdist i j ci cj hij ei ej ((hiff.mp hr) i ci cj ei ei')).elim

theorem valcmp_reordered_witness :
    ((ejson_parse (bytes "\x7b\"a\": 1, \"b\": 2\x7d") none ⟨1024, 0⟩).bind
        (fun o => o.root) = some obj_a1_b2 ∧
     (ejson_parse (bytes "\x7b\"b\": 2, \"a\": 1\x7d") none ⟨1024, 0⟩).bind
        (fun o => o.root) = some obj_b2_a1) ∧
    ejson_valcmp obj_a1_b2 obj_b2_a1 = some false :=
  ⟨⟨by set_option maxRecDepth 100000 in rfl, by set_option maxRecDepth 100000 in rfl⟩,
   valcmp_reordered [] [] obj_a1_b2.children obj_b2_a1.children 2 2 rfl
    (List.Perm.swap _ _ _)
    (fun h => by
      have hk := congrArg (fun l => l.map ejson_value.key) h
      revert hk
      decide)
    (fun i j ci cj hij ei ej => by
      match i, j with
      | 0, 0 => exact (hij rfl).elim
      | 1, 1 => exact (hij rfl).elim
      | 0, 1 =>
        simp only [obj_a1_b2, ejson_value.children, List.getElem?_cons_zero,
          List.getElem?_cons_succ, Option.some.injEq] at ei ej
        subst ei ej
        decide
      | 1, 0 =>
        simp only [obj_a1_b2, ejson_value.children, List.getElem?_cons_zero,
          List.getElem?_cons_succ, Option.some.injEq] at ei ej
        subst ei ej
        decide
      | _ + 2, _ =>
        simp [obj_a1_b2, ejson_value.children] at ei
      | _, _ + 2 =>
        simp [obj_a1_b2, ejson_value.children] at ej)⟩

/-! ## C13 and C15: `strncmp` on byte strings that hold a zero byte -/

/-- On two byte strings of the same length `strncmp` over that length is zero exactly when
the two agree up to their first zero byte. -/
theorem strncmp_eq_zero_takeWhile : ∀ a b : List Nat, a.length = b.length →
    (strncmp a b a.length = 0 ↔
      a.takeWhile (fun x => x != 0) = b.takeWhile (fun x => x != 0)) := by
  intro a
  induction a with
  | nil =>
    intro b hlen
    have : b = [] := List.length_eq_zero.mp hlen.symm
    subst this
    simp [strncmp]
  | cons x l ih =>
    intro b hlen
    cases b with
    | nil => simp at hlen
    | cons y m =>
      have hlen' : l.length = m.length := by simpa using hlen
      simp only [List.length_cons, strncmp, List.headD_cons, List.tail_cons]
      by_cases hxy : x = y
      · subst hxy
        rw [if_neg (by simp)]
        by_cases hx0 : x = 0
        · subst hx0
          simp
        · rw [if_neg hx0, ih m hlen']
          simp [List.takeWhile_cons, hx0]
      · rw [if_pos hxy]
        have hsub : (x : Int) - (y : Int) ≠ 0 := by omega
        by_cases hx0 : x = 0 <;> by_cases hy0 : y = 0 <;>
          simp [List.takeWhile_cons, hx0, hy0, hsub, hxy]

/-- The comparison of two Strings by `ejson_valcmp`: equal lengths and equal bytes up to
the first zero byte. -/
theorem ejson_valcmp_string (k1 k2 s1 s2 : List Nat) :
    ejson_valcmp (.string k1 s1) (.string k2 s2) =
      some (decide (s1.length = s2.length ∧
        s1.takeWhile (fun x => x != 0) = s2.takeWhile (fun x => x != 0))) := by
  rw [ejson_valcmp]
  by_cases hlen : s1.length = s2.length
  · have := strncmp_eq_zero_takeWhile s1 s2 hlen
    rw [decide_eq_true hlen, Bool.true_and]
    congr 1
    rw [decide_eq_decide, this]
    exact ⟨fun h => ⟨hlen, h⟩, fun h => h.2⟩
  · rw [decide_eq_false hlen, Bool.false_and]
    congr 1
    symm
    rw [decide_eq_false_iff_not]
    exact fun h => hlen h.1

/-- C13 (as the code behaves): two Strings compare equal under `ejson_valcmp` when their
lengths are equal and their bytes agree up to the first zero byte, whatever follows it.
The parser builds the Strings `a\0b` and `a\0c` from the five-byte sources that hold them
between double quotes; the two differ in their last byte and `ejson_valcmp` returns true.
For Strings without zero byte the comparison is that of the claim. -/
theorem valcmp_string_zero_byte :
    ((ejson_parse [34, 97, 0, 98, 34] none ⟨1024, 0⟩).bind (fun o => o.root) =
        some (.string [] [97, 0, 98]) ∧
     (ejson_parse [34, 97, 0, 99, 34] none ⟨1024, 0⟩).bind (fun o => o.root) =
        some (.string [] [97, 0, 99])) ∧
    ([97, 0, 98] : List Nat) ≠ [97, 0, 99] ∧
    ejson_valcmp (.string [] [97, 0, 98]) (.string [] [97, 0, 99]) = some true ∧
    (∀ k1 k2 s1 s2 : List Nat,
      ejson_valcmp (.string k1 s1) (.string k2 s2) = some true ↔
        s1.length = s2.length ∧
          s1.takeWhile (fun x => x != 0) = s2.takeWhile (fun x => x != 0)) ∧
    (∀ k1 k2 s1 s2 : List Nat, (∀ b ∈ s2, b ≠ 0) →
      (ejson_valcmp (.string k1 s1) (.string k2 s2) = some true ↔
        s1.length = s2.length ∧ s1 = s2)) := by
  refine ⟨⟨by set_option maxRecDepth 100000 in rfl, by set_option maxRecDepth 100000 in rfl⟩,
    by decide, by rfl, ?_, ?_⟩
  · intro k1 k2 s1 s2
    rw [ejson_valcmp_string]
    simp
  · intro k1 k2 s1 s2 h0
    rw [ejson_valcmp]
    constructor
    · intro h
      simp only [Option.some.injEq, Bool.and_eq_true, decide_eq_true_eq] at h
      exact ⟨h.1, (strncmp_eq_zero_iff s2 h0 s1 h.1).mp (h.1 ▸ h.2)⟩
    · rintro ⟨hl, rfl⟩
      simp [strncmp_self]

/-- The lookup in an Object by a key of `key.length` bytes: the first child whose key has
that length and agrees with `key` up to the first zero byte. -/
theorem ejson_seekbykey2_takeWhile (k : List Nat) (cs : List ejson_value) (sz : Nat)
    (key : List Nat) :
    ejson_seekbykey2 (.object k cs sz) key key.length =
      cs.find? (fun c => decide (c.key.length = key.length ∧
        c.key.takeWhile (fun x => x != 0) = key.takeWhile (fun x => x != 0))) := by
  unfold ejson_seekbykey2
  rw [if_neg (by simp [ejson_value.type])]
  simp only [ejson_value.children]
  congr 1
  funext c
  rw [decide_eq_decide]
  constructor
  · rintro ⟨hl, h0⟩
    exact ⟨hl, (strncmp_eq_zero_takeWhile c.key key hl).mp (hl ▸ h0)⟩
  · rintro ⟨hl, ht⟩
    exact ⟨hl, hl ▸ (strncmp_eq_zero_takeWhile c.key key hl).mpr ht⟩

/-- C15 (as the code behaves): `ejson_seekbykey2` returns not-found for every value that is
not an Object, and in an Object the first child whose key has the length of the key asked
for and agrees with it up to the first zero byte, whatever follows that byte; for a key
without zero byte this is the first child with exactly that key.  In the Object parsed from
`{"a\0b": 1}` the lookup of the three bytes `a\0c` returns the child whose key is `a\0b`,
although no child has the key asked for. -/
theorem seekbykey2_zero_byte :
    (ejson_parse [123, 34, 97, 0, 98, 34, 58, 32, 49, 125] none ⟨1024, 0⟩).bind
        (fun o => o.root) = some obj_zero_key ∧
    (∀ c ∈ obj_zero_key.children, c.key ≠ [97, 0, 99]) ∧
    ejson_seekbykey2 obj_zero_key [97, 0, 99] 3 =
      some (.number [97, 0, 98] 1 (Double.ofInt 1)) ∧
    (∀ (v : ejson_value) (key : List Nat) (size : Nat), v.type ≠ .EJSON_OBJECT →
      ejson_seekbykey2 v key size = none) ∧
    (∀ (k : List Nat) (cs : List ejson_value) (sz : Nat) (key : List Nat),
      ejson_seekbykey2 (.object k cs sz) key key.length =
        cs.find? (fun c => decide (c.key.length = key.length ∧
          c.key.takeWhile (fun x => x != 0) = key.takeWhile (fun x => x != 0)))) ∧
    (∀ (k : List Nat) (cs : List ejson_value) (sz : Nat) (key : List Nat),
      (∀ b ∈ key, b ≠ 0) →
      ejson_seekbykey2 (.object k cs sz) key key.length =
        cs.find? (fun c => decide (c.key = key))) := by
  refine ⟨by set_option maxRecDepth 100000 in rfl, ?_, by rfl, ?_,
    ejson_seekbykey2_takeWhile, fun k cs sz key h0 => ejson_seekbykey2_object k cs sz key h0⟩
  · intro c hc
    simp only [obj_zero_key, ejson_value.children, List.mem_singleton] at hc
    subst hc
    decide
  · intro v key size hv
    unfold ejson_seekbykey2
    rw [if_pos hv]

/-! ## C14: the members of an object literal -/

/-- The serialization of a tree with the parser's shape is read by the parser as the
tree. -/
theorem parses_serialize (v : ejson_value) (hkey : v.key = [])
    (hshape : all_nodes node_shape v = true) (hint : int_numbers v = true) :
    Parses (serialize v) v := by
  intro fuel ctx ws post a hat hws hpost hfuel hfit
  have h := reparse_all v hshape hint fuel ctx ws post a hat hws hpost hfuel hfit
  rw [set_key_key' v hkey] at h
  exact h

/-- One member read by the loop of `parse_obj`: the key, the colon and the value, up to the
comma or the closing brace `c` that follows the member. -/
theorem parse_member (f : Nat) (m : member) (c : Nat) (tl : List Nat)
    (hc : c = 44 ∨ c = 125) (ctx : context_t) (a : ejson_arena)
    (hat : PAt ctx (m.body ++ c :: tl) a) (hok : m.ok) (hf : m.text.length ≤ f)
    (hfit : a.fits (node_count m.value)) :
    ∃ ctxk ctx1, ctx.peek = 34 ∧ Ejson.parse_str ctx = (some m.key, ctxk) ∧
      (Ejson.consume_spaces ctxk).cur ≠ (Ejson.consume_spaces ctxk).len ∧
      (Ejson.consume_spaces ctxk).peek = 58 ∧
      Ejson.parse_any f (Ejson.consume_spaces ctxk).advance = .val m.value ctx1 ∧
      PAt (Ejson.consume_spaces ctx1) (c :: tl) (a.after (node_count m.value)) := by
  obtain ⟨_, hmid, hsep, hpost, hkey, hparses⟩ := hok
  have hcs : is_space c = false := by rcases hc with rfl | rfl <;> rfl
  have hat0 : PAt ctx (34 :: (m.key ++ 34 :: (m.mid ++ 58 :: (m.sep ++ (m.text ++
      (m.post ++ c :: tl)))))) a := by
    have e : m.body ++ c :: tl = 34 :: (m.key ++ 34 :: (m.mid ++ 58 :: (m.sep ++ (m.text ++
        (m.post ++ c :: tl))))) := by
      simp [member.body, List.append_assoc]
    rw [← e]; exact hat
  obtain ⟨ctxk, hpk, hk⟩ := hat0.parse_str (fun b hb hq => hkey (hq ▸ hb))
  have hk1 := hk.pat_consume_spaces hmid rfl
  obtain ⟨ctx1, hp1, h1⟩ := hparses f _ m.sep (m.post ++ c :: tl) a hk1.pat_advance hsep
    (fun x hx => by
      cases hp : m.post with
      | nil =>
        rw [hp] at hx
        simp only [List.nil_append, List.head?_cons, Option.some.injEq] at hx
        subst hx
        rcases hc with rfl | rfl
        · exact Or.inl rfl
        · exact Or.inr (Or.inr (Or.inl rfl))
      | cons y ys =>
        rw [hp] at hx
        simp only [List.cons_append, List.head?_cons, Option.some.injEq] at hx
        subst hx
        exact Or.inr (Or.inr (Or.inr (hpost _ (by rw [hp]; exact List.mem_cons_self _ _)))))
    hf hfit
  exact ⟨ctxk, ctx1, hat0.peek, hpk, hk1.ne, hk1.peek, hp1, h1.pat_consume_spaces hpost hcs⟩

/-- The loop of `parse_obj` on the members that are left. -/
theorem parse_obj_loop_members (f : Nat) (post : List Nat) :
    ∀ (rest : List member) (m : member) (acc : List ejson_value) (n : Nat)
      (ctx : context_t) (a : ejson_arena),
      PAt ctx (m.body ++ (members_tail rest ++ 125 :: post)) a →
      (∀ x ∈ m :: rest, x.ok ∧ x.text.length ≤ f) →
      rest.length + 1 ≤ n → a.fits (members_nodes (m :: rest) + 1) →
      ∃ ctx', parse_obj_loop (parse_any f) n ctx acc acc.length =
          .val (.object [] (acc ++ (m :: rest).map member.child)
            (acc.length + (rest.length + 1))) ctx' ∧
        PAt ctx' post (a.after (members_nodes (m :: rest) + 1)) := by
  intro rest
  induction rest with
  | nil =>
    intro m acc n ctx a hat hall hn hfit
    obtain ⟨hok, hf⟩ := hall m (List.mem_cons_self _ _)
    obtain ⟨k, rfl⟩ : ∃ k, n = k + 1 := ⟨n - 1, by simp at hn; omega⟩
    have hnodes : members_nodes [m] + 1 = node_count m.value + 1 := by
      simp [members_nodes]
    rw [hnodes] at hfit ⊢
    obtain ⟨ctxk, ctx1, hq, hpk, hne, hcolon, hp1, h2⟩ := parse_member f m 125 post
      (Or.inr rfl) ctx a (by simpa [members_tail] using hat) hok hf
      (a.fits_mono _ _ hfit (by omega))
    obtain ⟨ctx3, hp3, h3⟩ := h2.pat_advance.pat_make_val
      (.object EMPTY_STRING (acc ++ [m.child]) (acc.length + 1))
      (a.fits_after (node_count m.value) 1 hfit)
    refine ⟨ctx3, ?_, ?_⟩
    · rw [parse_obj_loop]
      simp only []
      rw [if_neg (by rw [hq]; decide), hpk]
      simp only []
      rw [if_neg hne, if_neg (by rw [hcolon]; decide), hp1]
      simp only []
      rw [if_neg h2.ne, if_pos h2.peek]
      unfold make_val_for_obj
      rw [show m.value.set_key m.key = m.child from rfl, hp3]
      rfl
    · rw [ejson_arena.after_after] at h3
      exact h3
  | cons m' rest' ih =>
    intro m acc n ctx a hat hall hn hfit
    obtain ⟨hok, hf⟩ := hall m (List.mem_cons_self _ _)
    have hall' : ∀ x ∈ m' :: rest', x.ok ∧ x.text.length ≤ f :=
      fun x hx => hall x (List.mem_cons_of_mem _ hx)
    have hok' := (hall' m' (List.mem_cons_self _ _)).1
    obtain ⟨k, rfl⟩ : ∃ k, n = k + 1 := ⟨n - 1, by simp at hn; omega⟩
    have hnodes : members_nodes (m :: m' :: rest') + 1 =
        node_count m.value + (members_nodes (m' :: rest') + 1) := by
      simp only [members_nodes]; omega
    rw [hnodes] at hfit ⊢
    have htail : members_tail (m' :: rest') ++ 125 :: post =
        44 :: (m'.pre ++ 34 :: (m'.key ++ 34 :: (m'.mid ++ 58 :: (m'.sep ++ (m'.text ++
          (m'.post ++ (members_tail rest' ++ 125 :: post))))))) := by
      simp [members_tail, member.src, member.body, List.append_assoc]
    have hbody : m'.body ++ (members_tail rest' ++ 125 :: post) =
        34 :: (m'.key ++ 34 :: (m'.mid ++ 58 :: (m'.sep ++ (m'.text ++
          (m'.post ++ (members_tail rest' ++ 125 :: post)))))) := by
      simp [member.body, List.append_assoc]
    rw [htail] at hat
    obtain ⟨ctxk, ctx1, hq, hpk, hne, hcolon, hp1, h2⟩ := parse_member f m 44 _
      (Or.inl rfl) ctx a hat hok hf (a.fits_mono _ _ hfit (by omega))
    have h3 := h2.pat_advance.pat_consume_spaces hok'.1 rfl
    have h3' := h3
    rw [← hbody] at h3'
    obtain ⟨ctx4, hp4, h4⟩ := ih m' (acc ++ [m.child]) k _ (a.after (node_count m.value)) h3'
      hall' (by simp only [List.length_cons] at hn ⊢; omega) (a.fits_after _ _ hfit)
    refine ⟨ctx4, ?_, ?_⟩
    · rw [parse_obj_loop]
      simp only []
      rw [if_neg (by rw [hq]; decide), hpk]
      simp only []
      rw [if_neg hne, if_neg (by rw [hcolon]; decide), hp1]
      simp only []
      rw [if_neg h2.ne, if_neg (by rw [h2.peek]; decide), if_neg (by rw [h2.peek]; decide),
        if_neg h3.ne, show m.value.set_key m.key = m.child from rfl]
      have hlen : (acc ++ [m.child]).length = acc.length + 1 := by simp
      rw [hlen] at hp4
      rw [hp4]
      simp only [List.append_assoc, List.singleton_append, List.length_cons, List.map_cons]
      congr 2
      omega
    · rw [ejson_arena.after_after] at h4
      exact h4

theorem members_tail_length (rest : List member) :
    rest.length ≤ (members_tail rest).length ∧
      ∀ x ∈ rest, x.text.length ≤ (members_tail rest).length := by
  induction rest with
  | nil => exact ⟨Nat.le_refl _, fun x hx => by cases hx⟩
  | cons m r ih =>
    obtain ⟨h1, h2⟩ := ih
    simp only [members_tail, member.src, member.body, List.length_append, List.length_cons,
      List.length_nil]
    refine ⟨by omega, fun x hx => ?_⟩
    rcases List.mem_cons.mp hx with rfl | hx
    · omega
    · have := h2 x hx; omega

/-- The parse of an object literal: the Object of the children its members stand for, in
the order of the source. -/
theorem ejson_parse2_obj_literal (m : member) (rest : List member)
    (error : Option (List Nat)) (arena : ejson_arena) (config : ejson_config)
    (hok : ∀ x ∈ m :: rest, x.ok)
    (hroom : arena_room arena (members_nodes (m :: rest) + 1)) :
    ∃ out, ejson_parse2 (obj_literal m rest) error arena config = some out ∧
      out.root = some (.object [] ((m :: rest).map member.child) (rest.length + 1)) := by
  obtain ⟨hlen, htext⟩ := members_tail_length rest
  have hsrc : obj_literal m rest = [] ++ 123 :: (m.pre ++ 34 :: (m.key ++ 34 :: (m.mid ++
      58 :: (m.sep ++ (m.text ++ (m.post ++ (members_tail rest ++ 125 :: []))))))) := by
    simp [obj_literal, member.src, member.body, List.append_assoc]
  have hbody : m.body ++ (members_tail rest ++ 125 :: []) =
      34 :: (m.key ++ 34 :: (m.mid ++ 58 :: (m.sep ++ (m.text ++
        (m.post ++ (members_tail rest ++ 125 :: [])))))) := by
    simp [member.body, List.append_assoc]
  have hsize : (obj_literal m rest).length =
      m.pre.length + m.key.length + m.mid.length + m.sep.length + m.text.length +
        m.post.length + (members_tail rest).length + 5 := by
    simp only [obj_literal, member.src, member.body, List.length_append, List.length_cons,
      List.length_nil]
    omega
  obtain ⟨ctx0, hctx0⟩ : ∃ c : context_t,
      c = ⟨error, arena, obj_literal m rest, 0, (obj_literal m rest).length, config⟩ :=
    ⟨_, rfl⟩
  have hat : PAt ctx0 ([] ++ 123 :: (m.pre ++ 34 :: (m.key ++ 34 :: (m.mid ++
      58 :: (m.sep ++ (m.text ++ (m.post ++ (members_tail rest ++ 125 :: [])))))))) arena := by
    rw [hctx0]
    exact ⟨rfl, by rw [← hsrc]; simp [context_t.rem], rfl⟩
  have h1 := hat.pat_consume_spaces (fun _ hb => by cases hb) rfl
  have h2 := h1.pat_advance.pat_consume_spaces (hok m (List.mem_cons_self _ _)).1 rfl
  have h2' := h2
  rw [← hbody] at h2'
  obtain ⟨ctx', hp, _⟩ := parse_obj_loop_members (obj_literal m rest).length [] rest m []
    (obj_literal m rest).length _ arena h2'
    (fun x hx => ⟨hok x hx, by
      rcases List.mem_cons.mp hx with rfl | hx
      · omega
      · have := htext x hx; omega⟩)
    (by omega) (fits_of_arena_room arena _ (Nat.succ_pos _) hroom)
  have hp' : parse_obj_loop (Ejson.parse_any (obj_literal m rest).length)
      (obj_literal m rest).length
      (Ejson.consume_spaces (Ejson.consume_spaces ctx0).advance) [] 0 =
      .val (.object [] ((m :: rest).map member.child) (rest.length + 1)) ctx' := by
    simpa using hp
  have hany : Ejson.parse_any ((obj_literal m rest).length + 1) ctx0 =
      .val (.object [] ((m :: rest).map member.child) (rest.length + 1)) ctx' := by
    rw [hat.parse_any (fun _ hb => by cases hb) rfl, if_neg (by simp), if_pos rfl]
    unfold parse_obj
    simp only []
    rw [if_neg h2.ne, if_neg (by rw [h2.peek]; decide), hp']
  rw [hctx0] at hany
  unfold ejson_parse2
  simp only []
  rw [hany]
  exact ⟨_, rfl, rfl⟩

/-- The lookup of a key without zero byte among the children the members stand for: the
child of the first member with that key. -/
theorem ejson_seekbykey_members (ms : List member) (sz : Nat) (k : List Nat)
    (h0 : ∀ b ∈ k, b ≠ 0) :
    ejson_seekbykey (.object [] (ms.map member.child) sz) k =
      (ms.find? (fun x => decide (x.key = k))).map member.child := by
  unfold ejson_seekbykey
  rw [strlen_eq_length k h0, ejson_seekbykey2_object [] _ sz k h0, List.find?_map]
  congr 2
  funext x
  simp [member.child, key_set_key]

/-- C14: for every source that is an object literal with the members `k1: v1, ..., kn: vn`
(`n ≥ 1`; each key between double quotes and without double quote, each value a text the
parser reads as `vi`, white space allowed around the keys, the colons and the values) and
every arena with room for the nodes, `ejson_parse2` (so `ejson_parse`, whatever the
configuration) returns an Object with exactly `n` children in the order of the source, the
`i`-th being `vi` under the key `ki`; members with a repeated key are all kept, and
`ejson_seekbykey` with a key (a C string) returns the child of the first member that has
it, and nothing when no member has it. -/
theorem obj_literal_members (m : member) (rest : List member)
    (error : Option (List Nat)) (arena : ejson_arena) (config : ejson_config)
    (hok : ∀ x ∈ m :: rest, x.ok)
    (hroom : arena_room arena (members_nodes (m :: rest) + 1)) :
    ∃ out root, ejson_parse2 (obj_literal m rest) error arena config = some out ∧
      out.root = some root ∧ root.type = .EJSON_OBJECT ∧
      root.children = (m :: rest).map (fun x => x.value.set_key x.key) ∧
      root.children.length = (m :: rest).length ∧
      ∀ k : List Nat, (∀ b ∈ k, b ≠ 0) →
        ejson_seekbykey root k =
          ((m :: rest).find? (fun x => decide (x.key = k))).map
            (fun x => x.value.set_key x.key) := by
  obtain ⟨out, hparse, hroot⟩ := ejson_parse2_obj_literal m rest error arena config hok hroom
  refine ⟨out, _, hparse, hroot, rfl, rfl, by simp [ejson_value.children], ?_⟩
  intro k h0
  exact ejson_seekbykey_members (m :: rest) _ k h0

theorem obj_literal_members_witness :
    obj_literal dup_first [dup_second] = bytes "\x7b \"k\" : 1 , \"k\":true\x7d" ∧
    ∃ out root, ejson_parse2 (obj_literal dup_first [dup_second]) none ⟨1024, 0⟩
        EJSON_DEFAULT_CONFIGS = some out ∧
      out.root = some root ∧ root.type = .EJSON_OBJECT ∧
      root.children = [dup_first, dup_second].map (fun x => x.value.set_key x.key) ∧
      root.children.length = [dup_first, dup_second].length ∧
      ∀ k : List Nat, (∀ b ∈ k, b ≠ 0) →
        ejson_seekbykey root k =
          ([dup_first, dup_second].find? (fun x => decide (x.key = k))).map
            (fun x => x.value.set_key x.key) :=
  ⟨by decide,
   obj_literal_members dup_first [dup_second] none ⟨1024, 0⟩ EJSON_DEFAULT_CONFIGS
    (fun x hx => by
      simp only [List.mem_cons, List.mem_singleton, List.not_mem_nil, or_false] at hx
      rcases hx with rfl | rfl
      · exact ⟨by decide, by decide, by decide, by decide, by decide,
          parses_serialize (.number [] 1 (Double.ofInt 1)) rfl rfl rfl⟩
      · exact ⟨by decide, by decide, by decide, by decide, by decide,
          parses_serialize (.boolean [] true) rfl rfl rfl⟩)
    (by unfold arena_room; decide)⟩

/-! ## C18 and C19: quoted strings -/

/-- What `parse_str` does at an opening quote `q` that no `q` follows: it runs to the end of
the source and reports the missing quote. -/
theorem parse_str_unclosed (ctx : context_t) (q : Nat) (s : List Nat)
    (hlen : ctx.len = ctx.src.length) (hrem : ctx.rem = q :: s) (hs : ∀ b ∈ s, b ≠ q) :
    parse_str ctx = (none, ({ ctx with cur := ctx.len } : context_t).report
      (bytes "No closing " ++ (if q = 34 then [39, 34, 39] else [39, 92, 39, 39]) ++
        bytes " after string")) := by
  unfold context_t.rem at hrem
  have hpeek := peek_of_drop ctx q _ hrem
  have hd1 : ctx.src.drop (ctx.cur + 1) = s := drop_succ_of_drop _ _ _ _ hrem
  have htotal := length_of_drop ctx.src ctx.cur _ hrem (by simp)
  simp only [List.length_cons] at htotal
  have hscan : scan_while (fun c => c != q) ctx.src ctx.len (ctx.len - (ctx.cur + 1))
      (ctx.cur + 1) = ctx.len := by
    rw [hlen, scan_while_eq _ ctx.src _ _ (Nat.le_refl _), hd1,
      List.takeWhile_eq_self_iff.mpr (fun b hb => by simpa using hs b hb)]
    omega
  unfold parse_str
  simp only [context_t.advance, hpeek, hscan]
  rw [if_pos trivial]

/-- The text after an opening quote `q` that holds another `q`: the bytes before the first
`q`, that `q`, and the rest. -/
theorem split_at_quote (q : Nat) (t : List Nat) (h : q ∈ t) :
    ∃ rest, t = t.takeWhile (fun c => c != q) ++ q :: rest ∧
      ∀ b ∈ t.takeWhile (fun c => c != q), b ≠ q := by
  induction t with
  | nil => cases h
  | cons x l ih =>
    by_cases hx : x = q
    · subst hx
      exact ⟨l, by simp, by simp⟩
    · rcases List.mem_cons.mp h with rfl | hl
      · exact (hx rfl).elim
      · obtain ⟨rest, h1, h2⟩ := ih hl
        refine ⟨rest, ?_, ?_⟩
        · rw [List.takeWhile_cons, if_pos (by simpa using hx), List.cons_append, ← h1]
        · intro b hb
          rw [List.takeWhile_cons, if_pos (by simpa using hx)] at hb
          rcases List.mem_cons.mp hb with rfl | hb
          · exact hx
          · exact h2 b hb

/-- The context of `ejson_parse2` after the leading white space `ws` of the source. -/
theorem consume_spaces_start (error : Option (List Nat)) (arena : ejson_arena)
    (config : ejson_config) (ws : List Nat) (c : Nat) (tl : List Nat)
    (hws : ∀ b ∈ ws, is_space b = true) (hc : is_space c = false) :
    consume_spaces ⟨error, arena, ws ++ c :: tl, 0, (ws ++ c :: tl).length, config⟩ =
      ⟨error, arena, ws ++ c :: tl, ws.length, (ws ++ c :: tl).length, config⟩ := by
  rw [consume_spaces_eq _ rfl]
  simp only [List.drop_zero, Nat.zero_add]
  rw [takeWhile_append_of_all is_space ws (c :: tl) hws
    (fun x hx => by simp only [List.head?_cons, Option.some.injEq] at hx; subst hx; exact hc)]

/-- A source whose first byte after the white space is a quote `q` that the configuration
accepts, closed by a later `q`: the String of the bytes up to the first `q`. -/
theorem ejson_parse2_string (q : Nat) (ws s rest : List Nat)
    (error : Option (List Nat)) (arena : ejson_arena) (config : ejson_config)
    (hq : q = 34 ∨ (q = 39 ∧ config.allow_single_quoted_strings = true))
    (hws : ∀ b ∈ ws, is_space b = true) (hs : ∀ b ∈ s, b ≠ q)
    (hroom : arena.used + node_pad arena.used + sizeof_ejson_value ≤ arena.size)
    (hsize : arena.size < SIZE_WIDTH) :
    ejson_parse2 (ws ++ q :: (s ++ q :: rest)) error arena config =
      some { root := some (.string [] s), end_ := some (ws.length + s.length + 2),
             error := error,
             arena := { arena with
               used := arena.used + node_pad arena.used + sizeof_ejson_value } } := by
  have hsp : is_space q = false := by rcases hq with rfl | ⟨rfl, _⟩ <;> rfl
  have hat : PAt ⟨error, arena, ws ++ q :: (s ++ q :: rest), 0,
      (ws ++ q :: (s ++ q :: rest)).length, config⟩ (ws ++ q :: (s ++ q :: rest)) arena :=
    ⟨rfl, by simp [context_t.rem], rfl⟩
  unfold ejson_parse2
  simp only []
  rw [hat.parse_any hws hsp, if_pos hq,
    consume_spaces_start error arena config ws q _ hws hsp,
    parse_str_2_quoted _ q s rest rfl (by simp [context_t.rem]) hs hroom hsize]
  rfl

/-- A source whose first byte after the white space is a quote `q` that the configuration
accepts and that no later `q` closes: no value, and the diagnostic of `parse_str`. -/
theorem ejson_parse2_unclosed (q : Nat) (ws s : List Nat)
    (error : Option (List Nat)) (arena : ejson_arena) (config : ejson_config)
    (hq : q = 34 ∨ (q = 39 ∧ config.allow_single_quoted_strings = true))
    (hws : ∀ b ∈ ws, is_space b = true) (hs : ∀ b ∈ s, b ≠ q) :
    ejson_parse2 (ws ++ q :: s) error arena config =
      some { root := none, end_ := none,
             error := error.map (fun _ => bytes "No closing " ++
               (if q = 34 then [39, 34, 39] else [39, 92, 39, 39]) ++ bytes " after string"),
             arena := arena } := by
  have hsp : is_space q = false := by rcases hq with rfl | ⟨rfl, _⟩ <;> rfl
  have hat : PAt ⟨error, arena, ws ++ q :: s, 0, (ws ++ q :: s).length, config⟩
      (ws ++ q :: s) arena :=
    ⟨rfl, by simp [context_t.rem], rfl⟩
  unfold ejson_parse2
  simp only []
  rw [hat.parse_any hws hsp, if_pos hq, consume_spaces_start error arena config ws q _ hws hsp]
  unfold parse_str_2
  rw [parse_str_unclosed _ q s rfl (by simp [context_t.rem]) hs]
  have hmsg : ∀ x : List Nat,
      (bytes "No closing " ++ x ++ bytes " after string").length ≤ 511 →
      Ejson.report error (bytes "No closing " ++ x ++ bytes " after string") =
        error.map (fun _ => bytes "No closing " ++ x ++ bytes " after string") := by
    intro x hx
    cases error with
    | none => rfl
    | some e =>
      simp only [Ejson.report, Option.map_some', Option.some.injEq]
      exact List.take_of_length_le hx
  simp only [parse_res.of, context_t.report]
  rw [hmsg _ (by split <;> decide)]

/-- C18: for every source whose first byte after the leading white space is a double quote,
every error object, arena and configuration: when a later double quote exists (and the
arena has room for one node) `ejson_parse2` returns the String of the bytes between the
opening quote and the first double quote that follows, all of them taken as they are, and
reports the bytes consumed through that closing quote; when no later double quote exists it
returns no value, with the diagnostic of the missing quote and the arena as it was. -/
theorem parse_double_quoted (ws t : List Nat) (error : Option (List Nat))
    (arena : ejson_arena) (config : ejson_config) (hws : ∀ b ∈ ws, is_space b = true) :
    (34 ∈ t →
      arena.used + node_pad arena.used + sizeof_ejson_value ≤ arena.size →
      arena.size < SIZE_WIDTH →
      ejson_parse2 (ws ++ 34 :: t) error arena config =
        some { root := some (.string [] (t.takeWhile (fun c => c != 34))),
               end_ := some (ws.length + (t.takeWhile (fun c => c != 34)).length + 2),
               error := error,
               arena := { arena with
                 used := arena.used + node_pad arena.used + sizeof_ejson_value } }) ∧
    (34 ∉ t →
      ejson_parse2 (ws ++ 34 :: t) error arena config =
        some { root := none, end_ := none,
               error := error.map (fun _ => bytes "No closing '\"' after string"),
               arena := arena }) := by
  constructor
  · intro hmem hroom hsize
    obtain ⟨rest, hsplit, hs⟩ := split_at_quote 34 t hmem
    have h := ejson_parse2_string 34 ws (t.takeWhile (fun c => c != 34)) rest error arena
      config (Or.inl rfl) hws hs hroom hsize
    rw [← hsplit] at h
    exact h
  · intro hmem
    have h := ejson_parse2_unclosed 34 ws t error arena config (Or.inl rfl) hws
      (fun b hb hq => hmem (hq ▸ hb))
    rw [h]
    rfl

theorem parse_double_quoted_witness :
    ejson_parse2 (bytes " \n\"a\\b\" 1") none ⟨1024, 0⟩ EJSON_DEFAULT_CONFIGS =
      some { root := some (.string [] (bytes "a\\b")), end_ := some 7, error := none,
             arena := ⟨1024, 56⟩ } :=
  (parse_double_quoted (bytes " \n") (bytes "a\\b\" 1") none ⟨1024, 0⟩
    EJSON_DEFAULT_CONFIGS (by decide)).1 (by decide) (by decide) (by decide)

/-- A source whose first byte after the white space is a single quote, with single-quoted
strings disabled: no value, and the diagnostic of the unexpected character. -/
theorem ejson_parse2_single_disabled (ws t : List Nat) (error : Option (List Nat))
    (arena : ejson_arena) (config : ejson_config) (hws : ∀ b ∈ ws, is_space b = true)
    (hcfg : config.allow_single_quoted_strings = false) :
    ejson_parse2 (ws ++ 39 :: t) error arena config =
      some { root := none, end_ := none,
             error := error.map (fun _ => bytes "Unexpected character '''"),
             arena := arena } := by
  have hat : PAt ⟨error, arena, ws ++ 39 :: t, 0, (ws ++ 39 :: t).length, config⟩
      (ws ++ 39 :: t) arena :=
    ⟨rfl, by simp [context_t.rem], rfl⟩
  have hpeek : (⟨error, arena, ws ++ 39 :: t, ws.length, (ws ++ 39 :: t).length, config⟩ :
      context_t).peek = 39 :=
    peek_of_drop _ 39 t (by simp)
  unfold ejson_parse2
  simp only []
  rw [hat.parse_any hws rfl, if_neg (by simp [hcfg]), if_neg (by decide), if_neg (by decide),
    consume_spaces_start error arena config ws 39 _ hws rfl]
  simp only [show is_digit 39 = false from rfl, Bool.false_eq_true, if_false]
  unfold parse_oth
  simp only [hpeek, show is_alpha 39 = false from rfl, show is_printable 39 = true from rfl,
    if_true, parse_res.of, context_t.report]
  cases error with
  | none => rfl
  | some e => rfl

/-- C19: for every source whose first byte after the leading white space is a single
quote: with `allow_single_quoted_strings` false, and so through `ejson_parse`, no value is
returned; with it true, when a later single quote exists (and the arena has room for one
node) the result is the String of the bytes up to the first single quote that follows,
double quotes among them being ordinary bytes, and when none exists no value is
returned. -/
theorem parse_single_quoted (ws t : List Nat) (error : Option (List Nat))
    (arena : ejson_arena) (config : ejson_config) (hws : ∀ b ∈ ws, is_space b = true) :
    (config.allow_single_quoted_strings = false →
      ejson_parse2 (ws ++ 39 :: t) error arena config =
        some { root := none, end_ := none,
               error := error.map (fun _ => bytes "Unexpected character '''"),
               arena := arena }) ∧
    ejson_parse (ws ++ 39 :: t) error arena =
      some { root := none, end_ := none,
             error := error.map (fun _ => bytes "Unexpected character '''"),
             arena := arena } ∧
    (config.allow_single_quoted_strings = true → 39 ∈ t →
      arena.used + node_pad arena.used + sizeof_ejson_value ≤ arena.size →
      arena.size < SIZE_WIDTH →
      ejson_parse2 (ws ++ 39 :: t) error arena config =
        some { root := some (.string [] (t.takeWhile (fun c => c != 39))),
               end_ := some (ws.length + (t.takeWhile (fun c => c != 39)).length + 2),
               error := error,
               arena := { arena with
                 used := arena.used + node_pad arena.used + sizeof_ejson_value } }) ∧
    (config.allow_single_quoted_strings = true → 39 ∉ t →
      ejson_parse2 (ws ++ 39 :: t) error arena config =
        some { root := none, end_ := none,
               error := error.map (fun _ => bytes "No closing '\\'' after string"),
               arena := arena }) := by
  refine ⟨ejson_parse2_single_disabled ws t error arena config hws,
    ejson_parse2_single_disabled ws t error arena EJSON_DEFAULT_CONFIGS hws rfl, ?_, ?_⟩
  · intro hcfg hmem hroom hsize
    obtain ⟨rest, hsplit, hs⟩ := split_at_quote 39 t hmem
    have h := ejson_parse2_string 39 ws (t.takeWhile (fun c => c != 39)) rest error arena
      config (Or.inr ⟨rfl, hcfg⟩) hws hs hroom hsize
    rw [← hsplit] at h
    exact h
  · intro hcfg hmem
    have h := ejson_parse2_unclosed 39 ws t error arena config (Or.inr ⟨rfl, hcfg⟩) hws
      (fun b hb hq => hmem (hq ▸ hb))
    rw [h]
    rfl

theorem parse_single_quoted_witness :
    ejson_parse2 (bytes "\t'a\"b' x") none ⟨1024, 0⟩ fmt_config =
      some { root := some (.string [] (bytes "a\"b")), end_ := some 6, error := none,
             arena := ⟨1024, 56⟩ } :=
  (parse_single_quoted (bytes "\t") (bytes "a\"b' x") none ⟨1024, 0⟩ fmt_config
    (by decide)).2.2.1 rfl (by decide) (by decide) (by decide)

/-! ## C20: the cursor over the children of a composite -/

theorem all_nodes_mono (p q : ejson_value → Bool) (hpq : ∀ v, p v = true → q v = true) :
    ∀ v : ejson_value, all_nodes p v = true → all_nodes q v = true := by
  intro v
  induction v using ejson_value.induct with
  | hnull k => intro h; exact hpq _ h
  | hbool k b => intro h; exact hpq _ h
  | hstr k s => intro h; exact hpq _ h
  | hnum k i f => intro h; exact hpq _ h
  | harr k head s ih =>
    intro h
    rw [all_nodes, Bool.and_eq_true, all_nodes_chain_iff] at h ⊢
    exact ⟨hpq _ h.1, fun c hc => ih c hc (h.2 c hc)⟩
  | hobj k head s ih =>
    intro h
    rw [all_nodes, Bool.and_eq_true, all_nodes_chain_iff] at h ⊢
    exact ⟨hpq _ h.1, fun c hc => ih c hc (h.2 c hc)⟩

/-- The first call of `ejson_next` on a cursor whose `val` is `NULL`, over an empty chain. -/
theorem ejson_next_first_nil (it : ejson_iter)
    (hc : it.set.type = .EJSON_ARRAY ∨ it.set.type = .EJSON_OBJECT) (hv : it.val = [])
    (hch : it.set.children = []) :
    ejson_next it = some (false, { it with val := [], idx := 0 }) := by
  unfold ejson_next
  rw [if_neg (by rcases hc with h | h <;> simp [h])]
  simp only [hv, hch, List.isEmpty_nil, if_true]

/-- The first call of `ejson_next` on a cursor whose `val` is `NULL`, over a chain that
starts with `v`. -/
theorem ejson_next_first_cons (it : ejson_iter)
    (hc : it.set.type = .EJSON_ARRAY ∨ it.set.type = .EJSON_OBJECT) (hv : it.val = [])
    (v : ejson_value) (tl : List ejson_value) (hch : it.set.children = v :: tl) :
    ejson_next it = some (true, { it with val := v :: tl, idx := 0, key := v.key }) := by
  unfold ejson_next
  rw [if_neg (by rcases hc with h | h <;> simp [h])]
  simp only [hv, hch, List.isEmpty_nil, if_true]

/-- A call of `ejson_next` on a cursor that stands at the last child. -/
theorem ejson_next_last (it : ejson_iter)
    (hc : it.set.type = .EJSON_ARRAY ∨ it.set.type = .EJSON_OBJECT)
    (c : ejson_value) (hv : it.val = [c]) :
    ejson_next it = some (false, { it with val := [], idx := (it.idx + 1) % SIZE_WIDTH }) := by
  unfold ejson_next
  rw [if_neg (by rcases hc with h | h <;> simp [h])]
  simp only [hv, List.isEmpty_cons, Bool.false_eq_true, if_false, List.tail_cons]

/-- A call of `ejson_next` on a cursor that stands at a child followed by `v`. -/
theorem ejson_next_step (it : ejson_iter)
    (hc : it.set.type = .EJSON_ARRAY ∨ it.set.type = .EJSON_OBJECT)
    (c v : ejson_value) (tl : List ejson_value) (hv : it.val = c :: v :: tl) :
    ejson_next it =
      some (true, { it with val := v :: tl, idx := (it.idx + 1) % SIZE_WIDTH,
                            key := v.key }) := by
  unfold ejson_next
  rw [if_neg (by rcases hc with h | h <;> simp [h])]
  simp only [hv, List.isEmpty_cons, Bool.false_eq_true, if_false, List.tail_cons]

theorem drop_of_getElem? (l : List ejson_value) (j : Nat) (c : ejson_value)
    (h : l[j]? = some c) : l.drop j = c :: l.drop (j + 1) := by
  obtain ⟨hj, rfl⟩ := List.getElem?_eq_some.mp h
  exact List.drop_eq_getElem_cons hj

/-- The calls of `ejson_next` from a cursor that stands at the child of position `j`. -/
theorem ejson_next_call_from (set : ejson_value)
    (hc : set.type = .EJSON_ARRAY ∨ set.type = .EJSON_OBJECT)
    (hn : set.children.length < SIZE_WIDTH) :
    ∀ (k j : Nat) (it : ejson_iter), it.set = set → it.val = set.children.drop j →
      it.idx = j → j < set.children.length →
      (∀ c, set.children[j + k + 1]? = some c →
        ∃ it', ejson_next_call k it = some (true, it') ∧ it'.set = set ∧
          it'.val = set.children.drop (j + k + 1) ∧ it'.idx = j + k + 1 ∧ it'.key = c.key) ∧
      (j + k + 1 = set.children.length → ∃ it', ejson_next_call k it = some (false, it')) := by
  intro k
  induction k with
  | zero =>
    intro j it hset hval hidx hj
    obtain ⟨cj, hcj⟩ : ∃ cj, set.children[j]? = some cj :=
      ⟨_, List.getElem?_eq_getElem hj⟩
    have hval' : it.val = cj :: set.children.drop (j + 1) := by
      rw [hval, drop_of_getElem? _ _ _ hcj]
    have hmod : (it.idx + 1) % SIZE_WIDTH = j + 1 := by
      rw [hidx]; exact Nat.mod_eq_of_lt (by omega)
    constructor
    · intro c hcc
      have hd := drop_of_getElem? _ _ _ hcc
      simp only [Nat.add_zero] at hd ⊢
      rw [hd] at hval'
      exact ⟨_, ejson_next_step it (hset ▸ hc) cj c _ hval', hset, hd.symm, hmod, rfl⟩
    · intro hlast
      have hd : set.children.drop (j + 1) = [] := List.drop_eq_nil_of_le (by omega)
      rw [hd] at hval'
      exact ⟨_, ejson_next_last it (hset ▸ hc) cj hval'⟩
  | succ k ih =>
    intro j it hset hval hidx hj
    obtain ⟨cj, hcj⟩ : ∃ cj, set.children[j]? = some cj :=
      ⟨_, List.getElem?_eq_getElem hj⟩
    have hval' : it.val = cj :: set.children.drop (j + 1) := by
      rw [hval, drop_of_getElem? _ _ _ hcj]
    have hmod : (it.idx + 1) % SIZE_WIDTH = j + 1 := by
      rw [hidx]; exact Nat.mod_eq_of_lt (by omega)
    have hnext : j + 1 < set.children.length →
        ∃ it1, ejson_next it = some (true, it1) ∧ it1.set = set ∧
          it1.val = set.children.drop (j + 1) ∧ it1.idx = j + 1 := by
      intro hlt
      have hd := drop_of_getElem? _ _ _ (List.getElem?_eq_getElem hlt)
      rw [hd] at hval'
      exact ⟨_, ejson_next_step it (hset ▸ hc) cj _ _ hval', hset, hd.symm, hmod⟩
    constructor
    · intro c hcc
      have hlt : j + (k + 1) + 1 < set.children.length :=
        (List.getElem?_eq_some.mp hcc).1
      obtain ⟨it1, h1, hs1, hv1, hi1⟩ := hnext (by omega)
      obtain ⟨it', h', hrest⟩ := (ih (j + 1) it1 hs1 hv1 hi1 (by omega)).1 c
        (by rw [show j + 1 + k + 1 = j + (k + 1) + 1 by omega]; exact hcc)
      refine ⟨it', ?_, ?_⟩
      · rw [ejson_next_call, h1]
        exact h'
      · rw [show j + (k + 1) + 1 = j + 1 + k + 1 by omega]
        exact hrest
    · intro hlast
      obtain ⟨it1, h1, hs1, hv1, hi1⟩ := hnext (by omega)
      obtain ⟨it', h'⟩ := (ih (j + 1) it1 hs1 hv1 hi1 (by omega)).2 (by omega)
      exact ⟨it', by rw [ejson_next_call, h1]; exact h'⟩

/-- C20: for every Array or Object `set` with `n` children (fewer than 2^64), the calls of
`ejson_next` on the cursor made by `ejson_iterover` return true `n` times and then false:
for every position `i < n` the call number `i + 1` returns true and leaves the cursor at
the `i`-th child of the chain, with `idx = i` and `key` the key of that child, and the call
number `n + 1` returns false.  In every tree built by `ejson_parse` the children of the
Arrays have the empty key. -/
theorem iter_children (set : ejson_value)
    (hc : set.type = .EJSON_ARRAY ∨ set.type = .EJSON_OBJECT)
    (hn : set.children.length < SIZE_WIDTH) :
    (∀ (i : Nat) (c : ejson_value), set.children[i]? = some c →
      ∃ it, ejson_next_call i (ejson_iterover set) = some (true, it) ∧ it.set = set ∧
        it.val = set.children.drop i ∧ it.val.head? = some c ∧ it.idx = i ∧
        it.key = c.key) ∧
    (∃ it, ejson_next_call set.children.length (ejson_iterover set) = some (false, it)) ∧
    (∀ (src : List Nat) (error : Option (List Nat)) (arena : ejson_arena) (out : parse_out)
      (T : ejson_value), ejson_parse src error arena = some out → out.root = some T →
      all_nodes array_keys_empty T = true) := by
  have hinit : (ejson_iterover set).set.type = .EJSON_ARRAY ∨
      (ejson_iterover set).set.type = .EJSON_OBJECT := hc
  refine ⟨?_, ?_, ?_⟩
  · intro i c hic
    have hhead : ∀ it : ejson_iter, it.val = set.children.drop i → it.val.head? = some c := by
      intro it hv
      rw [hv, drop_of_getElem? _ _ _ hic]
      rfl
    cases i with
    | zero =>
      have hd := drop_of_getElem? _ _ _ hic
      rw [List.drop_zero] at hd
      have h1 := ejson_next_first_cons (ejson_iterover set) hinit rfl c _ hd
      exact ⟨_, h1, rfl, hd.symm, hhead _ hd.symm, rfl, rfl⟩
    | succ k =>
      have hlt : k + 1 < set.children.length := (List.getElem?_eq_some.mp hic).1
      have hd := drop_of_getElem? _ _ _
        (List.getElem?_eq_getElem (show 0 < set.children.length by omega))
      rw [List.drop_zero] at hd
      obtain ⟨it0, h1, hs0, hv0, hi0⟩ : ∃ it0, ejson_next (ejson_iterover set) =
          some (true, it0) ∧ it0.set = set ∧ it0.val = set.children.drop 0 ∧ it0.idx = 0 :=
        ⟨_, ejson_next_first_cons (ejson_iterover set) hinit rfl _ _ hd, rfl,
          (by rw [List.drop_zero]; exact hd.symm), rfl⟩
      obtain ⟨it', h', hs, hv, hi, hk⟩ := (ejson_next_call_from set hc hn k 0 it0 hs0 hv0 hi0
        (by omega)).1 c (by rw [Nat.zero_add]; exact hic)
      rw [Nat.zero_add] at hv hi
      refine ⟨it', ?_, hs, hv, hhead _ hv, hi, hk⟩
      rw [ejson_next_call, h1]
      exact h'
  · cases hlen : set.children.length with
    | zero =>
      have hnil : set.children = [] := List.length_eq_zero.mp hlen
      exact ⟨_, ejson_next_first_nil (ejson_iterover set) hinit rfl hnil⟩
    | succ k =>
      have hd := drop_of_getElem? _ _ _
        (List.getElem?_eq_getElem (show 0 < set.children.length by omega))
      rw [List.drop_zero] at hd
      obtain ⟨it0, h1, hs0, hv0, hi0⟩ : ∃ it0, ejson_next (ejson_iterover set) =
          some (true, it0) ∧ it0.set = set ∧ it0.val = set.children.drop 0 ∧ it0.idx = 0 :=
        ⟨_, ejson_next_first_cons (ejson_iterover set) hinit rfl _ _ hd, rfl,
          (by rw [List.drop_zero]; exact hd.symm), rfl⟩
      obtain ⟨it', h'⟩ := (ejson_next_call_from set hc hn k 0 it0 hs0 hv0 hi0
        (by omega)).2 (by omega)
      exact ⟨it', by rw [ejson_next_call, h1]; exact h'⟩
  · intro src error arena out T hparse hroot
    refine all_nodes_mono node_shape array_keys_empty ?_ T
      (ejson_parse_shaped src error arena out T hparse hroot).2
    intro v hv
    cases v <;> first | rfl | (simp only [node_shape, Bool.and_eq_true] at hv; exact hv.2)

theorem iter_children_witness :
    (∀ (i : Nat) (c : ejson_value), round_trip_tree.children[i]? = some c →
      ∃ it, ejson_next_call i (ejson_iterover round_trip_tree) = some (true, it) ∧
        it.set = round_trip_tree ∧ it.val = round_trip_tree.children.drop i ∧
        it.val.head? = some c ∧ it.idx = i ∧ it.key = c.key) ∧
    (∃ it, ejson_next_call round_trip_tree.children.length (ejson_iterover round_trip_tree) =
      some (false, it)) ∧
    (∀ (src : List Nat) (error : Option (List Nat)) (arena : ejson_arena) (out : parse_out)
      (T : ejson_value), ejson_parse src error arena = some out → out.root = some T →
      all_nodes array_keys_empty T = true) :=
  iter_children round_trip_tree (Or.inl rfl) (by decide)

/-! ## C16 and C17: the truncating printer -/

/-- An `append` of `len` readable bytes after the text `T`: the text grows by these bytes,
of which the destination receives what fits. -/
theorem append_written (dst0 : List Nat) (max : Nat) (T str : List Nat) (len : Nat)
    (hmax : max ≤ dst0.length) (hlen : len ≤ str.length)
    (hwrap : T.length + len < SIZE_WIDTH) :
    append (written dst0 max T) str len = some (written dst0 max (T ++ str.take len)) := by
  have hnum : (T.length + len) % SIZE_WIDTH = (T ++ str.take len).length := by
    rw [Nat.mod_eq_of_lt hwrap, List.length_append, List.length_take, Nat.min_eq_left hlen]
  unfold append written
  simp only []
  by_cases hlt : T.length < max
  · rw [if_pos hlt]
    have hT : T.take max = T := List.take_of_length_le (by omega)
    have hdst : (store dst0 0 T).length = dst0.length :=
      store_length dst0 0 T (by omega)
    rw [hT, if_neg (by rw [hdst]; omega), hnum]
    have hst := store_store dst0 0 T (str.take (min len (max - T.length))) (by omega)
    rw [Nat.zero_add] at hst
    rw [hst]
    have htake : (T ++ str.take len).take max = T ++ str.take (min len (max - T.length)) := by
      rw [List.take_append_eq_append_take, hT, List.take_take, Nat.min_comm]
    rw [htake]
  · rw [if_neg hlt, hnum]
    have htake : (T ++ str.take len).take max = T.take max :=
      List.take_append_of_le_length (by omega)
    rw [htake]

theorem append_written_all (dst0 : List Nat) (max : Nat) (T str : List Nat)
    (hmax : max ≤ dst0.length) (hwrap : T.length + str.length < SIZE_WIDTH) :
    append (written dst0 max T) str str.length = some (written dst0 max (T ++ str)) := by
  rw [append_written dst0 max T str str.length hmax (Nat.le_refl _) hwrap, List.take_length]

theorem print_str_written (dst0 : List Nat) (max : Nat) (T s : List Nat)
    (hmax : max ≤ dst0.length) (hwrap : T.length + (s.length + 2) < SIZE_WIDTH) :
    print_str (written dst0 max T) s = some (written dst0 max (T ++ ([34] ++ s ++ [34]))) := by
  have h1 := append_written_all dst0 max T [34] hmax
    (by simp only [List.length_cons, List.length_nil]; omega)
  have h2 := append_written_all dst0 max (T ++ [34]) s hmax
    (by simp only [List.length_append, List.length_cons, List.length_nil]; omega)
  have h3 := append_written_all dst0 max (T ++ [34] ++ s) [34] hmax
    (by simp only [List.length_append, List.length_cons, List.length_nil]; omega)
  unfold print_str
  have h1' : append (written dst0 max T) [34] 1 = some (written dst0 max (T ++ [34])) := h1
  have h3' : append (written dst0 max (T ++ [34] ++ s)) [34] 1 =
      some (written dst0 max (T ++ [34] ++ s ++ [34])) := h3
  simp only [h1', h2, h3', Option.bind_eq_bind, Option.some_bind]
  simp only [List.append_assoc]

theorem short_numbers_children (v : ejson_value) (h : short_numbers v = true) :
    ∀ c ∈ v.children, short_numbers c = true :=
  all_nodes_children node_short v h

theorem print_arr_loop_written (dst0 : List Nat) (max : Nat) (hmax : max ≤ dst0.length) :
    ∀ (head : List ejson_value),
      (∀ c ∈ head, short_numbers c = true → ∀ T : List Nat,
        T.length + (serialize c).length < SIZE_WIDTH →
        print_any (written dst0 max T) c = some (written dst0 max (T ++ serialize c))) →
      (∀ c ∈ head, short_numbers c = true) → ∀ T : List Nat,
      T.length + (serialize_arr head).length < SIZE_WIDTH →
      print_arr_loop (written dst0 max T) head =
        some (written dst0 max (T ++ serialize_arr head)) := by
  intro head
  induction head with
  | nil =>
    intro _ _ T _
    rw [print_arr_loop, serialize_arr, List.append_nil]
  | cons v rest ih =>
    intro hP hs T hwrap
    have hv := hP v (List.mem_cons_self _ _) (hs v (List.mem_cons_self _ _))
    have hrest := ih (fun c hc => hP c (List.mem_cons_of_mem _ hc))
      (fun c hc => hs c (List.mem_cons_of_mem _ hc))
    rw [serialize_arr] at hwrap ⊢
    rw [print_arr_loop]
    by_cases hn : ejson_hasnext (v :: rest) = true
    · simp only [hn, if_true, List.length_append, List.length_cons, List.length_nil]
        at hwrap ⊢
      have h1 := hv T (by omega)
      have h2 : append (written dst0 max (T ++ serialize v)) [44, 32] 2 =
          some (written dst0 max (T ++ serialize v ++ [44, 32])) :=
        append_written_all dst0 max (T ++ serialize v) [44, 32] hmax
          (by simp only [List.length_append, List.length_cons, List.length_nil]; omega)
      have h3 := hrest (T ++ serialize v ++ [44, 32])
        (by simp only [List.length_append, List.length_cons, List.length_nil]; omega)
      simp only [List.append_assoc] at h1 h2 h3
      simp only [h1, h2, h3, Option.bind_eq_bind, Option.some_bind, List.append_assoc]
    · simp only [hn, if_false, Bool.false_eq_true, List.length_append, List.length_nil,
        List.append_nil, Nat.add_zero] at hwrap ⊢
      have h1 := hv T (by omega)
      have h3 := hrest (T ++ serialize v)
        (by simp only [List.length_append]; omega)
      simp only [List.append_assoc] at h1 h3
      simp only [h1, h3, Option.bind_eq_bind, Option.some_bind, List.append_assoc]

theorem print_obj_loop_written (dst0 : List Nat) (max : Nat) (hmax : max ≤ dst0.length) :
    ∀ (head : List ejson_value),
      (∀ c ∈ head, short_numbers c = true → ∀ T : List Nat,
        T.length + (serialize c).length < SIZE_WIDTH →
        print_any (written dst0 max T) c = some (written dst0 max (T ++ serialize c))) →
      (∀ c ∈ head, short_numbers c = true) → ∀ T : List Nat,
      T.length + (serialize_obj head).length < SIZE_WIDTH →
      print_obj_loop (written dst0 max T) head =
        some (written dst0 max (T ++ serialize_obj head)) := by
  intro head
  induction head with
  | nil =>
    intro _ _ T _
    rw [print_obj_loop, serialize_obj, List.append_nil]
  | cons v rest ih =>
    intro hP hs T hwrap
    have hv := hP v (List.mem_cons_self _ _) (hs v (List.mem_cons_self _ _))
    have hrest := ih (fun c hc => hP c (List.mem_cons_of_mem _ hc))
      (fun c hc => hs c (List.mem_cons_of_mem _ hc))
    rw [serialize_obj] at hwrap ⊢
    rw [print_obj_loop]
    have h0 := print_str_written dst0 max T v.key hmax (by
      simp only [List.length_append, List.length_cons, List.length_nil] at hwrap; omega)
    have h0'' : append (written dst0 max (T ++ ([34] ++ v.key ++ [34]))) [58, 32] 2 =
        some (written dst0 max (T ++ ([34] ++ v.key ++ [34]) ++ [58, 32])) :=
      append_written_all dst0 max (T ++ ([34] ++ v.key ++ [34])) [58, 32] hmax (by
        simp only [List.length_append, List.length_cons, List.length_nil] at hwrap ⊢; omega)
    have h1 := hv (T ++ ([34] ++ v.key ++ [34]) ++ [58, 32]) (by
      simp only [List.length_append, List.length_cons, List.length_nil] at hwrap ⊢; omega)
    by_cases hn : ejson_hasnext (v :: rest) = true
    · simp only [hn, if_true, List.length_append, List.length_cons, List.length_nil]
        at hwrap ⊢
      have h2 : append (written dst0 max (T ++ ([34] ++ v.key ++ [34]) ++ [58, 32] ++
          serialize v)) [44, 32] 2 =
          some (written dst0 max (T ++ ([34] ++ v.key ++ [34]) ++ [58, 32] ++
            serialize v ++ [44, 32])) :=
        append_written_all dst0 max _ [44, 32] hmax
          (by simp only [List.length_append, List.length_cons, List.length_nil]; omega)
      have h3 := hrest (T ++ ([34] ++ v.key ++ [34]) ++ [58, 32] ++ serialize v ++ [44, 32])
        (by simp only [List.length_append, List.length_cons, List.length_nil]; omega)
      simp only [List.append_assoc] at h0 h0'' h1 h2 h3
      simp only [h0, h0'', h1, h2, h3, Option.bind_eq_bind, Option.some_bind,
        List.append_assoc]
    · simp only [hn, if_false, Bool.false_eq_true, List.length_append, List.length_cons,
        List.length_nil, List.append_nil, Nat.add_zero] at hwrap ⊢
      have h3 := hrest (T ++ ([34] ++ v.key ++ [34]) ++ [58, 32] ++ serialize v)
        (by simp only [List.length_append, List.length_cons, List.length_nil]; omega)
      simp only [List.append_assoc] at h0 h0'' h1 h3
      simp only [h0, h0'', h1, h3, Option.bind_eq_bind, Option.some_bind, List.append_assoc]

/-- The printer on a tree whose Numbers fit the 128-byte buffer: after the text `T`, the
text grows by the complete serialization of the tree, whatever the capacity. -/
theorem print_any_written (dst0 : List Nat) (max : Nat) (hmax : max ≤ dst0.length) :
    ∀ v : ejson_value, short_numbers v = true → ∀ T : List Nat,
      T.length + (serialize v).length < SIZE_WIDTH →
      print_any (written dst0 max T) v = some (written dst0 max (T ++ serialize v)) := by
  intro v
  induction v using ejson_value.induct with
  | hnull k =>
    intro _ T hwrap
    rw [print_any, serialize]
    exact append_written_all dst0 max T (bytes "null") hmax hwrap
  | hbool k b =>
    intro _ T hwrap
    rw [print_any, serialize]
    rw [serialize] at hwrap
    cases b
    · exact append_written_all dst0 max T (bytes "false") hmax hwrap
    · exact append_written_all dst0 max T (bytes "true") hmax hwrap
  | hstr k s =>
    intro _ T hwrap
    rw [print_any, serialize]
    rw [serialize] at hwrap
    have := print_str_written dst0 max T s hmax (by
      simp only [List.length_append, List.length_cons, List.length_nil] at hwrap; omega)
    unfold print_str at this
    exact this
  | hnum k i f =>
    intro hs T hwrap
    have hshort := all_nodes_self node_short _ hs
    simp only [node_short, decide_eq_true_eq] at hshort
    have hbuff : (if Double.eq f (Double.ofInt i) = true then snprintf_buff (fmt_lld i)
        else snprintf_buff (Double.fmt_lf f)) =
        snprintf_buff (serialize (.number k i f)) := by
      rw [serialize]; split <;> rfl
    rw [print_any, hbuff]
    simp only [snprintf_buff]
    rw [List.take_of_length_le hshort,
      append_written dst0 max T _ _ hmax (by simp) hwrap, List.take_left]
  | harr k head s ih =>
    intro hs T hwrap
    have hch := short_numbers_children _ hs
    simp only [ejson_value.children] at hch
    rw [serialize] at hwrap ⊢
    simp only [List.length_append, List.length_cons, List.length_nil] at hwrap
    have h1 : append (written dst0 max T) [91] 1 = some (written dst0 max (T ++ [91])) :=
      append_written_all dst0 max T [91] hmax
        (by simp only [List.length_cons, List.length_nil]; omega)
    have h2 := print_arr_loop_written dst0 max hmax head ih hch (T ++ [91])
      (by simp only [List.length_append, List.length_cons, List.length_nil]; omega)
    have h3 : append (written dst0 max (T ++ [91] ++ serialize_arr head)) [93] 1 =
        some (written dst0 max (T ++ [91] ++ serialize_arr head ++ [93])) :=
      append_written_all dst0 max _ [93] hmax
        (by simp only [List.length_append, List.length_cons, List.length_nil]; omega)
    rw [print_any]
    simp only [List.append_assoc] at h1 h2 h3
    simp only [h1, h2, h3, Option.bind_eq_bind, Option.some_bind, List.append_assoc]
  | hobj k head s ih =>
    intro hs T hwrap
    have hch := short_numbers_children _ hs
    simp only [ejson_value.children] at hch
    rw [serialize] at hwrap ⊢
    simp only [List.length_append, List.length_cons, List.length_nil] at hwrap
    have h1 : append (written dst0 max T) [123] 1 = some (written dst0 max (T ++ [123])) :=
      append_written_all dst0 max T [123] hmax
        (by simp only [List.length_cons, List.length_nil]; omega)
    have h2 := print_obj_loop_written dst0 max hmax head ih hch (T ++ [123])
      (by simp only [List.length_append, List.length_cons, List.length_nil]; omega)
    have h3 : append (written dst0 max (T ++ [123] ++ serialize_obj head)) [125] 1 =
        some (written dst0 max (T ++ [123] ++ serialize_obj head ++ [125])) :=
      append_written_all dst0 max _ [125] hmax
        (by simp only [List.length_append, List.length_cons, List.length_nil]; omega)
    rw [print_any]
    simp only [List.append_assoc] at h1 h2 h3
    simp only [h1, h2, h3, Option.bind_eq_bind, Option.some_bind, List.append_assoc]

theorem store_drop (dst : List Nat) (a : Nat) (x : List Nat) (m : Nat)
    (h : a + x.length ≤ m) (hd : a + x.length ≤ dst.length) :
    (store dst a x).drop m = dst.drop m := by
  have h1 : (dst.take a ++ x).length = a + x.length := by
    rw [List.length_append, List.length_take]; omega
  unfold store
  rw [List.drop_append_eq_append_drop, h1, List.drop_of_length_le (by omega),
    List.nil_append, List.drop_drop]
  congr 1
  omega

theorem store_zero_take (dst x : List Nat) (a : Nat) (h : a ≤ x.length) :
    (store dst 0 x).take a = x.take a := by
  unfold store
  rw [List.take_zero, List.nil_append, List.take_append_of_le_length h]

theorem store_getElem? (dst : List Nat) (a : Nat) (b : Nat) (h : a < dst.length) :
    (store dst a [b])[a]? = some b := by
  have h1 : (dst.take a).length = a := by rw [List.length_take]; omega
  unfold store
  rw [List.append_assoc, List.getElem?_append_right (by omega), h1, Nat.sub_self]
  simp

theorem written_nil (dst : List Nat) (max : Nat) :
    written dst max [] = { dst := dst, max := max, num := 0 } := by
  unfold written store
  simp

/-- The Numbers of integer literals print in at most 20 bytes. -/
theorem short_of_int_numbers (v : ejson_value) (h : int_numbers v = true) :
    short_numbers v = true := by
  refine all_nodes_mono node_int node_short ?_ v h
  intro w hw
  cases w with
  | number k i f =>
    obtain ⟨n, _, _, _, hser, _, _, hlen, _⟩ := serialize_node_int k i f hw
    simp only [node_short, decide_eq_true_eq]
    rw [hser]
    omega
  | null _ => rfl
  | array _ _ _ => rfl
  | object _ _ _ => rfl
  | string _ _ => rfl
  | boolean _ _ => rfl

/-- The call `ejson_print` on a tree whose Numbers fit the 128-byte buffer, with a capacity
of at least one byte: the returned length is that of the complete serialization, the
destination starts with the bytes of it that fit before the terminator, the terminator
follows them, and nothing is stored at or above the capacity. -/
theorem ejson_print_truncating (v : ejson_value) (hs : short_numbers v = true)
    (dst : List Nat) (max : Nat) (hpos : 1 ≤ max) (hmax : max ≤ dst.length)
    (hsz : max < SIZE_WIDTH) (hL : (serialize v).length < SIZE_WIDTH) :
    ∃ dst', ejson_print v dst max = some ((serialize v).length, dst') ∧
      dst'.take (min (serialize v).length (max - 1)) =
        (serialize v).take (min (serialize v).length (max - 1)) ∧
      dst'[min (serialize v).length (max - 1)]? = some 0 ∧
      dst'.drop max = dst.drop max ∧ dst'.length = dst.length := by
  have hp := print_any_written dst max hmax v hs [] (by simpa using hL)
  rw [written_nil, List.nil_append] at hp
  have hPlen : ((serialize v).take max).length = min max (serialize v).length :=
    List.length_take _ _
  have hXlen : (store dst 0 ((serialize v).take max)).length = dst.length :=
    store_length _ _ _ (by rw [hPlen]; omega)
  have hat : (if (serialize v).length < max then (serialize v).length
      else (max + SIZE_WIDTH - 1) % SIZE_WIDTH) = min (serialize v).length (max - 1) := by
    split
    · omega
    · have : (max + SIZE_WIDTH - 1) % SIZE_WIDTH = max - 1 := by
        rw [show max + SIZE_WIDTH - 1 = (max - 1) + SIZE_WIDTH by omega,
          Nat.add_mod_right, Nat.mod_eq_of_lt (by omega)]
      omega
  unfold ejson_print
  rw [hp]
  simp only [written]
  rw [hat, if_pos (by rw [hXlen]; omega)]
  refine ⟨_, rfl, ?_, ?_, ?_, ?_⟩
  · rw [store_take _ _ _ (by rw [hXlen]; omega),
      store_zero_take _ _ _ (by rw [hPlen]; omega), List.take_take]
    congr 1
    omega
  · exact store_getElem? _ _ _ (by rw [hXlen]; omega)
  · rw [store_drop _ _ _ _ (by simp only [List.length_cons, List.length_nil]; omega)
      (by rw [hXlen]; simp only [List.length_cons, List.length_nil]; omega),
      store_drop _ _ _ _ (by rw [hPlen]; omega) (by rw [hPlen]; omega)]
  · rw [store_length _ _ _ (by
      rw [hXlen]; simp only [List.length_cons, List.length_nil]; omega), hXlen]

/-- An `append` into a destination of capacity zero stores nothing. -/
theorem append_zero (ctx : print_context_t) (str : List Nat) (len : Nat) (h : ctx.max = 0) :
    ∃ ctx', append ctx str len = some ctx' ∧ ctx'.max = 0 ∧ ctx'.dst = ctx.dst := by
  unfold append
  rw [if_neg (by omega)]
  exact ⟨_, rfl, h, rfl⟩

theorem print_str_zero (ctx : print_context_t) (s : List Nat) (h : ctx.max = 0) :
    ∃ ctx', print_str ctx s = some ctx' ∧ ctx'.max = 0 ∧ ctx'.dst = ctx.dst := by
  obtain ⟨c1, h1, m1, d1⟩ := append_zero ctx [34] 1 h
  obtain ⟨c2, h2, m2, d2⟩ := append_zero c1 s s.length m1
  obtain ⟨c3, h3, m3, d3⟩ := append_zero c2 [34] 1 m2
  refine ⟨c3, ?_, m3, by rw [d3, d2, d1]⟩
  unfold print_str
  simp only [h1, h2, h3, Option.bind_eq_bind, Option.some_bind]

theorem print_arr_loop_zero :
    ∀ (head : List ejson_value),
      (∀ c ∈ head, ∀ ctx : print_context_t, ctx.max = 0 →
        ∃ ctx', print_any ctx c = some ctx' ∧ ctx'.max = 0 ∧ ctx'.dst = ctx.dst) →
      ∀ ctx : print_context_t, ctx.max = 0 →
        ∃ ctx', print_arr_loop ctx head = some ctx' ∧ ctx'.max = 0 ∧ ctx'.dst = ctx.dst := by
  intro head
  induction head with
  | nil => intro _ ctx h; exact ⟨ctx, by rw [print_arr_loop], h, rfl⟩
  | cons v rest ih =>
    intro hP ctx h
    obtain ⟨c1, h1, m1, d1⟩ := hP v (List.mem_cons_self _ _) ctx h
    have hrest := ih (fun c hc => hP c (List.mem_cons_of_mem _ hc))
    rw [print_arr_loop]
    by_cases hn : ejson_hasnext (v :: rest) = true
    · obtain ⟨c2, h2, m2, d2⟩ := append_zero c1 [44, 32] 2 m1
      obtain ⟨c3, h3, m3, d3⟩ := hrest c2 m2
      refine ⟨c3, ?_, m3, by rw [d3, d2, d1]⟩
      simp only [h1, hn, if_true, h2, h3, Option.bind_eq_bind, Option.some_bind]
    · obtain ⟨c3, h3, m3, d3⟩ := hrest c1 m1
      refine ⟨c3, ?_, m3, by rw [d3, d1]⟩
      simp only [h1, hn, if_false, Bool.false_eq_true, h3, Option.bind_eq_bind,
        Option.some_bind]

theorem print_obj_loop_zero :
    ∀ (head : List ejson_value),
      (∀ c ∈ head, ∀ ctx : print_context_t, ctx.max = 0 →
        ∃ ctx', print_any ctx c = some ctx' ∧ ctx'.max = 0 ∧ ctx'.dst = ctx.dst) →
      ∀ ctx : print_context_t, ctx.max = 0 →
        ∃ ctx', print_obj_loop ctx head = some ctx' ∧ ctx'.max = 0 ∧ ctx'.dst = ctx.dst := by
  intro head
  induction head with
  | nil => intro _ ctx h; exact ⟨ctx, by rw [print_obj_loop], h, rfl⟩
  | cons v rest ih =>
    intro hP ctx h
    obtain ⟨c0, h0, m0, d0⟩ := print_str_zero ctx v.key h
    obtain ⟨c0', h0', m0', d0'⟩ := append_zero c0 [58, 32] 2 m0
    obtain ⟨c1, h1, m1, d1⟩ := hP v (List.mem_cons_self _ _) c0' m0'
    have hrest := ih (fun c hc => hP c (List.mem_cons_of_mem _ hc))
    rw [print_obj_loop]
    by_cases hn : ejson_hasnext (v :: rest) = true
    · obtain ⟨c2, h2, m2, d2⟩ := append_zero c1 [44, 32] 2 m1
      obtain ⟨c3, h3, m3, d3⟩ := hrest c2 m2
      refine ⟨c3, ?_, m3, by rw [d3, d2, d1, d0', d0]⟩
      simp only [h0, h0', h1, hn, if_true, h2, h3, Option.bind_eq_bind, Option.some_bind]
    · obtain ⟨c3, h3, m3, d3⟩ := hrest c1 m1
      refine ⟨c3, ?_, m3, by rw [d3, d1, d0', d0]⟩
      simp only [h0, h0', h1, hn, if_false, Bool.false_eq_true, h3, Option.bind_eq_bind,
        Option.some_bind]

/-- With capacity zero `print_any` returns for every value and stores nothing. -/
theorem print_any_zero : ∀ (v : ejson_value) (ctx : print_context_t), ctx.max = 0 →
    ∃ ctx', print_any ctx v = some ctx' ∧ ctx'.max = 0 ∧ ctx'.dst = ctx.dst := by
  intro v
  induction v using ejson_value.induct with
  | hnull k => intro ctx h; rw [print_any]; exact append_zero ctx _ _ h
  | hbool k b =>
    intro ctx h
    rw [print_any]
    cases b
    · exact append_zero ctx _ _ h
    · exact append_zero ctx _ _ h
  | hstr k s =>
    intro ctx h
    have := print_str_zero ctx s h
    unfold print_str at this
    rw [print_any]
    exact this
  | hnum k i f =>
    intro ctx h
    rw [print_any]
    exact append_zero ctx _ _ h
  | harr k head s ih =>
    intro ctx h
    obtain ⟨c1, h1, m1, d1⟩ := append_zero ctx [91] 1 h
    obtain ⟨c2, h2, m2, d2⟩ := print_arr_loop_zero head ih c1 m1
    obtain ⟨c3, h3, m3, d3⟩ := append_zero c2 [93] 1 m2
    refine ⟨c3, ?_, m3, by rw [d3, d2, d1]⟩
    rw [print_any]
    simp only [h1, h2, h3, Option.bind_eq_bind, Option.some_bind]
  | hobj k head s ih =>
    intro ctx h
    obtain ⟨c1, h1, m1, d1⟩ := append_zero ctx [123] 1 h
    obtain ⟨c2, h2, m2, d2⟩ := print_obj_loop_zero head ih c1 m1
    obtain ⟨c3, h3, m3, d3⟩ := append_zero c2 [125] 1 m2
    refine ⟨c3, ?_, m3, by rw [d3, d2, d1]⟩
    rw [print_any]
    simp only [h1, h2, h3, Option.bind_eq_bind, Option.some_bind]

/-- C16 (as the code behaves): the Number parsed from a literal of 131 integer digits has a
`%lf` text of 138 bytes, more than the 128-byte `buff` of `print_any` holds; `snprintf`
returns 138 and `append` is asked to copy 138 bytes out of `buff`.  With a capacity of 256
bytes the copy reads past the end of `buff`, so `ejson_print` does not leave the
serialization in the destination. -/
theorem print_long_number :
    (ejson_parse long_number_src none ⟨1024, 0⟩).bind (fun o => o.root) = some long_number ∧
    (serialize long_number).length = 138 ∧
    short_numbers long_number = false ∧
    ejson_print long_number (List.replicate 256 0) 256 = none := by
  refine ⟨?_, ?_, ?_, ?_⟩
  · set_option maxRecDepth 1000000 in set_option exponentiation.threshold 1000 in rfl
  · set_option maxRecDepth 100000 in set_option exponentiation.threshold 1000 in rfl
  · set_option maxRecDepth 100000 in set_option exponentiation.threshold 1000 in rfl
  · set_option maxRecDepth 100000 in set_option exponentiation.threshold 1000 in rfl

/-- C17 (as the code behaves): with capacity 0 `print_any` stores nothing, and `ejson_print`
then stores its terminator at `dst[max-1]`, which for `max = 0` is the index `2^64 - 1`,
outside every destination: the call writes outside the capacity. -/
theorem print_capacity_zero (v : ejson_value) (dst : List Nat)
    (hdst : dst.length < SIZE_WIDTH) :
    (∃ ctx, print_any { dst := dst, max := 0, num := 0 } v = some ctx ∧ ctx.dst = dst) ∧
    ejson_print v dst 0 = none := by
  obtain ⟨ctx, hp, _, hd⟩ := print_any_zero v { dst := dst, max := 0, num := 0 } rfl
  refine ⟨⟨ctx, hp, hd⟩, ?_⟩
  unfold ejson_print
  rw [hp]
  simp only [Nat.not_lt_zero, if_false, hd]
  rw [if_neg]
  have : (0 + SIZE_WIDTH - 1) % SIZE_WIDTH = SIZE_WIDTH - 1 := by decide
  rw [this]
  omega

theorem print_capacity_zero_witness :
    (∃ ctx, print_any { dst := List.replicate 8 0, max := 0, num := 0 } round_trip_tree =
      some ctx ∧ ctx.dst = List.replicate 8 0) ∧
    ejson_print round_trip_tree (List.replicate 8 0) 0 = none :=
  print_capacity_zero round_trip_tree (List.replicate 8 0) (by decide)

/-! ## The arena allocator after a failed call -/

theorem sub_mod_of_dvd (A W u : Nat) (hA : 0 < A) (hd : A ∣ W) (hu : u < W) (h0 : 0 < u) :
    (W - u) % A = (A - u % A) % A := by
  obtain ⟨M, rfl⟩ := hd
  have hr : u % A < A := Nat.mod_lt _ hA
  have hq : A * (u / A) + u % A = u := Nat.div_add_mod u A
  generalize u % A = r at hr hq ⊢
  generalize u / A = q at hq
  subst hq
  have hqM : q < M := by
    by_contra hc
    have : A * M ≤ A * q := Nat.mul_le_mul_left _ (Nat.le_of_not_lt hc)
    omega
  obtain ⟨n, rfl⟩ : ∃ n, M = n + q + 1 := ⟨M - q - 1, by omega⟩
  have e : A * (n + q + 1) = A * n + A * q + A := by ring
  rw [e]
  by_cases hr0 : r = 0
  · subst hr0
    have e2 : A * n + A * q + A - (A * q + 0) = A * (n + 1) := by
      have : A * (n + 1) = A * n + A := by ring
      omega
    rw [e2, Nat.mul_mod_right, Nat.sub_zero, Nat.mod_self]
  · have e2 : A * n + A * q + A - (A * q + r) = (A - r) + A * n := by omega
    rw [e2, Nat.add_mul_mod_self_left]

/-- The padding of `alloc` is the distance from `used` to the next multiple of a power-of-two
alignment. -/
theorem alloc_pad (used k : Nat) (hk : k < 64) (hu : used < SIZE_WIDTH) :
    ((SIZE_WIDTH - used % SIZE_WIDTH) % SIZE_WIDTH) &&& ((2 ^ k + SIZE_WIDTH - 1) % SIZE_WIDTH) =
      (2 ^ k - used % 2 ^ k) % 2 ^ k := by
  have hpos : 0 < 2 ^ k := Nat.two_pow_pos k
  have hlt : 2 ^ k < SIZE_WIDTH := Nat.pow_lt_pow_right (by decide) hk
  have h1 : (2 ^ k + SIZE_WIDTH - 1) % SIZE_WIDTH = 2 ^ k - 1 := by
    have : 2 ^ k + SIZE_WIDTH - 1 = (2 ^ k - 1) + SIZE_WIDTH := by omega
    rw [this, Nat.add_mod_right, Nat.mod_eq_of_lt (by omega)]
  rw [h1, Nat.and_pow_two_sub_one_eq_mod, Nat.mod_eq_of_lt hu]
  by_cases h0 : used = 0
  · subst h0
    simp
  · rw [Nat.mod_eq_of_lt (by omega : SIZE_WIDTH - used < SIZE_WIDTH)]
    exact sub_mod_of_dvd _ _ _ hpos (Nat.pow_dvd_pow 2 (Nat.le_of_lt hk)) hu (by omega)

/-- C21 (counterexample): on an arena of capacity 8 with 1 byte used, a request of 56 bytes
aligned to 8 fails, and the used offset is 8 after the failed call, not 1. -/
theorem alloc_failed_counterexample :
    (alloc ⟨8, 1⟩ 56 8).1 = none ∧ (alloc ⟨8, 1⟩ 56 8).2.used = 8 ∧
      (alloc ⟨8, 1⟩ 56 8).2.used ≠ (⟨8, 1⟩ : ejson_arena).used := by
  decide

/-- C21 (amended): when `alloc` fails for a power-of-two alignment, the capacity is unchanged and
the used offset has advanced by the alignment padding only: it is the offset before the call plus
the distance to the next multiple of the alignment, which is less than the alignment, so the
offset is unchanged exactly when it was already aligned. -/
theorem alloc_failed (arena : ejson_arena) (size k : Nat) (hk : k < 64)
    (hu : arena.used < SIZE_WIDTH) (hfail : (alloc arena size (2 ^ k)).1 = none) :
    (alloc arena size (2 ^ k)).2.size = arena.size ∧
    (alloc arena size (2 ^ k)).2.used =
      (arena.used + (2 ^ k - arena.used % 2 ^ k) % 2 ^ k) % SIZE_WIDTH ∧
    (2 ^ k - arena.used % 2 ^ k) % 2 ^ k < 2 ^ k ∧
    ((alloc arena size (2 ^ k)).2.used = arena.used ↔ arena.used % 2 ^ k = 0) := by
  have hpos : 0 < 2 ^ k := Nat.two_pow_pos k
  have hlt64 : 2 ^ k < SIZE_WIDTH := Nat.pow_lt_pow_right (by decide) hk
  have hpad := alloc_pad arena.used k hk hu
  have hr : arena.used % 2 ^ k < 2 ^ k := Nat.mod_lt _ hpos
  unfold alloc at hfail ⊢
  simp only [hpad] at hfail ⊢
  split at hfail
  · rename_i hlt
    rw [if_pos hlt]
    refine ⟨rfl, rfl, Nat.mod_lt _ hpos, ?_⟩
    show (arena.used + (2 ^ k - arena.used % 2 ^ k) % 2 ^ k) % SIZE_WIDTH = arena.used ↔ _
    generalize arena.used % 2 ^ k = r at hr ⊢
    by_cases h0 : r = 0
    · subst h0
      simp only [Nat.sub_zero, Nat.mod_self, Nat.add_zero, iff_true]
      exact Nat.mod_eq_of_lt hu
    · rw [Nat.mod_eq_of_lt (by omega : 2 ^ k - r < 2 ^ k)]
      constructor
      · intro h
        exfalso
        by_cases hw : arena.used + (2 ^ k - r) < SIZE_WIDTH
        · rw [Nat.mod_eq_of_lt hw] at h
          omega
        · have e : arena.used + (2 ^ k - r) =
              (arena.used + (2 ^ k - r) - SIZE_WIDTH) + SIZE_WIDTH := by omega
          rw [e, Nat.add_mod_right, Nat.mod_eq_of_lt (by omega)] at h
          omega
      · intro h
        exact absurd h h0
  · cases hfail

/-- C21 (amended) at the arena of capacity 8 with 1 byte used, for 56 bytes aligned to 8. -/
theorem alloc_failed_witness :
    (alloc ⟨8, 1⟩ 56 (2 ^ 3)).2.size = 8 ∧
    (alloc ⟨8, 1⟩ 56 (2 ^ 3)).2.used = (1 + (2 ^ 3 - 1 % 2 ^ 3) % 2 ^ 3) % SIZE_WIDTH ∧
    (2 ^ 3 - 1 % 2 ^ 3) % 2 ^ 3 < 2 ^ 3 ∧
    ((alloc ⟨8, 1⟩ 56 (2 ^ 3)).2.used = 1 ↔ 1 % 2 ^ 3 = 0) :=
  alloc_failed ⟨8, 1⟩ 56 3 (by decide) (by decide) (by decide)

/-! ## C26: the empty Array against a pattern that opens a bracket -/

theorem match_and_unpack_empty_arr (fuel : Nat) (ctx : Match.context_t) (key : List Nat)
    (sz : Nat) (ws tl : List Nat) (hlen : ctx.len = ctx.fmt.length)
    (hrem : ctx.rem = ws ++ 91 :: tl) (hws : ∀ b ∈ ws, is_space b = true) :
    Match.match_and_unpack (fuel + 1) ctx (.array key [] sz) =
      .ret .EJSON_MATCH { ctx with cur := ctx.cur + ws.length + 1 } := by
  have hcs := match_consume_spaces_rem ctx ws 91 tl hlen hrem hws rfl
  have hrem1 : ({ ctx with cur := ctx.cur + ws.length } : Match.context_t).rem = 91 :: tl :=
    drop_add_of_drop ctx.fmt ctx.cur ws _ hrem
  have hne : ctx.cur + ws.length ≠ ctx.len :=
    match_cur_ne_len { ctx with cur := ctx.cur + ws.length } 91 tl hlen hrem1
  have hpeek := match_peek_of_rem _ 91 tl hrem1
  rw [Match.match_and_unpack]
  simp only [hcs]
  rw [if_neg hne, if_neg (by rw [hpeek]; decide), if_neg (by rw [hpeek]; decide),
    if_pos (by rfl)]
  unfold Match.match_and_unpack_arr
  rw [if_neg (by
    intro h
    rcases h with h | h
    · exact hne h
    · exact h hpeek)]
  rfl

/-- C26: for the empty Array value (no child; whatever its key) and every pattern (a C string,
so without zero bytes) made of white space, an opening bracket and any text: the matcher
returns Match, stores no capture, and stops right after the bracket, so the text after the
bracket is not read. -/
theorem empty_array_pattern (key : List Nat) (sz : Nat) (ws tl : List Nat)
    (hws : ∀ b ∈ ws, is_space b = true) (h0 : ∀ b ∈ tl, b ≠ 0) :
    ejson_match_and_unpack (.array key [] sz) (ws ++ 91 :: tl) =
      .ret .EJSON_MATCH
        { fmt := ws ++ 91 :: tl, cur := ws.length + 1, len := (ws ++ 91 :: tl).length,
          out := [] } := by
  have hz : ∀ b ∈ ws ++ 91 :: tl, b ≠ 0 := by
    intro b hb
    rw [List.mem_append, List.mem_cons] at hb
    rcases hb with hb | hb | hb
    · intro h
      subst h
      exact absurd (hws 0 hb) (by decide)
    · subst hb
      decide
    · exact h0 b hb
  unfold ejson_match_and_unpack
  rw [strlen_eq_length _ hz]
  have h := match_and_unpack_empty_arr (ws ++ 91 :: tl).length
    { fmt := ws ++ 91 :: tl, len := (ws ++ 91 :: tl).length, cur := 0, out := [] } key sz ws tl
    rfl rfl hws
  rw [h]
  simp

/-- C26 at patterns with an element, with a capture directive, with nothing, and with text
that is no pattern at all after the bracket. -/
theorem empty_array_pattern_witness :
    ejson_match_and_unpack (.array [] [] 0) ([32, 10] ++ 91 :: bytes "1, $n, true]") =
      .ret .EJSON_MATCH
        { fmt := [32, 10] ++ 91 :: bytes "1, $n, true]", cur := 3,
          len := ([32, 10] ++ 91 :: bytes "1, $n, true]").length, out := [] } ∧
    (ejson_match_and_unpack (.array [] [] 0) ([] ++ 91 :: [])).result = some .EJSON_MATCH ∧
    (ejson_match_and_unpack (.array [] [] 0) ([] ++ 91 :: bytes "@@")).captures = [] :=
  ⟨empty_array_pattern [] 0 [32, 10] (bytes "1, $n, true]") (by decide) (by decide),
   by decide, by rfl⟩

/-! ## C24: the cached counts of parser-built trees -/

theorem sized_of_make_val (b : context_t) (init : ejson_value)
    (hi : well_formed init = true) : (parse_res.of (make_val b init)).sized := by
  have hfst : (make_val b init).1 = none ∨ (make_val b init).1 = some init := by
    unfold make_val
    split
    · exact Or.inl rfl
    · exact Or.inr rfl
  revert hfst
  cases make_val b init with
  | mk r c =>
    intro hfst
    simp only at hfst
    rcases hfst with rfl | rfl
    · trivial
    · exact hi

theorem sized_val {r : parse_res} (hr : r.sized) :
    r = .starved ∨ (∃ c, r = .null c) ∨ ∃ v c, r = .val v c ∧ well_formed v = true := by
  cases r with
  | starved => exact Or.inl rfl
  | null c => exact Or.inr (Or.inl ⟨c, rfl⟩)
  | val v c => exact Or.inr (Or.inr ⟨v, c, rfl, hr⟩)

theorem parse_str_2_sized (ctx : context_t) : (parse_res.of (parse_str_2 ctx)).sized := by
  unfold parse_str_2
  cases parse_str ctx with
  | mk r c =>
    cases r with
    | none => trivial
    | some s =>
      unfold make_val_for_str
      exact sized_of_make_val _ _ rfl

theorem parse_num_sized (ctx : context_t) : (parse_res.of (parse_num ctx)).sized := by
  unfold parse_num
  simp only []
  split
  · unfold parse_flt make_val_for_flt
    simp only []
    split
    · exact sized_of_make_val _ _ rfl
    · exact sized_of_make_val _ _ rfl
  · unfold parse_int make_val_for_int
    split
    · trivial
    · exact sized_of_make_val _ _ rfl

theorem parse_oth_sized (ctx : context_t) : (parse_res.of (parse_oth ctx)).sized := by
  unfold parse_oth make_val_for_null make_val_for_true make_val_for_false
  simp only []
  split
  · split <;> trivial
  · split
    · exact sized_of_make_val _ _ rfl
    · split
      · exact sized_of_make_val _ _ rfl
      · split
        · exact sized_of_make_val _ _ rfl
        · trivial

theorem well_formed_array (k : List Nat) (head : List ejson_value) (s : Nat)
    (hs : s = head.length) (hhead : ∀ c ∈ head, well_formed c = true) :
    well_formed (.array k head s) = true := by
  unfold well_formed
  rw [all_nodes]
  simp only [node_sized, hs, decide_True, Bool.true_and]
  exact (all_nodes_chain_iff _ _).mpr hhead

theorem well_formed_object (k : List Nat) (head : List ejson_value) (s : Nat)
    (hs : s = head.length) (hhead : ∀ c ∈ head, well_formed c = true) :
    well_formed (.object k head s) = true := by
  unfold well_formed
  rw [all_nodes]
  simp only [node_sized, hs, decide_True, Bool.true_and]
  exact (all_nodes_chain_iff _ _).mpr hhead

theorem node_sized_set_key (v : ejson_value) (k : List Nat) :
    node_sized (v.set_key k) = node_sized v := by
  cases v <;> rfl

theorem parse_arr_loop_sized (rec : context_t → parse_res) (hrec : ∀ ctx, (rec ctx).sized) :
    ∀ n ctx head size, size = head.length → (∀ c ∈ head, well_formed c = true) →
      (parse_arr_loop rec n ctx head size).sized := by
  intro n
  induction n with
  | zero => intro ctx head size _ _; trivial
  | succ n ih =>
    intro ctx head size hsz hhead
    unfold parse_arr_loop
    rcases sized_val (hrec ctx) with hr | ⟨c, hr⟩ | ⟨v, c, hr, hv⟩
    · rw [hr]; trivial
    · rw [hr]; trivial
    · rw [hr]
      simp only []
      have hhead' : ∀ x ∈ head ++ [v], well_formed x = true := by
        intro x hx
        rcases List.mem_append.mp hx with hx | hx
        · exact hhead x hx
        · simp only [List.mem_singleton] at hx; subst hx; exact hv
      have hsz' : size + 1 = (head ++ [v]).length := by simp [hsz]
      split
      · trivial
      · split
        · unfold make_val_for_arr
          exact sized_of_make_val _ _ (well_formed_array _ _ _ hsz' hhead')
        · split
          · split <;> trivial
          · split
            · trivial
            · exact ih _ _ _ hsz' hhead'

theorem parse_arr_sized (rec : context_t → parse_res) (hrec : ∀ ctx, (rec ctx).sized)
    (n : Nat) (ctx : context_t) : (parse_arr rec n ctx).sized := by
  unfold parse_arr
  simp only []
  split
  · trivial
  · split
    · unfold make_val_for_empty_arr make_val_for_arr
      exact sized_of_make_val _ _ rfl
    · exact parse_arr_loop_sized rec hrec n _ [] 0 rfl (fun _ h => by cases h)

theorem parse_obj_loop_sized (rec : context_t → parse_res) (hrec : ∀ ctx, (rec ctx).sized) :
    ∀ n ctx head size, size = head.length → (∀ c ∈ head, well_formed c = true) →
      (parse_obj_loop rec n ctx head size).sized := by
  intro n
  induction n with
  | zero => intro ctx head size _ _; trivial
  | succ n ih =>
    intro ctx head size hsz hhead
    unfold parse_obj_loop
    simp only []
    split
    · split <;> trivial
    · cases parse_str ctx with
      | mk r c1 =>
        cases r with
        | none => trivial
        | some key =>
          simp only []
          split
          · trivial
          · split
            · split <;> trivial
            · rcases sized_val (hrec (consume_spaces c1).advance) with
                hr | ⟨c, hr⟩ | ⟨v, c, hr, hv⟩
              · rw [hr]; trivial
              · rw [hr]; trivial
              · rw [hr]
                simp only []
                have hhead' : ∀ x ∈ head ++ [v.set_key key], well_formed x = true := by
                  intro x hx
                  rcases List.mem_append.mp hx with hx | hx
                  · exact hhead x hx
                  · simp only [List.mem_singleton] at hx
                    subst hx
                    unfold well_formed
                    rw [all_nodes_set_key _ node_sized_set_key]
                    exact hv
                have hsz' : size + 1 = (head ++ [v.set_key key]).length := by simp [hsz]
                split
                · trivial
                · split
                  · unfold make_val_for_obj
                    exact sized_of_make_val _ _ (well_formed_object _ _ _ hsz' hhead')
                  · split
                    · split <;> trivial
                    · split
                      · trivial
                      · exact ih _ _ _ hsz' hhead'

theorem parse_obj_sized (rec : context_t → parse_res) (hrec : ∀ ctx, (rec ctx).sized)
    (n : Nat) (ctx : context_t) : (parse_obj rec n ctx).sized := by
  unfold parse_obj
  simp only []
  split
  · trivial
  · split
    · unfold make_val_for_empty_obj make_val_for_obj
      exact sized_of_make_val _ _ rfl
    · exact parse_obj_loop_sized rec hrec n _ [] 0 rfl (fun _ h => by cases h)

/-- Every tree `parse_any` returns is well formed, whatever the configuration. -/
theorem parse_any_sized : ∀ fuel ctx, (parse_any fuel ctx).sized := by
  intro fuel
  induction fuel with
  | zero => intro ctx; trivial
  | succ fuel ih =>
    intro ctx
    unfold parse_any
    simp only []
    split
    · trivial
    · split
      · exact parse_str_2_sized _
      · split
        · exact parse_obj_sized _ ih fuel _
        · split
          · exact parse_arr_sized _ ih fuel _
          · split
            · exact parse_num_sized _
            · exact parse_oth_sized _

theorem ejson_parse2_well_formed (src : List Nat) (error : Option (List Nat))
    (arena : ejson_arena) (config : ejson_config) (out : parse_out) (T : ejson_value)
    (h : ejson_parse2 src error arena config = some out) (hT : out.root = some T) :
    well_formed T = true := by
  have hs := parse_any_sized (src.length + 1)
    { error := error, arena := arena, src := src, len := src.length, cur := 0,
      config := config }
  unfold ejson_parse2 at h
  simp only [] at h
  split at h
  · cases h
  · simp only [Option.some.injEq] at h
    subst h
    cases hT
  · next root c heq =>
    simp only [Option.some.injEq] at h
    subst h
    simp only [Option.some.injEq] at hT
    subst hT
    rw [heq] at hs
    exact hs

/-- C24: in the trees returned by two successful parses (any sources, arenas and
configurations) every Array and Object node caches the length of its chain of children, and
`ejson_valcmp` on the two trees returns: the assertion in its loop does not fail. -/
theorem parsed_well_formed (src1 src2 : List Nat) (error1 error2 : Option (List Nat))
    (arena1 arena2 : ejson_arena) (config1 config2 : ejson_config) (out1 out2 : parse_out)
    (T1 T2 : ejson_value)
    (h1 : ejson_parse2 src1 error1 arena1 config1 = some out1) (hT1 : out1.root = some T1)
    (h2 : ejson_parse2 src2 error2 arena2 config2 = some out2) (hT2 : out2.root = some T2) :
    all_nodes node_sized T1 = true ∧ all_nodes node_sized T2 = true ∧
      ∃ r, ejson_valcmp T1 T2 = some r :=
  ⟨ejson_parse2_well_formed _ _ _ _ _ _ h1 hT1, ejson_parse2_well_formed _ _ _ _ _ _ h2 hT2,
    ejson_valcmp_total T1 T2 (ejson_parse2_well_formed _ _ _ _ _ _ h1 hT1)
      (ejson_parse2_well_formed _ _ _ _ _ _ h2 hT2)⟩

/-- C24 at the trees of `[1, [true]]` and of `{"a": ['b']}` (single quotes allowed). -/
theorem parsed_well_formed_witness :
    all_nodes node_sized (.array [] [.number [] 1 (.fin false 4503599627370496 (-52)),
      .array [] [.boolean [] true] 1] 2) = true ∧
    all_nodes node_sized (.object [] [.array [97] [.string [] [98]] 1] 1) = true ∧
    ∃ r, ejson_valcmp (.array [] [.number [] 1 (.fin false 4503599627370496 (-52)),
        .array [] [.boolean [] true] 1] 2)
      (.object [] [.array [97] [.string [] [98]] 1] 1) = some r :=
  parsed_well_formed (bytes "[1, [true]]") (bytes "\x7b\"a\": ['b']\x7d") none none
    ⟨1024, 0⟩ ⟨1024, 3⟩ EJSON_DEFAULT_CONFIGS ⟨true⟩
    ⟨some (.array [] [.number [] 1 (.fin false 4503599627370496 (-52)),
      .array [] [.boolean [] true] 1] 2), some 11, none, ⟨1024, 224⟩⟩
    ⟨some (.object [] [.array [97] [.string [] [98]] 1] 1), some 12, none, ⟨1024, 176⟩⟩
    _ _ (by rfl) rfl (by rfl) rfl

/-! ## C22: a source that starts with a run of letters -/

theorem strncmp_append_right : ∀ (n : Nat) (a b rest : List Nat), n ≤ b.length →
    strncmp a (b ++ rest) n = strncmp a b n := by
  intro n
  induction n with
  | zero => intro a b rest _; simp [strncmp]
  | succ n ih =>
    intro a b rest hn
    cases b with
    | nil => simp at hn
    | cons y b' =>
      simp only [List.length_cons, Nat.add_le_add_iff_right] at hn
      rw [strncmp, strncmp]
      simp only [List.cons_append, List.headD_cons, List.tail_cons]
      rw [ih a.tail b' rest hn]

theorem alpha_ne_zero (t : List Nat) (hal : ∀ b ∈ t, is_alpha b = true) :
    t.takeWhile (fun b => b != 0) = t := by
  rw [List.takeWhile_eq_self_iff]
  intro b hb
  have := hal b hb
  simp only [bne_iff_ne, ne_eq]
  intro h
  subst h
  exact absurd this (by decide)

/-- The keyword test of `parse_oth` on a token `t` of letters with the length of the keyword. -/
theorem strncmp_keyword (kw t rest : List Nat) (hkw : ∀ b ∈ kw, is_alpha b = true)
    (hal : ∀ b ∈ t, is_alpha b = true) (hlen : t.length = kw.length) :
    strncmp kw (t ++ rest) kw.length = 0 ↔ t = kw := by
  rw [strncmp_append_right _ _ _ _ (Nat.le_of_eq hlen.symm),
    strncmp_eq_zero_takeWhile kw t hlen.symm, alpha_ne_zero kw hkw, alpha_ne_zero t hal]
  exact eq_comm

/-- What `parse_oth` does at a token `c :: kw` of letters that no letter follows. -/
theorem parse_oth_token (ctx : context_t) (c : Nat) (kw post : List Nat) (a : ejson_arena)
    (hat : PAt ctx (c :: kw ++ post) a) (hc : is_alpha c = true)
    (hkw : ∀ b ∈ kw, is_alpha b = true)
    (hpost : ∀ x, post.head? = some x → is_alpha x = false) :
    parse_oth ctx =
      (if c :: kw = bytes "null" then
        make_val_for_null { ctx with cur := ctx.cur + 1 + kw.length }
      else if c :: kw = bytes "true" then
        make_val_for_true { ctx with cur := ctx.cur + 1 + kw.length }
      else if c :: kw = bytes "false" then
        make_val_for_false { ctx with cur := ctx.cur + 1 + kw.length }
      else
        (none, { ctx with cur := ctx.cur + 1 + kw.length }.report
          (bytes "Invalid token '" ++ (c :: kw) ++ bytes "'"))) := by
  have hrem : ctx.src.drop ctx.cur = c :: (kw ++ post) := hat.rem
  have hd1 : ctx.src.drop (ctx.cur + 1) = kw ++ post := drop_succ_of_drop _ _ _ _ hrem
  have hscan : scan_while is_alpha ctx.src ctx.len (ctx.len - (ctx.cur + 1)) (ctx.cur + 1) =
      ctx.cur + 1 + kw.length := by
    rw [hat.len, scan_while_eq _ ctx.src _ _ (Nat.le_refl _), hd1,
      takeWhile_append_of_all _ kw post hkw hpost]
  have hal : ∀ b ∈ c :: kw, is_alpha b = true := by
    intro b hb
    rcases List.mem_cons.mp hb with rfl | hb
    · exact hc
    · exact hkw b hb
  have hk : ∀ k : List Nat, (∀ b ∈ k, is_alpha b = true) →
      ((kw.length + 1 = k.length ∧ strncmp k (c :: (kw ++ post)) k.length = 0) ↔
        c :: kw = k) := by
    intro k hkal
    constructor
    · rintro ⟨hl, hs⟩
      exact (strncmp_keyword k (c :: kw) post hkal hal (by simpa using hl)).mp hs
    · intro h
      have hl : kw.length + 1 = k.length := by rw [← h]; rfl
      exact ⟨hl, (strncmp_keyword k (c :: kw) post hkal hal (by simpa using hl)).mpr h⟩
  have htake : ((c :: (kw ++ post)).take (kw.length + 1)).takeWhile (fun b => b != 0) =
      c :: kw := by
    have : (c :: (kw ++ post)).take (kw.length + 1) = c :: kw := by
      rw [List.take_succ_cons, List.take_left]
    rw [this, alpha_ne_zero _ hal]
  unfold parse_oth
  simp only [context_t.advance, hat.peek, hc, hscan, hrem]
  have e : ctx.cur + 1 + kw.length - ctx.cur = kw.length + 1 := by omega
  simp only [e, Bool.true_eq_false, if_false, htake]
  have h4 := hk (bytes "null") (by decide)
  have h5 := hk (bytes "true") (by decide)
  have h6 := hk (bytes "false") (by decide)
  simp only [show (bytes "null").length = 4 from rfl, show (bytes "true").length = 4 from rfl,
    show (bytes "false").length = 5 from rfl] at h4 h5 h6
  simp only [h4, h5, h6]
/-- The top-level call on white space, a token `t` of letters and a rest that does not start
with a letter: the keyword test decides on `t`, with the cursor after `t`. -/
theorem parse_any_token (ws t rest : List Nat) (error : Option (List Nat))
    (arena : ejson_arena) (config : ejson_config) (fuel : Nat)
    (hws : ∀ b ∈ ws, is_space b = true) (ht : t ≠ [])
    (hal : ∀ b ∈ t, is_alpha b = true)
    (hrest : ∀ x, rest.head? = some x → is_alpha x = false) :
    parse_any (fuel + 1)
        ⟨error, arena, ws ++ t ++ rest, 0, (ws ++ t ++ rest).length, config⟩ =
      parse_res.of
        (if t = bytes "null" then
          make_val_for_null
            ⟨error, arena, ws ++ t ++ rest, ws.length + t.length,
              (ws ++ t ++ rest).length, config⟩
        else if t = bytes "true" then
          make_val_for_true
            ⟨error, arena, ws ++ t ++ rest, ws.length + t.length,
              (ws ++ t ++ rest).length, config⟩
        else if t = bytes "false" then
          make_val_for_false
            ⟨error, arena, ws ++ t ++ rest, ws.length + t.length,
              (ws ++ t ++ rest).length, config⟩
        else
          (none, ⟨Ejson.report error (bytes "Invalid token '" ++ t ++ bytes "'"), arena,
            ws ++ t ++ rest, ws.length + t.length, (ws ++ t ++ rest).length, config⟩)) := by
  obtain ⟨c, kw, rfl⟩ : ∃ c kw, t = c :: kw := by
    cases t with
    | nil => exact absurd rfl ht
    | cons c kw => exact ⟨c, kw, rfl⟩
  have hc : is_alpha c = true := hal c (List.mem_cons_self _ _)
  have hkw : ∀ b ∈ kw, is_alpha b = true := fun b hb => hal b (List.mem_cons_of_mem _ hb)
  have hsp : is_space c = false := by
    cases h : is_space c with
    | false => rfl
    | true =>
      simp only [is_space, Bool.or_eq_true, beq_iff_eq] at h
      rcases h with ((rfl | rfl) | rfl) | rfl <;> exact absurd hc (by decide)
  have hsrc : ws ++ (c :: kw) ++ rest = ws ++ c :: (kw ++ rest) := by simp
  rw [hsrc]
  have hat : PAt ⟨error, arena, ws ++ c :: (kw ++ rest), 0,
      (ws ++ c :: (kw ++ rest)).length, config⟩ (ws ++ c :: (kw ++ rest)) arena :=
    ⟨rfl, by simp [context_t.rem], rfl⟩
  have hat1 : PAt ⟨error, arena, ws ++ c :: (kw ++ rest), ws.length,
      (ws ++ c :: (kw ++ rest)).length, config⟩ (c :: kw ++ rest) arena :=
    ⟨rfl, by simp [context_t.rem], rfl⟩
  have hnd : is_digit c = false := by
    cases h : is_digit c with
    | false => rfl
    | true =>
      simp only [is_digit, is_alpha, Bool.and_eq_true, Bool.or_eq_true,
        decide_eq_true_eq] at h hc
      omega
  have hne : ∀ x : Nat, is_alpha x = false → c ≠ x := by
    intro x hx h
    subst h
    rw [hc] at hx
    cases hx
  rw [hat.parse_any hws hsp, if_neg, if_neg (hne 123 rfl), if_neg (hne 91 rfl),
    consume_spaces_start error arena config ws c _ hws hsp]
  · simp only [hnd, Bool.false_eq_true, if_false]
    rw [parse_oth_token _ c kw rest arena hat1 hc hkw hrest]
    simp only [context_t.report, List.length_cons, Nat.add_assoc, Nat.add_comm 1]
  · rintro (h | ⟨h, _⟩)
    · exact hne 34 rfl h
    · exact hne 39 rfl h

/-- C22: for every source made of white space, a non-empty run `t` of ASCII letters and a
rest that does not start with a letter, every error object, arena and configuration: when `t`
is `null`, `true` or `false` (and the arena has room for one node) `ejson_parse2` returns
Null, Boolean true or Boolean false and reports the bytes consumed through `t`; for every
other `t` it returns no value, leaves the arena as it was, and the diagnostic is the text
`Invalid token '<t>'` (kept whole when it is at most 511 bytes long, as every diagnostic is
cut to the 511 bytes of the message buffer). -/
theorem parse_letters (ws t rest : List Nat) (error : Option (List Nat))
    (arena : ejson_arena) (config : ejson_config)
    (hws : ∀ b ∈ ws, is_space b = true) (ht : t ≠ [])
    (hal : ∀ b ∈ t, is_alpha b = true)
    (hrest : ∀ x, rest.head? = some x → is_alpha x = false) :
    (t = bytes "null" ∨ t = bytes "true" ∨ t = bytes "false" →
      arena.used + node_pad arena.used + sizeof_ejson_value ≤ arena.size →
      arena.size < SIZE_WIDTH →
      ejson_parse2 (ws ++ t ++ rest) error arena config =
        some { root := some (if t = bytes "null" then .null []
                 else if t = bytes "true" then .boolean [] true else .boolean [] false),
               end_ := some (ws.length + t.length),
               error := error,
               arena := { arena with
                 used := arena.used + node_pad arena.used + sizeof_ejson_value } }) ∧
    (t ≠ bytes "null" → t ≠ bytes "true" → t ≠ bytes "false" →
      ejson_parse2 (ws ++ t ++ rest) error arena config =
        some { root := none, end_ := none,
               error := error.map
                 (fun _ => (bytes "Invalid token '" ++ t ++ bytes "'").take 511),
               arena := arena } ∧
      ((bytes "Invalid token '" ++ t ++ bytes "'").length ≤ 511 →
        (bytes "Invalid token '" ++ t ++ bytes "'").take 511 =
          bytes "Invalid token '" ++ t ++ bytes "'")) := by
  have h := parse_any_token ws t rest error arena config (ws ++ t ++ rest).length hws ht hal
    hrest
  constructor
  · intro hkw hroom hsize
    unfold ejson_parse2
    simp only []
    rw [h]
    rcases hkw with rfl | rfl | rfl
    · rw [if_pos rfl]
      unfold make_val_for_null
      rw [make_val_of_room _ _ hroom hsize]
      rfl
    · rw [if_neg (by decide), if_pos rfl]
      unfold make_val_for_true
      rw [make_val_of_room _ _ hroom hsize]
      rfl
    · rw [if_neg (by decide), if_neg (by decide), if_pos rfl]
      unfold make_val_for_false
      rw [make_val_of_room _ _ hroom hsize]
      rfl
  · intro h1 h2 h3
    refine ⟨?_, fun hl => List.take_of_length_le hl⟩
    unfold ejson_parse2
    simp only []
    rw [h, if_neg h1, if_neg h2, if_neg h3]
    cases error with
    | none => rfl
    | some e => rfl

/-- C22 at the source ` true,` and at the source `True 1`, whose token is no keyword. -/
theorem parse_letters_witness :
    ejson_parse2 (bytes " " ++ bytes "true" ++ bytes ",") none ⟨1024, 0⟩
        EJSON_DEFAULT_CONFIGS =
      some { root := some (.boolean [] true), end_ := some 5, error := none,
             arena := ⟨1024, 56⟩ } ∧
    ejson_parse2 ([] ++ bytes "True" ++ bytes " 1") (some []) ⟨1024, 0⟩
        EJSON_DEFAULT_CONFIGS =
      some { root := none, end_ := none, error := some (bytes "Invalid token 'True'"),
             arena := ⟨1024, 0⟩ } :=
  ⟨(parse_letters (bytes " ") (bytes "true") (bytes ",") none ⟨1024, 0⟩
      EJSON_DEFAULT_CONFIGS (by decide) (by decide) (by decide) (by decide)).1
      (by decide) (by decide) (by decide),
   ((parse_letters [] (bytes "True") (bytes " 1") (some []) ⟨1024, 0⟩
      EJSON_DEFAULT_CONFIGS (by decide) (by decide) (by decide) (by decide)).2
      (by decide) (by decide) (by decide)).1⟩

/-! ## The parser does not depend on the position of the text -/

theorem getD_shift (w src : List Nat) (cur : Nat) :
    (w ++ src).getD (cur + w.length) 0 = src.getD cur 0 := by
  simp only [List.getD_eq_getElem?_getD]
  rw [List.getElem?_append_right (by omega)]
  simp

theorem drop_shift (w src : List Nat) (cur : Nat) :
    (w ++ src).drop (cur + w.length) = src.drop cur := by
  rw [Nat.add_comm, List.drop_append]

theorem shift_peek (w : List Nat) (ctx : context_t) : (ctx.shift w).peek = ctx.peek :=
  getD_shift w ctx.src ctx.cur

theorem shift_advance (w : List Nat) (ctx : context_t) :
    (ctx.shift w).advance = ctx.advance.shift w := by
  simp only [context_t.shift, context_t.advance, Nat.add_right_comm]

theorem shift_report (w : List Nat) (ctx : context_t) (text : List Nat) :
    (ctx.shift w).report text = (ctx.report text).shift w := rfl

theorem shift_set_cur (w : List Nat) (ctx : context_t) (cur : Nat) :
    ({ ctx.shift w with cur := cur + w.length } : context_t) =
      ({ ctx with cur := cur } : context_t).shift w := rfl

theorem shift_at_end (w : List Nat) (ctx : context_t) :
    ((ctx.shift w).cur = (ctx.shift w).len) = (ctx.cur = ctx.len) := by
  simp only [context_t.shift, Nat.add_right_cancel_iff]

theorem scan_while_shift (p : Nat → Bool) (w src : List Nat) (len : Nat) :
    ∀ n cur, scan_while p (w ++ src) (len + w.length) n (cur + w.length) =
      scan_while p src len n cur + w.length := by
  intro n
  induction n with
  | zero => intro cur; rfl
  | succ n ih =>
    intro cur
    rw [scan_while, scan_while, getD_shift]
    simp only [Nat.add_lt_add_iff_right]
    split
    · rw [Nat.add_right_comm, ih]
    · rfl

theorem shift_scan (p : Nat → Bool) (w : List Nat) (ctx : context_t) :
    scan_while p (ctx.shift w).src (ctx.shift w).len ((ctx.shift w).len - (ctx.shift w).cur)
        (ctx.shift w).cur =
      scan_while p ctx.src ctx.len (ctx.len - ctx.cur) ctx.cur + w.length := by
  simp only [context_t.shift, Nat.add_sub_add_right]
  exact scan_while_shift p w ctx.src ctx.len _ _

theorem shift_consume_spaces (w : List Nat) (ctx : context_t) :
    consume_spaces (ctx.shift w) = (consume_spaces ctx).shift w := by
  unfold consume_spaces
  rw [shift_scan]
  rfl

theorem shift_make_val (w : List Nat) (ctx : context_t) (init : ejson_value) :
    parse_res.of (make_val (ctx.shift w) init) = (parse_res.of (make_val ctx init)).shift w := by
  unfold make_val alloc_or_report
  simp only [show (ctx.shift w).arena = ctx.arena from rfl]
  cases alloc ctx.arena sizeof_ejson_value alignof_ejson_value with
  | mk p arena =>
    cases p with
    | none => rfl
    | some p => rfl

theorem shift_cur (w : List Nat) (ctx : context_t) :
    (ctx.shift w).cur = ctx.cur + w.length := rfl

theorem shift_len (w : List Nat) (ctx : context_t) :
    (ctx.shift w).len = ctx.len + w.length := rfl

theorem shift_src (w : List Nat) (ctx : context_t) : (ctx.shift w).src = w ++ ctx.src := rfl

theorem shift_error (w : List Nat) (ctx : context_t) : (ctx.shift w).error = ctx.error := rfl

theorem shift_arena (w : List Nat) (ctx : context_t) : (ctx.shift w).arena = ctx.arena := rfl

theorem shift_config (w : List Nat) (ctx : context_t) :
    (ctx.shift w).config = ctx.config := rfl

theorem shift_parse_str (w : List Nat) (ctx : context_t) :
    parse_str (ctx.shift w) = ((parse_str ctx).1, (parse_str ctx).2.shift w) := by
  unfold parse_str
  simp only [shift_peek, shift_advance, shift_scan]
  generalize scan_while (fun c => c != ctx.peek) ctx.advance.src ctx.advance.len
    (ctx.advance.len - ctx.advance.cur) ctx.advance.cur = k
  generalize ctx.advance = a
  simp only [shift_cur, shift_len, shift_src, shift_error, shift_arena, shift_config,
    Nat.add_right_cancel_iff, Nat.add_sub_add_right, drop_shift]
  split
  · rfl
  · simp only [context_t.shift, context_t.advance, Nat.add_right_comm]
theorem shift_parse_str_2 (w : List Nat) (ctx : context_t) :
    parse_res.of (parse_str_2 (ctx.shift w)) = (parse_res.of (parse_str_2 ctx)).shift w := by
  unfold parse_str_2
  rw [shift_parse_str]
  cases parse_str ctx with
  | mk r c =>
    cases r with
    | none => rfl
    | some s => exact shift_make_val w c _

theorem parse_int_loop_shift (w src : List Nat) (len : Nat) :
    ∀ n cur v, parse_int_loop (w ++ src) (len + w.length) n (cur + w.length) v =
      (parse_int_loop src len n cur v).map fun r => (r.1 + w.length, r.2) := by
  intro n
  induction n with
  | zero => intro cur v; rfl
  | succ n ih =>
    intro cur v
    rw [parse_int_loop, parse_int_loop]
    simp only [getD_shift]
    split
    · rfl
    · have e : cur + w.length + 1 = cur + 1 + w.length := Nat.add_right_comm _ _ _
      simp only [e, getD_shift, Nat.add_lt_add_iff_right]
      split
      · exact ih _ _
      · rfl

theorem shift_parse_int (w : List Nat) (ctx : context_t) :
    parse_res.of (parse_int (ctx.shift w)) = (parse_res.of (parse_int ctx)).shift w := by
  unfold parse_int
  simp only [shift_cur, shift_len, shift_src, Nat.add_sub_add_right, parse_int_loop_shift]
  cases parse_int_loop ctx.src ctx.len (ctx.len - ctx.cur) ctx.cur 0 with
  | none => rfl
  | some r =>
    obtain ⟨cur, value⟩ := r
    exact shift_make_val w { ctx with cur := cur } _

theorem parse_flt_int_loop_shift (w src : List Nat) (len : Nat) :
    ∀ n cur v, parse_flt_int_loop (w ++ src) (len + w.length) n (cur + w.length) v =
      ((parse_flt_int_loop src len n cur v).1 + w.length,
        (parse_flt_int_loop src len n cur v).2) := by
  intro n
  induction n with
  | zero => intro cur v; rfl
  | succ n ih =>
    intro cur v
    rw [parse_flt_int_loop, parse_flt_int_loop]
    have e : cur + w.length + 1 = cur + 1 + w.length := Nat.add_right_comm _ _ _
    simp only [e, getD_shift, Nat.add_lt_add_iff_right]
    split
    · exact ih _ _
    · rfl

theorem parse_flt_frac_loop_shift (w src : List Nat) (len : Nat) :
    ∀ n cur q v, parse_flt_frac_loop (w ++ src) (len + w.length) n (cur + w.length) q v =
      ((parse_flt_frac_loop src len n cur q v).1 + w.length,
        (parse_flt_frac_loop src len n cur q v).2) := by
  intro n
  induction n with
  | zero => intro cur q v; rfl
  | succ n ih =>
    intro cur q v
    rw [parse_flt_frac_loop, parse_flt_frac_loop]
    have e : cur + w.length + 1 = cur + 1 + w.length := Nat.add_right_comm _ _ _
    simp only [e, getD_shift, Nat.add_lt_add_iff_right]
    split
    · exact ih _ _ _
    · rfl

theorem shift_parse_flt (w : List Nat) (ctx : context_t) :
    parse_res.of (parse_flt (ctx.shift w)) = (parse_res.of (parse_flt ctx)).shift w := by
  unfold parse_flt make_val_for_flt
  simp only [shift_cur, shift_len, shift_src, Nat.add_sub_add_right, parse_flt_int_loop_shift]
  generalize parse_flt_int_loop ctx.src ctx.len (ctx.len - ctx.cur) ctx.cur (Double.ofInt 0)
    = r
  obtain ⟨cur, value⟩ := r
  simp only []
  have e : cur + w.length + 1 = cur + 1 + w.length := Nat.add_right_comm _ _ _
  have hfd : ∀ (er : Option (List Nat)) (ar : ejson_arena) (cf : ejson_config),
      follows_digit ⟨er, ar, w ++ ctx.src, cur + 1 + w.length, ctx.len + w.length, cf⟩ =
        follows_digit ⟨ctx.error, ctx.arena, ctx.src, cur + 1, ctx.len, ctx.config⟩ := by
    intro er ar cf
    unfold follows_digit context_t.peek
    simp only [getD_shift, Nat.add_lt_add_iff_right]
  simp only [e, hfd, Nat.add_sub_add_right, parse_flt_frac_loop_shift]
  generalize parse_flt_frac_loop ctx.src ctx.len (ctx.len - (cur + 1)) (cur + 1)
    (Double.ofInt 1) value = r2
  split
  · exact shift_make_val w { ctx with cur := r2.1 } _
  · exact shift_make_val w { ctx with cur := cur + 1 } _

theorem shift_parse_num (w : List Nat) (ctx : context_t) :
    parse_res.of (parse_num (ctx.shift w)) = (parse_res.of (parse_num ctx)).shift w := by
  unfold parse_num
  simp only [shift_scan]
  simp only [shift_len, shift_src, getD_shift, Nat.add_lt_add_iff_right]
  split
  · exact shift_parse_flt w ctx
  · exact shift_parse_int w ctx

theorem shift_parse_oth (w : List Nat) (ctx : context_t) :
    parse_res.of (parse_oth (ctx.shift w)) = (parse_res.of (parse_oth ctx)).shift w := by
  unfold parse_oth make_val_for_null make_val_for_true make_val_for_false
  simp only [shift_peek, shift_advance, shift_scan]
  generalize scan_while is_alpha ctx.advance.src ctx.advance.len
    (ctx.advance.len - ctx.advance.cur) ctx.advance.cur = k
  simp only [shift_cur, shift_len, shift_src, shift_error, shift_arena, shift_config,
    Nat.add_sub_add_right, drop_shift]
  split
  · split <;> rfl
  · split
    · exact shift_make_val w { ctx.advance with cur := k } _
    · split
      · exact shift_make_val w { ctx.advance with cur := k } _
      · split
        · exact shift_make_val w { ctx.advance with cur := k } _
        · rfl
theorem parse_arr_loop_shift (w : List Nat) (rec : context_t → parse_res)
    (hrec : ∀ ctx, rec (ctx.shift w) = (rec ctx).shift w) :
    ∀ n ctx head size, parse_arr_loop rec n (ctx.shift w) head size =
      (parse_arr_loop rec n ctx head size).shift w := by
  intro n
  induction n with
  | zero => intro ctx head size; rfl
  | succ n ih =>
    intro ctx head size
    rw [parse_arr_loop, parse_arr_loop, hrec]
    cases rec ctx with
    | starved => rfl
    | null c => rfl
    | val v c =>
      simp only [parse_res.shift, shift_consume_spaces, shift_peek, shift_at_end,
        shift_advance, shift_report, make_val_for_arr]
      split
      · rfl
      · split
        · exact shift_make_val w _ _
        · split
          · split <;> rfl
          · split
            · rfl
            · exact ih _ _ _

theorem parse_arr_shift (w : List Nat) (rec : context_t → parse_res)
    (hrec : ∀ ctx, rec (ctx.shift w) = (rec ctx).shift w) (n : Nat) (ctx : context_t) :
    parse_arr rec n (ctx.shift w) = (parse_arr rec n ctx).shift w := by
  unfold parse_arr
  simp only [shift_consume_spaces, shift_peek, shift_at_end, shift_advance, shift_report,
    make_val_for_empty_arr, make_val_for_arr]
  split
  · rfl
  · split
    · exact shift_make_val w _ _
    · exact parse_arr_loop_shift w rec hrec n _ _ _

theorem parse_obj_loop_shift (w : List Nat) (rec : context_t → parse_res)
    (hrec : ∀ ctx, rec (ctx.shift w) = (rec ctx).shift w) :
    ∀ n ctx head size, parse_obj_loop rec n (ctx.shift w) head size =
      (parse_obj_loop rec n ctx head size).shift w := by
  intro n
  induction n with
  | zero => intro ctx head size; rfl
  | succ n ih =>
    intro ctx head size
    rw [parse_obj_loop, parse_obj_loop]
    simp only [shift_peek, shift_report, shift_parse_str]
    split
    · split <;> rfl
    · cases parse_str ctx with
      | mk r c1 =>
        cases r with
        | none => rfl
        | some key =>
          simp only [shift_consume_spaces, shift_peek, shift_at_end, shift_advance,
            shift_report, hrec]
          split
          · rfl
          · split
            · split <;> rfl
            · cases rec (consume_spaces c1).advance with
              | starved => rfl
              | null c => rfl
              | val v c =>
                simp only [parse_res.shift, shift_consume_spaces, shift_peek, shift_at_end,
                  shift_advance, shift_report, make_val_for_obj]
                split
                · rfl
                · split
                  · exact shift_make_val w _ _
                  · split
                    · split <;> rfl
                    · split
                      · rfl
                      · exact ih _ _ _

theorem parse_obj_shift (w : List Nat) (rec : context_t → parse_res)
    (hrec : ∀ ctx, rec (ctx.shift w) = (rec ctx).shift w) (n : Nat) (ctx : context_t) :
    parse_obj rec n (ctx.shift w) = (parse_obj rec n ctx).shift w := by
  unfold parse_obj
  simp only [shift_consume_spaces, shift_peek, shift_at_end, shift_advance, shift_report,
    make_val_for_empty_obj, make_val_for_obj]
  split
  · rfl
  · split
    · exact shift_make_val w _ _
    · exact parse_obj_loop_shift w rec hrec n _ _ _

/-- Putting bytes in front of the source and moving the cursor by their number changes
nothing in what `parse_any` does. -/
theorem parse_any_shift (w : List Nat) : ∀ fuel ctx,
    parse_any fuel (ctx.shift w) = (parse_any fuel ctx).shift w := by
  intro fuel
  induction fuel with
  | zero => intro ctx; rfl
  | succ fuel ih =>
    intro ctx
    rw [parse_any, parse_any]
    simp only [shift_consume_spaces, shift_peek, shift_at_end, shift_report, shift_config]
    split
    · rfl
    · split
      · exact shift_parse_str_2 w _
      · split
        · exact parse_obj_shift w _ ih fuel _
        · split
          · exact parse_arr_shift w _ ih fuel _
          · split
            · exact shift_parse_num w _
            · exact shift_parse_oth w _
/-! ## A larger recursion budget does not change an outcome -/

theorem parse_arr_loop_mono (rec rec' : context_t → parse_res)
    (hrec : ∀ ctx, rec ctx = .starved ∨ rec' ctx = rec ctx) :
    ∀ n n' ctx head size, n ≤ n' →
      parse_arr_loop rec n ctx head size = .starved ∨
        parse_arr_loop rec' n' ctx head size = parse_arr_loop rec n ctx head size := by
  intro n
  induction n with
  | zero => intro n' ctx head size _; exact Or.inl rfl
  | succ n ih =>
    intro n' ctx head size hle
    obtain ⟨m, rfl⟩ : ∃ m, n' = m + 1 := ⟨n' - 1, by omega⟩
    rw [parse_arr_loop, parse_arr_loop]
    rcases hrec ctx with hr | hr
    · rw [hr]; exact Or.inl rfl
    · rw [hr]
      cases rec ctx with
      | starved => exact Or.inl rfl
      | null c => exact Or.inr rfl
      | val v c =>
        simp only []
        split
        · exact Or.inr rfl
        · split
          · exact Or.inr rfl
          · split
            · exact Or.inr rfl
            · split
              · exact Or.inr rfl
              · exact ih m _ _ _ (by omega)

theorem parse_obj_loop_mono (rec rec' : context_t → parse_res)
    (hrec : ∀ ctx, rec ctx = .starved ∨ rec' ctx = rec ctx) :
    ∀ n n' ctx head size, n ≤ n' →
      parse_obj_loop rec n ctx head size = .starved ∨
        parse_obj_loop rec' n' ctx head size = parse_obj_loop rec n ctx head size := by
  intro n
  induction n with
  | zero => intro n' ctx head size _; exact Or.inl rfl
  | succ n ih =>
    intro n' ctx head size hle
    obtain ⟨m, rfl⟩ : ∃ m, n' = m + 1 := ⟨n' - 1, by omega⟩
    rw [parse_obj_loop, parse_obj_loop]
    simp only []
    split
    · exact Or.inr rfl
    · cases parse_str ctx with
      | mk r c1 =>
        cases r with
        | none => exact Or.inr rfl
        | some key =>
          simp only []
          split
          · exact Or.inr rfl
          · split
            · exact Or.inr rfl
            · rcases hrec (consume_spaces c1).advance with hr | hr
              · rw [hr]; exact Or.inl rfl
              · rw [hr]
                cases rec (consume_spaces c1).advance with
                | starved => exact Or.inl rfl
                | null c => exact Or.inr rfl
                | val v c =>
                  simp only []
                  split
                  · exact Or.inr rfl
                  · split
                    · exact Or.inr rfl
                    · split
                      · exact Or.inr rfl
                      · split
                        · exact Or.inr rfl
                        · exact ih m _ _ _ (by omega)

/-- When `parse_any` does not run out of budget, a larger budget gives the same outcome. -/
theorem parse_any_mono : ∀ fuel fuel' ctx, fuel ≤ fuel' →
    parse_any fuel ctx = .starved ∨ parse_any fuel' ctx = parse_any fuel ctx := by
  intro fuel
  induction fuel with
  | zero => intro fuel' ctx _; exact Or.inl rfl
  | succ fuel ih =>
    intro fuel' ctx hle
    obtain ⟨m, rfl⟩ : ∃ m, fuel' = m + 1 := ⟨fuel' - 1, by omega⟩
    have hm : fuel ≤ m := by omega
    rw [parse_any, parse_any]
    simp only []
    split
    · exact Or.inr rfl
    · split
      · exact Or.inr rfl
      · split
        · unfold parse_obj
          simp only []
          split
          · exact Or.inr rfl
          · split
            · exact Or.inr rfl
            · exact parse_obj_loop_mono _ _ (fun c => ih m c hm) fuel m _ _ _ hm
        · split
          · unfold parse_arr
            simp only []
            split
            · exact Or.inr rfl
            · split
              · exact Or.inr rfl
              · exact parse_arr_loop_mono _ _ (fun c => ih m c hm) fuel m _ _ _ hm
          · split
            · exact Or.inr rfl
            · exact Or.inr rfl

theorem parse_any_fuel (fuel fuel' : Nat) (ctx : context_t) (hle : ctx.cur ≤ ctx.len)
    (h : ctx.len - ctx.cur < fuel) (h' : fuel ≤ fuel') :
    parse_any fuel' ctx = parse_any fuel ctx := by
  rcases parse_any_mono fuel fuel' ctx h' with hs | hs
  · have hg := parse_any_good fuel ctx hle h
    rw [hs] at hg
    exact hg.elim
  · exact hs
/-! ## C23: white space in front of the source -/

theorem parse_any_congr (fuel : Nat) (a b : context_t)
    (h : consume_spaces a = consume_spaces b) :
    parse_any (fuel + 1) a = parse_any (fuel + 1) b := by
  rw [parse_any, parse_any]
  simp only [h]

theorem takeWhile_append_all (p : Nat → Bool) (w s : List Nat)
    (hw : ∀ b ∈ w, p b = true) : (w ++ s).takeWhile p = w ++ s.takeWhile p := by
  induction w with
  | nil => rfl
  | cons a t ih =>
    rw [List.cons_append, List.takeWhile_cons, if_pos (hw a (List.mem_cons_self _ _)),
      ih (fun b hb => hw b (List.mem_cons_of_mem _ hb))]
    rfl

/-- The white space `w` in front of the source is passed over by the first
`consume_spaces`, which then stands where it stands for the source moved by `w`. -/
theorem consume_spaces_front (w s : List Nat) (error : Option (List Nat))
    (arena : ejson_arena) (config : ejson_config) (hw : ∀ b ∈ w, is_space b = true) :
    consume_spaces ⟨error, arena, w ++ s, 0, (w ++ s).length, config⟩ =
      consume_spaces ((⟨error, arena, s, 0, s.length, config⟩ : context_t).shift w) := by
  have hl : (w ++ s).length = s.length + w.length := by
    rw [List.length_append, Nat.add_comm]
  rw [consume_spaces_eq _ rfl, consume_spaces_eq _ (by
    show s.length + w.length = (w ++ s).length
    exact hl.symm)]
  simp only [context_t.shift, List.drop_zero, Nat.zero_add, List.drop_left,
    takeWhile_append_all is_space w s hw, List.length_append, hl]

theorem ejson_parse2_front (w s : List Nat) (error : Option (List Nat))
    (arena : ejson_arena) (config : ejson_config) (hw : ∀ b ∈ w, is_space b = true) :
    ejson_parse2 (w ++ s) error arena config =
      (ejson_parse2 s error arena config).map (parse_out.shift w.length) := by
  have hle : s.length + 1 ≤ (w ++ s).length + 1 := by
    rw [List.length_append]
    omega
  have h1 := parse_any_congr (w ++ s).length _ _
    (consume_spaces_front w s error arena config hw)
  have h2 := parse_any_shift w ((w ++ s).length + 1) ⟨error, arena, s, 0, s.length, config⟩
  have h3 := parse_any_fuel (s.length + 1) ((w ++ s).length + 1)
    ⟨error, arena, s, 0, s.length, config⟩ (Nat.zero_le _) (by simp only []; omega) hle
  unfold ejson_parse2
  simp only []
  rw [h1, h2, h3]
  cases parse_any (s.length + 1) ⟨error, arena, s, 0, s.length, config⟩ with
  | starved => rfl
  | null c => rfl
  | val v c => rfl

/-- A source whose first byte is neither white space nor the first byte of a value: the
byte is not passed over, and no value is returned whatever follows. -/
theorem ejson_parse2_stray (c : Nat) (s : List Nat) (error : Option (List Nat))
    (arena : ejson_arena) (config : ejson_config) (hsp : is_space c = false)
    (h34 : c ≠ 34) (h39 : c ≠ 39) (h123 : c ≠ 123) (h91 : c ≠ 91)
    (hd : is_digit c = false) (ha : is_alpha c = false) :
    (ejson_parse2 (c :: s) error arena config).bind (fun o => o.root) = none := by
  have hcs := parse_any_at (c :: s).length ⟨error, arena, c :: s, 0, (c :: s).length, config⟩
    c s rfl rfl hsp
  have hpeek : (⟨error, arena, c :: s, 0, (c :: s).length, config⟩ : context_t).peek = c :=
    rfl
  unfold ejson_parse2
  simp only []
  rw [hcs, if_neg (by
    rintro (h | ⟨h, _⟩)
    · exact h34 h
    · exact h39 h), if_neg h123, if_neg h91]
  simp only [hd, Bool.false_eq_true, if_false]
  rw [parse_oth_not_alpha _ (by rw [hpeek]; exact ha)]
  rfl

/-- C23: for every source `s`, every string `w` of space, tab, CR and LF bytes, every error
object, arena and configuration: `ejson_parse2` on `w` followed by `s` does what it does on
`s` (a value or none, the same tree, the same diagnostic, the same arena), with the consumed
count larger by the length of `w`.  A first byte other than these four is not passed over
by `consume_spaces`, and a source that starts with a form feed or a vertical tab gives no
value, whatever follows. -/
theorem leading_white_space (w s : List Nat) (error : Option (List Nat))
    (arena : ejson_arena) (config : ejson_config)
    (hw : ∀ b ∈ w, b = 32 ∨ b = 9 ∨ b = 13 ∨ b = 10) :
    ejson_parse2 (w ++ s) error arena config =
      (ejson_parse2 s error arena config).map (parse_out.shift w.length) ∧
    (∀ c, c ≠ 32 → c ≠ 9 → c ≠ 13 → c ≠ 10 →
      (consume_spaces ⟨error, arena, c :: s, 0, (c :: s).length, config⟩).cur = 0) ∧
    (∀ c, c = 12 ∨ c = 11 →
      (ejson_parse2 (c :: s) error arena config).bind (fun o => o.root) = none) := by
  refine ⟨ejson_parse2_front w s error arena config ?_, ?_, ?_⟩
  · intro b hb
    rcases hw b hb with rfl | rfl | rfl | rfl <;> rfl
  · intro c h1 h2 h3 h4
    have hsp : is_space c = false := by
      simp only [is_space, Bool.or_eq_false_iff, beq_eq_false_iff_ne, ne_eq]
      exact ⟨⟨⟨h1, h2⟩, h3⟩, h4⟩
    rw [consume_spaces_of_head ⟨error, arena, c :: s, 0, (c :: s).length, config⟩ rfl c s
      rfl hsp]
  · intro c hc
    rcases hc with rfl | rfl
    · exact ejson_parse2_stray 12 s error arena config rfl (by decide) (by decide)
        (by decide) (by decide) rfl rfl
    · exact ejson_parse2_stray 11 s error arena config rfl (by decide) (by decide)
        (by decide) (by decide) rfl rfl

/-- C23 at the source `[1, "a"]` behind a space, a tab, a CR and a LF. -/
theorem leading_white_space_witness :
    ejson_parse2 ([32, 9, 13, 10] ++ bytes "[1, \"a\"]") none ⟨1024, 0⟩
        EJSON_DEFAULT_CONFIGS =
      (ejson_parse2 (bytes "[1, \"a\"]") none ⟨1024, 0⟩ EJSON_DEFAULT_CONFIGS).map
        (parse_out.shift ([32, 9, 13, 10] : List Nat).length) :=
  (leading_white_space [32, 9, 13, 10] (bytes "[1, \"a\"]") none ⟨1024, 0⟩
    EJSON_DEFAULT_CONFIGS (by decide)).1

/-! ## The parser on the consumed prefix of the source -/

theorem getD_take (src : List Nat) (e i : Nat) (h : i < e) :
    (src.take e).getD i 0 = src.getD i 0 := by
  simp only [List.getD_eq_getElem?_getD]
  rw [List.getElem?_take, if_pos h]

theorem truncate_peek (e : Nat) (ctx : context_t) (h : ctx.cur < e) :
    (ctx.truncate e).peek = ctx.peek :=
  getD_take ctx.src e ctx.cur h

theorem truncate_advance (e : Nat) (ctx : context_t) :
    (ctx.truncate e).advance = ctx.advance.truncate e := rfl

theorem truncate_report (e : Nat) (ctx : context_t) (text : List Nat) :
    (ctx.truncate e).report text = (ctx.report text).truncate e := rfl

theorem scan_while_take (p : Nat → Bool) (src : List Nat) (len e : Nat) (he : e ≤ len) :
    ∀ n n' cur, len - cur ≤ n → e - cur ≤ n' → scan_while p src len n cur ≤ e →
      scan_while p (src.take e) e n' cur = scan_while p src len n cur := by
  intro n
  induction n with
  | zero =>
    intro n' cur hn hn' hle
    simp only [scan_while] at hle ⊢
    cases n' with
    | zero => rfl
    | succ m => rw [scan_while, if_neg (by omega)]
  | succ n ih =>
    intro n' cur hn hn' hle
    rw [scan_while] at hle ⊢
    split at hle
    · next hc =>
      have hge := scan_while_ge p src len n (cur + 1)
      have hlt : cur < e := by omega
      obtain ⟨m, rfl⟩ : ∃ m, n' = m + 1 := ⟨n' - 1, by omega⟩
      rw [if_pos hc, scan_while, if_pos ⟨hlt, by rw [getD_take _ _ _ hlt]; exact hc.2⟩]
      exact ih m (cur + 1) (by omega) (by omega) hle
    · next hc =>
      rw [if_neg hc]
      cases n' with
      | zero => rfl
      | succ m =>
        rw [scan_while, if_neg]
        rintro ⟨hlt, hp⟩
        rw [getD_take _ _ _ hlt] at hp
        exact hc ⟨by omega, hp⟩

theorem truncate_scan (p : Nat → Bool) (e : Nat) (ctx : context_t) (he : e ≤ ctx.len)
    (h : scan_while p ctx.src ctx.len (ctx.len - ctx.cur) ctx.cur ≤ e) :
    scan_while p (ctx.truncate e).src (ctx.truncate e).len
        ((ctx.truncate e).len - (ctx.truncate e).cur) (ctx.truncate e).cur =
      scan_while p ctx.src ctx.len (ctx.len - ctx.cur) ctx.cur :=
  scan_while_take p ctx.src ctx.len e he _ _ ctx.cur (Nat.le_refl _) (Nat.le_refl _) h

theorem truncate_consume_spaces (e : Nat) (ctx : context_t) (he : e ≤ ctx.len)
    (h : (consume_spaces ctx).cur ≤ e) :
    consume_spaces (ctx.truncate e) = (consume_spaces ctx).truncate e := by
  unfold consume_spaces at h ⊢
  rw [truncate_scan is_space e ctx he h]
  rfl

theorem truncate_make_val (e : Nat) (ctx : context_t) (init : ejson_value) :
    make_val (ctx.truncate e) init =
      ((make_val ctx init).1, (make_val ctx init).2.truncate e) := by
  unfold make_val alloc_or_report
  simp only [show (ctx.truncate e).arena = ctx.arena from rfl]
  cases alloc ctx.arena sizeof_ejson_value alignof_ejson_value with
  | mk p arena =>
    cases p with
    | none => rfl
    | some p => rfl

theorem truncate_of_make_val (e : Nat) (ctx : context_t) (init v : ejson_value)
    (c : context_t) (h : parse_res.of (make_val ctx init) = .val v c) :
    parse_res.of (make_val (ctx.truncate e) init) = .val v (c.truncate e) := by
  rw [truncate_make_val]
  revert h
  cases make_val ctx init with
  | mk r c' =>
    cases r with
    | none => intro h; cases h
    | some x =>
      intro h
      simp only [parse_res.of, parse_res.val.injEq] at h ⊢
      exact ⟨h.1, by rw [h.2]⟩

theorem make_val_cur (ctx : context_t) (init v : ejson_value) (c : context_t)
    (h : parse_res.of (make_val ctx init) = .val v c) : c.cur = ctx.cur := by
  obtain ⟨arena, error, he⟩ := make_val_snd ctx init
  revert h he
  cases make_val ctx init with
  | mk r c' =>
    cases r with
    | none => intro h; cases h
    | some x =>
      intro h he
      simp only [parse_res.of, parse_res.val.injEq] at h he
      rw [← h.2, he]

theorem take_drop_take (src : List Nat) (e off k : Nat) (h : off + k ≤ e) :
    ((src.take e).drop off).take k = (src.drop off).take k := by
  rw [List.drop_take, List.take_take, Nat.min_eq_left (by omega)]

theorem truncate_parse_str (e : Nat) (ctx : context_t) (he : e ≤ ctx.len)
    (s : List Nat) (c : context_t) (h : parse_str ctx = (some s, c)) (hc : c.cur ≤ e) :
    parse_str (ctx.truncate e) = (some s, c.truncate e) := by
  unfold parse_str at h ⊢
  simp only [] at h
  split at h
  · cases h
  · next hne =>
    simp only [Prod.mk.injEq, Option.some.injEq] at h
    obtain ⟨hs, rfl⟩ := h
    have hge := scan_while_ge (fun c => c != ctx.peek) ctx.advance.src ctx.advance.len
      (ctx.advance.len - ctx.advance.cur) ctx.advance.cur
    have hk : scan_while (fun c => c != ctx.peek) ctx.advance.src ctx.advance.len
        (ctx.advance.len - ctx.advance.cur) ctx.advance.cur < e := hc
    have hcur : ctx.cur < e := by
      have : ctx.advance.cur = ctx.cur + 1 := rfl
      omega
    simp only [truncate_peek e ctx hcur, truncate_advance,
      truncate_scan _ e ctx.advance he (Nat.le_of_lt hk)]
    rw [if_neg (by
      show scan_while (fun c => c != ctx.peek) ctx.advance.src ctx.advance.len
        (ctx.advance.len - ctx.advance.cur) ctx.advance.cur ≠ e
      omega)]
    simp only [Prod.mk.injEq, Option.some.injEq]
    refine ⟨?_, rfl⟩
    rw [← hs]
    exact take_drop_take ctx.src e _ _ (by
      show ctx.advance.cur + (_ - ctx.advance.cur) ≤ e
      omega)
theorem truncate_parse_str_2 (e : Nat) (ctx : context_t) (he : e ≤ ctx.len)
    (v : ejson_value) (c : context_t) (h : parse_res.of (parse_str_2 ctx) = .val v c)
    (hc : c.cur ≤ e) :
    parse_res.of (parse_str_2 (ctx.truncate e)) = .val v (c.truncate e) := by
  unfold parse_str_2 at h ⊢
  cases hp : parse_str ctx with
  | mk r c1 =>
    rw [hp] at h
    cases r with
    | none => cases h
    | some s =>
      simp only [make_val_for_str] at h ⊢
      have hcur := make_val_cur _ _ _ _ h
      rw [truncate_parse_str e ctx he s c1 hp (by omega)]
      exact truncate_of_make_val e _ _ _ _ h

theorem parse_int_loop_take (src : List Nat) (len e : Nat) (he : e ≤ len) :
    ∀ n n' cur v cur1 v1, cur < e → len - cur ≤ n → e - cur ≤ n' →
      parse_int_loop src len n cur v = some (cur1, v1) → cur1 ≤ e →
      parse_int_loop (src.take e) e n' cur v = some (cur1, v1) := by
  intro n
  induction n with
  | zero => intro n' cur v cur1 v1 hlt hn; omega
  | succ n ih =>
    intro n' cur v cur1 v1 hlt hn hn' h hle
    obtain ⟨m, rfl⟩ : ∃ m, n' = m + 1 := ⟨n' - 1, by omega⟩
    rw [parse_int_loop] at h ⊢
    simp only [getD_take _ _ _ hlt] at h ⊢
    split at h
    · cases h
    · next hov =>
      rw [if_neg hov]
      split at h
      · next hc =>
        have hb := parse_int_loop_bounds src len n (cur + 1) _ cur1 v1 hc.1 h (by omega)
        have hlt1 : cur + 1 < e := by omega
        rw [if_pos ⟨hlt1, by rw [getD_take _ _ _ hlt1]; exact hc.2⟩]
        exact ih m (cur + 1) _ cur1 v1 hlt1 (by omega) (by omega) h hle
      · next hc =>
        rw [if_neg]
        · exact h
        · rintro ⟨hlt1, hd⟩
          rw [getD_take _ _ _ hlt1] at hd
          exact hc ⟨by omega, hd⟩

theorem truncate_parse_int (e : Nat) (ctx : context_t) (he : e ≤ ctx.len)
    (hlt : ctx.cur < ctx.len)
    (v : ejson_value) (c : context_t) (h : parse_res.of (parse_int ctx) = .val v c)
    (hc : c.cur ≤ e) :
    parse_res.of (parse_int (ctx.truncate e)) = .val v (c.truncate e) := by
  unfold parse_int at h ⊢
  cases hp : parse_int_loop ctx.src ctx.len (ctx.len - ctx.cur) ctx.cur 0 with
  | none => rw [hp] at h; cases h
  | some r =>
    obtain ⟨cur1, v1⟩ := r
    rw [hp] at h
    simp only [make_val_for_int] at h ⊢
    have hcur : c.cur = cur1 := make_val_cur _ _ _ _ h
    have hb := parse_int_loop_bounds ctx.src ctx.len _ ctx.cur 0 cur1 v1 hlt hp (by omega)
    have hp' := parse_int_loop_take ctx.src ctx.len e he _ (e - ctx.cur) ctx.cur 0 cur1 v1
      (by omega) (Nat.le_refl _) (Nat.le_refl _) hp (by omega)
    simp only [show (ctx.truncate e).src = ctx.src.take e from rfl,
      show (ctx.truncate e).len = e from rfl, show (ctx.truncate e).cur = ctx.cur from rfl,
      hp']
    exact truncate_of_make_val e { ctx with cur := cur1 } _ _ _ h

theorem parse_flt_int_loop_take (src : List Nat) (len e : Nat) (he : e ≤ len) :
    ∀ n n' cur v, cur < e → len - cur ≤ n → e - cur ≤ n' →
      (parse_flt_int_loop src len n cur v).1 ≤ e →
      parse_flt_int_loop (src.take e) e n' cur v = parse_flt_int_loop src len n cur v := by
  intro n
  induction n with
  | zero => intro n' cur v hlt hn; omega
  | succ n ih =>
    intro n' cur v hlt hn hn' hle
    obtain ⟨m, rfl⟩ : ∃ m, n' = m + 1 := ⟨n' - 1, by omega⟩
    rw [parse_flt_int_loop] at hle ⊢
    rw [parse_flt_int_loop]
    simp only [getD_take _ _ _ hlt] at hle ⊢
    split at hle
    · next hc =>
      have hb := parse_flt_int_loop_bounds src len n (cur + 1)
        (Double.add (Double.mul v (Double.ofInt 10))
          (Double.ofInt ((src.getD cur 0 &&& 0x0F : Nat) : Int))) hc.1 (by omega)
      have hlt1 : cur + 1 < e := by omega
      rw [if_pos hc, if_pos ⟨hlt1, by rw [getD_take _ _ _ hlt1]; exact hc.2⟩]
      exact ih m (cur + 1) _ hlt1 (by omega) (by omega) hle
    · next hc =>
      rw [if_neg hc, if_neg]
      rintro ⟨hlt1, hd⟩
      rw [getD_take _ _ _ hlt1] at hd
      exact hc ⟨by omega, hd⟩

theorem parse_flt_frac_loop_take (src : List Nat) (len e : Nat) (he : e ≤ len) :
    ∀ n n' cur q v, cur < e → len - cur ≤ n → e - cur ≤ n' →
      (parse_flt_frac_loop src len n cur q v).1 ≤ e →
      parse_flt_frac_loop (src.take e) e n' cur q v =
        parse_flt_frac_loop src len n cur q v := by
  intro n
  induction n with
  | zero => intro n' cur q v hlt hn; omega
  | succ n ih =>
    intro n' cur q v hlt hn hn' hle
    obtain ⟨m, rfl⟩ : ∃ m, n' = m + 1 := ⟨n' - 1, by omega⟩
    rw [parse_flt_frac_loop] at hle ⊢
    rw [parse_flt_frac_loop]
    simp only [getD_take _ _ _ hlt] at hle ⊢
    split at hle
    · next hc =>
      have hb := parse_flt_frac_loop_bounds src len n (cur + 1) (Double.divNat q 10)
        (Double.add v (Double.mul (Double.divNat q 10)
          (Double.ofInt ((src.getD cur 0 &&& 0x0F : Nat) : Int)))) hc.1 (by omega)
      have hlt1 : cur + 1 < e := by omega
      rw [if_pos hc, if_pos ⟨hlt1, by rw [getD_take _ _ _ hlt1]; exact hc.2⟩]
      exact ih m (cur + 1) _ _ hlt1 (by omega) (by omega) hle
    · next hc =>
      rw [if_neg hc, if_neg]
      rintro ⟨hlt1, hd⟩
      rw [getD_take _ _ _ hlt1] at hd
      exact hc ⟨by omega, hd⟩
theorem follows_digit_take (e : Nat) (src : List Nat) (len k : Nat) (he : e ≤ len)
    (er er' : Option (List Nat)) (ar ar' : ejson_arena) (cf cf' : ejson_config)
    (h : follows_digit ⟨er', ar', src, k, len, cf'⟩ = true → k < e) :
    follows_digit ⟨er, ar, src.take e, k, e, cf⟩ =
      follows_digit ⟨er', ar', src, k, len, cf'⟩ := by
  unfold follows_digit context_t.peek at h ⊢
  simp only [] at h ⊢
  by_cases hk : k < e
  · rw [getD_take _ _ _ hk]
    have : k < len := by omega
    simp [hk, this]
  · cases hf : (decide (k < len) && is_digit (src.getD k 0)) with
    | true => exact absurd (h hf) hk
    | false => simp [hk]

theorem truncate_parse_flt (e : Nat) (ctx : context_t) (he : e ≤ ctx.len)
    (hlt : ctx.cur < ctx.len)
    (v : ejson_value) (c : context_t) (h : parse_res.of (parse_flt ctx) = .val v c)
    (hc : c.cur ≤ e) :
    parse_res.of (parse_flt (ctx.truncate e)) = .val v (c.truncate e) := by
  unfold parse_flt at h ⊢
  have hb := parse_flt_int_loop_bounds ctx.src ctx.len (ctx.len - ctx.cur) ctx.cur
    (Double.ofInt 0) hlt (by omega)
  have htake := parse_flt_int_loop_take ctx.src ctx.len e he (ctx.len - ctx.cur)
    (e - ctx.cur) ctx.cur (Double.ofInt 0)
  simp only [show (ctx.truncate e).src = ctx.src.take e from rfl,
    show (ctx.truncate e).len = e from rfl, show (ctx.truncate e).cur = ctx.cur from rfl]
  revert h hb htake
  cases parse_flt_int_loop ctx.src ctx.len (ctx.len - ctx.cur) ctx.cur (Double.ofInt 0) with
  | mk k value =>
    intro h hb htake
    simp only [make_val_for_flt] at h hb htake ⊢
    by_cases hf : follows_digit { ctx with cur := k + 1 } = true
    · rw [if_pos hf] at h
      have hk1 : k + 1 < ctx.len := by
        simp only [follows_digit, Bool.and_eq_true, decide_eq_true_eq] at hf
        exact hf.1
      have hb2 := parse_flt_frac_loop_bounds ctx.src ctx.len (ctx.len - (k + 1)) (k + 1)
        (Double.ofInt 1) value hk1 (by omega)
      have htake2 := parse_flt_frac_loop_take ctx.src ctx.len e he (ctx.len - (k + 1))
        (e - (k + 1)) (k + 1) (Double.ofInt 1) value
      revert h hb2 htake2
      cases parse_flt_frac_loop ctx.src ctx.len (ctx.len - (k + 1)) (k + 1)
          (Double.ofInt 1) value with
      | mk k2 value2 =>
        intro h hb2 htake2
        simp only [] at h hb2 htake2
        have hcur : c.cur = k2 := make_val_cur _ _ _ _ h
        rw [htake (by omega) (Nat.le_refl _) (Nat.le_refl _) (by omega)]
        simp only []
        rw [follows_digit_take e ctx.src ctx.len (k + 1) he _ ctx.error _ ctx.arena _ ctx.config
          (fun _ => by omega), if_pos hf]
        rw [htake2 (by omega) (Nat.le_refl _) (Nat.le_refl _) (by omega)]
        exact truncate_of_make_val e { ctx with cur := k2 } _ _ _ h
    · rw [if_neg hf] at h
      have hcur : c.cur = k + 1 := make_val_cur _ _ _ _ h
      rw [htake (by omega) (Nat.le_refl _) (Nat.le_refl _) (by omega)]
      simp only []
      rw [follows_digit_take e ctx.src ctx.len (k + 1) he _ ctx.error _ ctx.arena _ ctx.config
        (fun hf' => absurd hf' hf), if_neg hf]
      exact truncate_of_make_val e { ctx with cur := k + 1 } _ _ _ h

theorem truncate_parse_num (e : Nat) (ctx : context_t) (he : e ≤ ctx.len)
    (hlt : ctx.cur < ctx.len) (hd : is_digit ctx.peek = true)
    (v : ejson_value) (c : context_t) (h : parse_res.of (parse_num ctx) = .val v c)
    (hc : c.cur ≤ e) :
    parse_res.of (parse_num (ctx.truncate e)) = .val v (c.truncate e) := by
  obtain ⟨n, hn⟩ : ∃ n, ctx.len - ctx.cur = n + 1 := ⟨ctx.len - ctx.cur - 1, by omega⟩
  have hks : scan_while is_digit ctx.src ctx.len (ctx.len - ctx.cur) ctx.cur =
      scan_while is_digit ctx.src ctx.len n (ctx.cur + 1) := by
    rw [hn, scan_while_succ _ _ _ _ _ hlt hd]
  unfold parse_num at h ⊢
  simp only [] at h ⊢
  by_cases hdot : scan_while is_digit ctx.src ctx.len (ctx.len - ctx.cur) ctx.cur < ctx.len ∧
      ctx.src.getD (scan_while is_digit ctx.src ctx.len (ctx.len - ctx.cur) ctx.cur) 0 = 46
  · rw [if_pos hdot] at h
    have hk : scan_while is_digit ctx.src ctx.len (ctx.len - ctx.cur) ctx.cur < e := by
      have hcur := parse_flt_int_loop_cur ctx.src ctx.len n ctx.cur (Double.ofInt 0)
      have h' := h
      unfold parse_flt at h'
      rw [hn] at h'
      rw [hks, ← hcur]
      revert h'
      cases parse_flt_int_loop ctx.src ctx.len (n + 1) ctx.cur (Double.ofInt 0) with
      | mk k value =>
        intro h'
        simp only [make_val_for_flt] at h' ⊢
        split at h'
        · next hf =>
          have hk1 : k + 1 < ctx.len := by
            simp only [follows_digit, Bool.and_eq_true, decide_eq_true_eq] at hf
            exact hf.1
          have hb2 := parse_flt_frac_loop_bounds ctx.src ctx.len (ctx.len - (k + 1)) (k + 1)
            (Double.ofInt 1) value hk1 (by omega)
          revert h' hb2
          cases parse_flt_frac_loop ctx.src ctx.len (ctx.len - (k + 1)) (k + 1)
              (Double.ofInt 1) value with
          | mk k2 value2 =>
            intro h' hb2
            simp only [] at h' hb2
            have := make_val_cur _ _ _ _ h'
            simp only [] at this
            omega
        · have := make_val_cur _ _ _ _ h'
          simp only [] at this
          omega
    rw [truncate_scan is_digit e ctx he (Nat.le_of_lt hk)]
    simp only [show (ctx.truncate e).src = ctx.src.take e from rfl,
      show (ctx.truncate e).len = e from rfl]
    rw [getD_take _ _ _ hk, if_pos ⟨hk, hdot.2⟩]
    exact truncate_parse_flt e ctx he hlt v c h hc
  · rw [if_neg hdot] at h
    have hk : scan_while is_digit ctx.src ctx.len (ctx.len - ctx.cur) ctx.cur ≤ e := by
      have h' := h
      unfold parse_int at h'
      rw [hn] at h'
      rw [hks]
      cases hp : parse_int_loop ctx.src ctx.len (n + 1) ctx.cur 0 with
      | none => rw [hp] at h'; cases h'
      | some r =>
        obtain ⟨cur1, v1⟩ := r
        rw [hp] at h'
        simp only [make_val_for_int] at h'
        have := make_val_cur _ _ _ _ h'
        simp only [] at this
        rw [← parse_int_loop_cur ctx.src ctx.len n ctx.cur 0 cur1 v1 hp]
        omega
    rw [truncate_scan is_digit e ctx he hk]
    simp only [show (ctx.truncate e).src = ctx.src.take e from rfl,
      show (ctx.truncate e).len = e from rfl]
    rw [if_neg]
    · exact truncate_parse_int e ctx he hlt v c h hc
    · rintro ⟨hlt1, h46⟩
      rw [getD_take _ _ _ hlt1] at h46
      exact hdot ⟨by omega, h46⟩
theorem strncmp_take : ∀ (n : Nat) (a b : List Nat) (m : Nat), n ≤ m →
    strncmp a (b.take m) n = strncmp a b n := by
  intro n
  induction n with
  | zero => intro a b m _; simp [strncmp]
  | succ n ih =>
    intro a b m hm
    obtain ⟨m', rfl⟩ : ∃ m', m = m' + 1 := ⟨m - 1, by omega⟩
    cases b with
    | nil => simp
    | cons y b' =>
      rw [List.take_succ_cons, strncmp, strncmp]
      simp only [List.headD_cons, List.tail_cons]
      rw [ih a.tail b' m' (by omega)]

theorem keyword_test_take (kw src : List Nat) (e off k n : Nat) (hk : k ≤ e) :
    (k - off = n ∧ strncmp kw ((src.take e).drop off) n = 0) ↔
      (k - off = n ∧ strncmp kw (src.drop off) n = 0) := by
  constructor
  · rintro ⟨h1, h2⟩
    rw [List.drop_take, strncmp_take _ _ _ _ (by omega)] at h2
    exact ⟨h1, h2⟩
  · rintro ⟨h1, h2⟩
    rw [List.drop_take, strncmp_take _ _ _ _ (by omega)]
    exact ⟨h1, h2⟩

theorem truncate_parse_oth (e : Nat) (ctx : context_t) (he : e ≤ ctx.len)
    (v : ejson_value) (c : context_t) (h : parse_res.of (parse_oth ctx) = .val v c)
    (hc : c.cur ≤ e) :
    parse_res.of (parse_oth (ctx.truncate e)) = .val v (c.truncate e) := by
  have hge := scan_while_ge is_alpha ctx.advance.src ctx.advance.len
    (ctx.advance.len - ctx.advance.cur) ctx.advance.cur
  have hadv : ctx.advance.cur = ctx.cur + 1 := rfl
  unfold parse_oth at h ⊢
  simp only [make_val_for_null, make_val_for_true, make_val_for_false] at h ⊢
  by_cases ha : is_alpha ctx.peek = false
  · rw [if_pos ha] at h
    split at h <;> cases h
  · rw [if_neg ha] at h
    have hk : scan_while is_alpha ctx.advance.src ctx.advance.len
        (ctx.advance.len - ctx.advance.cur) ctx.advance.cur ≤ e := by
      split at h
      · have := make_val_cur _ _ _ _ h
        simp only [] at this
        omega
      · split at h
        · have := make_val_cur _ _ _ _ h
          simp only [] at this
          omega
        · split at h
          · have := make_val_cur _ _ _ _ h
            simp only [] at this
            omega
          · cases h
    have hcur : ctx.cur < e := by omega
    rw [truncate_peek e ctx hcur, if_neg ha]
    simp only [truncate_advance, truncate_scan is_alpha e ctx.advance he hk]
    revert h hk
    generalize scan_while is_alpha ctx.advance.src ctx.advance.len
      (ctx.advance.len - ctx.advance.cur) ctx.advance.cur = k
    intro h hk
    simp only [show (ctx.advance.truncate e).src = ctx.src.take e from rfl,
      show (ctx.truncate e).cur = ctx.cur from rfl,
      show ctx.advance.src = ctx.src from rfl,
      keyword_test_take _ ctx.src e ctx.cur k _ hk] at h ⊢
    split at h
    · next h1 =>
      rw [if_pos h1]
      exact truncate_of_make_val e { ctx.advance with cur := k } _ _ _ h
    · next h1 =>
      rw [if_neg h1]
      split at h
      · next h2 =>
        rw [if_pos h2]
        exact truncate_of_make_val e { ctx.advance with cur := k } _ _ _ h
      · next h2 =>
        rw [if_neg h2]
        split at h
        · next h3 =>
          rw [if_pos h3]
          exact truncate_of_make_val e { ctx.advance with cur := k } _ _ _ h
        · cases h
theorem truncate_not_end (e : Nat) (ctx : context_t) (h : ctx.cur < e) :
    ¬ (ctx.truncate e).cur = (ctx.truncate e).len := by
  show ¬ ctx.cur = e
  omega

theorem good_val {a : context_t} {r : parse_res} {v : ejson_value} {c : context_t}
    (hr : r.good a) (h : r = .val v c) : Step a c ∧ a.cur < c.cur := by
  subst h
  exact hr

theorem parse_arr_loop_truncate (e : Nat) (rec : context_t → parse_res)
    (hrec : ∀ ctx v c, ctx.cur ≤ ctx.len → e ≤ ctx.len → rec ctx = .val v c →
      Step ctx c ∧ ctx.cur < c.cur ∧
        (c.cur ≤ e → rec (ctx.truncate e) = .val v (c.truncate e))) :
    ∀ n ctx head size v c, ctx.cur ≤ ctx.len → e ≤ ctx.len →
      parse_arr_loop rec n ctx head size = .val v c →
      Step ctx c ∧ ctx.cur < c.cur ∧
        (c.cur ≤ e →
          parse_arr_loop rec n (ctx.truncate e) head size = .val v (c.truncate e)) := by
  intro n
  induction n with
  | zero => intro ctx head size v c _ _ h; cases h
  | succ n ih =>
    intro ctx head size v c hle he h
    rw [parse_arr_loop] at h
    rw [parse_arr_loop]
    cases hr : rec ctx with
    | starved => rw [hr] at h; cases h
    | null c1 => rw [hr] at h; cases h
    | val v1 c1 =>
      rw [hr] at h
      obtain ⟨hs1, hlt1, ht1⟩ := hrec ctx v1 c1 hle he hr
      have hs2 : Step ctx (consume_spaces c1) := hs1.consume_spaces
      have hge2 : c1.cur ≤ (consume_spaces c1).cur :=
        (Step.refl c1 hs1.cur_le).consume_spaces.cur_ge
      have he1 : e ≤ c1.len := by rw [hs1.len]; exact he
      simp only [] at h ⊢
      have htc := truncate_consume_spaces e c1 he1
      obtain ⟨c2, hc2⟩ : ∃ c2, consume_spaces c1 = c2 := ⟨_, rfl⟩
      rw [hc2] at h hs2 hge2 htc
      have he2 : e ≤ c2.len := by rw [hs2.len]; exact he
      split at h
      · cases h
      · next hne2 =>
        have hs2a : Step ctx c2.advance := hs2.advance hne2
        have hadv : c2.advance.cur = c2.cur + 1 := rfl
        split at h
        · next h93 =>
          have hcur := make_val_cur _ _ _ _ h
          have hg := good_val (good_of_make_val hs2a (by omega) _) h
          refine ⟨hg.1, hg.2, ?_⟩
          intro hce
          rw [ht1 (by omega)]
          simp only []
          rw [htc (by omega), if_neg (truncate_not_end e c2 (by omega)),
            truncate_peek e c2 (by omega), if_pos h93]
          exact truncate_of_make_val e _ _ _ _ h
        · next h93 =>
          split at h
          · split at h <;> cases h
          · next h44 =>
            have hs3 : Step ctx (consume_spaces c2.advance) := hs2a.consume_spaces
            have hge3 : c2.advance.cur ≤ (consume_spaces c2.advance).cur :=
              (Step.refl c2.advance hs2a.cur_le).consume_spaces.cur_ge
            have htc3 := truncate_consume_spaces e c2.advance he2
            obtain ⟨c3, hc3⟩ : ∃ c3, consume_spaces c2.advance = c3 := ⟨_, rfl⟩
            rw [hc3] at h hs3 hge3 htc3
            split at h
            · cases h
            · next hne3 =>
              obtain ⟨hs4, hlt4, ht4⟩ := ih c3 _ _ v c hs3.cur_le
                (by rw [hs3.len]; exact he) h
              refine ⟨hs3.trans hs4, by have := hs3.cur_ge; omega, ?_⟩
              intro hce
              rw [ht1 (by omega)]
              simp only []
              rw [htc (by omega), if_neg (truncate_not_end e c2 (by omega)),
                truncate_peek e c2 (by omega), if_neg h93, if_neg h44, truncate_advance,
                htc3 (by omega), if_neg (truncate_not_end e c3 (by omega))]
              exact ht4 hce
theorem parse_arr_truncate (e : Nat) (rec : context_t → parse_res)
    (hrec : ∀ ctx v c, ctx.cur ≤ ctx.len → e ≤ ctx.len → rec ctx = .val v c →
      Step ctx c ∧ ctx.cur < c.cur ∧
        (c.cur ≤ e → rec (ctx.truncate e) = .val v (c.truncate e)))
    (n : Nat) (ctx : context_t) (v : ejson_value) (c : context_t)
    (hlt : ctx.cur < ctx.len) (he : e ≤ ctx.len) (h : parse_arr rec n ctx = .val v c) :
    Step ctx c ∧ ctx.cur < c.cur ∧
      (c.cur ≤ e → parse_arr rec n (ctx.truncate e) = .val v (c.truncate e)) := by
  have h0 : Step ctx ctx := Step.refl ctx (Nat.le_of_lt hlt)
  have h1 : Step ctx ctx.advance := h0.advance (Nat.ne_of_lt hlt)
  have hs2 : Step ctx (consume_spaces ctx.advance) := h1.consume_spaces
  have hge2 : ctx.advance.cur ≤ (consume_spaces ctx.advance).cur :=
    (Step.refl ctx.advance h1.cur_le).consume_spaces.cur_ge
  have hadv : ctx.advance.cur = ctx.cur + 1 := rfl
  have htc := truncate_consume_spaces e ctx.advance (by rw [h1.len]; exact he)
  unfold parse_arr at h ⊢
  simp only [make_val_for_empty_arr] at h ⊢
  obtain ⟨c2, hc2⟩ : ∃ c2, consume_spaces ctx.advance = c2 := ⟨_, rfl⟩
  rw [hc2] at h hs2 hge2 htc
  have hadv2 : c2.advance.cur = c2.cur + 1 := rfl
  split at h
  · cases h
  · next hne2 =>
    split at h
    · next h93 =>
      have hcur := make_val_cur _ _ _ _ h
      have hg := good_val (good_of_make_val (hs2.advance hne2) (by omega) _) h
      refine ⟨hg.1, hg.2, ?_⟩
      intro hce
      rw [truncate_advance, htc (by omega), if_neg (truncate_not_end e c2 (by omega)),
        truncate_peek e c2 (by omega), if_pos h93]
      exact truncate_of_make_val e _ _ _ _ h
    · next h93 =>
      obtain ⟨hs4, hlt4, ht4⟩ := parse_arr_loop_truncate e rec hrec n c2 _ _ v c
        hs2.cur_le (by rw [hs2.len]; exact he) h
      refine ⟨hs2.trans hs4, by omega, ?_⟩
      intro hce
      rw [truncate_advance, htc (by omega), if_neg (truncate_not_end e c2 (by omega)),
        truncate_peek e c2 (by omega), if_neg h93]
      exact ht4 hce

theorem parse_obj_loop_truncate (e : Nat) (rec : context_t → parse_res)
    (hrec : ∀ ctx v c, ctx.cur ≤ ctx.len → e ≤ ctx.len → rec ctx = .val v c →
      Step ctx c ∧ ctx.cur < c.cur ∧
        (c.cur ≤ e → rec (ctx.truncate e) = .val v (c.truncate e))) :
    ∀ n ctx head size v c, ctx.cur < ctx.len → e ≤ ctx.len →
      parse_obj_loop rec n ctx head size = .val v c →
      Step ctx c ∧ ctx.cur < c.cur ∧
        (c.cur ≤ e →
          parse_obj_loop rec n (ctx.truncate e) head size = .val v (c.truncate e)) := by
  intro n
  induction n with
  | zero => intro ctx head size v c _ _ h; cases h
  | succ n ih =>
    intro ctx head size v c hlt he h
    rw [parse_obj_loop] at h
    simp only [] at h
    split at h
    · split at h <;> cases h
    · next h34 =>
      have hstep := parse_str_step ctx hlt
      have htps := truncate_parse_str e ctx he
      cases hp : parse_str ctx with
      | mk r c1 =>
        rw [hp] at h hstep
        cases r with
        | none => cases h
        | some key =>
          simp only [] at h hstep
          have hs1 : Step ctx c1 := hstep.1
          have hlt1 : ctx.cur < c1.cur := hstep.2 rfl
          have hs2 : Step ctx (consume_spaces c1) := hs1.consume_spaces
          have hge2 : c1.cur ≤ (consume_spaces c1).cur :=
            (Step.refl c1 hs1.cur_le).consume_spaces.cur_ge
          have htc2 := truncate_consume_spaces e c1 (by rw [hs1.len]; exact he)
          obtain ⟨c2, hc2⟩ : ∃ c2, consume_spaces c1 = c2 := ⟨_, rfl⟩
          rw [hc2] at h hs2 hge2 htc2
          split at h
          · cases h
          · next hne2 =>
            split at h
            · split at h <;> cases h
            · next h58 =>
              have hs2a : Step ctx c2.advance := hs2.advance hne2
              have hadv2 : c2.advance.cur = c2.cur + 1 := rfl
              cases hr : rec c2.advance with
              | starved => rw [hr] at h; cases h
              | null c3 => rw [hr] at h; cases h
              | val v3 c3 =>
                rw [hr] at h
                simp only [] at h
                obtain ⟨hs3, hlt3, ht3⟩ := hrec c2.advance v3 c3 hs2a.cur_le
                  (by rw [hs2a.len]; exact he) hr
                have hs4 : Step ctx (consume_spaces c3) := (hs2a.trans hs3).consume_spaces
                have hge4 : c3.cur ≤ (consume_spaces c3).cur :=
                  (Step.refl c3 hs3.cur_le).consume_spaces.cur_ge
                have htc4 := truncate_consume_spaces e c3
                  (by rw [(hs2a.trans hs3).len]; exact he)
                obtain ⟨c4, hc4⟩ : ∃ c4, consume_spaces c3 = c4 := ⟨_, rfl⟩
                rw [hc4] at h hs4 hge4 htc4
                have hb : ∀ hce : c4.cur < e,
                    parse_obj_loop rec (n + 1) (ctx.truncate e) head size =
                      (if c4.peek = 125 then
                        parse_res.of (make_val_for_obj (c4.truncate e).advance
                          (head ++ [v3.set_key key]) (size + 1))
                      else if c4.peek ≠ 44 then
                        if is_printable c4.peek = true then
                          .null ((c4.truncate e).report
                            (bytes "Missing ',' or '\x7d' after value (character '"
                              ++ [c4.peek] ++ bytes "' instead)"))
                        else
                          .null ((c4.truncate e).report
                            (bytes "Invalid byte " ++ fmt_x c4.peek ++
                              bytes " in object (after value)"))
                      else
                        if (consume_spaces (c4.truncate e).advance).cur =
                            (consume_spaces (c4.truncate e).advance).len then
                          .null ((consume_spaces (c4.truncate e).advance).report
                            (bytes "Source end in object (after ',')"))
                        else parse_obj_loop rec n (consume_spaces (c4.truncate e).advance)
                          (head ++ [v3.set_key key]) (size + 1)) := by
                  intro hce
                  rw [parse_obj_loop]
                  simp only []
                  rw [truncate_peek e ctx (by omega), if_neg h34,
                    htps key c1 hp (by omega)]
                  simp only []
                  rw [htc2 (by omega), if_neg (truncate_not_end e c2 (by omega)),
                    truncate_peek e c2 (by omega), if_neg h58, truncate_advance,
                    ht3 (by omega)]
                  simp only []
                  rw [htc4 (by omega), if_neg (truncate_not_end e c4 hce),
                    truncate_peek e c4 hce]
                split at h
                · cases h
                · next hne4 =>
                  have hs4a : Step ctx c4.advance := hs4.advance hne4
                  have hadv4 : c4.advance.cur = c4.cur + 1 := rfl
                  split at h
                  · next h125 =>
                    have hcur := make_val_cur _ _ _ _ h
                    have hg := good_val (good_of_make_val hs4a (by omega) _) h
                    refine ⟨hg.1, hg.2, ?_⟩
                    intro hce
                    rw [hb (by omega), if_pos h125]
                    exact truncate_of_make_val e _ _ _ _ h
                  · next h125 =>
                    split at h
                    · split at h <;> cases h
                    · next h44 =>
                      have hs5 : Step ctx (consume_spaces c4.advance) := hs4a.consume_spaces
                      have hge5 : c4.advance.cur ≤ (consume_spaces c4.advance).cur :=
                        (Step.refl c4.advance hs4a.cur_le).consume_spaces.cur_ge
                      have htc5 := truncate_consume_spaces e c4.advance
                        (by rw [hs4a.len]; exact he)
                      obtain ⟨c5, hc5⟩ : ∃ c5, consume_spaces c4.advance = c5 := ⟨_, rfl⟩
                      rw [hc5] at h hs5 hge5 htc5
                      split at h
                      · cases h
                      · next hne5 =>
                        obtain ⟨hs6, hlt6, ht6⟩ := ih c5 _ _ v c
                          (Nat.lt_of_le_of_ne hs5.cur_le hne5) (by rw [hs5.len]; exact he) h
                        refine ⟨hs5.trans hs6, by have := hs5.cur_ge; omega, ?_⟩
                        intro hce
                        rw [hb (by omega), if_neg h125, if_neg h44,
                          truncate_advance, htc5 (by omega),
                          if_neg (truncate_not_end e c5 (by omega))]
                        exact ht6 hce
theorem parse_obj_truncate (e : Nat) (rec : context_t → parse_res)
    (hrec : ∀ ctx v c, ctx.cur ≤ ctx.len → e ≤ ctx.len → rec ctx = .val v c →
      Step ctx c ∧ ctx.cur < c.cur ∧
        (c.cur ≤ e → rec (ctx.truncate e) = .val v (c.truncate e)))
    (n : Nat) (ctx : context_t) (v : ejson_value) (c : context_t)
    (hlt : ctx.cur < ctx.len) (he : e ≤ ctx.len) (h : parse_obj rec n ctx = .val v c) :
    Step ctx c ∧ ctx.cur < c.cur ∧
      (c.cur ≤ e → parse_obj rec n (ctx.truncate e) = .val v (c.truncate e)) := by
  have h0 : Step ctx ctx := Step.refl ctx (Nat.le_of_lt hlt)
  have h1 : Step ctx ctx.advance := h0.advance (Nat.ne_of_lt hlt)
  have hs2 : Step ctx (consume_spaces ctx.advance) := h1.consume_spaces
  have hge2 : ctx.advance.cur ≤ (consume_spaces ctx.advance).cur :=
    (Step.refl ctx.advance h1.cur_le).consume_spaces.cur_ge
  have hadv : ctx.advance.cur = ctx.cur + 1 := rfl
  have htc := truncate_consume_spaces e ctx.advance (by rw [h1.len]; exact he)
  unfold parse_obj at h ⊢
  simp only [make_val_for_empty_obj] at h ⊢
  obtain ⟨c2, hc2⟩ : ∃ c2, consume_spaces ctx.advance = c2 := ⟨_, rfl⟩
  rw [hc2] at h hs2 hge2 htc
  have hadv2 : c2.advance.cur = c2.cur + 1 := rfl
  split at h
  · cases h
  · next hne2 =>
    split at h
    · next h125 =>
      have hcur := make_val_cur _ _ _ _ h
      have hg := good_val (good_of_make_val (hs2.advance hne2) (by omega) _) h
      refine ⟨hg.1, hg.2, ?_⟩
      intro hce
      rw [truncate_advance, htc (by omega), if_neg (truncate_not_end e c2 (by omega)),
        truncate_peek e c2 (by omega), if_pos h125]
      exact truncate_of_make_val e _ _ _ _ h
    · next h125 =>
      obtain ⟨hs4, hlt4, ht4⟩ := parse_obj_loop_truncate e rec hrec n c2 _ _ v c
        (Nat.lt_of_le_of_ne hs2.cur_le hne2) (by rw [hs2.len]; exact he) h
      refine ⟨hs2.trans hs4, by omega, ?_⟩
      intro hce
      rw [truncate_advance, htc (by omega), if_neg (truncate_not_end e c2 (by omega)),
        truncate_peek e c2 (by omega), if_neg h125]
      exact ht4 hce

theorem truncate_config (e : Nat) (ctx : context_t) :
    (ctx.truncate e).config = ctx.config := rfl

/-- A successful call of `parse_any` consumes at least one byte, and on the source cut at,
or after, the place where it stopped it returns the same node and stops at the same
place. -/
theorem parse_any_truncate (e : Nat) : ∀ fuel ctx v c, ctx.cur ≤ ctx.len → e ≤ ctx.len →
    parse_any fuel ctx = .val v c →
    Step ctx c ∧ ctx.cur < c.cur ∧
      (c.cur ≤ e → parse_any fuel (ctx.truncate e) = .val v (c.truncate e)) := by
  intro fuel
  induction fuel with
  | zero => intro ctx v c _ _ h; cases h
  | succ fuel ih =>
    intro ctx v c hle he h
    have h0 : Step ctx ctx := Step.refl ctx hle
    have hs1 : Step ctx (consume_spaces ctx) := h0.consume_spaces
    have htc := truncate_consume_spaces e ctx he
    rw [parse_any] at h
    simp only [] at h
    have hb : ∀ hce : (consume_spaces ctx).cur < e,
        parse_any (fuel + 1) (ctx.truncate e) =
          (if (consume_spaces ctx).peek = 34 ∨ ((consume_spaces ctx).peek = 39 ∧
              (consume_spaces ctx).config.allow_single_quoted_strings = true) then
            parse_res.of (parse_str_2 ((consume_spaces ctx).truncate e))
          else if (consume_spaces ctx).peek = 123 then
            parse_obj (parse_any fuel) fuel ((consume_spaces ctx).truncate e)
          else if (consume_spaces ctx).peek = 91 then
            parse_arr (parse_any fuel) fuel ((consume_spaces ctx).truncate e)
          else if is_digit (consume_spaces ctx).peek then
            parse_res.of (parse_num ((consume_spaces ctx).truncate e))
          else parse_res.of (parse_oth ((consume_spaces ctx).truncate e))) := by
      intro hce
      rw [parse_any]
      simp only []
      rw [htc (Nat.le_of_lt hce), if_neg (truncate_not_end e _ hce),
        truncate_peek e _ hce, truncate_config]
    obtain ⟨c1, hc1⟩ : ∃ c1, consume_spaces ctx = c1 := ⟨_, rfl⟩
    rw [hc1] at h hs1 hb
    have he1 : e ≤ c1.len := by rw [hs1.len]; exact he
    have hstep : ∀ {r : parse_res}, r.good c1 → r = .val v c →
        Step ctx c ∧ ctx.cur < c.cur ∧ c1.cur < c.cur := by
      intro r hg hr
      have := good_val hg hr
      exact ⟨hs1.trans this.1, by have := hs1.cur_ge; omega, this.2⟩
    split at h
    · cases h
    · next hne1 =>
      have hlt1 : c1.cur < c1.len := Nat.lt_of_le_of_ne hs1.cur_le hne1
      split at h
      · next hq =>
        obtain ⟨hs, hlt, hlt'⟩ := hstep (parse_str_2_good c1 hlt1) h
        refine ⟨hs, hlt, ?_⟩
        intro hce
        rw [hb (by omega), if_pos hq]
        exact truncate_parse_str_2 e c1 he1 v c h hce
      · next hq =>
        split at h
        · next h123 =>
          obtain ⟨hs, hlt, ht⟩ := parse_obj_truncate e _ ih fuel c1 v c hlt1 he1 h
          refine ⟨hs1.trans hs, by have := hs1.cur_ge; omega, ?_⟩
          intro hce
          rw [hb (by omega), if_neg hq, if_pos h123]
          exact ht hce
        · next h123 =>
          split at h
          · next h91 =>
            obtain ⟨hs, hlt, ht⟩ := parse_arr_truncate e _ ih fuel c1 v c hlt1 he1 h
            refine ⟨hs1.trans hs, by have := hs1.cur_ge; omega, ?_⟩
            intro hce
            rw [hb (by omega), if_neg hq, if_neg h123, if_pos h91]
            exact ht hce
          · next h91 =>
            split at h
            · next hd =>
              obtain ⟨hs, hlt, hlt'⟩ := hstep (parse_num_good c1 hlt1 hd) h
              refine ⟨hs, hlt, ?_⟩
              intro hce
              rw [hb (by omega), if_neg hq, if_neg h123, if_neg h91, if_pos hd]
              exact truncate_parse_num e c1 he1 hlt1 hd v c h hce
            · next hd =>
              obtain ⟨hs, hlt, hlt'⟩ := hstep (parse_oth_good c1 hlt1) h
              refine ⟨hs, hlt, ?_⟩
              intro hce
              rw [hb (by omega), if_neg hq, if_neg h123, if_neg h91, if_neg hd]
              exact truncate_parse_oth e c1 he1 v c h hce
/-! ## C25: the result depends on the consumed prefix only -/

/-- C25: when `ejson_parse2` returns a value for a source and reports `e` bytes consumed,
then `1 ≤ e ≤ len`, and on the first `e` bytes of the source alone, with the same error
object, arena and configuration, it returns the same value, reports `e` again and leaves the
same error text and arena.  The text after position `e` is not checked: `[1, 2.5]], @`
gives the Array of `[1, 2.5]` with 8 bytes consumed. -/
theorem consumed_part (src : List Nat) (error : Option (List Nat)) (arena : ejson_arena)
    (config : ejson_config) (out : parse_out) (T : ejson_value) (e : Nat)
    (h : ejson_parse2 src error arena config = some out) (hT : out.root = some T)
    (he : out.end_ = some e) :
    1 ≤ e ∧ e ≤ src.length ∧
    ejson_parse2 (src.take e) error arena config = some out ∧
    ejson_parse2 (bytes "[1, 2.5]], @") (some []) ⟨1024, 0⟩ EJSON_DEFAULT_CONFIGS =
      some { root := some (.array [] [.number [] 1 (.fin false 4503599627370496 (-52)),
               .number [] 2 (.fin false 5629499534213120 (-51))] 2),
             end_ := some 8, error := some [], arena := ⟨1024, 168⟩ } := by
  refine ⟨?_, ?_, ?_, by set_option maxRecDepth 100000 in rfl⟩ <;>
  · unfold ejson_parse2 at h
    simp only [] at h
    cases hp : parse_any (src.length + 1) ⟨error, arena, src, 0, src.length, config⟩ with
    | starved => rw [hp] at h; cases h
    | null c =>
      rw [hp] at h
      simp only [Option.some.injEq] at h
      subst h
      cases hT
    | val v c =>
      rw [hp] at h
      simp only [Option.some.injEq] at h
      subst h
      simp only [Option.some.injEq] at hT he
      subst hT he
      have hle : c.cur ≤ src.length := by
        have := (parse_any_truncate 0 (src.length + 1) _ v c (Nat.zero_le _)
          (Nat.zero_le _) hp).1
        have h1 := this.cur_le
        rw [this.len] at h1
        exact h1
      obtain ⟨hs, hlt, ht⟩ := parse_any_truncate c.cur (src.length + 1)
        ⟨error, arena, src, 0, src.length, config⟩ v c (Nat.zero_le _) hle hp
      first
      | exact hlt
      | exact hle
      | have hlen : (src.take c.cur).length = c.cur := by
          rw [List.length_take]
          exact Nat.min_eq_left hle
        have hfuel := parse_any_fuel (c.cur + 1) (src.length + 1)
          ((⟨error, arena, src, 0, src.length, config⟩ : context_t).truncate c.cur)
          (Nat.zero_le _) (by
            show c.cur - 0 < c.cur + 1
            omega) (by omega)
        unfold ejson_parse2
        simp only [hlen]
        have hctx : (⟨error, arena, src.take c.cur, 0, c.cur, config⟩ : context_t) =
            (⟨error, arena, src, 0, src.length, config⟩ : context_t).truncate c.cur := rfl
        rw [hctx, ← hfuel, ht (Nat.le_refl _)]
        rfl

/-- C25 at the source `12.x`: 3 bytes are consumed, and the source `12.` gives the same
result. -/
theorem consumed_part_witness :
    1 ≤ 3 ∧ 3 ≤ (bytes "12.x").length ∧
    ejson_parse2 ((bytes "12.x").take 3) (some []) ⟨1024, 0⟩ EJSON_DEFAULT_CONFIGS =
      some { root := some (.number [] 12 (.fin false 6755399441055744 (-49))),
             end_ := some 3, error := some [], arena := ⟨1024, 56⟩ } ∧
    ejson_parse2 (bytes "[1, 2.5]], @") (some []) ⟨1024, 0⟩ EJSON_DEFAULT_CONFIGS =
      some { root := some (.array [] [.number [] 1 (.fin false 4503599627370496 (-52)),
               .number [] 2 (.fin false 5629499534213120 (-51))] 2),
             end_ := some 8, error := some [], arena := ⟨1024, 168⟩ } :=
  consumed_part (bytes "12.x") (some []) ⟨1024, 0⟩ EJSON_DEFAULT_CONFIGS
    ⟨some (.number [] 12 (.fin false 6755399441055744 (-49))), some 3, some [],
      ⟨1024, 56⟩⟩ _ 3 (by set_option maxRecDepth 100000 in rfl) rfl rfl

end Ejson
